import Mathlib

/-! # AVL dictionary (`src/AVL tree/dictionary.hpp`)

Shallow embedding of the class template `Dictionary<Key,Info>` and of its
nested `Iterator`.

Representation.  Every node is owned by exactly one child link, so the
pointer graph below a `Node*` is a finite binary tree.  A `Node*` is
embedded as a value of the inductive type `Node`: `Node.nil` is `nullptr`,
`Node.node l k i b h r` is a pointer to a node with fields `left = l`,
`key = k`, `info = i`, `bfactor = b`, `height = h`, `right = r`.  The cached
fields `bfactor` and `height` are stored exactly as the code stores them; they
are never recomputed behind the code's back.

The `parent` link of a node is embedded as the chain of `Frame`s above it: a
frame records the parent's own fields and the parent's other child, and which
of the two child links designates the node.  An `Iterator` (`curr`,
`dictionary`) is embedded as the node `curr` together with that chain and the
identity of its dictionary; following `parent` is popping one frame.

Failing paths (a C++ exception, a null dereference, a loop that does not come
back within the given number of iterations) are explicit results of type
`Res`.
-/

namespace AVL

/-- Ways in which a call can fail to return normally. -/
inductive Fault where
  /-- A `std::logic_error` thrown by `isValidToMove` or `isValidToAcces`. -/
  | logicError
  /-- A `std::invalid_argument` thrown by `deleteNode(Iterator)`. -/
  | invalidArgument
  /-- A dereference of `nullptr` (undefined behaviour in the source). -/
  | nullPointer
  /-- The root node was freed while `size` stays non-zero, so `root` dangles. -/
  | danglingRoot
  /-- The cursor handed in does not designate a node of this tree as it is now. -/
  | staleCursor
  /-- A `parent` field read by the code does not designate the node whose child
  link leads to the node: the links are not those of a tree. -/
  | brokenLink
  /-- The loop did not finish within the number of iterations granted. -/
  | noFuel
  deriving DecidableEq, Repr

/-- Result of a call: a value, or the way it failed. -/
inductive Res (α : Type) where
  | ok (val : α)
  | fail (f : Fault)
  deriving DecidableEq, Repr

/-- A `Node*`: `nil` is `nullptr`, `node` carries the fields of `struct Node`
(the `parent` field is carried by the `Frame`s of a cursor). -/
inductive Node (K V : Type) where
  | nil
  | node (left : Node K V) (key : K) (info : V) (bfactor : Int) (height : Int)
      (right : Node K V)
  deriving DecidableEq, Repr

/-- One `parent` link seen from the child: the parent's fields and its other
child.  `inLeft` says the child is the parent's `left`, `inRight` that it is
the parent's `right`. -/
inductive Frame (K V : Type) where
  | inLeft (key : K) (info : V) (bfactor : Int) (height : Int) (right : Node K V)
  | inRight (left : Node K V) (key : K) (info : V) (bfactor : Int) (height : Int)
  deriving DecidableEq, Repr

/-- The nested class `Iterator`: `curr`, the chain of parents of `curr`
(nearest first), and the dictionary the iterator belongs to (`none` for a
default-constructed iterator). -/
structure Iterator (K V : Type) where
  curr : Node K V
  up : List (Frame K V)
  dictionary : Option Nat
  deriving DecidableEq, Repr

/-- The class `Dictionary`: `root`, `size`, and the identity of the object
(what `this` is compared with). -/
structure Dictionary (K V : Type) where
  root : Node K V
  size : Int
  self : Nat
  deriving DecidableEq, Repr

variable {K V : Type}

/-- The parent node of a child `c` whose parent link is `f`. -/
def Frame.plug : Frame K V → Node K V → Node K V
  | .inLeft k i b h r, c => .node c k i b h r
  | .inRight l k i b h, c => .node l k i b h c

/-- The whole tree around a node: follow the parent links up to the top. -/
def rebuild : Node K V → List (Frame K V) → Node K V
  | c, [] => c
  | c, f :: up => rebuild (f.plug c) up

/-- `Node(Key k, Info i, Node* p)`: a fresh node, no children, `bfactor` 0,
`height` 1. -/
def Node.leaf (k : K) (i : V) : Node K V := .node .nil k i 0 1 .nil

/-- `p != nullptr`. -/
def Node.isNode : Node K V → Bool
  | .nil => false
  | .node _ _ _ _ _ _ => true

/-- `p->left` (only read on a node). -/
def Node.getLeft : Node K V → Node K V
  | .nil => .nil
  | .node l _ _ _ _ _ => l

/-- `p->right` (only read on a node). -/
def Node.getRight : Node K V → Node K V
  | .nil => .nil
  | .node _ _ _ _ _ r => r

/-- `p->bfactor` (only read on a node). -/
def Node.bf : Node K V → Int
  | .nil => 0
  | .node _ _ _ b _ _ => b

/-- `p != nullptr ? p->height : 0`, the way `updateNode` reads a child. -/
def Node.cachedHeight : Node K V → Int
  | .nil => 0
  | .node _ _ _ _ h _ => h

/-- `Dictionary::updateNode`: recompute `height` and `bfactor` of one node from
the cached heights of its children.  Never called on `nullptr`. -/
def updateNode : Node K V → Node K V
  | .nil => .nil
  | .node l k i _ _ r =>
    let left := l.cachedHeight
    let right := r.cachedHeight
    .node l k i (right - left) (max left right + 1) r

/-- `Dictionary::rotateRight` at `n1`: `n2 = n1->left` takes the place of `n1`
(the parent's child link and `root` follow, as the result is put back in the
place of `n1`), `n1` becomes the right child of `n2` and takes the former right
child of `n2`; then `updateNode(n1)`, `updateNode(n2)`.  Reading `n2->right`
with `n2 == nullptr` is a null dereference. -/
def rotateRight : Node K V → Res (Node K V)
  | .node (.node n3 k2 i2 b2 h2 temp) k1 i1 b1 h1 r =>
    let n1 := updateNode (.node temp k1 i1 b1 h1 r)
    .ok (updateNode (.node n3 k2 i2 b2 h2 n1))
  | _ => .fail .nullPointer

/-- `Dictionary::rotateLeft` at `n1`, the mirror image of `rotateRight`. -/
def rotateLeft : Node K V → Res (Node K V)
  | .node l k1 i1 b1 h1 (.node temp k2 i2 b2 h2 n3) =>
    let n1 := updateNode (.node l k1 i1 b1 h1 temp)
    .ok (updateNode (.node n1 k2 i2 b2 h2 n3))
  | _ => .fail .nullPointer

/-- `Dictionary::rotateRightLeft`: `rotateRight(it.getRight()); rotateLeft(it)`.
`getRight` throws when there is no right child. -/
def rotateRightLeft : Node K V → Res (Node K V)
  | .node l k i b h r =>
    match r with
    | .nil => .fail .logicError
    | .node _ _ _ _ _ _ =>
      match rotateRight r with
      | .fail f => .fail f
      | .ok r2 => rotateLeft (.node l k i b h r2)
  | .nil => .fail .logicError

/-- `Dictionary::rotateLeftRight`: `rotateLeft(it.getLeft()); rotateRight(it)`.
`getLeft` throws when there is no left child. -/
def rotateLeftRight : Node K V → Res (Node K V)
  | .node l k i b h r =>
    match l with
    | .nil => .fail .logicError
    | .node _ _ _ _ _ _ =>
      match rotateLeft l with
      | .fail f => .fail f
      | .ok l2 => rotateRight (.node l2 k i b h r)
  | .nil => .fail .logicError

/-- `Dictionary::updateNodesAndRotate(it)`, one loop iteration per unit of
fuel; `curr` and `up` are the iterator, the result is the tree as it stands
when the loop leaves (the new `root`).

After a rotation the iterator still designates `n1`, which now has the
promoted node as parent, so `isParentPossible()` holds and the next iteration
runs on the promoted node, at the same place of the tree. -/
def updateNodesAndRotate : Nat → Node K V → List (Frame K V) → Res (Node K V)
  | 0, _, _ => .fail .noFuel
  | _ + 1, .nil, _ => .fail .nullPointer
  | fuel + 1, .node l k i b h r, up =>
    let c := updateNode (.node l k i b h r)
    if c.bf = -2 then
      match l with
      | .nil => .fail .nullPointer
      | .node _ _ _ lb _ _ =>
        match (if lb = -1 then rotateRight c else rotateLeftRight c) with
        | .fail f => .fail f
        | .ok n2 => updateNodesAndRotate fuel n2 up
    else if c.bf = 2 then
      match r with
      | .nil => .fail .nullPointer
      | .node _ _ _ rb _ _ =>
        match (if rb = 1 then rotateLeft c else rotateRightLeft c) with
        | .fail f => .fail f
        | .ok n2 => updateNodesAndRotate fuel n2 up
    else
      match up with
      | [] => .ok c
      | f :: rest => updateNodesAndRotate fuel (f.plug c) rest

/-- The `Iterator(Node*, const Dictionary*)` constructor applied to a child
link: the move `curr = curr->left` of `goLeft` (made after `isLeftPossible`). -/
def Iterator.toLeft (it : Iterator K V) : Iterator K V :=
  match it.curr with
  | .nil => it
  | .node l k i b h r => { it with curr := l, up := .inLeft k i b h r :: it.up }

/-- The move `curr = curr->right` of `goRight` (made after `isRightPossible`). -/
def Iterator.toRight (it : Iterator K V) : Iterator K V :=
  match it.curr with
  | .nil => it
  | .node l k i b h r => { it with curr := r, up := .inRight l k i b h :: it.up }

/-- `Iterator::isLeftPossible`. -/
def Iterator.isLeftPossible (it : Iterator K V) : Bool := it.curr.getLeft.isNode

/-- `Iterator::isRightPossible`. -/
def Iterator.isRightPossible (it : Iterator K V) : Bool := it.curr.getRight.isNode

/-- `Iterator::isParentPossible`. -/
def Iterator.isParentPossible (it : Iterator K V) : Bool :=
  it.curr.isNode && !it.up.isEmpty

/-- `Iterator::isEmpty`: no dictionary bound. -/
def Iterator.isEmpty (it : Iterator K V) : Bool := it.dictionary.isNone

/-- `Iterator::isEnd`: `curr == nullptr`. -/
def Iterator.isEnd (it : Iterator K V) : Bool := !it.curr.isNode

/-- `Iterator::isLeaf`. -/
def Iterator.isLeaf (it : Iterator K V) : Bool :=
  it.curr.isNode && !it.curr.getRight.isNode && !it.curr.getLeft.isNode

/-- `Dictionary()`: the empty dictionary living at address `self`. -/
def Dictionary.empty (self : Nat) : Dictionary K V := ⟨.nil, 0, self⟩

/-- `Dictionary::getSize`. -/
def Dictionary.getSize (d : Dictionary K V) : Int := d.size

/-- `Dictionary::getHeight`. -/
def Dictionary.getHeight (d : Dictionary K V) : Int := d.root.cachedHeight

/-- `Dictionary::top`. -/
def Dictionary.top (d : Dictionary K V) : Iterator K V := ⟨d.root, [], some d.self⟩

/-- `Dictionary::end`: `Iterator(nullptr, this)`. -/
def Dictionary.end (d : Dictionary K V) : Iterator K V := ⟨.nil, [], some d.self⟩

/-- The loop `while(it.isLeftPossible()) it.goLeft();` on `curr`, `up`. -/
def goLeftmost : Node K V → List (Frame K V) → Node K V × List (Frame K V)
  | .node (.node ll lk li lb lh lr) k i b h r, up =>
    goLeftmost (.node ll lk li lb lh lr) (.inLeft k i b h r :: up)
  | c, up => (c, up)

/-- The loop `while(it.isRightPossible()) it.goRight();` on `curr`, `up`. -/
def goRightmost : Node K V → List (Frame K V) → Node K V × List (Frame K V)
  | .node l k i b h (.node rl rk ri rb rh rr), up =>
    goRightmost (.node rl rk ri rb rh rr) (.inRight l k i b h :: up)
  | c, up => (c, up)

/-- `Dictionary::begin`. -/
def Dictionary.begin (d : Dictionary K V) : Iterator K V :=
  let p := goLeftmost d.root []
  ⟨p.1, p.2, some d.self⟩

/-- The key stored in the parent a frame stands for. -/
def Frame.key : Frame K V → K
  | .inLeft k _ _ _ _ => k
  | .inRight _ k _ _ _ => k

/-- Whether the frame says "left child of the parent". -/
def Frame.isLeft : Frame K V → Bool
  | .inLeft _ _ _ _ _ => true
  | .inRight _ _ _ _ _ => false

/-- `Iterator::operator==`: `curr == it.curr && dictionary == it.dictionary`.
Two pointers into one tree are equal when both are null or both designate the
node reached from the root by the same sequence of child links.  (A null
`curr` has no parents: every member of the embedding that sets `curr` to
`nullptr` leaves `up` empty.) -/
def Iterator.eq (a b : Iterator K V) : Bool :=
  (a.curr.isNode == b.curr.isNode) && (a.up.map Frame.isLeft == b.up.map Frame.isLeft)
    && (a.dictionary == b.dictionary)

/-- The dereference `Iterator::operator*`: the pair of the key and the info of
`curr`.  `isValidToAcces` throws on the end iterator and on an iterator without
dictionary. -/
def Iterator.deref (it : Iterator K V) : Res (K × V) :=
  match it.curr with
  | .nil => .fail .logicError
  | .node _ k i _ _ _ => if it.isEmpty then .fail .logicError else .ok (k, i)

section Ordered

variable [LinearOrder K]

/-- The `while(true)` loop of `operator++` taken when there is no right child:
go to the parent as long as there is one, stop at the first parent whose key is
greater than `k` (the key of the node the iterator started on); without a
parent left, `curr = nullptr`. -/
def climbGreater (k : K) : Node K V → List (Frame K V) → Node K V × List (Frame K V)
  | _, [] => (.nil, [])
  | c, f :: rest => if k < f.key then (f.plug c, rest) else climbGreater k (f.plug c) rest

/-- The prefix `Iterator::operator++`.  `isValidToMove(FORWARD)` throws on an
iterator without dictionary and on the end iterator. -/
def Iterator.increment (it : Iterator K V) : Res (Iterator K V) :=
  if it.isEmpty then .fail .logicError
  else
    match it.curr with
    | .nil => .fail .logicError
    | .node l k i b h r =>
      if it.isRightPossible then
        let p := goLeftmost r (.inRight l k i b h :: it.up)
        .ok ⟨p.1, p.2, it.dictionary⟩
      else
        let p := climbGreater k it.curr it.up
        .ok ⟨p.1, p.2, it.dictionary⟩

/-- The loop `for(auto x = test.begin(); x != test.end(); ++x)` of
`test_dictionary.cpp`, from the iterator `it` up to `stop`: the iterators the
body is entered with, in order.  One `++x` per unit of fuel. -/
def traverse (stop : Iterator K V) : Nat → Iterator K V → Res (List (Iterator K V))
  | 0, it => if it.eq stop then .ok [] else .fail .noFuel
  | fuel + 1, it =>
    if it.eq stop then .ok []
    else
      match it.increment with
      | .fail f => .fail f
      | .ok it2 =>
        match traverse stop fuel it2 with
        | .fail f => .fail f
        | .ok rest => .ok (it :: rest)

/-- The `while(it->first != k)` loop of `Dictionary::find` on `curr`, `up`;
`dict` is `this`.  `it->first` on `nullptr` throws. -/
def findLoop (dict : Nat) (k : K) : Node K V → List (Frame K V) → Res (Iterator K V)
  | .nil, _ => .fail .logicError
  | .node l key info b h r, up =>
    if key ≠ k then
      if key < k then
        match r with
        | .nil => .ok ⟨.nil, [], some dict⟩
        | .node rl rk ri rb rh rr =>
          findLoop dict k (.node rl rk ri rb rh rr) (.inRight l key info b h :: up)
      else if k < key then
        match l with
        | .nil => .ok ⟨.nil, [], some dict⟩
        | .node ll lk li lb lh lr =>
          findLoop dict k (.node ll lk li lb lh lr) (.inLeft key info b h r :: up)
      else .fail .noFuel
    else .ok ⟨.node l key info b h r, up, some dict⟩

/-- `Dictionary::find`. -/
def Dictionary.find (d : Dictionary K V) (k : K) : Res (Iterator K V) :=
  if d.size = 0 then .ok d.end
  else findLoop d.self k d.root []

/-- The `while(true)` loop of `Dictionary::addNode` on `curr`, `up`.  The result
is `none` when the key is met (`return false`), and the new tree otherwise;
`fuel` is handed to `updateNodesAndRotate`. -/
def addNodeLoop (fuel : Nat) (k : K) (i : V) :
    Node K V → List (Frame K V) → Res (Option (Node K V))
  | .nil, _ => .fail .logicError
  | .node l key info b h r, up =>
    if key < k then
      match r with
      | .node rl rk ri rb rh rr =>
        addNodeLoop fuel k i (.node rl rk ri rb rh rr) (.inRight l key info b h :: up)
      | .nil =>
        if !l.isNode then
          match updateNodesAndRotate fuel (.node l key info b h (Node.leaf k i)) up with
          | .fail f => .fail f
          | .ok t => .ok (some t)
        else .ok (some (rebuild (.node l key info 0 h (Node.leaf k i)) up))
    else if k < key then
      match l with
      | .node ll lk li lb lh lr =>
        addNodeLoop fuel k i (.node ll lk li lb lh lr) (.inLeft key info b h r :: up)
      | .nil =>
        if !r.isNode then
          match updateNodesAndRotate fuel (.node (Node.leaf k i) key info b h r) up with
          | .fail f => .fail f
          | .ok t => .ok (some t)
        else .ok (some (rebuild (.node (Node.leaf k i) key info 0 h r) up))
    else .ok none

/-- `Dictionary::addNode`; `fuel` bounds the iterations of the up-propagation. -/
def Dictionary.addNode (fuel : Nat) (d : Dictionary K V) (k : K) (i : V) :
    Res (Bool × Dictionary K V) :=
  if d.size = 0 then
    .ok (true, { d with root := Node.leaf k i, size := d.size + 1 })
  else
    match addNodeLoop fuel k i d.root [] with
    | .fail f => .fail f
    | .ok none => .ok (false, d)
    | .ok (some t) => .ok (true, { d with root := t, size := d.size + 1 })

/-- The part of `Dictionary::deleteNode(Iterator)` before `--size`, on a node
`curr` with parents `up`: the tree after unlinking and up-propagation.

* leaf that is not the root: the parent's link is cleared and propagation
  starts at the parent; a leaf that is the root is freed, and `root` is only
  reset when `size` reaches 0 (`size` is the value before `--size`);
* two children: `toSwap` is the rightmost node of the left subtree, its key and
  info are copied into `curr`, its left child takes its place, propagation
  starts at the parent of `toSwap`;
* one child: the child's key and info are copied into `curr`, the link to the
  child is cleared, propagation starts at `curr`. -/
def deleteNodeCases (fuel : Nat) (size : Int) :
    Node K V → List (Frame K V) → Res (Node K V)
  | .nil, _ => .fail .invalidArgument
  | .node .nil _ _ _ _ .nil, f :: rest => updateNodesAndRotate fuel (f.plug .nil) rest
  | .node .nil _ _ _ _ .nil, [] => if size - 1 = 0 then .ok .nil else .fail .danglingRoot
  | .node (.node ll lk li lb lh lr) _ _ b h (.node rl rk ri rb rh rr), up =>
    match goRightmost (.node ll lk li lb lh lr) [] with
    | (.node sl sk si _ _ _, []) =>
      updateNodesAndRotate fuel (.node sl sk si b h (.node rl rk ri rb rh rr)) up
    | (.node sl sk si _ _ _, f :: path) =>
      updateNodesAndRotate fuel (f.plug sl)
        (path ++ .inLeft sk si b h (.node rl rk ri rb rh rr) :: up)
    | (.nil, _) => .fail .nullPointer
  | .node .nil _ _ b h (.node _ rk ri _ _ _), up =>
    updateNodesAndRotate fuel (.node .nil rk ri b h .nil) up
  | .node (.node _ lk li _ _ _) _ _ b h .nil, up =>
    updateNodesAndRotate fuel (.node .nil lk li b h .nil) up

/-- `Dictionary::deleteNode(Iterator)`.  An iterator of another dictionary and
the end iterator are refused with `std::invalid_argument`.  A cursor whose
node and parents are not those of this tree (a cursor kept across a mutation)
is outside the embedding. -/
def Dictionary.deleteNodeAt [DecidableEq V] (fuel : Nat) (d : Dictionary K V)
    (it : Iterator K V) : Res (Bool × Dictionary K V) :=
  if it.dictionary ≠ some d.self then .fail .invalidArgument
  else if it.isEnd then .fail .invalidArgument
  else if rebuild it.curr it.up ≠ d.root then .fail .staleCursor
  else
    match deleteNodeCases fuel d.size it.curr it.up with
    | .fail f => .fail f
    | .ok t =>
      .ok (true, { d with root := if d.size - 1 = 0 then .nil else t, size := d.size - 1 })

/-- `Dictionary::deleteNode(Key)`. -/
def Dictionary.deleteNode [DecidableEq V] (fuel : Nat) (d : Dictionary K V) (k : K) :
    Res (Bool × Dictionary K V) :=
  match d.find k with
  | .fail f => .fail f
  | .ok it => if it.eq d.end then .ok (false, d) else d.deleteNodeAt fuel it

end Ordered

/-- Number of nodes below (and including) a node. -/
def Node.count : Node K V → Nat
  | .nil => 0
  | .node l _ _ _ _ r => l.count + 1 + r.count

/-- The `while(queue.size() > 0)` loop of `Dictionary::createStack`: `queue`
front first, `stack` top first. -/
def createStackLoop : Nat → List (Iterator K V) → List (Iterator K V) → List (Iterator K V)
  | 0, _, stack => stack
  | _ + 1, [], stack => stack
  | fuel + 1, it :: queue, stack =>
    let q1 := if it.isLeftPossible then queue ++ [it.toLeft] else queue
    let q2 := if it.isRightPossible then q1 ++ [it.toRight] else q1
    createStackLoop fuel q2 (it :: stack)

/-- `Dictionary::createStack`.  The loop pops one iterator per iteration and
every node is pushed once, so one iteration per node (and one for a null root)
is all it runs. -/
def Dictionary.createStack (d : Dictionary K V) : List (Iterator K V) :=
  if d.size > 0 then createStackLoop (d.root.count + 1) [d.top] [] else []

/-- The `while(stack.size() > 0)` loop of `Dictionary::isAVL`.  `updateNode(it)`
writes into the tree before the comparison, so the dictionary is part of the
result. -/
def isAVLLoop (d : Dictionary K V) : List (Iterator K V) → Bool × Dictionary K V
  | [] => (true, d)
  | it :: stack =>
    let bfactor := it.curr.bf
    let height := it.curr.cachedHeight
    let c := updateNode it.curr
    let d2 := { d with root := rebuild c it.up }
    if c.bf ≠ bfactor ∨ c.cachedHeight ≠ height then (false, d2)
    else if c.bf < -1 ∨ c.bf > 1 then (false, d2)
    else isAVLLoop d2 stack

/-- `Dictionary::isAVL`: the answer and the dictionary after the call. -/
def Dictionary.isAVL (d : Dictionary K V) : Bool × Dictionary K V :=
  if !d.root.isNode then (true, d) else isAVLLoop d d.createStack

/-! ## Iterator members as calls: what they return, and `*this` afterwards -/

/-- The `enum class Move` of `Iterator`. -/
inductive Move where
  | LEFT
  | RIGHT
  | PARENT
  | FORWARD
  | BACKWARD
  deriving DecidableEq, Repr

/-- The check `Iterator::isValidToAcces`: throws on the end iterator, then on an
iterator without dictionary. -/
def Iterator.isValidToAcces (it : Iterator K V) : Res Unit :=
  if it.isEnd then .fail .logicError
  else if it.isEmpty then .fail .logicError
  else .ok ()

/-- The check `Iterator::isValidToMove`.  `d` is the dictionary the field
`dictionary` points to; it is read by the `BACKWARD` check only
(`*this == this->dictionary->begin()`), after the test for an iterator without
dictionary. -/
def Iterator.isValidToMove (it : Iterator K V) (d : Dictionary K V) (direction : Move) :
    Res Unit :=
  if it.isEmpty then .fail .logicError
  else
    match direction with
    | .RIGHT => if !it.isRightPossible then .fail .logicError else .ok ()
    | .LEFT => if !it.isLeftPossible then .fail .logicError else .ok ()
    | .PARENT => if !it.isParentPossible then .fail .logicError else .ok ()
    | .FORWARD => if it.isEnd then .fail .logicError else .ok ()
    | .BACKWARD => if it.eq d.begin then .fail .logicError else .ok ()

/-- The move `curr = curr->parent` of `goParent` (made after
`isParentPossible`). -/
def Iterator.toParent (it : Iterator K V) : Iterator K V :=
  match it.up with
  | [] => it
  | f :: rest => { it with curr := f.plug it.curr, up := rest }

/-- The member `Iterator::goRight`: the iterator it returns (a reference to
`*this`) or what it throws, and `*this` after the call. -/
def Iterator.goRight (it : Iterator K V) (d : Dictionary K V) :
    Res (Iterator K V) × Iterator K V :=
  match it.isValidToMove d .RIGHT with
  | .fail f => (.fail f, it)
  | .ok _ => (.ok it.toRight, it.toRight)

/-- The member `Iterator::goLeft`: result and `*this` after the call. -/
def Iterator.goLeft (it : Iterator K V) (d : Dictionary K V) :
    Res (Iterator K V) × Iterator K V :=
  match it.isValidToMove d .LEFT with
  | .fail f => (.fail f, it)
  | .ok _ => (.ok it.toLeft, it.toLeft)

/-- The member `Iterator::goParent`: result and `*this` after the call. -/
def Iterator.goParent (it : Iterator K V) (d : Dictionary K V) :
    Res (Iterator K V) × Iterator K V :=
  match it.isValidToMove d .PARENT with
  | .fail f => (.fail f, it)
  | .ok _ => (.ok it.toParent, it.toParent)

/-- The `const` member `Iterator::getRight`: `isValidToMove(RIGHT)`, then
`goRight()` on a copy, which is returned; `*this` is not written. -/
def Iterator.getRight (it : Iterator K V) (d : Dictionary K V) :
    Res (Iterator K V) × Iterator K V :=
  match it.isValidToMove d .RIGHT with
  | .fail f => (.fail f, it)
  | .ok _ => ((it.goRight d).1, it)

/-- The `const` member `Iterator::getLeft`. -/
def Iterator.getLeft (it : Iterator K V) (d : Dictionary K V) :
    Res (Iterator K V) × Iterator K V :=
  match it.isValidToMove d .LEFT with
  | .fail f => (.fail f, it)
  | .ok _ => ((it.goLeft d).1, it)

/-- The `const` member `Iterator::getParent`. -/
def Iterator.getParent (it : Iterator K V) (d : Dictionary K V) :
    Res (Iterator K V) × Iterator K V :=
  match it.isValidToMove d .PARENT with
  | .fail f => (.fail f, it)
  | .ok _ => ((it.goParent d).1, it)

section OrderedCalls

variable [LinearOrder K]

/-- The prefix `operator++` as a call: the iterator it returns (a reference to
`*this`) or what it throws, and `*this` after the call.  The only `throw` is in
`isValidToMove(FORWARD)`, before anything is written. -/
def Iterator.preIncrement (it : Iterator K V) (d : Dictionary K V) :
    Res (Iterator K V) × Iterator K V :=
  match it.isValidToMove d .FORWARD with
  | .fail f => (.fail f, it)
  | .ok _ =>
    match it.curr with
    | .nil => (.fail .nullPointer, it)
    | .node l k i b h r =>
      if it.isRightPossible then
        let p := goLeftmost r (.inRight l k i b h :: it.up)
        (.ok ⟨p.1, p.2, it.dictionary⟩, ⟨p.1, p.2, it.dictionary⟩)
      else
        let p := climbGreater k it.curr it.up
        (.ok ⟨p.1, p.2, it.dictionary⟩, ⟨p.1, p.2, it.dictionary⟩)

/-- The postfix `operator++(int)`: `temp = *this; ++(*this); return temp;`. -/
def Iterator.postIncrement (it : Iterator K V) (d : Dictionary K V) :
    Res (Iterator K V) × Iterator K V :=
  match it.preIncrement d with
  | (.fail f, s) => (.fail f, s)
  | (.ok _, s) => (.ok it, s)

/-- The `while(true)` loop of `operator--` taken when there is no left child:
`it.goParent()`, which throws when there is no parent, until the key of `it` is
smaller than `k` (the key of the node the iterator started on). -/
def climbSmaller (k : K) : Node K V → List (Frame K V) → Res (Node K V × List (Frame K V))
  | _, [] => .fail .logicError
  | c, f :: rest =>
    if f.key < k then .ok (f.plug c, rest) else climbSmaller k (f.plug c) rest

/-- The prefix `operator--` as a call: result and `*this` after the call.  `d`
is the dictionary the iterator belongs to (`this->dictionary`): the end
iterator goes to the rightmost node from `top()`; a node with a left child to
the rightmost node of its left subtree; any other node upwards.  `*this` is
assigned only once the target is found. -/
def Iterator.preDecrement (it : Iterator K V) (d : Dictionary K V) :
    Res (Iterator K V) × Iterator K V :=
  match it.isValidToMove d .BACKWARD with
  | .fail f => (.fail f, it)
  | .ok _ =>
    if it.eq d.end then
      let p := goRightmost d.top.curr d.top.up
      (.ok ⟨p.1, p.2, d.top.dictionary⟩, ⟨p.1, p.2, d.top.dictionary⟩)
    else
      match it.curr with
      | .nil => (.fail .nullPointer, it)
      | .node l k i b h r =>
        if it.isLeftPossible then
          let p := goRightmost l (.inLeft k i b h r :: it.up)
          (.ok ⟨p.1, p.2, it.dictionary⟩, ⟨p.1, p.2, it.dictionary⟩)
        else
          match climbSmaller k it.curr it.up with
          | .fail f => (.fail f, it)
          | .ok p => (.ok ⟨p.1, p.2, it.dictionary⟩, ⟨p.1, p.2, it.dictionary⟩)

/-- The postfix `operator--(int)`: `temp = *this; --(*this); return temp;`. -/
def Iterator.postDecrement (it : Iterator K V) (d : Dictionary K V) :
    Res (Iterator K V) × Iterator K V :=
  match it.preDecrement d with
  | (.fail f, s) => (.fail f, s)
  | (.ok _, s) => (.ok it, s)

/-- The assignment `(*it).second = v` (or `it->second = v`) on an iterator of
the dictionary `d`: `operator*` checks the iterator and hands out a reference
to `curr->info`, the assignment writes `v` there.  The result is the dictionary
and the iterator after the write.  A cursor whose node and parents are not
those of this tree is outside the embedding. -/
def Dictionary.assignInfo [DecidableEq V] (d : Dictionary K V) (it : Iterator K V) (v : V) :
    Res (Dictionary K V × Iterator K V) :=
  match it.deref with
  | .fail f => .fail f
  | .ok _ =>
    match it.curr with
    | .nil => .fail .nullPointer
    | .node l k _ b h r =>
      if rebuild it.curr it.up ≠ d.root then .fail .staleCursor
      else .ok ({ d with root := rebuild (.node l k v b h r) it.up },
        { it with curr := .node l k v b h r })

/-- The part of `Dictionary::deleteNode(Iterator)` before `--size`, as
`deleteNodeCases`, with the two assignments `it.curr->info = ...->info` written
as `copy source destination`, where `destination` is the info the node held.
In the code the assignment forgets the former info: `copy s _ = s`.  With an
info that carries, beside the value, the address of the node that holds it, a
`copy` that takes the value of the source and keeps the address of the
destination tells which node a pair sits in after the call. -/
def deleteNodeCasesWith (copy : V → V → V) (fuel : Nat) (size : Int) :
    Node K V → List (Frame K V) → Res (Node K V)
  | .nil, _ => .fail .invalidArgument
  | .node .nil _ _ _ _ .nil, f :: rest => updateNodesAndRotate fuel (f.plug .nil) rest
  | .node .nil _ _ _ _ .nil, [] => if size - 1 = 0 then .ok .nil else .fail .danglingRoot
  | .node (.node ll lk li lb lh lr) _ i b h (.node rl rk ri rb rh rr), up =>
    match goRightmost (.node ll lk li lb lh lr) [] with
    | (.node sl sk si _ _ _, []) =>
      updateNodesAndRotate fuel (.node sl sk (copy si i) b h (.node rl rk ri rb rh rr)) up
    | (.node sl sk si _ _ _, f :: path) =>
      updateNodesAndRotate fuel (f.plug sl)
        (path ++ .inLeft sk (copy si i) b h (.node rl rk ri rb rh rr) :: up)
    | (.nil, _) => .fail .nullPointer
  | .node .nil _ i b h (.node _ rk ri _ _ _), up =>
    updateNodesAndRotate fuel (.node .nil rk (copy ri i) b h .nil) up
  | .node (.node _ lk li _ _ _) _ i b h .nil, up =>
    updateNodesAndRotate fuel (.node .nil lk (copy li i) b h .nil) up

end OrderedCalls

/-! ## Specification vocabulary -/

/-- The key/info pairs of a tree, left subtree first (in-order). -/
def Node.toList : Node K V → List (K × V)
  | .nil => []
  | .node l k i _ _ r => l.toList ++ (k, i) :: r.toList

/-- The keys of a tree, in-order. -/
def Node.keys (t : Node K V) : List K := t.toList.map Prod.fst

/-- Binary-search-tree order: at every node, the keys of the left subtree are
smaller than the node's key and those of the right subtree are greater. -/
def Node.BST [LinearOrder K] : Node K V → Prop
  | .nil => True
  | .node l k _ _ _ r =>
    l.BST ∧ r.BST ∧ (∀ x ∈ l.keys, x < k) ∧ (∀ x ∈ r.keys, k < x)

/-- The height of a tree computed from its shape (`nullptr` has height 0). -/
def Node.trueHeight : Node K V → Int
  | .nil => 0
  | .node l _ _ _ _ r => max l.trueHeight r.trueHeight + 1

/-- Every cached `height` and `bfactor` equals the value computed from the
shape: `height = 1 + max(height(left), height(right))`,
`bfactor = height(right) - height(left)`. -/
def Node.Cached : Node K V → Prop
  | .nil => True
  | .node l _ _ b h r =>
    l.Cached ∧ r.Cached ∧ h = max l.trueHeight r.trueHeight + 1 ∧
      b = r.trueHeight - l.trueHeight

/-- Every cached `bfactor` is -1, 0 or 1. -/
def Node.Balanced : Node K V → Prop
  | .nil => True
  | .node l _ _ b _ r => l.Balanced ∧ r.Balanced ∧ -1 ≤ b ∧ b ≤ 1

/-- A well-formed dictionary: search-tree order, cached heights and balance
factors equal to the recomputed ones, every balance factor in {-1, 0, 1}, and
`size` equal to the number of nodes.  (Parent links are the position of a node
in the tree, so they are consistent in every value of the embedding.) -/
structure Dictionary.WellFormed [LinearOrder K] (d : Dictionary K V) : Prop where
  bst : d.root.BST
  cached : d.root.Cached
  balanced : d.root.Balanced
  size_eq : d.size = d.root.count

/-- Decision procedure for `Node.BST`. -/
instance Node.decBST [LinearOrder K] : (t : Node K V) → Decidable t.BST
  | .nil => isTrue trivial
  | .node l k _ _ _ r =>
    have := Node.decBST l
    have := Node.decBST r
    inferInstanceAs (Decidable (l.BST ∧ r.BST ∧ (∀ x ∈ l.keys, x < k) ∧ (∀ x ∈ r.keys, k < x)))

/-- Decision procedure for `Node.Cached`. -/
instance Node.decCached : (t : Node K V) → Decidable t.Cached
  | .nil => isTrue trivial
  | .node l _ _ b h r =>
    have := Node.decCached l
    have := Node.decCached r
    inferInstanceAs (Decidable (l.Cached ∧ r.Cached ∧ h = max l.trueHeight r.trueHeight + 1 ∧
      b = r.trueHeight - l.trueHeight))

/-- Decision procedure for `Node.Balanced`. -/
instance Node.decBalanced : (t : Node K V) → Decidable t.Balanced
  | .nil => isTrue trivial
  | .node l _ _ b _ r =>
    have := Node.decBalanced l
    have := Node.decBalanced r
    inferInstanceAs (Decidable (l.Balanced ∧ r.Balanced ∧ -1 ≤ b ∧ b ≤ 1))

/-- Decision procedure for `Dictionary.WellFormed`. -/
instance Dictionary.decWellFormed [LinearOrder K] (d : Dictionary K V) :
    Decidable d.WellFormed :=
  decidable_of_iff (d.root.BST ∧ d.root.Cached ∧ d.root.Balanced ∧ d.size = d.root.count)
    ⟨fun h => ⟨h.1, h.2.1, h.2.2.1, h.2.2.2⟩, fun h => ⟨h.bst, h.cached, h.balanced, h.size_eq⟩⟩

/-- One call of the public mutating interface. -/
inductive Op (K V : Type) where
  | add (k : K) (i : V)
  | del (k : K)
  deriving DecidableEq, Repr

/-- Run a sequence of `addNode` / `deleteNode(Key)` calls, first call first. -/
def runOps [LinearOrder K] [DecidableEq V] (fuel : Nat) :
    List (Op K V) → Dictionary K V → Res (Dictionary K V)
  | [], d => .ok d
  | .add k i :: ops, d =>
    match d.addNode fuel k i with
    | .fail f => .fail f
    | .ok p => runOps fuel ops p.2
  | .del k :: ops, d =>
    match d.deleteNode fuel k with
    | .fail f => .fail f
    | .ok p => runOps fuel ops p.2

/-- The pairs that come before the subtree of a cursor in the in-order
sequence of the whole tree. -/
def ctxBefore : List (Frame K V) → List (K × V)
  | [] => []
  | .inLeft _ _ _ _ _ :: up => ctxBefore up
  | .inRight l k i _ _ :: up => ctxBefore up ++ (l.toList ++ [(k, i)])

/-- The pairs that come after the subtree of a cursor in the in-order
sequence of the whole tree. -/
def ctxAfter : List (Frame K V) → List (K × V)
  | [] => []
  | .inLeft k i _ _ r :: up => (k, i) :: r.toList ++ ctxAfter up
  | .inRight _ _ _ _ _ :: up => ctxAfter up

/-- The sorted sequence `xs` with the pair `(k, i)` put at its place: the pairs
with a smaller key, then `(k, i)`, then the pairs with a greater key. -/
def insertPair [LinearOrder K] (k : K) (i : V) (xs : List (K × V)) : List (K × V) :=
  xs.filter (fun p => decide (p.1 < k)) ++ (k, i) :: xs.filter (fun p => decide (k < p.1))

/-- Every node's cached `height` and `bfactor` are what `updateNode` would
write (computed from the cached heights of the children), and every `bfactor`
is -1, 0 or 1. -/
def Node.Good : Node K V → Prop
  | .nil => True
  | .node l _ _ b h r =>
    l.Good ∧ r.Good ∧ h = max l.cachedHeight r.cachedHeight + 1 ∧
      b = r.cachedHeight - l.cachedHeight ∧ -1 ≤ b ∧ b ≤ 1

/-- The chain of parents of a cursor is that of a `Good` tree in which the
cursor's subtree has cached height `h0`. -/
def GoodCtx : List (Frame K V) → Int → Prop
  | [], _ => True
  | .inLeft _ _ b h r :: up, h0 =>
    r.Good ∧ h = max h0 r.cachedHeight + 1 ∧ b = r.cachedHeight - h0 ∧ -1 ≤ b ∧ b ≤ 1 ∧
      GoodCtx up h
  | .inRight l _ _ b h :: up, h0 =>
    l.Good ∧ h = max l.cachedHeight h0 + 1 ∧ b = h0 - l.cachedHeight ∧ -1 ≤ b ∧ b ≤ 1 ∧
      GoodCtx up h

/-- What one iteration of `updateNodesAndRotate` does once no rotation is due
at the current node `c` (already updated): stop at the root, else go on with
the parent. -/
def goUp (fuel : Nat) (c : Node K V) : List (Frame K V) → Res (Node K V)
  | [] => .ok c
  | f :: rest => updateNodesAndRotate fuel (f.plug c) rest

/-- The node the up-propagation stands on after an insertion below it: both
subtrees are `Good`; against the height `h0` the place had before, either the
height is unchanged and the node balanced, or the height grew by one and the
node leans by one, or it grew by one and the node leans by two towards a child
that itself leans by one. -/
def InsState (h0 : Int) : Node K V → Prop
  | .nil => False
  | .node l _ _ _ _ r =>
    l.Good ∧ r.Good ∧
      ((max l.cachedHeight r.cachedHeight + 1 = h0 ∧
          -1 ≤ r.cachedHeight - l.cachedHeight ∧ r.cachedHeight - l.cachedHeight ≤ 1) ∨
        (max l.cachedHeight r.cachedHeight + 1 = h0 + 1 ∧
          (r.cachedHeight - l.cachedHeight = -1 ∨ r.cachedHeight - l.cachedHeight = 1)) ∨
        (max l.cachedHeight r.cachedHeight + 1 = h0 + 1 ∧
          r.cachedHeight - l.cachedHeight = -2 ∧ (l.bf = -1 ∨ l.bf = 1)) ∨
        (max l.cachedHeight r.cachedHeight + 1 = h0 + 1 ∧
          r.cachedHeight - l.cachedHeight = 2 ∧ (r.bf = 1 ∨ r.bf = -1)))

/-- The node the up-propagation stands on after a removal below it: one
subtree is untouched and `Good`, the other one has lost at most one level
against the height the parent had accounted for. -/
def DelState (h0 : Int) : Node K V → Prop
  | .nil => False
  | .node l _ _ _ _ r =>
    (0 ≤ l.cachedHeight ∧ r.Good ∧ ∃ hl : Int,
        (l.cachedHeight = hl ∨ l.cachedHeight = hl - 1) ∧
          h0 = max hl r.cachedHeight + 1 ∧ -1 ≤ r.cachedHeight - hl ∧ r.cachedHeight - hl ≤ 1) ∨
    (l.Good ∧ 0 ≤ r.cachedHeight ∧ ∃ hr : Int,
        (r.cachedHeight = hr ∨ r.cachedHeight = hr - 1) ∧
          h0 = max l.cachedHeight hr + 1 ∧ -1 ≤ hr - l.cachedHeight ∧ hr - l.cachedHeight ≤ 1)

/-- A node whose own cached fields are up to date and in range, and whose
height is the former height `h0` of its place or one less. -/
def Settled (h0 : Int) : Node K V → Prop
  | .nil => False
  | .node l _ _ b h r =>
    h = max l.cachedHeight r.cachedHeight + 1 ∧ b = r.cachedHeight - l.cachedHeight ∧
      -1 ≤ b ∧ b ≤ 1 ∧ 0 ≤ h ∧ (h = h0 ∨ h = h0 - 1)

/-- The iterator designates a node of the tree `root`: `curr` is a node and
following its parent links leads to `root`. -/
def Iterator.On (it : Iterator K V) (root : Node K V) : Prop :=
  it.curr.isNode = true ∧ rebuild it.curr it.up = root

/-- The pairs an in-order walk still has to visit from an iterator on: the
pair of `curr`, then its right subtree, then what comes after the subtree of
`curr` in the whole tree. -/
def Iterator.remaining (it : Iterator K V) : List (K × V) :=
  match it.curr with
  | .nil => []
  | .node _ k i _ _ r => (k, i) :: (r.toList ++ ctxAfter it.up)

/-- Eight insertions that build, without any rotation, the tree

```
            6
        3       7
      2   4       8
     1     5
```
-/
def buildOps : List (Op Nat Nat) :=
  [.add 6 0, .add 3 0, .add 7 0, .add 2 0, .add 4 0, .add 8 0, .add 1 0, .add 5 0]

/-- The dictionary `buildOps` produces from the empty one. -/
def builtDict : Dictionary Nat Nat :=
  ⟨.node
      (.node (.node (.node .nil 1 0 0 1 .nil) 2 0 (-1) 2 .nil) 3 0 0 3
        (.node .nil 4 0 1 2 (.node .nil 5 0 0 1 .nil)))
      6 0 (-1) 4
      (.node .nil 7 0 1 2 (.node .nil 8 0 0 1 .nil)),
    8, 0⟩

/-- The dictionary after `deleteNode(8)` on `builtDict`: the node of key 3 has
a left subtree of height 2 and no right child, and a cached `bfactor` of -2. -/
def afterDelete8 : Dictionary Nat Nat :=
  ⟨.node
      (.node (.node (.node .nil 1 0 0 1 .nil) 2 0 (-1) 2 .nil) 3 0 (-2) 3 .nil)
      4 0 (-1) 4
      (.node (.node .nil 5 0 0 1 .nil) 6 0 0 2 (.node .nil 7 0 0 1 .nil)),
    7, 0⟩

/-- The dictionary after `deleteNode(3)` on `afterDelete8`: five nodes, `size`
6, and no node of key 1. -/
def afterDelete3 : Dictionary Nat Nat :=
  ⟨.node
      (.node .nil 2 0 0 1 .nil)
      4 0 1 3
      (.node (.node .nil 5 0 0 1 .nil) 6 0 0 2 (.node .nil 7 0 0 1 .nil)),
    6, 0⟩

/-- The dictionary after `deleteNode(5)` on `afterDelete8`: the node of key 3
still has a left subtree of height 2, no right child and a cached `bfactor` of
-2, and the node of key 6 has lost its left child. -/
def afterDelete5 : Dictionary Nat Nat :=
  ⟨.node
      (.node (.node (.node .nil 1 0 0 1 .nil) 2 0 (-1) 2 .nil) 3 0 (-2) 3 .nil)
      4 0 (-1) 4
      (.node .nil 6 0 1 2 (.node .nil 7 0 0 1 .nil)),
    6, 0⟩

/-- The pairs that come before the node of an iterator in the in-order
sequence of the whole tree. -/
def Iterator.before (it : Iterator K V) : List (K × V) :=
  match it.curr with
  | .nil => []
  | .node l _ _ _ _ _ => ctxBefore it.up ++ l.toList

/-- The pairs that come after the node of an iterator in the in-order sequence
of the whole tree. -/
def Iterator.after (it : Iterator K V) : List (K × V) :=
  match it.curr with
  | .nil => []
  | .node _ _ _ _ _ r => r.toList ++ ctxAfter it.up

/-- The pair of the rightmost node of a tree. -/
def Node.maxPair : Node K V → Option (K × V)
  | .nil => none
  | .node _ k i _ _ r =>
    match r with
    | .nil => some (k, i)
    | .node _ _ _ _ _ _ => r.maxPair

/-- The tree without its rightmost node: the left subtree of that node stands
in its place, every other node keeps its fields. -/
def Node.removeMax : Node K V → Node K V
  | .nil => .nil
  | .node l k i b h r =>
    match r with
    | .nil => l
    | .node _ _ _ _ _ _ => .node l k i b h r.removeMax

/-- The nodes of a tree, each with all that hangs below it. -/
def Node.subtrees : Node K V → List (Node K V)
  | .nil => []
  | .node l k i b h r => .node l k i b h r :: (l.subtrees ++ r.subtrees)

/-- The dictionary left by the insertions of `buildOps` and the removals of
8, 3, 1, 2, 5, 7, 6 in this order: one node, `size` 2. -/
def oneNodeSizeTwo : Dictionary Nat Nat := ⟨.node .nil 4 0 0 1 .nil, 2, 0⟩

/-- The cursor on the node of key 3 of `builtDict`, the left child of the root:
a node with two children. -/
def cursorAt3 : Iterator Nat Nat := builtDict.top.toLeft

/-- The cursor on the node of key 7 of `builtDict`, the right child of the
root: a node whose only child is its right child. -/
def cursorAt7 : Iterator Nat Nat := builtDict.top.toRight

/-- The state `DelState` with the side of the removal told: the subtree `x`
hangs below the child that lost a level, the other child is untouched. -/
def DelStateAt (x : Node K V) (h0 : Int) : Node K V → Prop
  | .nil => False
  | .node l _ _ _ _ r =>
    (x ∈ l.subtrees ∧ 0 ≤ l.cachedHeight ∧ r.Good ∧ ∃ hl : Int,
        (l.cachedHeight = hl ∨ l.cachedHeight = hl - 1) ∧
          h0 = max hl r.cachedHeight + 1 ∧ -1 ≤ r.cachedHeight - hl ∧ r.cachedHeight - hl ≤ 1) ∨
    (x ∈ r.subtrees ∧ l.Good ∧ 0 ≤ r.cachedHeight ∧ ∃ hr : Int,
        (r.cachedHeight = hr ∨ r.cachedHeight = hr - 1) ∧
          h0 = max l.cachedHeight hr + 1 ∧ -1 ≤ hr - l.cachedHeight ∧ hr - l.cachedHeight ≤ 1)

/-- An assignment of infos that carry the address of the node beside the
value: the value is the one of the source, the address stays the one of the
destination. -/
def keepAddress (source destination : Nat × Nat) : Nat × Nat := (source.1, destination.2)

/-- A dictionary whose infos are a value and the address of the node:

```
        2 (20, @100)
  1 (10, @101)    3 (30, @102)
                      4 (40, @103)
```
-/
def taggedDict : Dictionary Nat (Nat × Nat) :=
  ⟨.node (.node .nil 1 (10, 101) 0 1 .nil) 2 (20, 100) 1 3
      (.node .nil 3 (30, 102) 1 2 (.node .nil 4 (40, 103) 0 1 .nil)),
    4, 0⟩

/-! ## The rotations the up-propagation calls -/

/-- The four rotation members of `Dictionary`, as names. -/
inductive Rotation where
  | rotateRight
  | rotateLeft
  | rotateLeftRight
  | rotateRightLeft
  deriving DecidableEq, Repr

/-- `Dictionary::updateNodesAndRotate` once more, as `updateNodesAndRotate`,
with beside the tree the rotation members the loop called, first call first. -/
def updateNodesAndRotateLog :
    Nat → Node K V → List (Frame K V) → Res (Node K V × List Rotation)
  | 0, _, _ => .fail .noFuel
  | _ + 1, .nil, _ => .fail .nullPointer
  | fuel + 1, .node l k i b h r, up =>
    let c := updateNode (.node l k i b h r)
    if c.bf = -2 then
      match l with
      | .nil => .fail .nullPointer
      | .node _ _ _ lb _ _ =>
        match (if lb = -1 then rotateRight c else rotateLeftRight c) with
        | .fail f => .fail f
        | .ok n2 =>
          match updateNodesAndRotateLog fuel n2 up with
          | .fail f => .fail f
          | .ok p =>
            .ok (p.1, (if lb = -1 then Rotation.rotateRight else Rotation.rotateLeftRight) :: p.2)
    else if c.bf = 2 then
      match r with
      | .nil => .fail .nullPointer
      | .node _ _ _ rb _ _ =>
        match (if rb = 1 then rotateLeft c else rotateRightLeft c) with
        | .fail f => .fail f
        | .ok n2 =>
          match updateNodesAndRotateLog fuel n2 up with
          | .fail f => .fail f
          | .ok p =>
            .ok (p.1, (if rb = 1 then Rotation.rotateLeft else Rotation.rotateRightLeft) :: p.2)
    else
      match up with
      | [] => .ok (c, [])
      | f :: rest => updateNodesAndRotateLog fuel (f.plug c) rest

/-- The node `updateNodesAndRotate` stands on when it reaches the root during
`deleteNode(8)` on `builtDict`: the right subtree has lost the node of key 8
and its root, of key 7, is updated; the fields of the node itself are not yet
recomputed. -/
def pivotAfterDelete8 : Node Nat Nat :=
  .node
    (.node (.node (.node .nil 1 0 0 1 .nil) 2 0 (-1) 2 .nil) 3 0 0 3
      (.node .nil 4 0 1 2 (.node .nil 5 0 0 1 .nil)))
    6 0 (-1) 4
    (.node .nil 7 0 0 1 .nil)

/-- The calls of `createDictionary` in `test_dictionary.cpp`:
`addNode(str[x], 1)` for the characters of `"dbfaceg"`. -/
def createDictionaryOps : List (Op Char Nat) :=
  [.add 'd' 1, .add 'b' 1, .add 'f' 1, .add 'a' 1, .add 'c' 1, .add 'e' 1, .add 'g' 1]

/-- The tree drawn in `test_dictionary.cpp`:

```
        d
    b       f
  a   c   e   g
```
-/
def drawnDict : Dictionary Char Nat :=
  ⟨.node (.node (.node .nil 'a' 1 0 1 .nil) 'b' 1 0 2 (.node .nil 'c' 1 0 1 .nil)) 'd' 1 0 3
      (.node (.node .nil 'e' 1 0 1 .nil) 'f' 1 0 2 (.node .nil 'g' 1 0 1 .nil)),
    7, 0⟩

/-- The tree `drawnDict` without the node of key `c`. -/
def drawnDictWithoutC : Dictionary Char Nat :=
  ⟨.node (.node (.node .nil 'a' 1 0 1 .nil) 'b' 1 (-1) 2 .nil) 'd' 1 0 3
      (.node (.node .nil 'e' 1 0 1 .nil) 'f' 1 0 2 (.node .nil 'g' 1 0 1 .nil)),
    6, 0⟩

/-- The tree `drawnDictWithoutC` after the removal of `f`: the node that held
`f` holds `e`. -/
def drawnDictWithoutCF : Dictionary Char Nat :=
  ⟨.node (.node (.node .nil 'a' 1 0 1 .nil) 'b' 1 (-1) 2 .nil) 'd' 1 0 3
      (.node .nil 'e' 1 1 2 (.node .nil 'g' 1 0 1 .nil)),
    5, 0⟩

/-! ## `clear` and `copy`

Both members run `deleteNode(Iterator)` or `addNode` in a loop over iterators
collected breadth-first.  The definitions below are those members with, beside
their result, the rotation members called on the way. -/

section OrderedLog

variable [LinearOrder K]

/-- The loop of `Dictionary::addNode` once more, as `addNodeLoop`, with beside
the new tree the rotation members the up-propagation called. -/
def addNodeLoopLog (fuel : Nat) (k : K) (i : V) :
    Node K V → List (Frame K V) → Res (Option (Node K V × List Rotation))
  | .nil, _ => .fail .logicError
  | .node l key info b h r, up =>
    if key < k then
      match r with
      | .node rl rk ri rb rh rr =>
        addNodeLoopLog fuel k i (.node rl rk ri rb rh rr) (.inRight l key info b h :: up)
      | .nil =>
        if !l.isNode then
          match updateNodesAndRotateLog fuel (.node l key info b h (Node.leaf k i)) up with
          | .fail f => .fail f
          | .ok t => .ok (some t)
        else .ok (some (rebuild (.node l key info 0 h (Node.leaf k i)) up, []))
    else if k < key then
      match l with
      | .node ll lk li lb lh lr =>
        addNodeLoopLog fuel k i (.node ll lk li lb lh lr) (.inLeft key info b h r :: up)
      | .nil =>
        if !r.isNode then
          match updateNodesAndRotateLog fuel (.node (Node.leaf k i) key info b h r) up with
          | .fail f => .fail f
          | .ok t => .ok (some t)
        else .ok (some (rebuild (.node (Node.leaf k i) key info 0 h r) up, []))
    else .ok none

/-- `Dictionary::addNode` once more, as `Dictionary.addNode`, with the rotation
members called. -/
def Dictionary.addNodeLog (fuel : Nat) (d : Dictionary K V) (k : K) (i : V) :
    Res (Bool × Dictionary K V × List Rotation) :=
  if d.size = 0 then
    .ok (true, { d with root := Node.leaf k i, size := d.size + 1 }, [])
  else
    match addNodeLoopLog fuel k i d.root [] with
    | .fail f => .fail f
    | .ok none => .ok (false, d, [])
    | .ok (some t) => .ok (true, { d with root := t.1, size := d.size + 1 }, t.2)

/-- The part of `Dictionary::deleteNode(Iterator)` before `--size` once more,
as `deleteNodeCases`, with the rotation members the up-propagation called. -/
def deleteNodeCasesLog (fuel : Nat) (size : Int) :
    Node K V → List (Frame K V) → Res (Node K V × List Rotation)
  | .nil, _ => .fail .invalidArgument
  | .node .nil _ _ _ _ .nil, f :: rest => updateNodesAndRotateLog fuel (f.plug .nil) rest
  | .node .nil _ _ _ _ .nil, [] => if size - 1 = 0 then .ok (.nil, []) else .fail .danglingRoot
  | .node (.node ll lk li lb lh lr) _ _ b h (.node rl rk ri rb rh rr), up =>
    match goRightmost (.node ll lk li lb lh lr) [] with
    | (.node sl sk si _ _ _, []) =>
      updateNodesAndRotateLog fuel (.node sl sk si b h (.node rl rk ri rb rh rr)) up
    | (.node sl sk si _ _ _, f :: path) =>
      updateNodesAndRotateLog fuel (f.plug sl)
        (path ++ .inLeft sk si b h (.node rl rk ri rb rh rr) :: up)
    | (.nil, _) => .fail .nullPointer
  | .node .nil _ _ b h (.node _ rk ri _ _ _), up =>
    updateNodesAndRotateLog fuel (.node .nil rk ri b h .nil) up
  | .node (.node _ lk li _ _ _) _ _ b h .nil, up =>
    updateNodesAndRotateLog fuel (.node .nil lk li b h .nil) up

/-- `Dictionary::deleteNode(Iterator)` once more, as `Dictionary.deleteNodeAt`,
with the rotation members called. -/
def Dictionary.deleteNodeAtLog [DecidableEq V] (fuel : Nat) (d : Dictionary K V)
    (it : Iterator K V) : Res (Bool × Dictionary K V × List Rotation) :=
  if it.dictionary ≠ some d.self then .fail .invalidArgument
  else if it.isEnd then .fail .invalidArgument
  else if rebuild it.curr it.up ≠ d.root then .fail .staleCursor
  else
    match deleteNodeCasesLog fuel d.size it.curr it.up with
    | .fail f => .fail f
    | .ok t =>
      .ok (true, { d with root := if d.size - 1 = 0 then .nil else t.1, size := d.size - 1 },
        t.2)

end OrderedLog

/-- The child links that lead from the root to the node of an iterator, first
link first: `true` for `left`, `false` for `right`. -/
def Iterator.path (it : Iterator K V) : List Bool := (it.up.map Frame.isLeft).reverse

/-- The node reached from `curr` (whose parents are `up`) along the child
links `links`, with its parents; `none` when a link on the way, or the node
itself, is null. -/
def descend : List Bool → Node K V → List (Frame K V) → Option (Node K V × List (Frame K V))
  | _, .nil, _ => none
  | [], .node l k i b h r, up => some (.node l k i b h r, up)
  | true :: links, .node l k i b h r, up => descend links l (.inLeft k i b h r :: up)
  | false :: links, .node l k i b h r, up => descend links r (.inRight l k i b h :: up)

/-- An iterator made on an earlier state of the tree, as the tree is now: the
embedding of an iterator carries the subtree and the parents it was made with,
whereas the `curr` of the code designates a node, which stays where it is as
long as no rotation moves it and no node above it is freed.  The node is found
again by the child links that led to it. -/
def Iterator.relocate (it : Iterator K V) (d : Dictionary K V) : Option (Iterator K V) :=
  match descend it.path d.root [] with
  | none => none
  | some p => some ⟨p.1, p.2, it.dictionary⟩

section OrderedLog

variable [LinearOrder K] [DecidableEq V]

/-- The `while(stack.size() > 0)` loop of `Dictionary::clear`, the top of the
stack first.  Beside the dictionary, for each `deleteNode(it)` in order:
whether `it` was on a leaf, and the rotation members called.

The iterators of the stack were made before the loop; each is taken to its
node in the tree as it is now (`Iterator.relocate`).  Once a call has freed a
node other than its target (the target was not a leaf) or has rotated, the
child links no longer tell where the nodes of the remaining iterators are, and
the embedding stops with `staleCursor`. -/
def clearLoop (fuel : Nat) :
    List (Iterator K V) → Dictionary K V → List (Bool × List Rotation) →
      Res (Dictionary K V × List (Bool × List Rotation))
  | [], d, calls => .ok (d, calls)
  | it :: stack, d, calls =>
    match it.relocate d with
    | none => .fail .staleCursor
    | some here =>
      match d.deleteNodeAtLog fuel here with
      | .fail f => .fail f
      | .ok (_, d2, rotations) =>
        if (!here.isLeaf || rotations != []) && stack != [] then .fail .staleCursor
        else clearLoop fuel stack d2 (calls ++ [(here.isLeaf, rotations)])

/-- `Dictionary::clear`: the dictionary after the call and, for each
`deleteNode(it)` it issued, whether the target was a leaf and the rotation
members called; `fuel` bounds the iterations of each up-propagation. -/
def Dictionary.clear (fuel : Nat) (d : Dictionary K V) :
    Res (Dictionary K V × List (Bool × List Rotation)) :=
  if d.size > 0 then clearLoop fuel d.createStack d [] else .ok (d, [])

/-- The `while(queue.size() > 0)` loop of `Dictionary::copy`, the front of the
queue first, one iteration per unit of the second argument.  The iterators are
those of `toCopy`, which the loop does not change.  Beside the dictionary, the
rotation members called by the calls of `addNode`. -/
def copyLoop (fuel : Nat) :
    Nat → List (Iterator K V) → Dictionary K V → List Rotation →
      Res (Dictionary K V × List Rotation)
  | _, [], d, rotations => .ok (d, rotations)
  | 0, _ :: _, _, _ => .fail .noFuel
  | n + 1, it :: queue, d, rotations =>
    match it.deref with
    | .fail f => .fail f
    | .ok p =>
      match d.addNodeLog fuel p.1 p.2 with
      | .fail f => .fail f
      | .ok (_, d2, more) =>
        let q1 := if it.isRightPossible then queue ++ [it.toRight] else queue
        let q2 := if it.isLeftPossible then q1 ++ [it.toLeft] else q1
        copyLoop fuel n q2 d2 (rotations ++ more)

/-- `Dictionary::copy`: the dictionary after the call and the rotation members
called by `clear` and by the calls of `addNode`.  The loop pops one iterator
per iteration and every node of `toCopy` is pushed once. -/
def Dictionary.copy (fuel : Nat) (d toCopy : Dictionary K V) :
    Res (Dictionary K V × List Rotation) :=
  if d.self = toCopy.self then .ok (d, [])
  else
    match d.clear fuel with
    | .fail f => .fail f
    | .ok (d1, calls) =>
      if toCopy.getSize = 0 then .ok (d1, (calls.map Prod.snd).flatten)
      else copyLoop fuel (toCopy.root.count + 1) [toCopy.top] d1 (calls.map Prod.snd).flatten

/-- The calls `addNode(it->first, it->second)` of the loop of `copy` for the
iterators of a list, in order, with the rotation members called. -/
def addAll (fuel : Nat) :
    List (Iterator K V) → Dictionary K V → List Rotation → Res (Dictionary K V × List Rotation)
  | [], d, rotations => .ok (d, rotations)
  | it :: rest, d, rotations =>
    match it.deref with
    | .fail f => .fail f
    | .ok p =>
      match d.addNodeLog fuel p.1 p.2 with
      | .fail f => .fail f
      | .ok (_, d2, more) => addAll fuel rest d2 (rotations ++ more)

end OrderedLog

/-- The other child of the parent a frame stands for. -/
def Frame.sibling : Frame K V → Node K V
  | .inLeft _ _ _ _ r => r
  | .inRight l _ _ _ _ => l

/-- The child links to every node of a tree, the node itself first, then the
nodes of its left subtree, then those of its right subtree. -/
def Node.paths : Node K V → List (List Bool)
  | .nil => []
  | .node l _ _ _ _ r => [] :: (l.paths.map (List.cons true) ++ r.paths.map (List.cons false))

/-- The tree cut down to the nodes whose child links `keep` accepts: a node
that is not kept goes with all that hangs below it. -/
def Node.prune (keep : List Bool → Bool) : Node K V → Node K V
  | .nil => .nil
  | .node l k i b h r =>
    if keep [] then
      .node (l.prune (fun q => keep (true :: q))) k i b h (r.prune (fun q => keep (false :: q)))
    else .nil

/-- The tree with every cached `height` and `bfactor` recomputed from the
shape, bottom-up, as `updateNode` computes them. -/
def Node.recache : Node K V → Node K V
  | .nil => .nil
  | .node l k i b h r => updateNode (.node l.recache k i b h r.recache)

/-- A set of nodes of a tree, given by their child links without repetition,
that holds every node above its deepest ones: a node of the tree outside the
set is at least as deep as every node of the set. -/
def LevelSet (s : Node K V) (nodes : List (List Bool)) : Prop :=
  nodes.Nodup ∧ (∀ q ∈ nodes, q ∈ s.paths) ∧
    ∀ q ∈ s.paths, q ∉ nodes → ∀ p ∈ nodes, p.length ≤ q.length

/-- Breadth-first order from a queue of iterators, the front first: the
iterators in the order in which a loop that pops the front of the queue and
pushes its children meets them.  `rightFirst` tells which child is pushed
first: the right one (`copy`) or the left one (`createStack`). -/
def bfsLoop (rightFirst : Bool) : Nat → List (Iterator K V) → List (Iterator K V)
  | 0, _ => []
  | _ + 1, [] => []
  | fuel + 1, it :: queue =>
    let left := if it.isLeftPossible then [it.toLeft] else []
    let right := if it.isRightPossible then [it.toRight] else []
    it :: bfsLoop rightFirst fuel
      (if rightFirst then queue ++ right ++ left else queue ++ left ++ right)

/-! ## The tree with its `parent` fields

In the embedding above a `parent` link is the place of a node in the tree.
Here the field `parent` is stored and written where the code writes it: the
info slot of a node carries, beside the info, the address of the node and the
value of its field `parent`.  The child links stay the shape of the tree.
Where the code reads a field `parent` to find the node it then writes to, or
to choose a branch, the value read is compared with the address of the node
above; when they differ, the links are not those of a tree of the embedding
and the call ends with the fault `brokenLink`. -/

/-- What the info slot of a node carries in the embedding with stored parent
links: the info, the address of the node, and the value of its field `parent`
(`none` for `nullptr`). -/
structure Cell (V : Type) where
  info : V
  addr : Nat
  parent : Option Nat
  deriving DecidableEq, Repr

namespace Linked

/-- `p->parent = q` after the test `p != nullptr`. -/
def setParent (q : Option Nat) : Node K (Cell V) → Node K (Cell V)
  | .nil => .nil
  | .node l k c b h r => .node l k { c with parent := q } b h r

/-- The address of the node a frame stands for. -/
def frameAddr : Frame K (Cell V) → Nat
  | .inLeft _ c _ _ _ => c.addr
  | .inRight _ _ c _ _ => c.addr

/-- The address of the node above a cursor: that of its first frame, `none`
at the root. -/
def above : List (Frame K (Cell V)) → Option Nat
  | [] => none
  | f :: _ => some (frameAddr f)

/-- `Dictionary::rotateRight` at `n1`, the node above being at `over`:
`n2->parent = n1->parent; n1->parent = n2; n2->right = n1; n1->left = temp;`
and `temp->parent = n1` when `temp` is not null.  The link from `n2->parent`
to `n2` and `root` are the place of the result, that of `n1`; the code finds
that place through `n1->parent`. -/
def rotateRight (over : Option Nat) : Node K (Cell V) → Res (Node K (Cell V))
  | .node (.node n3 k2 c2 b2 h2 temp) k1 c1 b1 h1 r =>
    if c1.parent ≠ over then .fail .brokenLink
    else
      let n1 := updateNode
        (.node (setParent (some c1.addr) temp) k1 { c1 with parent := some c2.addr } b1 h1 r)
      .ok (updateNode (.node n3 k2 { c2 with parent := c1.parent } b2 h2 n1))
  | _ => .fail .nullPointer

/-- `Dictionary::rotateLeft` at `n1`, the mirror image of `rotateRight`. -/
def rotateLeft (over : Option Nat) : Node K (Cell V) → Res (Node K (Cell V))
  | .node l k1 c1 b1 h1 (.node temp k2 c2 b2 h2 n3) =>
    if c1.parent ≠ over then .fail .brokenLink
    else
      let n1 := updateNode
        (.node l k1 { c1 with parent := some c2.addr } b1 h1 (setParent (some c1.addr) temp))
      .ok (updateNode (.node n1 k2 { c2 with parent := c1.parent } b2 h2 n3))
  | _ => .fail .nullPointer

/-- `Dictionary::rotateRightLeft`: `rotateRight(it.getRight()); rotateLeft(it)`. -/
def rotateRightLeft (over : Option Nat) : Node K (Cell V) → Res (Node K (Cell V))
  | .node l k c b h r =>
    match r with
    | .nil => .fail .logicError
    | .node _ _ _ _ _ _ =>
      match rotateRight (some c.addr) r with
      | .fail f => .fail f
      | .ok r2 => rotateLeft over (.node l k c b h r2)
  | .nil => .fail .logicError

/-- `Dictionary::rotateLeftRight`: `rotateLeft(it.getLeft()); rotateRight(it)`. -/
def rotateLeftRight (over : Option Nat) : Node K (Cell V) → Res (Node K (Cell V))
  | .node l k c b h r =>
    match l with
    | .nil => .fail .logicError
    | .node _ _ _ _ _ _ =>
      match rotateLeft (some c.addr) l with
      | .fail f => .fail f
      | .ok l2 => rotateRight over (.node l2 k c b h r)
  | .nil => .fail .logicError

/-- `Dictionary::updateNodesAndRotate(it)`, one iteration per unit of fuel.
After a rotation `it.curr` is `n1`, whose field `parent` the rotation has set
to the promoted node, so the loop goes on there.  Otherwise
`isParentPossible()` reads `curr->parent`: with `nullptr` the loop leaves, and
else `goParent()` goes to the node above. -/
def updateNodesAndRotate :
    Nat → Node K (Cell V) → List (Frame K (Cell V)) → Res (Node K (Cell V))
  | 0, _, _ => .fail .noFuel
  | _ + 1, .nil, _ => .fail .nullPointer
  | fuel + 1, .node l k c b h r, up =>
    let n := updateNode (.node l k c b h r)
    if n.bf = -2 then
      match l with
      | .nil => .fail .nullPointer
      | .node _ _ _ lb _ _ =>
        match (if lb = -1 then rotateRight (above up) n else rotateLeftRight (above up) n) with
        | .fail f => .fail f
        | .ok n2 => updateNodesAndRotate fuel n2 up
    else if n.bf = 2 then
      match r with
      | .nil => .fail .nullPointer
      | .node _ _ _ rb _ _ =>
        match (if rb = 1 then rotateLeft (above up) n else rotateRightLeft (above up) n) with
        | .fail f => .fail f
        | .ok n2 => updateNodesAndRotate fuel n2 up
    else
      match c.parent with
      | none => .ok (rebuild n up)
      | some p =>
        match up with
        | [] => .fail .brokenLink
        | f :: rest =>
          if frameAddr f = p then updateNodesAndRotate fuel (f.plug n) rest
          else .fail .brokenLink

section Ordered

variable [LinearOrder K]

/-- The loop of `Dictionary::addNode`; `fresh` is the address `new` returns.
`new Node(k, i, it.curr)` sets the field `parent` of the new node to
`it.curr`. -/
def addNodeLoop (fuel fresh : Nat) (k : K) (i : V) :
    Node K (Cell V) → List (Frame K (Cell V)) → Res (Option (Node K (Cell V)))
  | .nil, _ => .fail .logicError
  | .node l key c b h r, up =>
    if key < k then
      match r with
      | .node rl rk rc rb rh rr =>
        addNodeLoop fuel fresh k i (.node rl rk rc rb rh rr) (.inRight l key c b h :: up)
      | .nil =>
        if !l.isNode then
          match updateNodesAndRotate fuel
            (.node l key c b h (Node.leaf k ⟨i, fresh, some c.addr⟩)) up with
          | .fail f => .fail f
          | .ok t => .ok (some t)
        else .ok (some (rebuild (.node l key c 0 h (Node.leaf k ⟨i, fresh, some c.addr⟩)) up))
    else if k < key then
      match l with
      | .node ll lk lc lb lh lr =>
        addNodeLoop fuel fresh k i (.node ll lk lc lb lh lr) (.inLeft key c b h r :: up)
      | .nil =>
        if !r.isNode then
          match updateNodesAndRotate fuel
            (.node (Node.leaf k ⟨i, fresh, some c.addr⟩) key c b h r) up with
          | .fail f => .fail f
          | .ok t => .ok (some t)
        else .ok (some (rebuild (.node (Node.leaf k ⟨i, fresh, some c.addr⟩) key c 0 h r) up))
    else .ok none

end Ordered

/-- The part of `Dictionary::deleteNode(Iterator)` before `--size`.

* leaf that is not the root: `it.curr->parent` is read to clear the link to
  the leaf and to start the propagation;
* two children: the key and the info of `toSwap` are copied into `curr`; with
  `toSwap.curr->parent == it.curr` the left child of `toSwap` becomes the left
  child of `curr` and its field `parent` is set to `curr`; otherwise it
  becomes the right child of `toSwap.curr->parent` and its field `parent` is
  set to that node; the propagation starts at `toSwap.curr->parent`;
* one child: the key and the info of the child are copied into `curr`. -/
def deleteNodeCases (fuel : Nat) (size : Int) :
    Node K (Cell V) → List (Frame K (Cell V)) → Res (Node K (Cell V))
  | .nil, _ => .fail .invalidArgument
  | .node .nil _ c _ _ .nil, f :: rest =>
    match c.parent with
    | none => .fail .nullPointer
    | some p =>
      if p = frameAddr f then updateNodesAndRotate fuel (f.plug .nil) rest
      else .fail .brokenLink
  | .node .nil _ _ _ _ .nil, [] => if size - 1 = 0 then .ok .nil else .fail .danglingRoot
  | .node (.node ll lk lc lb lh lr) _ c b h (.node rl rk rc rb rh rr), up =>
    match goRightmost (.node ll lk lc lb lh lr) [] with
    | (.node sl sk sc _ _ _, path) =>
      if sc.parent = some c.addr then
        updateNodesAndRotate fuel
          (.node (setParent (some c.addr) sl) sk { c with info := sc.info } b h
            (.node rl rk rc rb rh rr)) up
      else
        match sc.parent, path with
        | none, _ => .fail .nullPointer
        | some _, [] => .fail .brokenLink
        | some p, f :: path =>
          if p = frameAddr f then
            updateNodesAndRotate fuel (f.plug (setParent (some p) sl))
              (path ++ .inLeft sk { c with info := sc.info } b h (.node rl rk rc rb rh rr) :: up)
          else .fail .brokenLink
    | (.nil, _) => .fail .nullPointer
  | .node .nil _ c b h (.node _ rk rc _ _ _), up =>
    updateNodesAndRotate fuel (.node .nil rk { c with info := rc.info } b h .nil) up
  | .node (.node _ lk lc _ _ _) _ c b h .nil, up =>
    updateNodesAndRotate fuel (.node .nil lk { c with info := lc.info } b h .nil) up

/-- The dictionary with stored parent links: the dictionary of the embedding
over nodes that carry their address and their field `parent`, and the address
the next `new` returns. -/
structure Dictionary (K V : Type) where
  tree : AVL.Dictionary K (Cell V)
  fresh : Nat
  deriving DecidableEq, Repr

/-- `Dictionary()` at address `self`. -/
def Dictionary.empty (self : Nat) : Dictionary K V := ⟨AVL.Dictionary.empty self, 0⟩

section Ordered

variable [LinearOrder K]

/-- `Dictionary::addNode`.  `new Node(k, i)` leaves the field `parent` of a
new root null. -/
def Dictionary.addNode (fuel : Nat) (d : Dictionary K V) (k : K) (i : V) :
    Res (Bool × Dictionary K V) :=
  if d.tree.size = 0 then
    .ok (true, ⟨{ d.tree with root := Node.leaf k ⟨i, d.fresh, none⟩, size := d.tree.size + 1 },
      d.fresh + 1⟩)
  else
    match addNodeLoop fuel d.fresh k i d.tree.root [] with
    | .fail f => .fail f
    | .ok none => .ok (false, d)
    | .ok (some t) =>
      .ok (true, ⟨{ d.tree with root := t, size := d.tree.size + 1 }, d.fresh + 1⟩)

/-- `Dictionary::deleteNode(Iterator)`. -/
def Dictionary.deleteNodeAt [DecidableEq V] (fuel : Nat) (d : Dictionary K V)
    (it : Iterator K (Cell V)) : Res (Bool × Dictionary K V) :=
  if it.dictionary ≠ some d.tree.self then .fail .invalidArgument
  else if it.isEnd then .fail .invalidArgument
  else if rebuild it.curr it.up ≠ d.tree.root then .fail .staleCursor
  else
    match deleteNodeCases fuel d.tree.size it.curr it.up with
    | .fail f => .fail f
    | .ok t =>
      let root := if d.tree.size - 1 = 0 then .nil else t
      .ok (true, ⟨{ d.tree with root := root, size := d.tree.size - 1 }, d.fresh⟩)

/-- `Dictionary::deleteNode(Key)`. -/
def Dictionary.deleteNode [DecidableEq V] (fuel : Nat) (d : Dictionary K V) (k : K) :
    Res (Bool × Dictionary K V) :=
  match d.tree.find k with
  | .fail f => .fail f
  | .ok it => if it.eq d.tree.end then .ok (false, d) else d.deleteNodeAt fuel it

/-- Run a sequence of `addNode` / `deleteNode(Key)` calls, first call first. -/
def runOps [DecidableEq V] (fuel : Nat) :
    List (Op K V) → Dictionary K V → Res (Dictionary K V)
  | [], d => .ok d
  | .add k i :: ops, d =>
    match d.addNode fuel k i with
    | .fail f => .fail f
    | .ok p => runOps fuel ops p.2
  | .del k :: ops, d =>
    match d.deleteNode fuel k with
    | .fail f => .fail f
    | .ok p => runOps fuel ops p.2

end Ordered

/-- Parent links are consistent below a node whose own parent is at `over`:
the field `parent` of the node holds `over`, and so on for its children with
the address of the node. -/
def ParentOK : Option Nat → Node K (Cell V) → Prop
  | _, .nil => True
  | over, .node l _ c _ _ r => c.parent = over ∧ ParentOK (some c.addr) l ∧
      ParentOK (some c.addr) r

/-- Decision procedure for `ParentOK`. -/
instance decParentOK : (over : Option Nat) → (t : Node K (Cell V)) → Decidable (ParentOK over t)
  | _, .nil => isTrue trivial
  | over, .node l _ c _ _ r =>
    have := decParentOK (some c.addr) l
    have := decParentOK (some c.addr) r
    inferInstanceAs (Decidable (c.parent = over ∧ ParentOK (some c.addr) l ∧
      ParentOK (some c.addr) r))

/-- Parent links are consistent around a cursor: in every frame the other
child has consistent links below the node of the frame, and the field
`parent` of that node holds the address of the node above it. -/
def ParentOKCtx : List (Frame K (Cell V)) → Prop
  | [] => True
  | .inLeft _ c _ _ r :: up => c.parent = above up ∧ ParentOK (some c.addr) r ∧ ParentOKCtx up
  | .inRight l _ c _ _ :: up => c.parent = above up ∧ ParentOK (some c.addr) l ∧ ParentOKCtx up

/-- The addresses of the nodes of a tree, in order. -/
def addrs : Node K (Cell V) → List Nat
  | .nil => []
  | .node l _ c _ _ r => addrs l ++ c.addr :: addrs r

/-- The addresses of the nodes around a cursor: those of the nodes above it
and of their other subtrees. -/
def ctxAddrs : List (Frame K (Cell V)) → List Nat
  | [] => []
  | .inLeft _ c _ _ r :: up => c.addr :: addrs r ++ ctxAddrs up
  | .inRight l _ c _ _ :: up => c.addr :: addrs l ++ ctxAddrs up

/-- The nodes of a tree are at different addresses, all handed out before
`fresh`. -/
def Allocated (fresh : Nat) (t : Node K (Cell V)) : Prop :=
  (addrs t).Nodup ∧ ∀ a ∈ addrs t, a < fresh

/-- Decision procedure for `Allocated`. -/
instance decAllocated (fresh : Nat) (t : Node K (Cell V)) : Decidable (Allocated fresh t) :=
  inferInstanceAs (Decidable ((addrs t).Nodup ∧ ∀ a ∈ addrs t, a < fresh))

/-- The tree without the addresses and the fields `parent`: a tree of the
embedding in which a parent link is the place of a node. -/
def erase : Node K (Cell V) → Node K V
  | .nil => .nil
  | .node l k c b h r => .node (erase l) k c.info b h (erase r)

/-- The frame without the address and the field `parent` of its node. -/
def eraseFrame : Frame K (Cell V) → Frame K V
  | .inLeft k c b h r => .inLeft k c.info b h (erase r)
  | .inRight l k c b h => .inRight (erase l) k c.info b h

/-- The iterator without the addresses and the fields `parent`. -/
def eraseIterator (it : Iterator K (Cell V)) : Iterator K V :=
  ⟨erase it.curr, it.up.map eraseFrame, it.dictionary⟩

/-- The dictionary without the addresses and the fields `parent`. -/
def Dictionary.erase (d : Dictionary K V) : AVL.Dictionary K V :=
  ⟨Linked.erase d.tree.root, d.tree.size, d.tree.self⟩

/-- The result of a call seen through a function of its value. -/
def mapRes {α β : Type} (f : α → β) : Res α → Res β
  | .ok a => .ok (f a)
  | .fail e => .fail e

/-- What a call that starts on consistent links comes to: a result with the
property `P`, or a fault other than `brokenLink`. -/
def Kept {α : Type} (P : α → Prop) : Res α → Prop
  | .ok a => P a
  | .fail f => f ≠ .brokenLink

/-- The dictionary with parent fields after the calls of `buildOps`,
`deleteNode(8)` and `deleteNode(3)`: the node that held key 4 (the fifth one
allocated) is the root, the node that held key 3 holds key 2. -/
def afterDelete3 : Dictionary Nat Nat :=
  ⟨⟨.node
      (.node .nil 2 ⟨0, 1, some 4⟩ 0 1 .nil)
      4 ⟨0, 4, none⟩ 1 3
      (.node (.node .nil 5 ⟨0, 7, some 0⟩ 0 1 .nil) 6 ⟨0, 0, some 4⟩ 0 2
        (.node .nil 7 ⟨0, 2, some 0⟩ 0 1 .nil)),
    6, 0⟩, 8⟩

end Linked

/-! ## Height against size -/

/-- The Fibonacci sequence: `F(1) = F(2) = 1` and `F(n + 2) = F(n) + F(n + 1)`,
with `F(0) = 0`. -/
def fibonacci : Nat → Nat
  | 0 => 0
  | 1 => 1
  | n + 2 => fibonacci n + fibonacci (n + 1)

/-! ## `addNode` without its shortcut -/

section OrderedFull

variable [LinearOrder K]

/-- The loop of `addNode` as it would be without the shortcut: once the new
leaf is attached, the up-propagation `updateNodesAndRotate` runs from the
parent whether the parent has the other child or not.  (In `addNodeLoop`, the
code, a parent that has the other child only gets `bfactor = 0`.) -/
def addNodeLoopFull (fuel : Nat) (k : K) (i : V) :
    Node K V → List (Frame K V) → Res (Option (Node K V))
  | .nil, _ => .fail .logicError
  | .node l key info b h r, up =>
    if key < k then
      match r with
      | .node rl rk ri rb rh rr =>
        addNodeLoopFull fuel k i (.node rl rk ri rb rh rr) (.inRight l key info b h :: up)
      | .nil =>
        match updateNodesAndRotate fuel (.node l key info b h (Node.leaf k i)) up with
        | .fail f => .fail f
        | .ok t => .ok (some t)
    else if k < key then
      match l with
      | .node ll lk li lb lh lr =>
        addNodeLoopFull fuel k i (.node ll lk li lb lh lr) (.inLeft key info b h r :: up)
      | .nil =>
        match updateNodesAndRotate fuel (.node (Node.leaf k i) key info b h r) up with
        | .fail f => .fail f
        | .ok t => .ok (some t)
    else .ok none

/-- `addNode` as it would be without the shortcut. -/
def Dictionary.addNodeFull (fuel : Nat) (d : Dictionary K V) (k : K) (i : V) :
    Res (Bool × Dictionary K V) :=
  if d.size = 0 then
    .ok (true, { d with root := Node.leaf k i, size := d.size + 1 })
  else
    match addNodeLoopFull fuel k i d.root [] with
    | .fail f => .fail f
    | .ok none => .ok (false, d)
    | .ok (some t) => .ok (true, { d with root := t, size := d.size + 1 })

end OrderedFull

/-! ## A run that leaves a cached balance factor behind -/

/-- Eight insertions, the removal of the greatest key and one more insertion.
The removal leaves the node of key 30 with a left subtree of height 2 and no
right child; the insertion of 35 attaches the new leaf to that node, which has
the other child, so the node only gets `bfactor = 0`. -/
def staleOps : List (Op Nat Nat) :=
  [.add 60 0, .add 30 0, .add 70 0, .add 20 0, .add 40 0, .add 80 0, .add 10 0, .add 50 0,
    .del 80, .add 35 0]

/-- The dictionary after `staleOps`: the node of key 30 has cached balance
factor 0, a left subtree of height 2 and a right subtree of height 1. -/
def staleDict : Dictionary Nat Nat :=
  ⟨.node
      (.node (.node (.node .nil 10 0 0 1 .nil) 20 0 (-1) 2 .nil) 30 0 0 3
        (.node .nil 35 0 0 1 .nil))
      40 0 (-1) 4
      (.node (.node .nil 50 0 0 1 .nil) 60 0 0 2 (.node .nil 70 0 0 1 .nil)),
    8, 0⟩

/-- The dictionary `staleDict` with the balance factor of the node of key 30
recomputed. -/
def repairedDict : Dictionary Nat Nat :=
  ⟨.node
      (.node (.node (.node .nil 10 0 0 1 .nil) 20 0 (-1) 2 .nil) 30 0 (-1) 3
        (.node .nil 35 0 0 1 .nil))
      40 0 (-1) 4
      (.node (.node .nil 50 0 0 1 .nil) 60 0 0 2 (.node .nil 70 0 0 1 .nil)),
    8, 0⟩

/-! ## The up-propagation, iteration by iteration -/

/-- One more iteration in front of those a call has gone through. -/
def withEntry (e : Int × Option Rotation) :
    Res (Node K V × List (Int × Option Rotation)) →
      Res (Node K V × List (Int × Option Rotation))
  | .ok p => .ok (p.1, e :: p.2)
  | .fail f => .fail f

/-- `Dictionary::updateNodesAndRotate` once more, as `updateNodesAndRotate`,
with beside the tree one entry for each iteration of the loop, first iteration
first: the balance factor `updateNode(it)` has just written into the node of
the iteration, and the rotation member called in the iteration, if any. -/
def updateNodesAndRotateTrace :
    Nat → Node K V → List (Frame K V) → Res (Node K V × List (Int × Option Rotation))
  | 0, _, _ => .fail .noFuel
  | _ + 1, .nil, _ => .fail .nullPointer
  | fuel + 1, .node l k i b h r, up =>
    let c := updateNode (.node l k i b h r)
    if c.bf = -2 then
      match l with
      | .nil => .fail .nullPointer
      | .node _ _ _ lb _ _ =>
        match (if lb = -1 then rotateRight c else rotateLeftRight c) with
        | .fail f => .fail f
        | .ok n2 =>
          withEntry (c.bf, some (if lb = -1 then Rotation.rotateRight
            else Rotation.rotateLeftRight)) (updateNodesAndRotateTrace fuel n2 up)
    else if c.bf = 2 then
      match r with
      | .nil => .fail .nullPointer
      | .node _ _ _ rb _ _ =>
        match (if rb = 1 then rotateLeft c else rotateRightLeft c) with
        | .fail f => .fail f
        | .ok n2 =>
          withEntry (c.bf, some (if rb = 1 then Rotation.rotateLeft
            else Rotation.rotateRightLeft)) (updateNodesAndRotateTrace fuel n2 up)
    else
      match up with
      | [] => .ok (c, [(c.bf, none)])
      | f :: rest => withEntry (c.bf, none) (updateNodesAndRotateTrace fuel (f.plug c) rest)

section OrderedTrace

variable [LinearOrder K]

/-- The loop of `Dictionary::addNode` once more, as `addNodeLoop`, with beside
the new tree the entries of the iterations of the up-propagation (none when
the parent of the new leaf has the other child: `updateNodesAndRotate` is not
called then). -/
def addNodeLoopTrace (fuel : Nat) (k : K) (i : V) :
    Node K V → List (Frame K V) → Res (Option (Node K V × List (Int × Option Rotation)))
  | .nil, _ => .fail .logicError
  | .node l key info b h r, up =>
    if key < k then
      match r with
      | .node rl rk ri rb rh rr =>
        addNodeLoopTrace fuel k i (.node rl rk ri rb rh rr) (.inRight l key info b h :: up)
      | .nil =>
        if !l.isNode then
          match updateNodesAndRotateTrace fuel (.node l key info b h (Node.leaf k i)) up with
          | .fail f => .fail f
          | .ok t => .ok (some t)
        else .ok (some (rebuild (.node l key info 0 h (Node.leaf k i)) up, []))
    else if k < key then
      match l with
      | .node ll lk li lb lh lr =>
        addNodeLoopTrace fuel k i (.node ll lk li lb lh lr) (.inLeft key info b h r :: up)
      | .nil =>
        if !r.isNode then
          match updateNodesAndRotateTrace fuel (.node (Node.leaf k i) key info b h r) up with
          | .fail f => .fail f
          | .ok t => .ok (some t)
        else .ok (some (rebuild (.node (Node.leaf k i) key info 0 h r) up, []))
    else .ok none

/-- `Dictionary::addNode` once more, as `Dictionary.addNode`, with the entries
of the iterations of the up-propagation. -/
def Dictionary.addNodeTrace (fuel : Nat) (d : Dictionary K V) (k : K) (i : V) :
    Res (Bool × Dictionary K V × List (Int × Option Rotation)) :=
  if d.size = 0 then
    .ok (true, { d with root := Node.leaf k i, size := d.size + 1 }, [])
  else
    match addNodeLoopTrace fuel k i d.root [] with
    | .fail f => .fail f
    | .ok none => .ok (false, d, [])
    | .ok (some t) => .ok (true, { d with root := t.1, size := d.size + 1 }, t.2)

end OrderedTrace

/-- The number of iterations of a trace in which a rotation member was
called. -/
def rotationCount (trace : List (Int × Option Rotation)) : Nat :=
  (trace.filter (fun e => e.2.isSome)).length

/-- The dictionary `builtDict` after `addNode(9, 0)`: the node of key 8 has
taken the place of the node of key 7. -/
def builtDictWith9 : Dictionary Nat Nat :=
  ⟨.node
      (.node (.node (.node .nil 1 0 0 1 .nil) 2 0 (-1) 2 .nil) 3 0 0 3
        (.node .nil 4 0 1 2 (.node .nil 5 0 0 1 .nil)))
      6 0 (-1) 4
      (.node (.node .nil 7 0 0 1 .nil) 8 0 0 2 (.node .nil 9 0 0 1 .nil)),
    9, 0⟩

/-! ## The rotation members on the tree with its `parent` fields -/

namespace Linked

/-- A rotation member called with the iterator `it`, `rot` being what the
member does at the node of `it` given the address of the node above: the
dictionary after the call.  The result of the rotation stands where the node
of `it` stood: the child link of the node above designates it, or `root` when
there is no node above.  `size` is not written. -/
def Dictionary.rotateAt (rot : Option Nat → Node K (Cell V) → Res (Node K (Cell V)))
    (d : Dictionary K V) (it : Iterator K (Cell V)) : Res (Dictionary K V) :=
  match rot (above it.up) it.curr with
  | .fail f => .fail f
  | .ok n2 => .ok ⟨{ d.tree with root := rebuild n2 it.up }, d.fresh⟩

/-- `Dictionary::rotateRight(Iterator it)`. -/
def Dictionary.rotateRight (d : Dictionary K V) (it : Iterator K (Cell V)) :
    Res (Dictionary K V) :=
  d.rotateAt Linked.rotateRight it

/-- `Dictionary::rotateLeft(Iterator it)`. -/
def Dictionary.rotateLeft (d : Dictionary K V) (it : Iterator K (Cell V)) :
    Res (Dictionary K V) :=
  d.rotateAt Linked.rotateLeft it

/-- `Dictionary::rotateLeftRight(Iterator it)`. -/
def Dictionary.rotateLeftRight (d : Dictionary K V) (it : Iterator K (Cell V)) :
    Res (Dictionary K V) :=
  d.rotateAt Linked.rotateLeftRight it

/-- `Dictionary::rotateRightLeft(Iterator it)`. -/
def Dictionary.rotateRightLeft (d : Dictionary K V) (it : Iterator K (Cell V)) :
    Res (Dictionary K V) :=
  d.rotateAt Linked.rotateRightLeft it

/-- What is asked of a rotation member called on the dictionary `d`: the call
returns, the in-order sequence of key/info pairs of the whole tree is the one
before the call, hence the keys and the search-tree order, and the parent
links are consistent after it. -/
def KeepsSequence [LinearOrder K] (d : Dictionary K V) (r : Res (Dictionary K V)) : Prop :=
  ∃ d2, r = .ok d2 ∧ (erase d2.tree.root).toList = (erase d.tree.root).toList ∧
    (erase d2.tree.root).keys = (erase d.tree.root).keys ∧
    ((erase d.tree.root).BST → (erase d2.tree.root).BST) ∧ ParentOK none d2.tree.root

/-- A `Node*`: the address of the node, `none` for `nullptr`. -/
def addrOf : Node K (Cell V) → Option Nat
  | .nil => none
  | .node _ _ c _ _ _ => some c.addr

/-- The fields of one `struct Node` as they stand in memory, the three links as
addresses. -/
structure Fields (K V : Type) where
  key : K
  info : V
  parent : Option Nat
  left : Option Nat
  right : Option Nat
  bfactor : Int
  height : Int
  deriving DecidableEq, Repr

/-- The fields of the node at address `a` among the nodes of a tree, `none`
when there is no node at `a`.  (In a tree two nodes at one address do not
occur; the search takes the node itself, then the left subtree, then the right
one.) -/
def fieldsAt (a : Nat) : Node K (Cell V) → Option (Fields K V)
  | .nil => none
  | .node l k c b h r =>
    if c.addr = a then some ⟨k, c.info, c.parent, addrOf l, addrOf r, b, h⟩
    else
      match fieldsAt a l with
      | some f => some f
      | none => fieldsAt a r

/-- What a single rotation at the node at address `n1`, with promoted child at
`n2` and transferred subtree root `t`, may change between the memory of the
tree `x` before and that of the tree `y` after: there is a node at the same
addresses, with the same key and info; at every address other than `n1` and
`n2` the balance factor and the height are the same, each child link is the
same unless it designated `n1`, and then it designates `n2`, and the parent
link is the same unless the node is `t`. -/
def RotationFrame (n1 n2 : Nat) (t : Option Nat) (x y : Node K (Cell V)) : Prop :=
  ∀ a : Nat,
    (fieldsAt a x = none → fieldsAt a y = none) ∧
    ∀ f, fieldsAt a x = some f →
      ∃ f2, fieldsAt a y = some f2 ∧ f2.key = f.key ∧ f2.info = f.info ∧
        (a ≠ n1 → a ≠ n2 →
          f2.bfactor = f.bfactor ∧ f2.height = f.height ∧
          f2.left = (if f.left = some n1 then some n2 else f.left) ∧
          f2.right = (if f.right = some n1 then some n2 else f.right) ∧
          (some a ≠ t → f2.parent = f.parent))

/-- What a single rotation member called on the dictionary `d` at the node at
address `n1`, with promoted child at `n2` and transferred subtree root `t`,
leaves untouched: the call returns, `size` is the one before, `root`
designates the node it designated unless that was `n1`, and then it designates
`n2`, and the memory of the tree differs from the one before as
`RotationFrame` allows. -/
def FrameOfRotation (n1 n2 : Nat) (t : Option Nat) (d : Dictionary K V)
    (r : Res (Dictionary K V)) : Prop :=
  ∃ d2, r = .ok d2 ∧ d2.tree.size = d.tree.size ∧ d2.tree.self = d.tree.self ∧
    addrOf d2.tree.root
      = (if addrOf d.tree.root = some n1 then some n2 else addrOf d.tree.root) ∧
    RotationFrame n1 n2 t d.tree.root d2.tree.root

end Linked

end AVL

/-! # Sequence (`src/singly-linked list/sequence.hpp`)

A `Sequence` is the chain of nodes from `head` along `next` (their keys and
infos, `tail` being the last one) and the field `size`.  The `int`s of the code
are integers; where a sum or a difference of `shuffle` can leave the range of
`int`, the value the machine holds is taken (`wrapInt`). -/

namespace SinglyLinked

/-- Ways in which a call can fail to return normally. -/
inductive Fault where
  /-- A `std::out_of_range` thrown by `operator[]`. -/
  | outOfRange
  /-- A dereference of `NULL` (undefined behaviour in the source). -/
  | nullPointer
  /-- The loop did not finish within the number of iterations granted. -/
  | noFuel
  deriving DecidableEq, Repr

/-- Result of a call: a value, or the way it failed. -/
inductive Res (α : Type) where
  | ok (val : α)
  | fail (f : Fault)
  deriving DecidableEq, Repr

/-- The class `Sequence`: the nodes from `head` on, and `size`. -/
structure Sequence (K I : Type) where
  nodes : List (K × I)
  size : Int
  deriving DecidableEq, Repr

variable {K I : Type}

/-- `Sequence()`: `head = tail = NULL`, `size = 0`. -/
def Sequence.empty : Sequence K I := ⟨[], 0⟩

/-- `Sequence::pushLast`: with `size == 0` the new node is `head` and `tail`,
otherwise it is linked after `tail` and becomes `tail`; `size++`. -/
def Sequence.pushLast (s : Sequence K I) (k : K) (i : I) : Sequence K I :=
  if s.size = 0 then ⟨[(k, i)], s.size + 1⟩ else ⟨s.nodes ++ [(k, i)], s.size + 1⟩

/-- The `const` member `Sequence::operator[]`: throws when `size == 0`, `index <
0` or `index >= size`, then follows `next` from `head` `index` times. -/
def Sequence.get (s : Sequence K I) (index : Int) : Res (K × I) :=
  if s.size = 0 ∨ index < 0 ∨ index ≥ s.size then .fail .outOfRange
  else
    match s.nodes.get? index.toNat with
    | none => .fail .nullPointer
    | some p => .ok p

/-- The `for` loop of `Sequence::copyFromSequence`, with the number of
iterations still to run and `*this` as `self`: the value returned and `*this`
after the call. -/
def copyFromSequenceLoop (source : Sequence K I) (limit : Int) :
    Nat → Sequence K I → Int → Res (Bool × Sequence K I)
  | 0, self, _ => .ok (true, self)
  | n + 1, self, startIndex =>
    if limit = self.size then .ok (false, self)
    else if source.size > startIndex then
      match source.get startIndex with
      | .fail f => .fail f
      | .ok p => copyFromSequenceLoop source limit n (self.pushLast p.1 p.2) (startIndex + 1)
    else .ok (false, self)

/-- `Sequence::copyFromSequence`: the loop runs `length` times, and not at all
when `length` is not positive. -/
def Sequence.copyFromSequence (self source : Sequence K I) (startIndex length limit : Int) :
    Res (Bool × Sequence K I) :=
  copyFromSequenceLoop source limit length.toNat self startIndex

/-- The value the machine holds in an `int` (32 bits, two's complement) for an
operation on `int`s whose exact result is `x`: `x` itself from `INT_MIN` to
`INT_MAX`, and the value in that range that differs from `x` by a multiple of
2^32 otherwise. -/
def wrapInt (x : Int) : Int := (x + 2147483648) % 4294967296 - 2147483648

/-- The statement `startIndex += length` of `shuffle`.  It runs after
`copyFromSequence` has returned `true` for the block.  With `length > 0` the
block has then been read up to index `startIndex + length - 1` of the source,
so the sum is at most the `size` of the source, an `int`, and with `length ==
0` it is `startIndex`.  With a negative `length` nothing was read and the sum
is computed in `int`: below `INT_MIN` it wraps. -/
def advance (startIndex length : Int) : Int :=
  if 0 ≤ length then startIndex + length else wrapInt (startIndex + length)

/-- The argument `limit - result.size` of the last call of `copyFromSequence`
in `shuffle`.  `size` is never negative, so the difference is between 0 and
`limit` when `size` does not exceed `limit`; otherwise it is negative and
computed in `int`: below `INT_MIN` it wraps. -/
def leftToCopy (limit size : Int) : Int :=
  if size ≤ limit then limit - size else wrapInt (limit - size)

/-- The `while(true)` loop of `shuffle`, one iteration per unit of fuel;
`result`, `startIndex1` and `startIndex2` are the variables the loop writes. -/
def shuffleLoop (source1 : Sequence K I) (length1 : Int) (source2 : Sequence K I)
    (length2 : Int) (limit : Int) :
    Nat → Sequence K I → Int → Int → Res (Sequence K I)
  | 0, _, _, _ => .fail .noFuel
  | fuel + 1, result, startIndex1, startIndex2 =>
    match result.copyFromSequence source1 startIndex1 length1 limit with
    | .fail f => .fail f
    | .ok (false, r1) =>
      match r1.copyFromSequence source2 startIndex2 (leftToCopy limit r1.size) limit with
      | .fail f => .fail f
      | .ok p => .ok p.2
    | .ok (true, r1) =>
      match r1.copyFromSequence source2 startIndex2 length2 limit with
      | .fail f => .fail f
      | .ok (false, r2) =>
        match r2.copyFromSequence source1 (advance startIndex1 length1)
            (leftToCopy limit r2.size) limit with
        | .fail f => .fail f
        | .ok p => .ok p.2
      | .ok (true, r2) =>
        shuffleLoop source1 length1 source2 length2 limit fuel r2 (advance startIndex1 length1)
          (advance startIndex2 length2)

/-- The function `shuffle`; `fuel` bounds the iterations of its `while(true)`. -/
def shuffle (fuel : Nat) (source1 : Sequence K I) (startIndex1 length1 : Int)
    (source2 : Sequence K I) (startIndex2 length2 : Int) (limit : Int) : Res (Sequence K I) :=
  shuffleLoop source1 length1 source2 length2 limit fuel Sequence.empty startIndex1 startIndex2

/-- A sequence as the public members build it: `size` counts the nodes. -/
def Sequence.WellFormed (s : Sequence K I) : Prop := s.size = s.nodes.length

/-- Decision procedure for `Sequence.WellFormed`. -/
instance Sequence.decWellFormed [DecidableEq K] [DecidableEq I] (s : Sequence K I) :
    Decidable s.WellFormed :=
  inferInstanceAs (Decidable (s.size = s.nodes.length))

/-- The sequence of the specification before truncation: blocks of `n1`
elements of the first list and blocks of `n2` elements of the second one in
turn, each block from where the previous block of the same list ended; when a
block cannot be completed, what is left of its list is kept and what is left
of the other list is appended.  `rounds` bounds the number of pairs of blocks. -/
def alternateBlocks {α : Type} (n1 n2 : Nat) : Nat → List α → List α → List α
  | 0, _, _ => []
  | rounds + 1, rest1, rest2 =>
    if rest1.length < n1 then rest1 ++ rest2
    else if rest2.length < n2 then rest1.take n1 ++ (rest2 ++ rest1.drop n1)
    else rest1.take n1 ++ (rest2.take n2 ++
      alternateBlocks n1 n2 rounds (rest1.drop n1) (rest2.drop n2))

/-- The result of `shuffle` as the specification words it: the alternation of
blocks from the two start indices on, cut after `limit` elements. -/
def shuffleSpec {α : Type} (source1 : List α) (startIndex1 length1 : Nat) (source2 : List α)
    (startIndex2 length2 : Nat) (limit : Nat) : List α :=
  (alternateBlocks length1 length2 (source1.length + source2.length + 1)
    (source1.drop startIndex1) (source2.drop startIndex2)).take limit

/-- The sources of the tests: keys 1 to 5, and 10 to 50, infos 1. -/
def testSource1 : Sequence Int Int := ⟨[(1, 1), (2, 1), (3, 1), (4, 1), (5, 1)], 5⟩

/-- The second source of the tests. -/
def testSource2 : Sequence Int Int := ⟨[(10, 1), (20, 1), (30, 1), (40, 1), (50, 1)], 5⟩

end SinglyLinked

/-! # Ring (`src/doubly-linked ring/ring.hpp`)

A `Ring` is the cycle of nodes from `any` along `next` (their data, so that
`any` is at index 0 and `any->previous` is the last element), the field `size`
and the address of the object.  A pointer to a node of a ring is the index of
the node in that cycle; an iterator is used on the ring as it is when the
iterator is made.  The `int`s of the code are integers; the sum
`step1 + step2` of `split`, which can leave the range of `int`, is the value
the machine holds (`wrapInt`). -/

namespace DoublyLinked

/-- Ways in which a call can fail to return normally. -/
inductive Fault where
  /-- A `std::logic_error` thrown by an iterator. -/
  | logicError
  /-- A `std::invalid_argument` thrown by `insert` or `split`. -/
  | invalidArgument
  /-- A dereference of `nullptr` or of a pointer to no node of the ring
  (undefined behaviour in the source). -/
  | nullPointer
  /-- A loop or a recursion did not finish within the number of rounds
  granted. -/
  | noFuel
  deriving DecidableEq, Repr

/-- Result of a call: a value, or the way it failed. -/
inductive Res (α : Type) where
  | ok (val : α)
  | fail (f : Fault)
  deriving DecidableEq, Repr

/-- The class `Ring`: the address of the object, the data of the nodes from
`any` on, and `size`. -/
structure Ring (α : Type) where
  addr : Nat
  elems : List α
  size : Int
  deriving DecidableEq, Repr

/-- The class `Ring::Iterator`: the fields `ring`, `current` and `first`, a
null pointer being `none`. -/
structure Iterator where
  ring : Option Nat
  current : Option Nat
  first : Option Nat
  deriving DecidableEq, Repr

variable {α : Type}

/-- `Ring()` for the object at address `addr`: `any = nullptr`, `size = 0`. -/
def Ring.empty (addr : Nat) : Ring α := ⟨addr, [], 0⟩

/-- The field `any`: null when the ring has no node. -/
def Ring.any (r : Ring α) : Option Nat :=
  match r.elems with
  | [] => none
  | _ :: _ => some 0

/-- `Ring::getSize`. -/
def Ring.getSize (r : Ring α) : Int := r.size

/-- `Ring::isEmpty`: `size == 0`. -/
def Ring.isEmpty (r : Ring α) : Bool := r.size == 0

/-- The field `next` of the node at index `c`. -/
def Ring.next (r : Ring α) (c : Nat) : Option Nat :=
  if c < r.elems.length then some ((c + 1) % r.elems.length) else none

/-- The field `previous` of the node at index `c`. -/
def Ring.previous (r : Ring α) (c : Nat) : Option Nat :=
  if c < r.elems.length then some ((c + r.elems.length - 1) % r.elems.length) else none

/-- `Ring::begin`: `Iterator(this, any, any)`. -/
def Ring.begin (r : Ring α) : Iterator := ⟨some r.addr, r.any, r.any⟩

/-- `Ring::end`: `Iterator(this, any, nullptr)`. -/
def Ring.end (r : Ring α) : Iterator := ⟨some r.addr, none, r.any⟩

/-- `Iterator::isEnd`. -/
def Iterator.isEnd (it : Iterator) : Bool := it.ring != none && it.current == none

/-- `Iterator::isBegin`. -/
def Iterator.isBegin (it : Iterator) : Bool := it.ring != none && it.current == it.first

/-- `Iterator::isEmpty`. -/
def Iterator.isEmpty (it : Iterator) : Bool := it.first == none

/-- Prefix `operator++` on an iterator of ring `r`: `isValidToMove(true)`,
then `current = current->next`, and `nullptr` when that is `first`. -/
def Iterator.preIncrement (it : Iterator) (r : Ring α) : Res Iterator :=
  if it.isEmpty then .fail .logicError
  else if it.isEnd then .fail .logicError
  else
    match it.current.bind r.next with
    | none => .fail .nullPointer
    | some nx => .ok ⟨it.ring, if some nx = it.first then none else some nx, it.first⟩

/-- The loop of `operator+`: `++result` as many times as counted. -/
def Iterator.plusLoop (r : Ring α) : Nat → Iterator → Res Iterator
  | 0, it => .ok it
  | n + 1, it =>
    match it.preIncrement r with
    | .fail f => .fail f
    | .ok next => Iterator.plusLoop r n next

/-- `Iterator::operator+(int times)`: the loop runs `times` times, and not at
all when `times` is not positive. -/
def Iterator.plus (it : Iterator) (r : Ring α) (times : Int) : Res Iterator :=
  Iterator.plusLoop r times.toNat it

/-- Prefix `operator--` on an iterator of ring `r`: `isValidToMove(false)`,
then `first->previous` from the end iterator and `current->previous`
otherwise. -/
def Iterator.preDecrement (it : Iterator) (r : Ring α) : Res Iterator :=
  if it.isEmpty then .fail .logicError
  else if it.isBegin then .fail .logicError
  else
    match (if it.isEnd then it.first else it.current).bind r.previous with
    | none => .fail .nullPointer
    | some pv => .ok ⟨it.ring, some pv, it.first⟩

/-- The loop of `operator-`: `--result` as many times as counted. -/
def Iterator.minusLoop (r : Ring α) : Nat → Iterator → Res Iterator
  | 0, it => .ok it
  | n + 1, it =>
    match it.preDecrement r with
    | .fail f => .fail f
    | .ok next => Iterator.minusLoop r n next

/-- `Iterator::operator-(int times)`. -/
def Iterator.minus (it : Iterator) (r : Ring α) (times : Int) : Res Iterator :=
  Iterator.minusLoop r times.toNat it

/-- `Iterator::operator*` on an iterator of ring `r`: `isValidToAcces`, then
`current->data`. -/
def Iterator.deref (it : Iterator) (r : Ring α) : Res α :=
  if it.isEmpty then .fail .logicError
  else if it.isEnd then .fail .logicError
  else
    match it.current.bind (fun c => r.elems[c]?) with
    | none => .fail .nullPointer
    | some d => .ok d

/-- The last branch of `Ring::insert`: the new node is linked between
`place.current->previous` and `place.current`.  Before `any` that is after the
last element, `any` staying where it is. -/
def linkBefore (elems : List α) (c : Nat) (data : α) : List α :=
  if c = 0 then elems ++ [data] else elems.take c ++ data :: elems.drop c

/-- `Ring::insert(place, data)`; `fuel` bounds the depth of its recursion
(`insert(begin(), data)` for the end iterator). -/
def Ring.insert : Nat → Ring α → Iterator → α → Res (Ring α)
  | 0, _, _, _ => .fail .noFuel
  | fuel + 1, r, place, data =>
    if place.ring ≠ some r.addr then .fail .invalidArgument
    else if r.size = 0 then .ok ⟨r.addr, [data], r.size + 1⟩
    else if place = r.end then Ring.insert fuel r r.begin data
    else
      match place.current with
      | none => .fail .nullPointer
      | some c =>
        if c < r.elems.length then .ok ⟨r.addr, linkBefore r.elems c data, r.size + 1⟩
        else .fail .nullPointer

/-- The function `moveRingIterator`: the iterator after the call. -/
def moveRingIterator (it : Iterator) (ring : Ring α) (direction : Bool) : Res Iterator :=
  if direction then
    if it = ring.end then .ok ring.begin
    else
      match ring.end.minus ring 1 with
      | .fail f => .fail f
      | .ok last => if it = last then .ok ring.begin else it.preIncrement ring
  else if it = ring.begin then ring.end.minus ring 1
  else it.preDecrement ring

/-- The function `insertInDirection`: the ring after the call. -/
def insertInDirection (fuel : Nat) (ring : Ring α) (data : α) (direction : Bool) :
    Res (Ring α) :=
  if direction then ring.insert fuel ring.end data
  else if ring.isEmpty then ring.insert fuel ring.begin data
  else
    match ring.begin.plus ring 1 with
    | .fail f => .fail f
    | .ok place => ring.insert fuel place data

/-- The variables the loops of `split` write: the two rings of `result`, the
iterator `it` and `length`. -/
structure SplitState (α : Type) where
  first : Ring α
  second : Ring α
  it : Iterator
  length : Int
  deriving DecidableEq, Repr

/-- The `for` loop of `split`: `todo` is the number of values of `x` below
`step1 + step2` still to come. -/
def splitFor (fuel : Nat) (source : Ring α) (direction : Bool) (step1 : Int)
    (direction1 direction2 : Bool) : Nat → Int → SplitState α → Res (SplitState α)
  | 0, _, st => .ok st
  | todo + 1, x, st =>
    if st.length > 0 then
      match st.it.deref source with
      | .fail f => .fail f
      | .ok d =>
        match (if x < step1 then insertInDirection fuel st.first d direction1
               else insertInDirection fuel st.second d direction2) with
        | .fail f => .fail f
        | .ok ring =>
          match moveRingIterator st.it source direction with
          | .fail f => .fail f
          | .ok it =>
            splitFor fuel source direction step1 direction1 direction2 todo (x + 1)
              (if x < step1 then ⟨ring, st.second, it, st.length - 1⟩
               else ⟨st.first, ring, it, st.length - 1⟩)
    else .ok st

/-- The value the machine holds in an `int` (32 bits, two's complement) for an
operation on `int`s whose exact result is `x`: `x` itself from `INT_MIN` to
`INT_MAX`, and the value in that range that differs from `x` by a multiple of
2^32 otherwise. -/
def wrapInt (x : Int) : Int := (x + 2147483648) % 4294967296 - 2147483648

/-- The `while(length > 0)` loop of `split`, one iteration per unit of the
first argument.  The bound `step1 + step2` of the `for` loop is computed in
`int`: a sum above `INT_MAX` wraps to a negative value, and the `for` loop then
does not run. -/
def splitWhile (fuel : Nat) (source : Ring α) (direction : Bool) (step1 : Int)
    (direction1 : Bool) (step2 : Int) (direction2 : Bool) :
    Nat → SplitState α → Res (SplitState α)
  | 0, _ => .fail .noFuel
  | rounds + 1, st =>
    if st.length > 0 then
      match splitFor fuel source direction step1 direction1 direction2
          (wrapInt (step1 + step2)).toNat 0 st with
      | .fail f => .fail f
      | .ok next => splitWhile fuel source direction step1 direction1 step2 direction2 rounds next
    else .ok st

/-- The function `split`; `fuel` bounds the iterations of its `while` loop and
the depth of the recursion of `insert`.  The two rings of `result` are new
objects, at the two addresses after that of `source`. -/
def split (fuel : Nat) (source : Ring α) (startIndex length : Int) (direction : Bool)
    (step1 : Int) (direction1 : Bool) (step2 : Int) (direction2 : Bool) :
    Res (Ring α × Ring α) :=
  if startIndex < 0 then .fail .invalidArgument
  else if step1 < 0 ∨ step2 < 0 then .fail .invalidArgument
  else if source.isEmpty then .ok (Ring.empty (source.addr + 1), Ring.empty (source.addr + 2))
  else
    match source.begin.plus source (Int.tmod startIndex source.getSize) with
    | .fail f => .fail f
    | .ok it =>
      match splitWhile fuel source direction step1 direction1 step2 direction2 fuel
          ⟨Ring.empty (source.addr + 1), Ring.empty (source.addr + 2), it, length⟩ with
      | .fail f => .fail f
      | .ok st => .ok (st.first, st.second)

/-- A ring as the public members build it: `size` counts the nodes. -/
def Ring.WellFormed (r : Ring α) : Prop := r.size = r.elems.length

/-- Decision procedure for `Ring.WellFormed`. -/
instance Ring.decWellFormed (r : Ring α) : Decidable r.WellFormed :=
  inferInstanceAs (Decidable (r.size = r.elems.length))

/-- The cyclic index of the specification at step `j` in a ring of `n`
elements: `(startIndex + j) mod n` when the direction is true, `(startIndex -
j) mod n` when it is false. -/
def cyclicIndex (n startIndex : Nat) (direction : Bool) (j : Nat) : Nat :=
  (if direction then ((startIndex : Int) + j) % n else ((startIndex : Int) - j) % n).toNat

/-- The element the specification has `split` visit at step `j`: the source
element at cyclic index `startIndex + j`, or `startIndex - j`, modulo the size. -/
def visited (source : List α) (startIndex : Nat) (direction : Bool) (j : Nat) : Option α :=
  source[cyclicIndex source.length startIndex direction j]?

/-- The elements that go to one result ring, in arrival order: of the first
`length` visited elements, those at a step `j` with `j mod (step1 + step2) <
step1` for the first ring (`toFirst`), the others for the second. -/
def arrivals (source : List α) (startIndex length : Nat) (direction : Bool) (step1 step2 : Nat)
    (toFirst : Bool) : List α :=
  ((List.range length).filter
    (fun j => decide (j % (step1 + step2) < step1) == toFirst)).filterMap
    (visited source startIndex direction)

/-- The order in which the specification has a result ring list its arrivals:
arrival order when the flag is true, the first arrival and then the others in
reverse order when it is false. -/
def listed (direction : Bool) : List α → List α
  | [] => []
  | a :: rest => if direction then a :: rest else a :: rest.reverse

/-- The variables of `split` after `j` elements have been visited, as the
specification has them: each result ring lists its arrivals among the first
`j` visited elements, `size` counting them, and `it`, made by `begin()` of the
source, designates the element at the cyclic index of step `j`. -/
def SplitState.After (source : Ring α) (startIndex : Nat) (direction : Bool) (step1 step2 : Nat)
    (direction1 direction2 : Bool) (st : SplitState α) (j : Nat) : Prop :=
  st.first.WellFormed ∧
  st.first.elems = listed direction1 (arrivals source.elems startIndex j direction step1 step2
    true) ∧
  st.second.WellFormed ∧
  st.second.elems = listed direction2 (arrivals source.elems startIndex j direction step1 step2
    false) ∧
  st.it = ⟨some source.addr, some (cyclicIndex source.elems.length startIndex direction j),
    some 0⟩ ∧
  st.first.size + st.second.size = j

/-- The ring `{1, ..., 10}` of the tests, at address 0. -/
def testRing : Ring Int := ⟨0, [1, 2, 3, 4, 5, 6, 7, 8, 9, 10], 10⟩

/-- A ring of two elements, at address 0. -/
def ringOfTwo : Ring Int := ⟨0, [1, 2], 2⟩

end DoublyLinked

namespace AVL

variable {K V : Type}

/-! ## In-order sequence and the structural operations -/

theorem toList_plug (f : Frame K V) (c : Node K V) :
    (f.plug c).toList = ctxBefore [f] ++ c.toList ++ ctxAfter [f] := by
  cases f <;> simp [Frame.plug, Node.toList, ctxBefore, ctxAfter]

theorem toList_rebuild (c : Node K V) (up : List (Frame K V)) :
    (rebuild c up).toList = ctxBefore up ++ c.toList ++ ctxAfter up := by
  induction up generalizing c with
  | nil => simp [rebuild, ctxBefore, ctxAfter]
  | cons f up ih =>
    cases f <;>
      simp [rebuild, ih, Frame.plug, Node.toList, ctxBefore, ctxAfter, List.append_assoc]

theorem toList_updateNode (t : Node K V) : (updateNode t).toList = t.toList := by
  cases t <;> rfl

theorem toList_rotateRight {t t2 : Node K V} (h : rotateRight t = .ok t2) :
    t2.toList = t.toList := by
  unfold rotateRight at h
  split at h
  · cases h
    simp [toList_updateNode, Node.toList, List.append_assoc]
  · cases h

theorem toList_rotateLeft {t t2 : Node K V} (h : rotateLeft t = .ok t2) :
    t2.toList = t.toList := by
  unfold rotateLeft at h
  split at h
  · cases h
    simp [toList_updateNode, Node.toList, List.append_assoc]
  · cases h

theorem toList_rotateRightLeft {t t2 : Node K V} (h : rotateRightLeft t = .ok t2) :
    t2.toList = t.toList := by
  unfold rotateRightLeft at h
  split at h
  · split at h
    · cases h
    · split at h
      · cases h
      · rename_i r2 hr
        rw [toList_rotateLeft h]
        simp [Node.toList, toList_rotateRight hr]
  · cases h

theorem toList_rotateLeftRight {t t2 : Node K V} (h : rotateLeftRight t = .ok t2) :
    t2.toList = t.toList := by
  unfold rotateLeftRight at h
  split at h
  · split at h
    · cases h
    · split at h
      · cases h
      · rename_i l2 hl
        rw [toList_rotateRight h]
        simp [Node.toList, toList_rotateLeft hl]
  · cases h

/-- Up-propagation never changes the in-order sequence of the tree. -/
theorem toList_updateNodesAndRotate (fuel : Nat) (c : Node K V) (up : List (Frame K V))
    {t : Node K V} (h : updateNodesAndRotate fuel c up = .ok t) :
    t.toList = (rebuild c up).toList := by
  induction fuel generalizing c up with
  | zero => simp [updateNodesAndRotate] at h
  | succ fuel ih =>
    cases c with
    | nil => simp [updateNodesAndRotate] at h
    | node l k i b hh r =>
      have hc : (updateNode (Node.node l k i b hh r)).toList = (Node.node l k i b hh r).toList :=
        toList_updateNode _
      unfold updateNodesAndRotate at h
      simp only at h
      split at h
      · split at h
        · cases h
        · split at h
          · cases h
          · rename_i n2 hn2
            rw [ih _ _ h, toList_rebuild, toList_rebuild]
            split at hn2
            · rw [toList_rotateRight hn2, hc]
            · rw [toList_rotateLeftRight hn2, hc]
      · split at h
        · split at h
          · cases h
          · split at h
            · cases h
            · rename_i n2 hn2
              rw [ih _ _ h, toList_rebuild, toList_rebuild]
              split at hn2
              · rw [toList_rotateLeft hn2, hc]
              · rw [toList_rotateRightLeft hn2, hc]
        · split at h
          · cases h
            simp [rebuild, hc]
          · rw [ih _ _ h]
            simp only [rebuild]
            rw [toList_rebuild, toList_rebuild, toList_plug, toList_plug, hc]

/-! ## Search-tree order -/

theorem keys_nil : (Node.nil : Node K V).keys = [] := rfl

theorem keys_node (l : Node K V) (k : K) (i : V) (b h : Int) (r : Node K V) :
    (Node.node l k i b h r).keys = l.keys ++ k :: r.keys := by
  simp [Node.keys, Node.toList]

theorem mem_keys_node {x : K} (l : Node K V) (k : K) (i : V) (b h : Int) (r : Node K V) :
    x ∈ (Node.node l k i b h r).keys ↔ x ∈ l.keys ∨ x = k ∨ x ∈ r.keys := by
  rw [keys_node]; simp

theorem mem_keys_of_mem_toList {t : Node K V} {p : K × V} (h : p ∈ t.toList) :
    p.1 ∈ t.keys := List.mem_map_of_mem Prod.fst h

theorem length_toList (t : Node K V) : t.toList.length = t.count := by
  induction t with
  | nil => rfl
  | node l k i b h r ihl ihr => simp [Node.toList, Node.count, ihl, ihr]; omega

theorem count_eq_zero {t : Node K V} (h : t.count = 0) : t = .nil := by
  cases t with
  | nil => rfl
  | node l k i b hh r => simp [Node.count] at h

theorem keys_of_count_zero {t : Node K V} (h : t.count = 0) : t.keys = [] := by
  rw [count_eq_zero h]; rfl

theorem isNode_of_count_pos {t : Node K V} (h : t.count ≠ 0) : t.isNode = true := by
  cases t with
  | nil => simp [Node.count] at h
  | node l k i b hh r => rfl

theorem count_pos_of_mem_keys {t : Node K V} {k : K} (h : k ∈ t.keys) : t.count ≠ 0 := by
  intro h0
  rw [keys_of_count_zero h0] at h
  cases h

theorem keys_eq_nil_of_nil {t : Node K V} (h : t = .nil) : t.keys = [] := by
  rw [h]
  rfl

theorem size_zero_iff {d : Dictionary K V} (hs : d.size = d.root.count) :
    d.size = 0 ↔ d.root = .nil := by
  constructor
  · intro h0
    exact count_eq_zero (by omega)
  · intro hn
    rw [hs, hn]
    rfl

theorem Iterator.eq_self (it : Iterator K V) : it.eq it = true := by
  simp [Iterator.eq]

/-! ## Cursors and their chains of parents -/

theorem rebuild_append (c : Node K V) (p q : List (Frame K V)) :
    rebuild c (p ++ q) = rebuild (rebuild c p) q := by
  induction p generalizing c with
  | nil => rfl
  | cons f p ih => exact ih _

theorem ctxAfter_append (p q : List (Frame K V)) :
    ctxAfter (p ++ q) = ctxAfter p ++ ctxAfter q := by
  induction p with
  | nil => rfl
  | cons f p ih => cases f <;> simp [ctxAfter, ih]

theorem ctxBefore_append (p q : List (Frame K V)) :
    ctxBefore (p ++ q) = ctxBefore q ++ ctxBefore p := by
  induction p with
  | nil => simp [ctxBefore]
  | cons f p ih => cases f <;> simp [ctxBefore, ih]

theorem mem_toList_of_on {l : Node K V} {k : K} {i : V} {b h : Int} {r : Node K V}
    {up : List (Frame K V)} {root : Node K V} (hreb : rebuild (.node l k i b h r) up = root) :
    (k, i) ∈ root.toList := by
  rw [← hreb, toList_rebuild]
  simp [Node.toList]

theorem length_le_ctx (up : List (Frame K V)) :
    up.length ≤ (ctxBefore up).length + (ctxAfter up).length := by
  induction up with
  | nil => simp
  | cons f up ih =>
    cases f <;> simp [ctxBefore, ctxAfter] <;> omega

theorem count_rebuild (c : Node K V) (up : List (Frame K V)) :
    up.length + c.count ≤ (rebuild c up).count := by
  have h1 := length_le_ctx up
  have h2 := congrArg List.length (toList_rebuild c up)
  rw [length_toList] at h2
  simp only [List.length_append, length_toList] at h2
  omega

/-- Where `goRightmost` stops: on a node without right child, reached from the
start through right links only. -/
theorem goRightmost_spec (c : Node K V) (hn : c.isNode = true) (up : List (Frame K V)) :
    ∃ sl sk si sb sh path, goRightmost c up = (.node sl sk si sb sh .nil, path ++ up) ∧
      rebuild (.node sl sk si sb sh .nil) path = c ∧ ctxAfter path = [] := by
  induction c generalizing up with
  | nil => simp [Node.isNode] at hn
  | node l k i b h r _ ihr =>
    cases r with
    | nil => exact ⟨l, k, i, b, h, [], rfl, rfl, rfl⟩
    | node rl rk ri rb rh rr =>
      obtain ⟨sl, sk, si, sb, sh, path, h1, h2, h3⟩ := ihr rfl (Frame.inRight l k i b h :: up)
      refine ⟨sl, sk, si, sb, sh, path ++ [Frame.inRight l k i b h], ?_, ?_, ?_⟩
      · rw [goRightmost, h1]
        simp
      · rw [rebuild_append, h2]
        rfl
      · rw [ctxAfter_append, h3]
        rfl

/-- Where `goLeftmost` stops: on a node without left child, reached from the
start through left links only. -/
theorem goLeftmost_spec (c : Node K V) (hn : c.isNode = true) (up : List (Frame K V)) :
    ∃ sk si sb sh sr path, goLeftmost c up = (.node .nil sk si sb sh sr, path ++ up) ∧
      rebuild (.node .nil sk si sb sh sr) path = c ∧ ctxBefore path = [] := by
  induction c generalizing up with
  | nil => simp [Node.isNode] at hn
  | node l k i b h r ihl _ =>
    cases l with
    | nil => exact ⟨k, i, b, h, r, [], rfl, rfl, rfl⟩
    | node ll lk li lb lh lr =>
      obtain ⟨sk, si, sb, sh, sr, path, h1, h2, h3⟩ := ihl rfl (Frame.inLeft k i b h r :: up)
      refine ⟨sk, si, sb, sh, sr, path ++ [Frame.inLeft k i b h r], ?_, ?_, ?_⟩
      · rw [goLeftmost, h1]
        simp
      · rw [rebuild_append, h2]
        rfl
      · rw [ctxBefore_append, h3]
        rfl

theorem Iterator.eq_end_of_node (it : Iterator K V) (stop : Iterator K V)
    (hn : it.curr.isNode = true) (hs : stop.curr = .nil) : it.eq stop = false := by
  unfold Iterator.eq
  rw [hn, hs]
  rfl

theorem Iterator.toLeft_on {it : Iterator K V} {root : Node K V} (h : it.On root)
    (hl : it.isLeftPossible = true) : it.toLeft.On root := by
  obtain ⟨curr, up, dict⟩ := it
  cases curr with
  | nil => simp [Iterator.isLeftPossible, Node.getLeft, Node.isNode] at hl
  | node l k i b hh r => exact ⟨hl, h.2⟩

theorem Iterator.toRight_on {it : Iterator K V} {root : Node K V} (h : it.On root)
    (hr : it.isRightPossible = true) : it.toRight.On root := by
  obtain ⟨curr, up, dict⟩ := it
  cases curr with
  | nil => simp [Iterator.isRightPossible, Node.getRight, Node.isNode] at hr
  | node l k i b hh r => exact ⟨hr, h.2⟩

/-- Every iterator `createStack` pushes designates a node of the tree. -/
theorem createStackLoop_on (root : Node K V) (fuel : Nat) (queue stack : List (Iterator K V))
    (hq : ∀ it ∈ queue, it.On root) (hs : ∀ it ∈ stack, it.On root) :
    ∀ it ∈ createStackLoop fuel queue stack, it.On root := by
  induction fuel generalizing queue stack with
  | zero => simpa [createStackLoop] using hs
  | succ fuel ih =>
    cases queue with
    | nil => simpa [createStackLoop] using hs
    | cons it queue =>
      rw [createStackLoop]
      have hit := hq it (List.mem_cons_self _ _)
      have hq0 : ∀ x ∈ queue, x.On root := fun x hx => hq x (List.mem_cons_of_mem _ hx)
      apply ih
      · intro x hx
        simp only at hx
        split at hx
        · rename_i hr
          rw [List.mem_append, List.mem_singleton] at hx
          rcases hx with hx | rfl
          · split at hx
            · rename_i hl
              rw [List.mem_append, List.mem_singleton] at hx
              rcases hx with hx | rfl
              · exact hq0 x hx
              · exact Iterator.toLeft_on hit hl
            · exact hq0 x hx
          · exact Iterator.toRight_on hit hr
        · split at hx
          · rename_i hl
            rw [List.mem_append, List.mem_singleton] at hx
            rcases hx with hx | rfl
            · exact hq0 x hx
            · exact Iterator.toLeft_on hit hl
          · exact hq0 x hx
      · intro x hx
        rcases List.mem_cons.mp hx with rfl | hx
        · exact hit
        · exact hs x hx

theorem Dictionary.begin_spec (d : Dictionary K V) :
    d.begin.dictionary = some d.self ∧ d.begin.remaining = d.root.toList ∧
      (d.begin.On d.root ∨ (d.begin.curr = .nil ∧ d.begin.up = [])) ∧
      (d.root = .nil → d.begin = d.end) := by
  cases hroot : d.root with
  | nil =>
    refine ⟨rfl, ?_, Or.inr ?_, fun _ => ?_⟩
    · simp [Dictionary.begin, hroot, goLeftmost, Iterator.remaining, Node.toList]
    · simp [Dictionary.begin, hroot, goLeftmost]
    · simp [Dictionary.begin, Dictionary.end, hroot, goLeftmost]
  | node l k i b h r =>
    obtain ⟨sk, si, sb, sh, sr, path, h1, h2, h3⟩ := goLeftmost_spec (.node l k i b h r) rfl []
    have hbegin : d.begin = ⟨.node .nil sk si sb sh sr, path, some d.self⟩ := by
      simp [Dictionary.begin, hroot, h1]
    rw [hbegin]
    refine ⟨rfl, ?_, Or.inl ⟨rfl, h2⟩, fun hh => by cases hh⟩
    rw [← h2, toList_rebuild, h3]
    simp [Iterator.remaining, Node.toList]

/-! ## Cached heights -/

theorem cachedHeight_nil : (Node.nil : Node K V).cachedHeight = 0 := rfl

theorem cachedHeight_node (l : Node K V) (k : K) (i : V) (b h : Int) (r : Node K V) :
    (Node.node l k i b h r).cachedHeight = h := rfl

theorem bf_node (l : Node K V) (k : K) (i : V) (b h : Int) (r : Node K V) :
    (Node.node l k i b h r).bf = b := rfl

theorem updateNode_node (l : Node K V) (k : K) (i : V) (b h : Int) (r : Node K V) :
    updateNode (Node.node l k i b h r) =
      .node l k i (r.cachedHeight - l.cachedHeight)
        (max l.cachedHeight r.cachedHeight + 1) r := rfl

theorem Node.Good.nonneg {t : Node K V} (h : t.Good) : 0 ≤ t.cachedHeight := by
  induction t with
  | nil => simp [Node.cachedHeight]
  | node l k i b hh r ihl ihr =>
    obtain ⟨hl, hr, h1, -⟩ := h
    have := ihl hl
    have := ihr hr
    simp only [Node.cachedHeight]
    omega

theorem Node.Good.pos {l : Node K V} {k : K} {i : V} {b hh : Int} {r : Node K V}
    (h : (Node.node l k i b hh r).Good) : 1 ≤ hh := by
  obtain ⟨hl, hr, h1, -⟩ := h
  have := hl.nonneg
  have := hr.nonneg
  omega

theorem Node.Good.eq_nil {t : Node K V} (h : t.Good) (h0 : t.cachedHeight = 0) : t = .nil := by
  cases t with
  | nil => rfl
  | node l k i b hh r =>
    have := h.pos
    simp only [Node.cachedHeight] at h0
    omega

theorem Node.Good.cachedHeight_eq_trueHeight {t : Node K V} (h : t.Good) : t.cachedHeight = t.trueHeight := by
  induction t with
  | nil => rfl
  | node l k i b hh r ihl ihr =>
    obtain ⟨hl, hr, h1, -⟩ := h
    simp only [Node.cachedHeight, Node.trueHeight, ← ihl hl, ← ihr hr, h1]

theorem Node.Cached.cachedHeight_eq {t : Node K V} (h : t.Cached) :
    t.cachedHeight = t.trueHeight := by
  cases t with
  | nil => rfl
  | node l k i b hh r => exact h.2.2.1

/-- `Good` says the same as `Cached` and `Balanced` together. -/
theorem good_iff (t : Node K V) : t.Good ↔ t.Cached ∧ t.Balanced := by
  induction t with
  | nil => simp [Node.Good, Node.Cached, Node.Balanced]
  | node l k i b hh r ihl ihr =>
    constructor
    · intro h
      have hl := h.1
      have hr := h.2.1
      obtain ⟨-, -, h1, h2, h3, h4⟩ := h
      rw [hl.cachedHeight_eq_trueHeight, hr.cachedHeight_eq_trueHeight] at h1 h2
      exact ⟨⟨(ihl.mp hl).1, (ihr.mp hr).1, h1, h2⟩, ⟨(ihl.mp hl).2, (ihr.mp hr).2, h3, h4⟩⟩
    · rintro ⟨⟨cl, cr, h1, h2⟩, ⟨bl, br, h3, h4⟩⟩
      have hl := ihl.mpr ⟨cl, bl⟩
      have hr := ihr.mpr ⟨cr, br⟩
      rw [← hl.cachedHeight_eq_trueHeight, ← hr.cachedHeight_eq_trueHeight] at h1 h2
      exact ⟨hl, hr, h1, h2, h3, h4⟩

theorem good_rebuild (up : List (Frame K V)) (c : Node K V) (hc : c.Good)
    (hu : GoodCtx up c.cachedHeight) : (rebuild c up).Good := by
  induction up generalizing c with
  | nil => exact hc
  | cons f up ih =>
    cases f with
    | inLeft k i b h r =>
      obtain ⟨hr, h1, h2, h3, h4, hu2⟩ := hu
      exact ih _ ⟨hc, hr, h1, h2, h3, h4⟩ hu2
    | inRight l k i b h =>
      obtain ⟨hl, h1, h2, h3, h4, hu2⟩ := hu
      exact ih _ ⟨hl, hc, h1, h2, h3, h4⟩ hu2

theorem good_of_rebuild (up : List (Frame K V)) (c : Node K V) (h : (rebuild c up).Good) :
    c.Good ∧ GoodCtx up c.cachedHeight := by
  induction up generalizing c with
  | nil => exact ⟨h, trivial⟩
  | cons f up ih =>
    cases f with
    | inLeft k i b hh r =>
      obtain ⟨⟨hc, hr, h1, h2, h3, h4⟩, hu⟩ := ih _ h
      exact ⟨hc, hr, h1, h2, h3, h4, hu⟩
    | inRight l k i b hh =>
      obtain ⟨⟨hl, hc, h1, h2, h3, h4⟩, hu⟩ := ih _ h
      exact ⟨hc, hl, h1, h2, h3, h4, hu⟩

theorem updateNode_good {t : Node K V} (h : t.Good) : updateNode t = t := by
  cases t with
  | nil => rfl
  | node l k i b hh r =>
    obtain ⟨-, -, h1, h2, -⟩ := h
    simp only [updateNode, ← h1, ← h2]

theorem good_leaf (k : K) (i : V) : (Node.leaf k i).Good := by
  simp [Node.leaf, Node.Good, cachedHeight_nil]

theorem cachedHeight_leaf (k : K) (i : V) : (Node.leaf k i).cachedHeight = 1 := rfl

/-! ## One iteration of the up-propagation -/

theorem loop_norot (fuel : Nat) (l : Node K V) (k : K) (i : V) (b h : Int) (r : Node K V)
    (up : List (Frame K V)) (h1 : r.cachedHeight - l.cachedHeight ≠ -2)
    (h2 : r.cachedHeight - l.cachedHeight ≠ 2) :
    updateNodesAndRotate (fuel + 1) (.node l k i b h r) up =
      goUp fuel (.node l k i (r.cachedHeight - l.cachedHeight)
        (max l.cachedHeight r.cachedHeight + 1) r) up := by
  unfold updateNodesAndRotate
  simp only [updateNode_node, bf_node, h1, h2, if_false]
  cases up <;> rfl

theorem loop_rotL (fuel : Nat) (ll : Node K V) (lk : K) (li : V) (lb lh : Int) (lr : Node K V)
    (k : K) (i : V) (b h : Int) (r : Node K V) (up : List (Frame K V))
    (h1 : r.cachedHeight - lh = -2) :
    updateNodesAndRotate (fuel + 1) (.node (.node ll lk li lb lh lr) k i b h r) up =
      match (if lb = -1 then rotateRight (updateNode (.node (.node ll lk li lb lh lr) k i b h r))
          else rotateLeftRight (updateNode (.node (.node ll lk li lb lh lr) k i b h r))) with
      | .fail f => .fail f
      | .ok n2 => updateNodesAndRotate fuel n2 up := by
  conv_lhs => unfold updateNodesAndRotate
  simp only [updateNode_node, bf_node, cachedHeight_node, h1, if_true]

theorem loop_rotR (fuel : Nat) (l : Node K V) (k : K) (i : V) (b h : Int)
    (rl : Node K V) (rk : K) (ri : V) (rb rh : Int) (rr : Node K V) (up : List (Frame K V))
    (h1 : rh - l.cachedHeight = 2) :
    updateNodesAndRotate (fuel + 1) (.node l k i b h (.node rl rk ri rb rh rr)) up =
      match (if rb = 1 then rotateLeft (updateNode (.node l k i b h (.node rl rk ri rb rh rr)))
          else rotateRightLeft (updateNode (.node l k i b h (.node rl rk ri rb rh rr)))) with
      | .fail f => .fail f
      | .ok n2 => updateNodesAndRotate fuel n2 up := by
  conv_lhs => unfold updateNodesAndRotate
  simp only [updateNode_node, bf_node, cachedHeight_node, h1, if_true]
  rw [if_neg (by decide)]

/-! ## Rotations after an insertion -/

theorem ins_rotateRight {ll : Node K V} {lk : K} {li : V} {lb lh : Int} {lr : Node K V}
    (k : K) (i : V) (b h : Int) {r : Node K V}
    (hl : (Node.node ll lk li lb lh lr).Good) (hr : r.Good)
    (h1 : r.cachedHeight - lh = -2) (h2 : lb = -1) :
    ∃ n2, rotateRight (updateNode (.node (.node ll lk li lb lh lr) k i b h r)) = .ok n2 ∧
      n2.Good ∧ n2.cachedHeight = lh := by
  obtain ⟨hll, hlr, e1, e2, e3, e4⟩ := hl
  have := hll.nonneg
  have := hlr.nonneg
  have := hr.nonneg
  refine ⟨_, rfl, ?_, ?_⟩
  · simp only [updateNode_node, Node.Good, cachedHeight_node]
    refine ⟨hll, ⟨hlr, hr, trivial, trivial, ?_, ?_⟩, trivial, trivial, ?_, ?_⟩ <;> omega
  · simp only [updateNode_node, cachedHeight_node]
    omega

theorem ins_rotateLeft {l : Node K V} (k : K) (i : V) (b h : Int)
    {rl : Node K V} {rk : K} {ri : V} {rb rh : Int} {rr : Node K V}
    (hl : l.Good) (hr : (Node.node rl rk ri rb rh rr).Good)
    (h1 : rh - l.cachedHeight = 2) (h2 : rb = 1) :
    ∃ n2, rotateLeft (updateNode (.node l k i b h (.node rl rk ri rb rh rr))) = .ok n2 ∧
      n2.Good ∧ n2.cachedHeight = rh := by
  obtain ⟨hrl, hrr, e1, e2, e3, e4⟩ := hr
  have := hrl.nonneg
  have := hrr.nonneg
  have := hl.nonneg
  refine ⟨_, rfl, ?_, ?_⟩
  · simp only [updateNode_node, Node.Good, cachedHeight_node]
    refine ⟨⟨hl, hrl, trivial, trivial, ?_, ?_⟩, hrr, trivial, trivial, ?_, ?_⟩ <;> omega
  · simp only [updateNode_node, cachedHeight_node]
    omega

theorem ins_rotateLeftRight {ll : Node K V} {lk : K} {li : V} {lb lh : Int} {lr : Node K V}
    (k : K) (i : V) (b h : Int) {r : Node K V}
    (hl : (Node.node ll lk li lb lh lr).Good) (hr : r.Good)
    (h1 : r.cachedHeight - lh = -2) (h2 : lb = 1) :
    ∃ n2, rotateLeftRight (updateNode (.node (.node ll lk li lb lh lr) k i b h r)) = .ok n2 ∧
      n2.Good ∧ n2.cachedHeight = lh := by
  obtain ⟨hll, hlr, e1, e2, e3, e4⟩ := hl
  have := hll.nonneg
  have := hr.nonneg
  cases lr with
  | nil =>
    simp only [cachedHeight_nil] at e2
    omega
  | node a mk mi mb mh c =>
    obtain ⟨ha, hc, f1, f2, f3, f4⟩ := hlr
    have := ha.nonneg
    have := hc.nonneg
    simp only [cachedHeight_node] at e1 e2
    refine ⟨_, rfl, ?_, ?_⟩
    · simp only [updateNode_node, Node.Good, cachedHeight_node]
      refine ⟨⟨hll, ha, trivial, trivial, ?_, ?_⟩, ⟨hc, hr, trivial, trivial, ?_, ?_⟩,
        trivial, trivial, ?_, ?_⟩ <;> omega
    · simp only [updateNode_node, cachedHeight_node]
      omega

theorem ins_rotateRightLeft {l : Node K V} (k : K) (i : V) (b h : Int)
    {rl : Node K V} {rk : K} {ri : V} {rb rh : Int} {rr : Node K V}
    (hl : l.Good) (hr : (Node.node rl rk ri rb rh rr).Good)
    (h1 : rh - l.cachedHeight = 2) (h2 : rb = -1) :
    ∃ n2, rotateRightLeft (updateNode (.node l k i b h (.node rl rk ri rb rh rr))) = .ok n2 ∧
      n2.Good ∧ n2.cachedHeight = rh := by
  obtain ⟨hrl, hrr, e1, e2, e3, e4⟩ := hr
  have := hrr.nonneg
  have := hl.nonneg
  cases rl with
  | nil =>
    simp only [cachedHeight_nil] at e2
    omega
  | node a mk mi mb mh c =>
    obtain ⟨ha, hc, f1, f2, f3, f4⟩ := hrl
    have := ha.nonneg
    have := hc.nonneg
    simp only [cachedHeight_node] at e1 e2
    refine ⟨_, rfl, ?_, ?_⟩
    · simp only [updateNode_node, Node.Good, cachedHeight_node]
      refine ⟨⟨hl, ha, trivial, trivial, ?_, ?_⟩, ⟨hc, hrr, trivial, trivial, ?_, ?_⟩,
        trivial, trivial, ?_, ?_⟩ <;> omega
    · simp only [updateNode_node, cachedHeight_node]
      omega

theorem Node.Good.bf_range {t : Node K V} (h : t.Good) : -1 ≤ t.bf ∧ t.bf ≤ 1 := by
  cases t with
  | nil => simp [Node.bf]
  | node l k i b hh r => exact ⟨h.2.2.2.2.1, h.2.2.2.2.2⟩

theorem loop_good (fuel : Nat) {c : Node K V} (up : List (Frame K V)) (hc : c.Good)
    (h1 : 1 ≤ c.cachedHeight) :
    updateNodesAndRotate (fuel + 1) c up = goUp fuel c up := by
  cases c with
  | nil => simp [cachedHeight_nil] at h1
  | node l k i b h r =>
    obtain ⟨-, -, e1, e2, e3, e4⟩ := hc
    rw [loop_norot fuel l k i b h r up (by omega) (by omega), ← e1, ← e2]

/-- One level of the up-propagation after an insertion: whatever the state of
the node, the loop reaches the parent (through `goUp`) with a `Good` subtree
whose height is the former one, or one more with a leaning root. -/
theorem ins_level (up : List (Frame K V)) (h0 : Int) (N : Nat)
    (hnext : ∀ c : Node K V, c.Good →
      (c.cachedHeight = h0 ∨ (c.cachedHeight = h0 + 1 ∧ c.bf ≠ 0)) →
      ∀ fuel, N ≤ fuel → ∃ t, goUp fuel c up = .ok t ∧ t.Good)
    (c : Node K V) (hc : InsState h0 c) (fuel : Nat) (hf : N + 2 ≤ fuel) :
    ∃ t, updateNodesAndRotate fuel c up = .ok t ∧ t.Good := by
  cases c with
  | nil => exact absurd hc id
  | node l k i b h r =>
    obtain ⟨hl, hr, hcase⟩ := hc
    obtain ⟨fuel1, rfl⟩ : ∃ m, fuel = m + 1 := ⟨fuel - 1, by omega⟩
    obtain ⟨fuel2, rfl⟩ : ∃ m, fuel1 = m + 1 := ⟨fuel1 - 1, by omega⟩
    have hnl := hl.nonneg
    have hnr := hr.nonneg
    rcases hcase with ⟨a1, a2, a3⟩ | ⟨a1, a2⟩ | ⟨a1, a2, a3⟩ | ⟨a1, a2, a3⟩
    · rw [loop_norot _ l k i b h r up (by omega) (by omega)]
      exact hnext (.node l k i (r.cachedHeight - l.cachedHeight)
        (max l.cachedHeight r.cachedHeight + 1) r) ⟨hl, hr, rfl, rfl, a2, a3⟩ (Or.inl a1) _
        (by omega)
    · rw [loop_norot _ l k i b h r up (by omega) (by omega)]
      refine hnext (.node l k i (r.cachedHeight - l.cachedHeight)
        (max l.cachedHeight r.cachedHeight + 1) r) ⟨hl, hr, rfl, rfl, by omega, by omega⟩
        (Or.inr ⟨a1, ?_⟩) _ (by omega)
      rw [bf_node]
      omega
    · cases l with
      | nil => simp [Node.bf] at a3
      | node ll lk li lb lh lr =>
        simp only [cachedHeight_node, bf_node] at a1 a2 a3
        rw [loop_rotL _ ll lk li lb lh lr k i b h r up a2]
        rcases a3 with a3 | a3
        · obtain ⟨n2, e, g, hh⟩ := ins_rotateRight k i b h hl hr a2 a3
          rw [if_pos a3, e]
          simp only
          rw [loop_good _ up g (by rw [hh]; exact hl.pos)]
          exact hnext n2 g (Or.inl (by omega)) _ (by omega)
        · obtain ⟨n2, e, g, hh⟩ := ins_rotateLeftRight k i b h hl hr a2 a3
          rw [if_neg (by omega), e]
          simp only
          rw [loop_good _ up g (by rw [hh]; exact hl.pos)]
          exact hnext n2 g (Or.inl (by omega)) _ (by omega)
    · cases r with
      | nil => simp [Node.bf] at a3
      | node rl rk ri rb rh rr =>
        simp only [cachedHeight_node, bf_node] at a1 a2 a3
        rw [loop_rotR _ l k i b h rl rk ri rb rh rr up a2]
        rcases a3 with a3 | a3
        · obtain ⟨n2, e, g, hh⟩ := ins_rotateLeft k i b h hl hr a2 a3
          rw [if_pos a3, e]
          simp only
          rw [loop_good _ up g (by rw [hh]; exact hr.pos)]
          exact hnext n2 g (Or.inl (by omega)) _ (by omega)
        · obtain ⟨n2, e, g, hh⟩ := ins_rotateRightLeft k i b h hl hr a2 a3
          rw [if_neg (by omega), e]
          simp only
          rw [loop_good _ up g (by rw [hh]; exact hr.pos)]
          exact hnext n2 g (Or.inl (by omega)) _ (by omega)

theorem ins_state_plug (f : Frame K V) (rest : List (Frame K V)) (h0 : Int) (c : Node K V)
    (hc : c.Good) (hh : c.cachedHeight = h0 ∨ (c.cachedHeight = h0 + 1 ∧ c.bf ≠ 0))
    (hu : GoodCtx (f :: rest) h0) :
    ∃ h1, InsState h1 (f.plug c) ∧ GoodCtx rest h1 := by
  have hb := hc.bf_range
  have hn := hc.nonneg
  cases f with
  | inLeft k i b h r =>
    obtain ⟨hr, e1, e2, e3, e4, hu2⟩ := hu
    have := hr.nonneg
    refine ⟨h, ⟨hc, hr, ?_⟩, hu2⟩
    rcases hh with hh | ⟨hh, hbf⟩
    · exact Or.inl ⟨by omega, by omega, by omega⟩
    · have hb3 : b = -1 ∨ b = 0 ∨ b = 1 := by omega
      rcases hb3 with hb3 | hb3 | hb3
      · exact Or.inr (Or.inr (Or.inl ⟨by omega, by omega, by omega⟩))
      · exact Or.inr (Or.inl ⟨by omega, by omega⟩)
      · exact Or.inl ⟨by omega, by omega, by omega⟩
  | inRight l k i b h =>
    obtain ⟨hl, e1, e2, e3, e4, hu2⟩ := hu
    have := hl.nonneg
    refine ⟨h, ⟨hl, hc, ?_⟩, hu2⟩
    rcases hh with hh | ⟨hh, hbf⟩
    · exact Or.inl ⟨by omega, by omega, by omega⟩
    · have hb3 : b = -1 ∨ b = 0 ∨ b = 1 := by omega
      rcases hb3 with hb3 | hb3 | hb3
      · exact Or.inl ⟨by omega, by omega, by omega⟩
      · exact Or.inr (Or.inl ⟨by omega, by omega⟩)
      · exact Or.inr (Or.inr (Or.inr ⟨by omega, by omega, by omega⟩))

/-- After an insertion the up-propagation returns, and returns a `Good` tree. -/
theorem ins_up (up : List (Frame K V)) :
    ∀ (h0 : Int) (c : Node K V) (fuel : Nat), InsState h0 c → GoodCtx up h0 →
      2 * up.length + 2 ≤ fuel → ∃ t, updateNodesAndRotate fuel c up = .ok t ∧ t.Good := by
  induction up with
  | nil =>
    intro h0 c fuel hc _ hf
    exact ins_level [] h0 0 (fun c g _ _ _ => ⟨c, rfl, g⟩) c hc fuel (by omega)
  | cons f rest ih =>
    intro h0 c fuel hc hu hf
    simp only [List.length_cons] at hf
    refine ins_level (f :: rest) h0 (2 * rest.length + 2) ?_ c hc fuel (by omega)
    intro c2 g hh fuel2 hf2
    obtain ⟨h1, hs, hu2⟩ := ins_state_plug f rest h0 c2 g hh hu
    exact ih h1 (f.plug c2) fuel2 hs hu2 hf2

/-! ## `isAVL` on a tree whose cached fields are right -/

theorem isAVLLoop_good (d : Dictionary K V) (hg : d.root.Good) (stack : List (Iterator K V))
    (hs : ∀ it ∈ stack, it.On d.root) : isAVLLoop d stack = (true, d) := by
  induction stack with
  | nil => rfl
  | cons it stack ih =>
    obtain ⟨-, hreb⟩ := hs it (List.mem_cons_self _ _)
    have hc : it.curr.Good := by
      have := hg
      rw [← hreb] at this
      exact (good_of_rebuild _ _ this).1
    have hd : ({ d with root := rebuild it.curr it.up } : Dictionary K V) = d := by
      rw [hreb]
    have hb := hc.bf_range
    rw [isAVLLoop]
    simp only [updateNode_good hc, hd, ne_eq, not_true_eq_false, or_self, if_false]
    rw [if_neg (by omega)]
    exact ih (fun x hx => hs x (List.mem_cons_of_mem _ hx))

/-- On a tree whose cached fields are right and in range `isAVL` answers `true`
and writes nothing. -/
theorem Dictionary.isAVL_good (d : Dictionary K V) (hg : d.root.Good) :
    d.isAVL = (true, d) := by
  unfold Dictionary.isAVL
  split
  · rfl
  · rename_i hn
    apply isAVLLoop_good d hg
    unfold Dictionary.createStack
    split
    · apply createStackLoop_on
      · intro it hit
        rw [List.mem_singleton] at hit
        subst hit
        exact ⟨by simpa using hn, rfl⟩
      · intro it hit
        cases hit
    · intro it hit
      cases hit

/-! ## Rotations after a removal -/

theorem del_rotateLeft {x : Node K V} (k : K) (i : V) (b h : Int)
    {rl : Node K V} {rk : K} {ri : V} {rb rh : Int} {rr : Node K V}
    (_hx : 0 ≤ x.cachedHeight) (hr : (Node.node rl rk ri rb rh rr).Good)
    (h1 : rh - x.cachedHeight = 2) (h2 : rb = 1) :
    ∃ n2, rotateLeft (updateNode (.node x k i b h (.node rl rk ri rb rh rr))) = .ok n2 ∧
      Settled (rh + 1) n2 := by
  obtain ⟨hrl, hrr, e1, e2, e3, e4⟩ := hr
  have := hrl.nonneg
  have := hrr.nonneg
  refine ⟨_, rfl, ?_⟩
  simp only [updateNode_node, Settled, cachedHeight_node]
  refine ⟨trivial, trivial, ?_, ?_, ?_, ?_⟩ <;> omega

theorem del_rotateRightLeft {x : Node K V} (k : K) (i : V) (b h : Int)
    {rl : Node K V} {rk : K} {ri : V} {rb rh : Int} {rr : Node K V}
    (_hx : 0 ≤ x.cachedHeight) (hr : (Node.node rl rk ri rb rh rr).Good)
    (h1 : rh - x.cachedHeight = 2) (h2 : rb ≠ 1) :
    ∃ n2, rotateRightLeft (updateNode (.node x k i b h (.node rl rk ri rb rh rr))) = .ok n2 ∧
      Settled (rh + 1) n2 := by
  obtain ⟨hrl, hrr, e1, e2, e3, e4⟩ := hr
  have := hrr.nonneg
  cases rl with
  | nil =>
    simp only [cachedHeight_nil] at e1 e2
    omega
  | node a mk mi mb mh c =>
    obtain ⟨ha, hc, f1, f2, f3, f4⟩ := hrl
    have := ha.nonneg
    have := hc.nonneg
    simp only [cachedHeight_node] at e1 e2
    refine ⟨_, rfl, ?_⟩
    simp only [updateNode_node, Settled, cachedHeight_node]
    refine ⟨trivial, trivial, ?_, ?_, ?_, ?_⟩ <;> omega

theorem del_rotateRight {ll : Node K V} {lk : K} {li : V} {lb lh : Int} {lr : Node K V}
    (k : K) (i : V) (b h : Int) {x : Node K V}
    (hl : (Node.node ll lk li lb lh lr).Good) (_hx : 0 ≤ x.cachedHeight)
    (h1 : x.cachedHeight - lh = -2) (h2 : lb = -1) :
    ∃ n2, rotateRight (updateNode (.node (.node ll lk li lb lh lr) k i b h x)) = .ok n2 ∧
      Settled (lh + 1) n2 := by
  obtain ⟨hll, hlr, e1, e2, e3, e4⟩ := hl
  have := hll.nonneg
  have := hlr.nonneg
  refine ⟨_, rfl, ?_⟩
  simp only [updateNode_node, Settled, cachedHeight_node]
  refine ⟨trivial, trivial, ?_, ?_, ?_, ?_⟩ <;> omega

theorem del_rotateLeftRight {ll : Node K V} {lk : K} {li : V} {lb lh : Int} {lr : Node K V}
    (k : K) (i : V) (b h : Int) {x : Node K V}
    (hl : (Node.node ll lk li lb lh lr).Good) (_hx : 0 ≤ x.cachedHeight)
    (h1 : x.cachedHeight - lh = -2) (h2 : lb ≠ -1) :
    ∃ n2, rotateLeftRight (updateNode (.node (.node ll lk li lb lh lr) k i b h x)) = .ok n2 ∧
      Settled (lh + 1) n2 := by
  obtain ⟨hll, hlr, e1, e2, e3, e4⟩ := hl
  have := hll.nonneg
  cases lr with
  | nil =>
    simp only [cachedHeight_nil] at e1 e2
    omega
  | node a mk mi mb mh c =>
    obtain ⟨ha, hc, f1, f2, f3, f4⟩ := hlr
    have := ha.nonneg
    have := hc.nonneg
    simp only [cachedHeight_node] at e1 e2
    refine ⟨_, rfl, ?_⟩
    simp only [updateNode_node, Settled, cachedHeight_node]
    refine ⟨trivial, trivial, ?_, ?_, ?_, ?_⟩ <;> omega

theorem loop_settled (fuel : Nat) {h0 : Int} {c : Node K V} (up : List (Frame K V))
    (hc : Settled h0 c) :
    updateNodesAndRotate (fuel + 1) c up = goUp fuel c up := by
  cases c with
  | nil => exact absurd hc id
  | node l k i b h r =>
    obtain ⟨e1, e2, e3, e4, -⟩ := hc
    rw [loop_norot fuel l k i b h r up (by omega) (by omega), ← e1, ← e2]

/-- One level of the up-propagation after a removal: the loop reaches the
parent (through `goUp`) with a node that is `Settled`. -/
theorem del_level (up : List (Frame K V)) (h0 : Int) (N : Nat)
    (hnext : ∀ c : Node K V, Settled h0 c →
      ∀ fuel, N ≤ fuel → ∃ t, goUp fuel c up = .ok t)
    (c : Node K V) (hc : DelState h0 c) (fuel : Nat) (hf : N + 2 ≤ fuel) :
    ∃ t, updateNodesAndRotate fuel c up = .ok t := by
  cases c with
  | nil => exact absurd hc id
  | node l k i b h r =>
    obtain ⟨fuel1, rfl⟩ : ∃ m, fuel = m + 1 := ⟨fuel - 1, by omega⟩
    obtain ⟨fuel2, rfl⟩ : ∃ m, fuel1 = m + 1 := ⟨fuel1 - 1, by omega⟩
    rcases hc with ⟨hx, hr, hl0, a1, a2, a3, a4⟩ | ⟨hl, hx, hr0, a1, a2, a3, a4⟩
    · have hnr := hr.nonneg
      by_cases h2 : r.cachedHeight - l.cachedHeight = 2
      · cases r with
        | nil =>
          simp only [cachedHeight_nil] at h2
          omega
        | node rl rk ri rb rh rr =>
          simp only [cachedHeight_node] at h2 a2 a3 a4
          rw [loop_rotR _ l k i b h rl rk ri rb rh rr up h2]
          by_cases h3 : rb = 1
          · obtain ⟨n2, e, g⟩ := del_rotateLeft k i b h hx hr h2 h3
            rw [if_pos h3, e]
            simp only
            rw [loop_settled _ up g]
            exact hnext n2 (by rw [show h0 = rh + 1 by omega]; exact g) _ (by omega)
          · obtain ⟨n2, e, g⟩ := del_rotateRightLeft k i b h hx hr h2 h3
            rw [if_neg h3, e]
            simp only
            rw [loop_settled _ up g]
            exact hnext n2 (by rw [show h0 = rh + 1 by omega]; exact g) _ (by omega)
      · rw [loop_norot _ l k i b h r up (by omega) h2]
        exact hnext (.node l k i (r.cachedHeight - l.cachedHeight)
          (max l.cachedHeight r.cachedHeight + 1) r)
          ⟨rfl, rfl, by omega, by omega, by omega, by omega⟩ _ (by omega)
    · have hnl := hl.nonneg
      by_cases h2 : r.cachedHeight - l.cachedHeight = -2
      · cases l with
        | nil =>
          simp only [cachedHeight_nil] at h2
          omega
        | node ll lk li lb lh lr =>
          simp only [cachedHeight_node] at h2 a2 a3 a4
          rw [loop_rotL _ ll lk li lb lh lr k i b h r up h2]
          by_cases h3 : lb = -1
          · obtain ⟨n2, e, g⟩ := del_rotateRight k i b h hl hx h2 h3
            rw [if_pos h3, e]
            simp only
            rw [loop_settled _ up g]
            exact hnext n2 (by rw [show h0 = lh + 1 by omega]; exact g) _ (by omega)
          · obtain ⟨n2, e, g⟩ := del_rotateLeftRight k i b h hl hx h2 h3
            rw [if_neg h3, e]
            simp only
            rw [loop_settled _ up g]
            exact hnext n2 (by rw [show h0 = lh + 1 by omega]; exact g) _ (by omega)
      · rw [loop_norot _ l k i b h r up h2 (by omega)]
        exact hnext (.node l k i (r.cachedHeight - l.cachedHeight)
          (max l.cachedHeight r.cachedHeight + 1) r)
          ⟨rfl, rfl, by omega, by omega, by omega, by omega⟩ _ (by omega)

theorem del_state_plug (f : Frame K V) (rest : List (Frame K V)) (h0 : Int) (c : Node K V)
    (c5 : 0 ≤ c.cachedHeight) (c6 : c.cachedHeight = h0 ∨ c.cachedHeight = h0 - 1)
    (hu : GoodCtx (f :: rest) h0) :
    ∃ h1, DelState h1 (f.plug c) ∧ GoodCtx rest h1 := by
  cases f with
  | inLeft k i b h r =>
    obtain ⟨hr, e1, e2, e3, e4, hu2⟩ := hu
    exact ⟨h, Or.inl ⟨c5, hr, h0, c6, e1, by omega, by omega⟩, hu2⟩
  | inRight l k i b h =>
    obtain ⟨hl, e1, e2, e3, e4, hu2⟩ := hu
    exact ⟨h, Or.inr ⟨hl, c5, h0, c6, e1, by omega, by omega⟩, hu2⟩

theorem Settled.height {h0 : Int} {c : Node K V} (hc : Settled h0 c) :
    0 ≤ c.cachedHeight ∧ (c.cachedHeight = h0 ∨ c.cachedHeight = h0 - 1) := by
  cases c with
  | nil => exact absurd hc id
  | node cl ck ci cb ch cr => exact ⟨hc.2.2.2.2.1, hc.2.2.2.2.2⟩

/-- After a removal in a `Good` tree the up-propagation returns. -/
theorem del_up (up : List (Frame K V)) :
    ∀ (h0 : Int) (c : Node K V) (fuel : Nat), DelState h0 c → GoodCtx up h0 →
      2 * up.length + 2 ≤ fuel → ∃ t, updateNodesAndRotate fuel c up = .ok t := by
  induction up with
  | nil =>
    intro h0 c fuel hc _ hf
    exact del_level [] h0 0 (fun c _ _ _ => ⟨c, rfl⟩) c hc fuel (by omega)
  | cons f rest ih =>
    intro h0 c fuel hc hu hf
    simp only [List.length_cons] at hf
    refine del_level (f :: rest) h0 (2 * rest.length + 2) ?_ c hc fuel (by omega)
    intro c2 g fuel2 hf2
    obtain ⟨h1, hs, hu2⟩ := del_state_plug f rest h0 c2 g.height.1 g.height.2 hu
    exact ih h1 (f.plug c2) fuel2 hs hu2 hf2

section Order

variable [LinearOrder K]

/-- Search-tree order says exactly that the in-order key sequence is strictly
increasing. -/
theorem bst_iff_sorted (t : Node K V) : t.BST ↔ t.keys.Pairwise (· < ·) := by
  induction t with
  | nil => simp [Node.BST, keys_nil]
  | node l k i b h r ihl ihr =>
    simp only [Node.BST, keys_node, List.pairwise_append, List.pairwise_cons, ihl, ihr,
      List.mem_cons]
    constructor
    · rintro ⟨hl, hr, hlk, hkr⟩
      refine ⟨hl, ⟨hkr, hr⟩, ?_⟩
      rintro a ha b (rfl | hb)
      · exact hlk a ha
      · exact lt_trans (hlk a ha) (hkr b hb)
    · rintro ⟨hl, ⟨hkr, hr⟩, hall⟩
      exact ⟨hl, hr, fun x hx => hall x hx k (Or.inl rfl), hkr⟩

theorem findLoop_spec (dict : Nat) (k : K) (c : Node K V) (up : List (Frame K V))
    (hb : c.BST) (hc : c.isNode = true) :
    ∃ it, findLoop dict k c up = .ok it ∧ it.dictionary = some dict ∧
      (k ∈ c.keys → ∃ l i b h r, it.curr = .node l k i b h r ∧
        rebuild it.curr it.up = rebuild c up) ∧
      (k ∉ c.keys → it = ⟨.nil, [], some dict⟩) := by
  induction c generalizing up with
  | nil => simp [Node.isNode] at hc
  | node l key info b h r ihl ihr =>
    obtain ⟨hbl, hbr, hlk, hkr⟩ := hb
    unfold findLoop
    by_cases hk : key = k
    · subst hk
      simp [mem_keys_node]
    · simp only [ne_eq, hk, not_false_eq_true, if_true]
      rcases lt_or_gt_of_ne hk with hlt | hgt
      · simp only [hlt, if_true]
        have hnl : k ∉ l.keys := fun hm => absurd (hlk k hm) (not_lt.mpr hlt.le)
        cases r with
        | nil =>
          refine ⟨_, rfl, rfl, ?_, fun _ => rfl⟩
          intro hm
          rw [mem_keys_node] at hm
          simp [hnl, Ne.symm hk, keys_nil] at hm
        | node rl rk ri rb rh rr =>
          obtain ⟨it, hit, hd, h1, h2⟩ := ihr (Frame.inRight l key info b h :: up) hbr rfl
          refine ⟨it, hit, hd, ?_, ?_⟩
          · intro hm
            have : k ∈ (Node.node rl rk ri rb rh rr).keys := by
              rw [mem_keys_node l] at hm
              rcases hm with hm | hm | hm
              · exact absurd hm hnl
              · exact absurd hm.symm hk
              · exact hm
            simpa [rebuild, Frame.plug] using h1 this
          · intro hm
            apply h2
            intro hm2
            apply hm
            rw [mem_keys_node l]
            exact Or.inr (Or.inr hm2)
      · have hnlt : ¬ key < k := not_lt.mpr (le_of_lt hgt)
        simp only [hnlt, if_false, gt_iff_lt.mp hgt, if_true]
        have hnr : k ∉ r.keys := fun hm => absurd (hkr k hm) (not_lt.mpr (le_of_lt hgt))
        cases l with
        | nil =>
          refine ⟨_, rfl, rfl, ?_, fun _ => rfl⟩
          intro hm
          rw [mem_keys_node] at hm
          simp [hnr, Ne.symm hk, keys_nil] at hm
        | node ll lk li lb lh lr =>
          obtain ⟨it, hit, hd, h1, h2⟩ := ihl (Frame.inLeft key info b h r :: up) hbl rfl
          refine ⟨it, hit, hd, ?_, ?_⟩
          · intro hm
            have : k ∈ (Node.node ll lk li lb lh lr).keys := by
              rw [mem_keys_node _ key] at hm
              rcases hm with hm | hm | hm
              · exact hm
              · exact absurd hm.symm hk
              · exact absurd hm hnr
            simpa [rebuild, Frame.plug] using h1 this
          · intro hm
            apply h2
            intro hm2
            apply hm
            rw [mem_keys_node _ key]
            exact Or.inl hm2

/-- What `find` returns on a search tree, `size` being 0 exactly when there is
no root. -/
theorem Dictionary.find_spec (d : Dictionary K V) (k : K) (hb : d.root.BST)
    (hs : d.size = 0 ↔ d.root = .nil) :
    ∃ it, d.find k = .ok it ∧ it.dictionary = some d.self ∧
      (k ∈ d.root.keys → ∃ l i b h r, it.curr = .node l k i b h r ∧
        rebuild it.curr it.up = d.root) ∧
      (k ∉ d.root.keys → it = d.end) := by
  unfold Dictionary.find
  by_cases h0 : d.size = 0
  · simp only [h0, if_true]
    refine ⟨d.end, rfl, rfl, ?_, fun _ => rfl⟩
    intro hm
    rw [keys_eq_nil_of_nil (hs.mp h0)] at hm
    cases hm
  · simp only [h0, if_false]
    have hn : d.root.isNode = true := by
      cases hr : d.root with
      | nil => exact absurd (hs.mpr hr) h0
      | node l k i b h r => rfl
    obtain ⟨it, h1, h2, h3, h4⟩ := findLoop_spec d.self k d.root [] hb hn
    exact ⟨it, h1, h2, by simpa [rebuild] using h3, h4⟩

/-- Deleting an absent key answers `false` and changes nothing. -/
theorem Dictionary.deleteNode_absent [DecidableEq V] (fuel : Nat) (d : Dictionary K V) (k : K)
    (hb : d.root.BST) (hs : d.size = d.root.count) (hk : k ∉ d.root.keys) :
    d.deleteNode fuel k = .ok (false, d) := by
  obtain ⟨it, h1, _, _, h4⟩ := d.find_spec k hb (size_zero_iff hs)
  unfold Dictionary.deleteNode
  rw [h1, h4 hk]
  simp [Iterator.eq_self]

theorem addNodeLoop_node (fuel : Nat) (k : K) (i : V) (l : Node K V) (key : K) (info : V)
    (b h : Int) (r : Node K V) (up : List (Frame K V)) :
    addNodeLoop fuel k i (.node l key info b h r) up =
    if key < k then
      match r with
      | .node rl rk ri rb rh rr =>
        addNodeLoop fuel k i (.node rl rk ri rb rh rr) (.inRight l key info b h :: up)
      | .nil =>
        if !l.isNode then
          match updateNodesAndRotate fuel (.node l key info b h (Node.leaf k i)) up with
          | .fail f => .fail f
          | .ok t => .ok (some t)
        else .ok (some (rebuild (.node l key info 0 h (Node.leaf k i)) up))
    else if k < key then
      match l with
      | .node ll lk li lb lh lr =>
        addNodeLoop fuel k i (.node ll lk li lb lh lr) (.inLeft key info b h r :: up)
      | .nil =>
        if !r.isNode then
          match updateNodesAndRotate fuel (.node (Node.leaf k i) key info b h r) up with
          | .fail f => .fail f
          | .ok t => .ok (some t)
        else .ok (some (rebuild (.node (Node.leaf k i) key info 0 h r) up))
    else .ok none := by
  cases l <;> cases r <;> rfl

theorem addNodeLoop_present (fuel : Nat) (k : K) (i : V) (c : Node K V)
    (up : List (Frame K V)) (hb : c.BST) (hk : k ∈ c.keys) :
    addNodeLoop fuel k i c up = .ok none := by
  induction c generalizing up with
  | nil => simp [keys_nil] at hk
  | node l key info b h r ihl ihr =>
    obtain ⟨hbl, hbr, hlk, hkr⟩ := hb
    rw [addNodeLoop_node]
    rw [mem_keys_node] at hk
    rcases lt_trichotomy key k with hlt | heq | hgt
    · simp only [hlt, if_true]
      have hr : k ∈ r.keys := by
        rcases hk with hk | hk | hk
        · exact absurd (hlk k hk) (not_lt.mpr hlt.le)
        · exact absurd hk (ne_of_gt hlt)
        · exact hk
      cases r with
      | nil => simp [keys_nil] at hr
      | node rl rk ri rb rh rr => exact ihr _ hbr hr
    · subst heq
      simp
    · have hnlt : ¬ key < k := not_lt.mpr hgt.le
      simp only [hnlt, if_false, hgt, if_true]
      have hl : k ∈ l.keys := by
        rcases hk with hk | hk | hk
        · exact hk
        · exact absurd hk (ne_of_lt hgt)
        · exact absurd (hkr k hk) (not_lt.mpr hgt.le)
      cases l with
      | nil => simp [keys_nil] at hl
      | node ll lk li lb lh lr => exact ihl _ hbl hl

/-- Adding a key that is present answers `false` and changes nothing. -/
theorem Dictionary.addNode_present (fuel : Nat) (d : Dictionary K V) (k : K) (i : V)
    (hb : d.root.BST) (hs : d.size = d.root.count) (hk : k ∈ d.root.keys) :
    d.addNode fuel k i = .ok (false, d) := by
  have hc := count_pos_of_mem_keys hk
  have h0 : d.size ≠ 0 := by omega
  unfold Dictionary.addNode
  simp only [h0, if_false]
  rw [addNodeLoop_present fuel k i d.root [] hb hk]

/-! ## Insertion and the in-order sequence -/

theorem insertPair_nil (k : K) (i : V) : insertPair k i ([] : List (K × V)) = [(k, i)] := rfl

theorem insertPair_right (k : K) (i : V) (L R : List (K × V)) (a : K × V)
    (hL : ∀ p ∈ L, p.1 < k) (ha : a.1 < k) :
    insertPair k i (L ++ a :: R) = L ++ a :: insertPair k i R := by
  have h1 : L.filter (fun p => decide (p.1 < k)) = L :=
    List.filter_eq_self.mpr (fun p hp => by simpa using hL p hp)
  have h2 : L.filter (fun p => decide (k < p.1)) = [] :=
    List.filter_eq_nil_iff.mpr (fun p hp => by simpa using (hL p hp).le)
  simp [insertPair, List.filter_append, List.filter_cons, h1, h2, ha, not_lt.mpr ha.le]

theorem insertPair_left (k : K) (i : V) (L R : List (K × V)) (a : K × V)
    (hR : ∀ p ∈ R, k < p.1) (ha : k < a.1) :
    insertPair k i (L ++ a :: R) = insertPair k i L ++ a :: R := by
  have h1 : R.filter (fun p => decide (k < p.1)) = R :=
    List.filter_eq_self.mpr (fun p hp => by simpa using hR p hp)
  have h2 : R.filter (fun p => decide (p.1 < k)) = [] :=
    List.filter_eq_nil_iff.mpr (fun p hp => by simpa using (hR p hp).le)
  simp [insertPair, List.filter_append, List.filter_cons, h1, h2, ha, not_lt.mpr ha.le]

theorem fst_lt_of_mem_toList {t : Node K V} {k : K} (h : ∀ x ∈ t.keys, x < k) :
    ∀ p ∈ t.toList, p.1 < k := fun _ hp => h _ (mem_keys_of_mem_toList hp)

theorem lt_fst_of_mem_toList {t : Node K V} {k : K} (h : ∀ x ∈ t.keys, k < x) :
    ∀ p ∈ t.toList, k < p.1 := fun _ hp => h _ (mem_keys_of_mem_toList hp)

/-- The descent of `addNode` for an absent key puts the new pair at its place
of the in-order sequence and leaves the rest of the sequence as it was. -/
theorem addNodeLoop_toList (fuel : Nat) (k : K) (i : V) (c : Node K V)
    (up : List (Frame K V)) (hb : c.BST) {o : Option (Node K V)}
    (h : addNodeLoop fuel k i c up = .ok o) (hk : k ∉ c.keys) :
    ∃ t, o = some t ∧
      t.toList = ctxBefore up ++ insertPair k i c.toList ++ ctxAfter up := by
  induction c generalizing up with
  | nil => simp [addNodeLoop] at h
  | node l key info b hh r ihl ihr =>
    obtain ⟨hbl, hbr, hlk, hkr⟩ := hb
    rw [addNodeLoop_node] at h
    rw [mem_keys_node] at hk
    push_neg at hk
    obtain ⟨hkl, hkk, hkr2⟩ := hk
    rcases lt_or_gt_of_ne hkk with hgt | hlt
    · -- k < key
      have hn : ¬ key < k := not_lt.mpr hgt.le
      simp only [hn, if_false, hgt, if_true] at h
      have hins : insertPair k i (Node.node l key info b hh r).toList =
          insertPair k i l.toList ++ (key, info) :: r.toList :=
        insertPair_left k i _ _ _ (fun p hp => lt_trans hgt (lt_fst_of_mem_toList hkr p hp)) hgt
      cases l with
      | node ll lk li lb lh lr =>
        obtain ⟨t, ht, hl⟩ := ihl _ hbl h hkl
        refine ⟨t, ht, ?_⟩
        rw [hl, hins]
        simp [ctxBefore, ctxAfter, List.append_assoc]
      | nil =>
        simp only at h
        split at h
        · split at h
          · cases h
          · rename_i t ht
            cases h
            refine ⟨t, rfl, ?_⟩
            rw [toList_updateNodesAndRotate _ _ _ ht, toList_rebuild, hins]
            simp [Node.toList, Node.leaf, insertPair_nil]
        · cases h
          refine ⟨_, rfl, ?_⟩
          rw [toList_rebuild, hins]
          simp [Node.toList, Node.leaf, insertPair_nil]
    · -- key < k
      simp only [gt_iff_lt.mp hlt, if_true] at h
      have hins : insertPair k i (Node.node l key info b hh r).toList =
          l.toList ++ (key, info) :: insertPair k i r.toList :=
        insertPair_right k i _ _ _ (fun p hp => lt_trans (fst_lt_of_mem_toList hlk p hp) hlt) hlt
      cases r with
      | node rl rk ri rb rh rr =>
        obtain ⟨t, ht, hl⟩ := ihr _ hbr h hkr2
        refine ⟨t, ht, ?_⟩
        rw [hl, hins]
        simp [ctxBefore, ctxAfter, List.append_assoc]
      | nil =>
        simp only at h
        split at h
        · split at h
          · cases h
          · rename_i t ht
            cases h
            refine ⟨t, rfl, ?_⟩
            rw [toList_updateNodesAndRotate _ _ _ ht, toList_rebuild, hins]
            simp [Node.toList, Node.leaf, insertPair_nil]
        · cases h
          refine ⟨_, rfl, ?_⟩
          rw [toList_rebuild, hins]
          simp [Node.toList, Node.leaf, insertPair_nil]

theorem mem_insertPair (k : K) (i : V) (xs : List (K × V)) (p : K × V) :
    p ∈ insertPair k i xs ↔ p = (k, i) ∨ (p ∈ xs ∧ p.1 ≠ k) := by
  simp only [insertPair, List.mem_append, List.mem_cons, List.mem_filter, decide_eq_true_eq]
  constructor
  · rintro (⟨h1, h2⟩ | rfl | ⟨h1, h2⟩)
    · exact Or.inr ⟨h1, ne_of_lt h2⟩
    · exact Or.inl rfl
    · exact Or.inr ⟨h1, ne_of_gt h2⟩
  · rintro (rfl | ⟨h1, h2⟩)
    · exact Or.inr (Or.inl rfl)
    · rcases lt_or_gt_of_ne h2 with h | h
      · exact Or.inl ⟨h1, h⟩
      · exact Or.inr (Or.inr ⟨h1, h⟩)

theorem length_insertPair (k : K) (i : V) (xs : List (K × V)) (hk : k ∉ xs.map Prod.fst) :
    (insertPair k i xs).length = xs.length + 1 := by
  induction xs with
  | nil => rfl
  | cons a xs ih =>
    simp only [List.map_cons, List.mem_cons, not_or] at hk
    have ih2 := ih hk.2
    simp only [insertPair, List.length_append, List.length_cons] at ih2 ⊢
    rcases lt_or_gt_of_ne hk.1 with h | h
    · simp only [List.filter_cons, h, decide_True, if_true, not_lt.mpr h.le, decide_False,
        List.length_cons]
      simp only [Bool.false_eq_true, if_false]
      omega
    · simp only [List.filter_cons, gt_iff_lt.mp h, decide_True, if_true, not_lt.mpr h.le,
        decide_False, List.length_cons]
      simp only [Bool.false_eq_true, if_false]
      omega

theorem pairwise_insertPair (k : K) (i : V) (xs : List (K × V))
    (h : (xs.map Prod.fst).Pairwise (· < ·)) :
    ((insertPair k i xs).map Prod.fst).Pairwise (· < ·) := by
  rw [List.pairwise_map] at h ⊢
  simp only [insertPair, List.pairwise_append, List.pairwise_cons, List.mem_cons,
    List.mem_filter, decide_eq_true_eq]
  refine ⟨h.filter _, ⟨fun a ha => ha.2, h.filter _⟩, ?_⟩
  rintro a ⟨_, ha⟩ b (rfl | ⟨_, hb⟩)
  · exact ha
  · exact lt_trans ha hb

/-! ## Insertion keeps the tree balanced -/

/-- The descent of `addNode` on a `Good` tree returns, and what it returns is
`Good`. -/
theorem addNodeLoop_good (fuel : Nat) (k : K) (i : V) (c : Node K V)
    (up : List (Frame K V)) (hc : c.Good) (hn : c.isNode = true)
    (hu : GoodCtx up c.cachedHeight) (hf : 2 * (up.length + c.count) ≤ fuel) :
    ∃ o, addNodeLoop fuel k i c up = .ok o ∧ ∀ t, o = some t → t.Good := by
  induction c generalizing up with
  | nil => simp [Node.isNode] at hn
  | node l key info b h r ihl ihr =>
    have hcc := hc
    obtain ⟨hl, hr, e1, e2, e3, e4⟩ := hc
    have hnl := hl.nonneg
    have hnr := hr.nonneg
    simp only [cachedHeight_node] at hu
    simp only [Node.count] at hf
    rw [addNodeLoop_node]
    by_cases h1 : key < k
    · simp only [h1, if_true]
      cases r with
      | node rl rk ri rb rh rr =>
        exact ihr (Frame.inRight l key info b h :: up) hr rfl
          ⟨hl, e1, e2, e3, e4, hu⟩ (by simp only [List.length_cons]; omega)
      | nil =>
        simp only
        simp only [cachedHeight_nil] at e1 e2
        cases l with
        | nil =>
          simp only [Node.isNode, Bool.not_false, if_true]
          simp only [cachedHeight_nil] at e1 e2
          obtain ⟨t, ht, hg⟩ := ins_up up h (.node .nil key info b h (Node.leaf k i)) fuel
            ⟨trivial, good_leaf k i, Or.inr (Or.inl ⟨by
              simp only [cachedHeight_nil, cachedHeight_leaf]; omega, by
              simp only [cachedHeight_nil, cachedHeight_leaf]; omega⟩)⟩ hu (by omega)
          rw [ht]
          exact ⟨some t, rfl, fun t2 ht2 => by cases ht2; exact hg⟩
        | node ll lk li lb lh lr =>
          simp only [Node.isNode, Bool.not_true, Bool.false_eq_true, if_false]
          refine ⟨_, rfl, fun t2 ht2 => ?_⟩
          cases ht2
          have hlh := hl.pos
          simp only [cachedHeight_node] at e1 e2
          apply good_rebuild
          · refine ⟨hl, good_leaf k i, ?_, ?_, by omega, by omega⟩
            · simp only [cachedHeight_node, cachedHeight_leaf]; omega
            · simp only [cachedHeight_node, cachedHeight_leaf]; omega
          · exact hu
    · simp only [h1, if_false]
      by_cases h2 : k < key
      · simp only [h2, if_true]
        cases l with
        | node ll lk li lb lh lr =>
          exact ihl (Frame.inLeft key info b h r :: up) hl rfl
            ⟨hr, e1, e2, e3, e4, hu⟩ (by simp only [List.length_cons]; omega)
        | nil =>
          simp only
          simp only [cachedHeight_nil] at e1 e2
          cases r with
          | nil =>
            simp only [Node.isNode, Bool.not_false, if_true]
            simp only [cachedHeight_nil] at e1 e2
            obtain ⟨t, ht, hg⟩ := ins_up up h (.node (Node.leaf k i) key info b h .nil) fuel
              ⟨good_leaf k i, trivial, Or.inr (Or.inl ⟨by
                simp only [cachedHeight_nil, cachedHeight_leaf]; omega, by
                simp only [cachedHeight_nil, cachedHeight_leaf]; omega⟩)⟩ hu (by omega)
            rw [ht]
            exact ⟨some t, rfl, fun t2 ht2 => by cases ht2; exact hg⟩
          | node rl rk ri rb rh rr =>
            simp only [Node.isNode, Bool.not_true, Bool.false_eq_true, if_false]
            refine ⟨_, rfl, fun t2 ht2 => ?_⟩
            cases ht2
            have hrh := hr.pos
            simp only [cachedHeight_node] at e1 e2
            apply good_rebuild
            · refine ⟨good_leaf k i, hr, ?_, ?_, by omega, by omega⟩
              · simp only [cachedHeight_node, cachedHeight_leaf]; omega
              · simp only [cachedHeight_node, cachedHeight_leaf]; omega
            · exact hu
      · simp only [h2, if_false]
        exact ⟨none, rfl, fun t ht => by cases ht⟩

end Order

/-! ## Removal -/

theorem deleteNodeCases_nil (fuel : Nat) (size : Int) (up : List (Frame K V)) :
    deleteNodeCases fuel size (Node.nil : Node K V) up = .fail .invalidArgument := rfl

theorem deleteNodeCases_leaf (fuel : Nat) (size : Int) (k : K) (i : V) (b h : Int)
    (f : Frame K V) (rest : List (Frame K V)) :
    deleteNodeCases fuel size (.node .nil k i b h .nil) (f :: rest) =
      updateNodesAndRotate fuel (f.plug .nil) rest := rfl

theorem deleteNodeCases_root (fuel : Nat) (size : Int) (k : K) (i : V) (b h : Int) :
    deleteNodeCases fuel size (.node .nil k i b h .nil) [] =
      if size - 1 = 0 then .ok .nil else .fail .danglingRoot := rfl

theorem deleteNodeCases_right (fuel : Nat) (size : Int) (k : K) (i : V) (b h : Int)
    (rl : Node K V) (rk : K) (ri : V) (rb rh : Int) (rr : Node K V) (up : List (Frame K V)) :
    deleteNodeCases fuel size (.node .nil k i b h (.node rl rk ri rb rh rr)) up =
      updateNodesAndRotate fuel (.node .nil rk ri b h .nil) up := rfl

theorem deleteNodeCases_left (fuel : Nat) (size : Int) (k : K) (i : V) (b h : Int)
    (ll : Node K V) (lk : K) (li : V) (lb lh : Int) (lr : Node K V) (up : List (Frame K V)) :
    deleteNodeCases fuel size (.node (.node ll lk li lb lh lr) k i b h .nil) up =
      updateNodesAndRotate fuel (.node .nil lk li b h .nil) up := rfl

theorem deleteNodeCases_two (fuel : Nat) (size : Int) (k : K) (i : V) (b h : Int)
    (ll : Node K V) (lk : K) (li : V) (lb lh : Int) (lr : Node K V)
    (rl : Node K V) (rk : K) (ri : V) (rb rh : Int) (rr : Node K V) (up : List (Frame K V)) :
    deleteNodeCases fuel size
        (.node (.node ll lk li lb lh lr) k i b h (.node rl rk ri rb rh rr)) up =
      match goRightmost (.node ll lk li lb lh lr) [] with
      | (.node sl sk si _ _ _, []) =>
        updateNodesAndRotate fuel (.node sl sk si b h (.node rl rk ri rb rh rr)) up
      | (.node sl sk si _ _ _, f :: path) =>
        updateNodesAndRotate fuel (f.plug sl)
          (path ++ .inLeft sk si b h (.node rl rk ri rb rh rr) :: up)
      | (.nil, _) => .fail .nullPointer := rfl

/-- The in-order sequence after the structural part of a removal: the sequence
before the node and after it are kept; in between stands a subsequence of what
the two subtrees held, and all of it when the tree is `Good`. -/
theorem deleteNodeCases_toList (fuel : Nat) (size : Int) (l : Node K V) (k : K) (i : V)
    (b h : Int) (r : Node K V) (up : List (Frame K V)) {t : Node K V}
    (ht : deleteNodeCases fuel size (.node l k i b h r) up = .ok t) :
    ∃ X, t.toList = ctxBefore up ++ X ++ ctxAfter up ∧ X.Sublist (l.toList ++ r.toList) ∧
      ((Node.node l k i b h r).Good → X = l.toList ++ r.toList) := by
  cases l with
  | nil =>
    cases r with
    | nil =>
      cases up with
      | nil =>
        rw [deleteNodeCases_root] at ht
        split at ht
        · cases ht
          exact ⟨[], rfl, List.Sublist.refl _, fun _ => rfl⟩
        · cases ht
      | cons f rest =>
        rw [deleteNodeCases_leaf] at ht
        refine ⟨[], ?_, List.Sublist.refl _, fun _ => rfl⟩
        rw [toList_updateNodesAndRotate _ _ _ ht]
        show (rebuild Node.nil (f :: rest)).toList = _
        rw [toList_rebuild]
        rfl
    | node rl rk ri rb rh rr =>
      rw [deleteNodeCases_right] at ht
      refine ⟨[(rk, ri)], ?_, ?_, ?_⟩
      · rw [toList_updateNodesAndRotate _ _ _ ht, toList_rebuild]
        rfl
      · simp [Node.toList]
      · intro hg
        obtain ⟨-, hr, e1, e2, e3, e4⟩ := hg
        have hrr := hr
        obtain ⟨g1, g2, g3, -⟩ := hrr
        have := g1.nonneg
        have := g2.nonneg
        simp only [cachedHeight_nil, cachedHeight_node] at e2
        have h1 : rl = .nil := g1.eq_nil (by omega)
        have h2 : rr = .nil := g2.eq_nil (by omega)
        subst h1 h2
        rfl
  | node ll lk li lb lh lr =>
    cases r with
    | nil =>
      rw [deleteNodeCases_left] at ht
      refine ⟨[(lk, li)], ?_, ?_, ?_⟩
      · rw [toList_updateNodesAndRotate _ _ _ ht, toList_rebuild]
        rfl
      · simp [Node.toList]
      · intro hg
        obtain ⟨hl, -, e1, e2, e3, e4⟩ := hg
        have hll := hl
        obtain ⟨g1, g2, g3, -⟩ := hll
        have := g1.nonneg
        have := g2.nonneg
        simp only [cachedHeight_nil, cachedHeight_node] at e2
        have h1 : ll = .nil := g1.eq_nil (by omega)
        have h2 : lr = .nil := g2.eq_nil (by omega)
        subst h1 h2
        rfl
    | node rl rk ri rb rh rr =>
      rw [deleteNodeCases_two] at ht
      obtain ⟨sl, sk, si, sb, sh, path, h1, h2, h3⟩ :=
        goRightmost_spec (.node ll lk li lb lh lr) rfl []
      rw [h1] at ht
      have hl : (Node.node ll lk li lb lh lr).toList = ctxBefore path ++ sl.toList ++ [(sk, si)] := by
        rw [← h2, toList_rebuild, h3]
        simp [Node.toList]
      refine ⟨(Node.node ll lk li lb lh lr).toList ++ (Node.node rl rk ri rb rh rr).toList, ?_,
        List.Sublist.refl _, fun _ => rfl⟩
      cases path with
      | nil =>
        simp only [List.nil_append] at ht
        rw [toList_updateNodesAndRotate _ _ _ ht, toList_rebuild, hl]
        simp [Node.toList, ctxBefore]
      | cons f rest =>
        simp only [List.append_nil] at ht
        rw [toList_updateNodesAndRotate _ _ _ ht, rebuild_append]
        show (rebuild (Node.node (rebuild sl (f :: rest)) sk si b h (.node rl rk ri rb rh rr))
          up).toList = _
        rw [toList_rebuild, hl]
        simp [Node.toList, toList_rebuild, h3, List.append_assoc]

/-- After the structural part of a removal the in-order sequence is a
subsequence of the former one. -/
theorem deleteNodeCases_sublist (fuel : Nat) (size : Int) (c : Node K V)
    (up : List (Frame K V)) {t : Node K V} (ht : deleteNodeCases fuel size c up = .ok t) :
    t.toList.Sublist (rebuild c up).toList := by
  cases c with
  | nil =>
    rw [deleteNodeCases_nil] at ht
    cases ht
  | node l k i b h r =>
    obtain ⟨X, hX, hsub, -⟩ := deleteNodeCases_toList fuel size l k i b h r up ht
    rw [hX, toList_rebuild]
    refine List.Sublist.append (List.Sublist.append (List.Sublist.refl _) ?_) (List.Sublist.refl _)
    refine hsub.trans ?_
    simp only [Node.toList]
    exact List.Sublist.append (List.Sublist.refl _) (List.sublist_cons_self _ _)

theorem goodCtx_rekey (p : List (Frame K V)) (k k2 : K) (i i2 : V) (b h : Int) (r : Node K V)
    (up : List (Frame K V)) (h0 : Int)
    (hu : GoodCtx (p ++ Frame.inLeft k i b h r :: up) h0) :
    GoodCtx (p ++ Frame.inLeft k2 i2 b h r :: up) h0 := by
  induction p generalizing h0 with
  | nil => exact hu
  | cons f p ih =>
    cases f with
    | inLeft fk fi fb fh fr =>
      obtain ⟨a1, a2, a3, a4, a5, a6⟩ := hu
      exact ⟨a1, a2, a3, a4, a5, ih _ a6⟩
    | inRight fl fk fi fb fh =>
      obtain ⟨a1, a2, a3, a4, a5, a6⟩ := hu
      exact ⟨a1, a2, a3, a4, a5, ih _ a6⟩

/-- On a `Good` tree whose `size` counts its nodes, the structural part of a
removal and the up-propagation after it return. -/
theorem deleteNodeCases_ok (fuel : Nat) (size : Int) (c : Node K V) (up : List (Frame K V))
    (hn : c.isNode = true) (hg : (rebuild c up).Good)
    (hf : 2 * (rebuild c up).count ≤ fuel) (hs : size = (rebuild c up).count) :
    ∃ t, deleteNodeCases fuel size c up = .ok t := by
  obtain ⟨hc, hu⟩ := good_of_rebuild up c hg
  have hcnt := count_rebuild c up
  cases c with
  | nil => simp [Node.isNode] at hn
  | node l k i b h r =>
    have hcc := hc
    obtain ⟨hl, hr, e1, e2, e3, e4⟩ := hcc
    simp only [cachedHeight_node] at hu
    simp only [Node.count] at hcnt
    cases l with
    | nil =>
      cases r with
      | nil =>
        simp only [cachedHeight_nil] at e1
        cases up with
        | nil =>
          rw [deleteNodeCases_root]
          simp [hs, rebuild, Node.count]
        | cons f rest =>
          rw [deleteNodeCases_leaf]
          obtain ⟨h1, hst, hu2⟩ := del_state_plug f rest h .nil (by simp [cachedHeight_nil])
            (Or.inr (by simp only [cachedHeight_nil]; omega)) hu
          simp only [List.length_cons] at hcnt
          exact del_up rest h1 _ fuel hst hu2 (by omega)
      | node rl rk ri rb rh rr =>
        rw [deleteNodeCases_right]
        have := hr.pos
        simp only [cachedHeight_nil, cachedHeight_node] at e1 e2
        refine del_up up h _ fuel (Or.inr ⟨trivial, by simp [cachedHeight_nil], 1, Or.inr ?_, ?_,
          ?_, ?_⟩) hu (by omega)
        · simp [cachedHeight_nil]
        · simp only [cachedHeight_nil]; omega
        · simp only [cachedHeight_nil]; omega
        · simp only [cachedHeight_nil]; omega
    | node ll lk li lb lh lr =>
      cases r with
      | nil =>
        rw [deleteNodeCases_left]
        have := hl.pos
        simp only [cachedHeight_nil, cachedHeight_node] at e1 e2
        refine del_up up h _ fuel (Or.inl ⟨by simp [cachedHeight_nil], trivial, 1, Or.inr ?_, ?_,
          ?_, ?_⟩) hu (by omega)
        · simp [cachedHeight_nil]
        · simp only [cachedHeight_nil]; omega
        · simp only [cachedHeight_nil]; omega
        · simp only [cachedHeight_nil]; omega
      | node rl rk ri rb rh rr =>
        rw [deleteNodeCases_two]
        obtain ⟨sl, sk, si, sb, sh, path, h1, h2, h3⟩ :=
          goRightmost_spec (.node ll lk li lb lh lr) rfl []
        rw [h1]
        have hroot : rebuild (.node sl sk si sb sh .nil)
            (path ++ Frame.inLeft k i b h (.node rl rk ri rb rh rr) :: up) =
            rebuild (.node (.node ll lk li lb lh lr) k i b h (.node rl rk ri rb rh rr)) up := by
          rw [rebuild_append, h2]
          rfl
        have hg2 := hg
        rw [← hroot] at hg2
        obtain ⟨hsw, hctx⟩ := good_of_rebuild _ _ hg2
        have hctx2 := goodCtx_rekey path k sk i si b h _ up _ hctx
        have hcnt2 := count_rebuild (.node sl sk si sb sh .nil)
          (path ++ Frame.inLeft k i b h (.node rl rk ri rb rh rr) :: up)
        rw [hroot] at hcnt2
        simp only [List.length_append, List.length_cons, Node.count] at hcnt2
        obtain ⟨gsl, -, g1, -⟩ := hsw
        have := gsl.nonneg
        simp only [cachedHeight_nil, cachedHeight_node] at g1 hctx2
        cases path with
        | nil =>
          simp only [List.nil_append, List.append_nil] at hctx2 ⊢
          obtain ⟨c1, c2, c3, c4, c5, c6⟩ := hctx2
          exact del_up up h _ fuel (Or.inl ⟨this, c1, sh, Or.inr (by omega), c2, by omega,
            by omega⟩) c6 (by omega)
        | cons f rest =>
          simp only [List.append_nil]
          obtain ⟨h1, hst, hu2⟩ := del_state_plug f
            (rest ++ Frame.inLeft sk si b h (.node rl rk ri rb rh rr) :: up) sh sl this
            (Or.inr (by omega)) hctx2
          refine del_up _ h1 _ fuel hst hu2 ?_
          simp only [List.length_append, List.length_cons] at hcnt2 ⊢
          omega

/-! ## The root is absent exactly when `size` is 0 -/

theorem isNode_iff_ne_nil (t : Node K V) : t.isNode = true ↔ t ≠ .nil := by
  cases t <;> simp [Node.isNode]

theorem rebuild_isNode (c : Node K V) (up : List (Frame K V)) (h : c.isNode = true) :
    (rebuild c up).isNode = true := by
  induction up generalizing c with
  | nil => exact h
  | cons f up ih => exact ih _ (by cases f <;> rfl)

theorem updateNodesAndRotate_isNode (fuel : Nat) (c : Node K V) (up : List (Frame K V))
    {t : Node K V} (h : updateNodesAndRotate fuel c up = .ok t) : t.isNode = true := by
  have hl := toList_updateNodesAndRotate fuel c up h
  cases c with
  | nil =>
    cases fuel <;> simp [updateNodesAndRotate] at h
  | node l k i b hh r =>
    cases t with
    | node _ _ _ _ _ _ => rfl
    | nil =>
      rw [toList_rebuild] at hl
      simp [Node.toList] at hl

theorem deleteNodeCases_isNode (fuel : Nat) (size : Int) (c : Node K V)
    (up : List (Frame K V)) {t : Node K V} (h : deleteNodeCases fuel size c up = .ok t) :
    t.isNode = true ∨ size - 1 = 0 := by
  cases c with
  | nil => rw [deleteNodeCases_nil] at h; cases h
  | node l k i b hh r =>
    cases l with
    | nil =>
      cases r with
      | nil =>
        cases up with
        | nil =>
          rw [deleteNodeCases_root] at h
          split at h
          · rename_i h0
            exact Or.inr h0
          · cases h
        | cons f rest =>
          rw [deleteNodeCases_leaf] at h
          exact Or.inl (updateNodesAndRotate_isNode _ _ _ h)
      | node rl rk ri rb rh rr =>
        rw [deleteNodeCases_right] at h
        exact Or.inl (updateNodesAndRotate_isNode _ _ _ h)
    | node ll lk li lb lh lr =>
      cases r with
      | nil =>
        rw [deleteNodeCases_left] at h
        exact Or.inl (updateNodesAndRotate_isNode _ _ _ h)
      | node rl rk ri rb rh rr =>
        rw [deleteNodeCases_two] at h
        obtain ⟨sl, sk, si, sb, sh, path, h1, -, -⟩ :=
          goRightmost_spec (.node ll lk li lb lh lr) rfl []
        rw [h1] at h
        cases path with
        | nil => exact Or.inl (updateNodesAndRotate_isNode _ _ _ h)
        | cons f rest => exact Or.inl (updateNodesAndRotate_isNode _ _ _ h)

section Order

variable [LinearOrder K]

theorem addNodeLoop_isNode (fuel : Nat) (k : K) (i : V) (c : Node K V)
    (up : List (Frame K V)) {t : Node K V} (h : addNodeLoop fuel k i c up = .ok (some t)) :
    t.isNode = true := by
  induction c generalizing up with
  | nil => simp [addNodeLoop] at h
  | node l key info b hh r ihl ihr =>
    rw [addNodeLoop_node] at h
    split at h
    · cases r with
      | node rl rk ri rb rh rr => exact ihr _ h
      | nil =>
        simp only at h
        split at h
        · split at h
          · cases h
          · rename_i t2 ht2
            cases h
            exact updateNodesAndRotate_isNode _ _ _ ht2
        · cases h
          exact rebuild_isNode _ _ rfl
    · split at h
      · cases l with
        | node ll lk li lb lh lr => exact ihl _ h
        | nil =>
          simp only at h
          split at h
          · split at h
            · cases h
            · rename_i t2 ht2
              cases h
              exact updateNodesAndRotate_isNode _ _ _ ht2
          · cases h
            exact rebuild_isNode _ _ rfl
      · cases h

/-- `addNode` keeps `size` non-negative and 0 exactly when the root is absent. -/
theorem Dictionary.addNode_size_root (fuel : Nat) (d : Dictionary K V) (k : K) (i : V)
    (h0 : 0 ≤ d.size) {p : Bool × Dictionary K V} (hs : d.size = 0 ↔ d.root = .nil)
    (h : d.addNode fuel k i = .ok p) :
    0 ≤ p.2.size ∧ (p.2.size = 0 ↔ p.2.root = .nil) := by
  unfold Dictionary.addNode at h
  split at h
  · rename_i hz
    cases h
    refine ⟨by show 0 ≤ d.size + 1; omega, ?_⟩
    show d.size + 1 = 0 ↔ Node.leaf k i = Node.nil
    simp [Node.leaf, hz]
  · split at h
    · cases h
    · cases h
      exact ⟨h0, hs⟩
    · rename_i t ht
      cases h
      have hn := (isNode_iff_ne_nil t).mp (addNodeLoop_isNode fuel k i d.root [] ht)
      refine ⟨by show 0 ≤ d.size + 1; omega, ?_⟩
      show d.size + 1 = 0 ↔ t = Node.nil
      constructor
      · intro hh
        omega
      · intro hh
        exact absurd hh hn

/-- `deleteNode` keeps `size` non-negative and 0 exactly when the root is
absent. -/
theorem Dictionary.deleteNode_size_root [DecidableEq V] (fuel : Nat) (d : Dictionary K V)
    (k : K) (h0 : 0 ≤ d.size) {p : Bool × Dictionary K V} (hs : d.size = 0 ↔ d.root = .nil)
    (h : d.deleteNode fuel k = .ok p) :
    0 ≤ p.2.size ∧ (p.2.size = 0 ↔ p.2.root = .nil) := by
  unfold Dictionary.deleteNode at h
  split at h
  · cases h
  · rename_i it hfind
    split at h
    · cases h
      exact ⟨h0, hs⟩
    · rename_i hne
      have hsz : d.size ≠ 0 := by
        intro hz
        unfold Dictionary.find at hfind
        rw [if_pos hz] at hfind
        cases hfind
        exact hne (Iterator.eq_self _)
      unfold Dictionary.deleteNodeAt at h
      split at h
      · cases h
      · split at h
        · cases h
        · split at h
          · cases h
          · split at h
            · cases h
            · rename_i t ht
              cases h
              refine ⟨by show 0 ≤ d.size - 1; omega, ?_⟩
              show d.size - 1 = 0 ↔ (if d.size - 1 = 0 then Node.nil else t) = Node.nil
              constructor
              · intro hh
                rw [if_pos hh]
              · intro hh
                by_contra hc
                rw [if_neg hc] at hh
                rcases deleteNodeCases_isNode fuel d.size it.curr it.up ht with h1 | h1
                · exact (isNode_iff_ne_nil t).mp h1 hh
                · exact hc h1

/-- After every run of `addNode` / `deleteNode` calls on an initially empty
dictionary that returns, `size` is 0 exactly when the root is absent. -/
theorem runOps_size_root [DecidableEq V] (fuel : Nat) (ops : List (Op K V))
    (d d2 : Dictionary K V) (h0 : 0 ≤ d.size) (hs : d.size = 0 ↔ d.root = .nil)
    (h : runOps fuel ops d = .ok d2) : 0 ≤ d2.size ∧ (d2.size = 0 ↔ d2.root = .nil) := by
  induction ops generalizing d with
  | nil =>
    simp only [runOps] at h
    cases h
    exact ⟨h0, hs⟩
  | cons op ops ih =>
    cases op with
    | add k i =>
      simp only [runOps] at h
      split at h
      · cases h
      · rename_i p hp
        obtain ⟨a1, a2⟩ := d.addNode_size_root fuel k i h0 hs hp
        exact ih p.2 a1 a2 h
    | del k =>
      simp only [runOps] at h
      split at h
      · cases h
      · rename_i p hp
        obtain ⟨a1, a2⟩ := d.deleteNode_size_root fuel k h0 hs hp
        exact ih p.2 a1 a2 h

/-! ## The public calls on a well-formed dictionary -/

theorem bst_of_toList {t : Node K V} {xs : List (K × V)} (h : t.toList = xs)
    (hs : (xs.map Prod.fst).Pairwise (· < ·)) : t.BST := by
  rw [bst_iff_sorted, Node.keys, h]
  exact hs

theorem Dictionary.WellFormed.good {d : Dictionary K V} (hw : d.WellFormed) : d.root.Good :=
  (good_iff d.root).mpr ⟨hw.cached, hw.balanced⟩

theorem wellFormed_of_good {d : Dictionary K V} (hb : d.root.BST) (hg : d.root.Good)
    (hs : d.size = d.root.count) : d.WellFormed :=
  ⟨hb, ((good_iff d.root).mp hg).1, ((good_iff d.root).mp hg).2, hs⟩

theorem bst_leaf (k : K) (i : V) : (Node.leaf k i : Node K V).BST := by
  simp [Node.leaf, Node.BST, keys_nil]

/-- `addNode` with an absent key on a well-formed dictionary. -/
theorem Dictionary.addNode_absent (fuel : Nat) (d : Dictionary K V) (k : K) (i : V)
    (hw : d.WellFormed) (hk : k ∉ d.root.keys) (hf : 2 * d.root.count ≤ fuel) :
    ∃ d2, d.addNode fuel k i = .ok (true, d2) ∧ d2.WellFormed ∧
      d2.root.toList = insertPair k i d.root.toList ∧ d2.size = d.size + 1 ∧
      d2.self = d.self ∧ (d.root = .nil → d2.root = Node.leaf k i) := by
  have hsz := hw.size_eq
  unfold Dictionary.addNode
  by_cases h0 : d.size = 0
  · have hnil : d.root = .nil := count_eq_zero (by omega)
    simp only [h0, if_true]
    refine ⟨_, rfl, ?_, ?_, rfl, rfl, fun _ => rfl⟩
    · refine wellFormed_of_good (bst_leaf k i) (good_leaf k i) ?_
      simp [Node.leaf, Node.count]
    · simp [hnil, Node.toList, Node.leaf, insertPair_nil]
  · simp only [h0, if_false]
    have hnode : d.root.isNode = true := isNode_of_count_pos (by omega)
    obtain ⟨hg, hu⟩ := good_of_rebuild [] d.root hw.good
    obtain ⟨o, ho, -⟩ := addNodeLoop_good fuel k i d.root [] hw.good hnode hu
      (by simp only [List.length_nil]; omega)
    obtain ⟨t, rfl, htl⟩ := addNodeLoop_toList fuel k i d.root [] hw.bst ho hk
    obtain ⟨o2, ho2, hgood⟩ := addNodeLoop_good fuel k i d.root [] hw.good hnode hu
      (by simp only [List.length_nil]; omega)
    rw [ho] at ho2
    cases ho2
    simp only [ctxBefore, ctxAfter, List.nil_append, List.append_nil] at htl
    rw [ho]
    refine ⟨_, rfl, ?_, htl, rfl, rfl, ?_⟩
    · refine wellFormed_of_good ?_ (hgood t rfl) ?_
      · exact bst_of_toList htl (pairwise_insertPair k i _ ((bst_iff_sorted _).mp hw.bst))
      · show d.size + 1 = ((t.count : Nat) : Int)
        rw [← length_toList t, htl, length_insertPair k i _ hk, length_toList]
        push_cast
        omega
    · intro hnil
      rw [hnil] at hnode
      simp [Node.isNode] at hnode

theorem filter_ne_of_pairwise (A B : List (K × V)) (k : K) (i : V)
    (h : ((A ++ (k, i) :: B).map Prod.fst).Pairwise (· < ·)) :
    (A ++ (k, i) :: B).filter (fun p => decide (p.1 ≠ k)) = A ++ B := by
  rw [List.pairwise_map, List.pairwise_append, List.pairwise_cons] at h
  obtain ⟨-, ⟨hB, -⟩, hA⟩ := h
  have h1 : A.filter (fun p => decide (p.1 ≠ k)) = A :=
    List.filter_eq_self.mpr (fun p hp => by
      simpa using ne_of_lt (hA p hp (k, i) (List.mem_cons_self _ _)))
  have h2 : B.filter (fun p => decide (p.1 ≠ k)) = B :=
    List.filter_eq_self.mpr (fun p hp => by simpa using ne_of_gt (hB p hp))
  rw [List.filter_append, List.filter_cons, h1, h2, if_neg (by simp)]

theorem pairwise_filter_fst (xs : List (K × V)) (q : K × V → Bool)
    (h : (xs.map Prod.fst).Pairwise (· < ·)) :
    ((xs.filter q).map Prod.fst).Pairwise (· < ·) := by
  rw [List.pairwise_map] at h ⊢
  exact h.filter _

/-- `deleteNode` with a present key on a well-formed dictionary. -/
theorem Dictionary.deleteNode_present [DecidableEq V] (fuel : Nat) (d : Dictionary K V)
    (k : K) (hw : d.WellFormed) (hk : k ∈ d.root.keys) (hf : 2 * d.root.count ≤ fuel) :
    ∃ d2, d.deleteNode fuel k = .ok (true, d2) ∧
      d2.root.toList = d.root.toList.filter (fun p => decide (p.1 ≠ k)) ∧
      d2.size = d.size - 1 ∧ d2.self = d.self ∧ d2.root.BST ∧ d2.size = d2.root.count ∧
      (d.size = 1 → d2.root = .nil) := by
  have hsz := hw.size_eq
  obtain ⟨it, hfind, hdict, hnode, -⟩ := d.find_spec k hw.bst (size_zero_iff hw.size_eq)
  obtain ⟨l, i, b, h, r, hcurr, hreb⟩ := hnode hk
  obtain ⟨curr, up, dict⟩ := it
  simp only at hcurr hreb hdict
  subst hcurr hdict
  have hg : (rebuild (Node.node l k i b h r) up).Good := by rw [hreb]; exact hw.good
  obtain ⟨t, ht⟩ := deleteNodeCases_ok fuel d.size (.node l k i b h r) up rfl hg
    (by rw [hreb]; exact hf) (by rw [hreb]; exact hsz)
  obtain ⟨X, hX, -, hXg⟩ := deleteNodeCases_toList fuel d.size l k i b h r up ht
  have hXe := hXg (good_of_rebuild up _ hg).1
  subst hXe
  have hroot : d.root.toList =
      (ctxBefore up ++ l.toList) ++ (k, i) :: (r.toList ++ ctxAfter up) := by
    rw [← hreb, toList_rebuild]
    simp [Node.toList, List.append_assoc]
  have hsorted := (bst_iff_sorted _).mp hw.bst
  rw [Node.keys, hroot] at hsorted
  have hfilter := filter_ne_of_pairwise _ _ k i hsorted
  have hlen : d.root.count = (ctxBefore up ++ l.toList ++ (r.toList ++ ctxAfter up)).length + 1 := by
    rw [← length_toList, hroot]
    simp only [List.length_append, List.length_cons]
    omega
  have hfinal : (if d.size - 1 = 0 then Node.nil else t).toList =
      ctxBefore up ++ l.toList ++ (r.toList ++ ctxAfter up) := by
    split
    · rename_i h1
      have : (ctxBefore up ++ l.toList ++ (r.toList ++ ctxAfter up)).length = 0 := by omega
      rw [List.length_eq_zero.mp this]
      rfl
    · rw [hX]
      simp [List.append_assoc]
  refine ⟨{ d with root := if d.size - 1 = 0 then .nil else t, size := d.size - 1 }, ?_, ?_,
    rfl, rfl, ?_, ?_, ?_⟩
  · unfold Dictionary.deleteNode
    rw [hfind]
    have heq : Iterator.eq ⟨Node.node l k i b h r, up, some d.self⟩ d.end = false := by
      simp [Iterator.eq, Dictionary.end, Node.isNode]
    simp only [heq, Bool.false_eq_true, if_false]
    unfold Dictionary.deleteNodeAt
    simp [Iterator.isEnd, Node.isNode, hreb, ht]
  · show (if d.size - 1 = 0 then Node.nil else t).toList = _
    rw [hfinal, hroot, hfilter]
  · apply bst_of_toList hfinal
    rw [← hfilter]
    exact pairwise_filter_fst _ _ hsorted
  · show d.size - 1 = (((if d.size - 1 = 0 then Node.nil else t).count : Nat) : Int)
    rw [← length_toList, hfinal]
    omega
  · intro h1
    show (if d.size - 1 = 0 then Node.nil else t) = Node.nil
    rw [if_pos (by omega)]

/-! ## Search-tree order is kept by every call that returns -/

theorem Dictionary.addNode_bst (fuel : Nat) (d : Dictionary K V) (k : K) (i : V)
    (hb : d.root.BST) {p : Bool × Dictionary K V} (h : d.addNode fuel k i = .ok p) :
    p.2.root.BST := by
  unfold Dictionary.addNode at h
  split at h
  · cases h
    exact bst_leaf k i
  · split at h
    · cases h
    · cases h
      exact hb
    · rename_i t ht
      cases h
      by_cases hk : k ∈ d.root.keys
      · rw [addNodeLoop_present fuel k i d.root [] hb hk] at ht
        cases ht
      · obtain ⟨t2, ht2, htl⟩ := addNodeLoop_toList fuel k i d.root [] hb ht hk
        cases ht2
        simp only [ctxBefore, ctxAfter, List.nil_append, List.append_nil] at htl
        exact bst_of_toList htl (pairwise_insertPair k i _ ((bst_iff_sorted _).mp hb))

theorem Dictionary.deleteNodeAt_bst [DecidableEq V] (fuel : Nat) (d : Dictionary K V)
    (it : Iterator K V) (hb : d.root.BST) {p : Bool × Dictionary K V}
    (h : d.deleteNodeAt fuel it = .ok p) : p.2.root.BST := by
  unfold Dictionary.deleteNodeAt at h
  split at h
  · cases h
  · split at h
    · cases h
    · split at h
      · cases h
      · rename_i hreb
        split at h
        · cases h
        · rename_i t ht
          cases h
          show (if d.size - 1 = 0 then Node.nil else t).BST
          split
          · trivial
          · have hsub := deleteNodeCases_sublist fuel d.size it.curr it.up ht
            simp only [ne_eq, Decidable.not_not] at hreb
            rw [hreb] at hsub
            rw [bst_iff_sorted] at hb ⊢
            exact hb.sublist (hsub.map Prod.fst)

theorem Dictionary.deleteNode_bst [DecidableEq V] (fuel : Nat) (d : Dictionary K V) (k : K)
    (hb : d.root.BST) {p : Bool × Dictionary K V} (h : d.deleteNode fuel k = .ok p) :
    p.2.root.BST := by
  unfold Dictionary.deleteNode at h
  split at h
  · cases h
  · split at h
    · cases h
      exact hb
    · exact d.deleteNodeAt_bst fuel _ hb h

/-- Every run of `addNode` / `deleteNode` calls that returns leaves a search
tree, whatever the fuel. -/
theorem runOps_bst [DecidableEq V] (fuel : Nat) (ops : List (Op K V)) (d d2 : Dictionary K V)
    (hb : d.root.BST) (h : runOps fuel ops d = .ok d2) : d2.root.BST := by
  induction ops generalizing d with
  | nil =>
    simp only [runOps] at h
    cases h
    exact hb
  | cons op ops ih =>
    cases op with
    | add k i =>
      simp only [runOps] at h
      split at h
      · cases h
      · rename_i p hp
        exact ih p.2 (d.addNode_bst fuel k i hb hp) h
    | del k =>
      simp only [runOps] at h
      split at h
      · cases h
      · rename_i p hp
        exact ih p.2 (d.deleteNode_bst fuel k hb hp) h

/-! ## In-order walk with `operator++` -/

theorem bst_of_rebuild (c : Node K V) (up : List (Frame K V)) (h : (rebuild c up).BST) :
    c.BST := by
  induction up generalizing c with
  | nil => exact h
  | cons f up ih =>
    have := ih _ h
    cases f with
    | inLeft k i b hh r => exact this.1
    | inRight l k i b hh => exact this.2.1

/-- In a search tree every parent reached through a left link has a greater
key than the keys below the cursor, every parent reached through a right link a
smaller one. -/
theorem ctx_order (c : Node K V) (up : List (Frame K V)) (h : (rebuild c up).BST) :
    ∀ x ∈ c.keys, ∀ f ∈ up,
      (f.isLeft = true → x < f.key) ∧ (f.isLeft = false → f.key < x) := by
  induction up generalizing c with
  | nil =>
    intro x _ f hf
    cases hf
  | cons g up ih =>
    intro x hx f hf
    have hb : (g.plug c).BST := bst_of_rebuild (g.plug c) up h
    cases g with
    | inLeft k i b hh r =>
      have hx2 : x ∈ (Node.node c k i b hh r).keys := by
        rw [mem_keys_node]
        exact Or.inl hx
      rcases List.mem_cons.mp hf with rfl | hf
      · exact ⟨fun _ => hb.2.2.1 x hx, fun hh => by simp [Frame.isLeft] at hh⟩
      · exact ih _ h x hx2 f hf
    | inRight l k i b hh =>
      have hx2 : x ∈ (Node.node l k i b hh c).keys := by
        rw [mem_keys_node]
        exact Or.inr (Or.inr hx)
      rcases List.mem_cons.mp hf with rfl | hf
      · exact ⟨fun hh => by simp [Frame.isLeft] at hh, fun _ => hb.2.2.2 x hx⟩
      · exact ih _ h x hx2 f hf

/-- Where the upward loop of `operator++` stops, when the parents are ordered
around `k` as in a search tree: at the nearest parent reached through a left
link, whose pair is the next one of the in-order sequence; or past the end when
nothing comes after. -/
theorem climbGreater_spec (k : K) (c : Node K V) (up : List (Frame K V))
    (hord : ∀ f ∈ up, (f.isLeft = true → k < f.key) ∧ (f.isLeft = false → f.key < k)) :
    (ctxAfter up = [] ∧ climbGreater k c up = (.nil, [])) ∨
    (∃ l2 k2 i2 b2 h2 r2, (climbGreater k c up).1 = .node l2 k2 i2 b2 h2 r2 ∧
      rebuild (climbGreater k c up).1 (climbGreater k c up).2 = rebuild c up ∧
      ctxAfter up = (k2, i2) :: (r2.toList ++ ctxAfter (climbGreater k c up).2)) := by
  induction up generalizing c with
  | nil => exact Or.inl ⟨rfl, rfl⟩
  | cons f up ih =>
    have hf := hord f (List.mem_cons_self _ _)
    have hup : ∀ g ∈ up, (g.isLeft = true → k < g.key) ∧ (g.isLeft = false → g.key < k) :=
      fun g hg => hord g (List.mem_cons_of_mem _ hg)
    cases f with
    | inLeft fk fi fb fh fr =>
      have hlt : k < fk := hf.1 rfl
      right
      refine ⟨c, fk, fi, fb, fh, fr, ?_, ?_, ?_⟩ <;>
        simp [climbGreater, Frame.key, hlt, Frame.plug, rebuild, ctxAfter]
    | inRight fl fk fi fb fh =>
      have hlt : ¬ k < fk := not_lt.mpr (hf.2 rfl).le
      have hstep : climbGreater k c (Frame.inRight fl fk fi fb fh :: up) =
          climbGreater k ((Frame.inRight fl fk fi fb fh).plug c) up := by
        simp [climbGreater, Frame.key, hlt]
      rw [hstep]
      exact ih _ hup

/-- One `operator++` on an iterator that designates a node of a search tree:
it returns, and what is left to visit is what was left without the pair of the
node. -/
theorem Iterator.increment_spec (it : Iterator K V) (root : Node K V) (s : Nat)
    (hon : it.On root) (hb : root.BST) (hd : it.dictionary = some s) :
    ∃ it2, it.increment = .ok it2 ∧ it2.dictionary = some s ∧
      it.remaining = (it.remaining.take 1) ++ it2.remaining ∧
      (it2.On root ∨ (it2.curr = .nil ∧ it2.up = [])) := by
  obtain ⟨curr, up, dict⟩ := it
  obtain ⟨hn, hreb⟩ := hon
  simp only at hn hreb hd
  subst hd
  cases curr with
  | nil => simp [Node.isNode] at hn
  | node l k i b h r =>
    cases r with
    | node rl rk ri rb rh rr =>
      obtain ⟨sk, si, sb, sh, sr, path, h1, h2, h3⟩ :=
        goLeftmost_spec (.node rl rk ri rb rh rr) rfl (Frame.inRight l k i b h :: up)
      refine ⟨⟨.node .nil sk si sb sh sr, path ++ Frame.inRight l k i b h :: up, some s⟩,
        ?_, rfl, ?_, Or.inl ⟨rfl, ?_⟩⟩
      · simp [Iterator.increment, Iterator.isEmpty, Iterator.isRightPossible, Node.getRight,
          Node.isNode, h1]
      · have hr : (Node.node rl rk ri rb rh rr).toList = (sk, si) :: (sr.toList ++ ctxAfter path) := by
          rw [← h2, toList_rebuild, h3]
          simp [Node.toList]
        simp only [Iterator.remaining, List.take_succ_cons, List.take_zero, hr, ctxAfter_append,
          ctxAfter]
        simp [List.append_assoc]
      · show rebuild (Node.node .nil sk si sb sh sr) (path ++ Frame.inRight l k i b h :: up) = root
        rw [rebuild_append, h2, ← hreb]
        rfl
    | nil =>
      have hord := ctx_order (.node l k i b h .nil) up (by rw [hreb]; exact hb) k
        (by rw [mem_keys_node]; exact Or.inr (Or.inl rfl))
      have hinc : Iterator.increment ⟨.node l k i b h .nil, up, some s⟩ =
          .ok ⟨(climbGreater k (.node l k i b h .nil) up).1,
            (climbGreater k (.node l k i b h .nil) up).2, some s⟩ := by
        simp [Iterator.increment, Iterator.isEmpty, Iterator.isRightPossible, Node.getRight,
          Node.isNode]
      refine ⟨_, hinc, rfl, ?_, ?_⟩
      · rcases climbGreater_spec k (.node l k i b h .nil) up hord with ⟨h1, h2⟩ | ⟨l2, k2, i2, b2, h2, r2, e1, e2, e3⟩
        · simp [Iterator.remaining, h1, h2, Node.toList]
        · simp only [Iterator.remaining, e1, Node.toList, List.nil_append, e3, List.take_succ_cons,
            List.take_zero]
          rfl
      · rcases climbGreater_spec k (.node l k i b h .nil) up hord with ⟨h1, h2⟩ | ⟨l2, k2, i2, b2, h2, r2, e1, e2, e3⟩
        · right
          simp [h2]
        · left
          refine ⟨?_, ?_⟩
          · show (climbGreater k (Node.node l k i b h .nil) up).1.isNode = true
            rw [e1]
            rfl
          · show rebuild (climbGreater k (Node.node l k i b h .nil) up).1
              (climbGreater k (Node.node l k i b h .nil) up).2 = root
            rw [e2, hreb]

/-- The walk from an iterator on a search tree up to the end iterator returns
within as many steps as pairs are left, and enters its body once for each of
them, in order. -/
theorem traverse_spec (root : Node K V) (s : Nat) (hb : root.BST) :
    ∀ (fuel : Nat) (it : Iterator K V), it.dictionary = some s →
      (it.On root ∨ (it.curr = .nil ∧ it.up = [])) → it.remaining.length ≤ fuel →
      ∃ visited, traverse ⟨.nil, [], some s⟩ fuel it = .ok visited ∧
        visited.map Iterator.deref = it.remaining.map Res.ok ∧
        ∀ v ∈ visited, v.On root := by
  intro fuel
  induction fuel with
  | zero =>
    intro it hd hon hf
    rcases hon with hon | ⟨h1, h2⟩
    · obtain ⟨curr, up, dict⟩ := it
      cases curr with
      | nil => simp [Iterator.On, Node.isNode] at hon
      | node l k i b h r => simp [Iterator.remaining] at hf
    · obtain ⟨curr, up, dict⟩ := it
      simp only at h1 h2 hd
      subst h1 h2 hd
      exact ⟨[], by simp [traverse, Iterator.eq_self], rfl, fun v hv => by cases hv⟩
  | succ fuel ih =>
    intro it hd hon hf
    rcases hon with hon | ⟨h1, h2⟩
    · obtain ⟨it2, hinc, hd2, hrem, hon2⟩ := it.increment_spec root s hon hb hd
      have hne : it.eq ⟨.nil, [], some s⟩ = false := it.eq_end_of_node _ hon.1 rfl
      obtain ⟨curr, up, dict⟩ := it
      cases curr with
      | nil => simp [Iterator.On, Node.isNode] at hon
      | node l k i b h r =>
        simp only at hd
        subst hd
        have hrem2 : Iterator.remaining ⟨.node l k i b h r, up, some s⟩ = (k, i) :: it2.remaining := by
          rw [hrem]
          simp [Iterator.remaining]
        rw [hrem2] at hf
        simp only [List.length_cons] at hf
        obtain ⟨rest, hrest, hmap, hall⟩ := ih it2 hd2 hon2 (by omega)
        refine ⟨⟨.node l k i b h r, up, some s⟩ :: rest, ?_, ?_, ?_⟩
        · rw [traverse]
          simp only [hne, Bool.false_eq_true, if_false, hinc, hrest]
        · rw [hrem2]
          simp [hmap, Iterator.deref, Iterator.isEmpty]
        · intro v hv
          rcases List.mem_cons.mp hv with rfl | hv
          · exact hon
          · exact hall v hv
    · obtain ⟨curr, up, dict⟩ := it
      simp only at h1 h2 hd
      subst h1 h2 hd
      exact ⟨[], by simp [traverse, Iterator.eq_self], rfl, fun v hv => by cases hv⟩

/-- The whole walk `for(it = begin(); it != end(); ++it)` over a search
tree. -/
theorem Dictionary.traverse_begin (d : Dictionary K V) (hb : d.root.BST) (fuel : Nat)
    (hf : d.root.count ≤ fuel) :
    ∃ visited, traverse d.end fuel d.begin = .ok visited ∧
      visited.map Iterator.deref = d.root.toList.map Res.ok ∧
      (∀ v ∈ visited, v.On d.root) ∧ visited.length = d.root.count := by
  obtain ⟨h1, h2, h3, -⟩ := d.begin_spec
  obtain ⟨visited, hv, hmap, hall⟩ := traverse_spec d.root d.self hb fuel d.begin h1 h3
    (by rw [h2, length_toList]; exact hf)
  refine ⟨visited, hv, by rw [hmap, h2], hall, ?_⟩
  have := congrArg List.length hmap
  rw [List.length_map, List.length_map, h2, length_toList] at this
  exact this

/-! ## More on the public calls -/

/-- In a search tree a key has one info. -/
theorem info_unique {t : Node K V} (hb : t.BST) {k : K} {a b : V}
    (ha : (k, a) ∈ t.toList) (hb2 : (k, b) ∈ t.toList) : a = b := by
  have hnd : (t.toList.map Prod.fst).Nodup :=
    ((bst_iff_sorted t).mp hb).imp (fun h => ne_of_lt h)
  have := List.inj_on_of_nodup_map hnd ha hb2 rfl
  exact (Prod.mk.inj this).2

/-- `addNode` on a well-formed dictionary returns a well-formed dictionary
with at most one node more. -/
theorem Dictionary.addNode_wf (fuel : Nat) (d : Dictionary K V) (k : K) (i : V)
    (hw : d.WellFormed) (hf : 2 * d.root.count ≤ fuel) :
    ∃ b d2, d.addNode fuel k i = .ok (b, d2) ∧ d2.WellFormed ∧
      d2.root.count ≤ d.root.count + 1 := by
  by_cases hk : k ∈ d.root.keys
  · exact ⟨false, d, d.addNode_present fuel k i hw.bst hw.size_eq hk, hw, by omega⟩
  · obtain ⟨d2, h1, h2, -, h4, -⟩ := d.addNode_absent fuel k i hw hk hf
    refine ⟨true, d2, h1, h2, ?_⟩
    have := h2.size_eq
    have := hw.size_eq
    omega

theorem wellFormed_empty (self : Nat) : (Dictionary.empty self : Dictionary K V).WellFormed :=
  ⟨trivial, trivial, trivial, rfl⟩

/-- A run of insertions only, started on a well-formed dictionary, returns a
well-formed dictionary. -/
theorem runAdds_wf [DecidableEq V] (kvs : List (K × V)) :
    ∀ (d : Dictionary K V) (fuel : Nat), d.WellFormed →
      2 * (d.root.count + kvs.length) ≤ fuel →
      ∃ d2, runOps fuel (kvs.map (fun p => Op.add p.1 p.2)) d = .ok d2 ∧ d2.WellFormed := by
  induction kvs with
  | nil =>
    intro d fuel hw _
    exact ⟨d, rfl, hw⟩
  | cons p kvs ih =>
    intro d fuel hw hf
    simp only [List.length_cons] at hf
    obtain ⟨b, d2, h1, h2, h3⟩ := d.addNode_wf fuel p.1 p.2 hw (by omega)
    obtain ⟨d3, h4, h5⟩ := ih d2 fuel h2 (by omega)
    refine ⟨d3, ?_, h5⟩
    simp only [List.map_cons, runOps, h1]
    exact h4

/-! ## The claims -/

/-- C1 (the code departs from the claim): after the eight insertions
6, 3, 7, 2, 4, 8, 1, 5 into an empty dictionary the tree is well-formed and
`isAVL()` answers `true`; the call `deleteNode(8)` that follows returns `true`
and leaves a tree on which `isAVL()` answers `false`, in which the node of key
3 carries the balance factor -2. -/
theorem C1_isAVL_false_after_deleteNode :
    runOps 16 buildOps (Dictionary.empty 0) = .ok builtDict ∧
      builtDict.WellFormed ∧ builtDict.isAVL.1 = true ∧
      builtDict.deleteNode 16 8 = .ok (true, afterDelete8) ∧
      afterDelete8.isAVL.1 = false ∧ ¬ afterDelete8.root.Balanced := by
  refine ⟨by decide, by decide, by decide, by decide, by decide, by decide⟩

/-- C2: on a well-formed dictionary (search-tree order, cached heights and
balance factors equal to the recomputed ones, balance factors in {-1, 0, 1},
`size` equal to the number of nodes) `addNode` returns, whatever the key and
the info, and the dictionary after the call is well-formed again and `isAVL()`
answers `true` on it without writing anything; and every run of insertions
started on the empty dictionary returns a well-formed dictionary on which
`isAVL()` answers `true`. -/
theorem C2_addNode_keeps_wellFormed [DecidableEq V] (d : Dictionary K V) (k : K) (i : V)
    (fuel : Nat) (hw : d.WellFormed) (hf : 2 * d.root.count ≤ fuel) :
    (∃ b d2, d.addNode fuel k i = .ok (b, d2) ∧ d2.WellFormed ∧ d2.isAVL = (true, d2)) ∧
    (∀ (kvs : List (K × V)) (self fuel2 : Nat), 2 * kvs.length ≤ fuel2 →
      ∃ d3, runOps fuel2 (kvs.map (fun p => Op.add p.1 p.2)) (Dictionary.empty self) = .ok d3 ∧
        d3.WellFormed ∧ d3.isAVL = (true, d3)) := by
  constructor
  · obtain ⟨b, d2, h1, h2, -⟩ := d.addNode_wf fuel k i hw hf
    exact ⟨b, d2, h1, h2, d2.isAVL_good h2.good⟩
  · intro kvs self fuel2 hf2
    obtain ⟨d3, h1, h2⟩ := runAdds_wf kvs (Dictionary.empty self) fuel2 (wellFormed_empty self)
      (by simp only [Dictionary.empty, Node.count]; omega)
    exact ⟨d3, h1, h2, d3.isAVL_good h2.good⟩

/-- C2, at the insertion of key 9 into the eight-node tree `builtDict`. -/
theorem C2_witness :
    builtDict.WellFormed ∧
      ∃ b d2, builtDict.addNode 16 9 0 = .ok (b, d2) ∧ d2.WellFormed ∧ d2.isAVL = (true, d2) :=
  ⟨by decide, (C2_addNode_keeps_wellFormed builtDict 9 0 16 (by decide) (by decide)).1⟩

set_option maxRecDepth 100000 in
/-- The insertions 6, 3, 7, 2, 4, 8, 1, 5 followed by `deleteNode(8)`,
`deleteNode(5)` and `deleteNode(6)`: the last call ends in a dereference of
`nullptr`, whatever the number of iterations granted beyond 3. -/
theorem runOps_null_dereference (fuel : Nat) :
    runOps (fuel + 3) (buildOps ++ [.del 8, .del 5, .del 6]) (Dictionary.empty 0)
      = .fail .nullPointer := rfl

set_option maxRecDepth 100000 in
/-- The same run does not return, whatever the number of iterations granted. -/
theorem runOps_never_returns (fuel : Nat) (d : Dictionary Nat Nat) :
    runOps fuel (buildOps ++ [.del 8, .del 5, .del 6]) (Dictionary.empty 0) ≠ .ok d := by
  intro e
  match fuel, e with
  | 0, e => cases e
  | 1, e => cases e
  | 2, e => cases e
  | fuel + 3, e =>
    rw [runOps_null_dereference] at e
    cases e

set_option maxRecDepth 100000 in
/-- C3 (the code departs from the claim): the insertions 6, 3, 7, 2, 4, 8, 1, 5
into an empty dictionary followed by `deleteNode(8)` and `deleteNode(5)` return
a tree in search-tree order in which the node of key 3 carries the balance
factor -2 and has no right child; the call `deleteNode(6)` that follows
reaches the root with balance factor -2, takes `rotateLeftRight` because the
balance factor of that left child is not -1, and dereferences `nullptr` in
`rotateLeft`: the run of these eleven calls does not return, whatever the
number of iterations granted, and leaves no tree in which an order could
hold. -/
theorem C3_run_ends_in_null_dereference :
    runOps 16 (buildOps ++ [.del 8, .del 5]) (Dictionary.empty 0) = .ok afterDelete5 ∧
      afterDelete5.root.BST ∧
      (∀ fuel, afterDelete5.deleteNode (fuel + 3) 6 = .fail .nullPointer) ∧
      (∀ fuel, runOps (fuel + 3) (buildOps ++ [.del 8, .del 5, .del 6]) (Dictionary.empty 0)
        = .fail .nullPointer) ∧
      ∀ fuel d, runOps fuel (buildOps ++ [.del 8, .del 5, .del 6]) (Dictionary.empty 0)
        ≠ .ok d := by
  refine ⟨by decide, by decide, fun fuel => rfl, runOps_null_dereference, runOps_never_returns⟩

/-- C4 (the code departs from the claim): after the insertions
6, 3, 7, 2, 4, 8, 1, 5 and the calls `deleteNode(8)`, `deleteNode(3)` on an
initially empty dictionary, `getSize()` is 6 while five nodes are reachable
from the root, and key 1, inserted and never deleted, is in no node: `find(1)`
is the end iterator. -/
theorem C4_size_differs_from_node_count :
    runOps 16 (buildOps ++ [.del 8, .del 3]) (Dictionary.empty 0) = .ok afterDelete3 ∧
      afterDelete3.getSize = 6 ∧ afterDelete3.root.count = 5 ∧
      1 ∉ afterDelete3.root.keys ∧ afterDelete3.find 1 = .ok afterDelete3.end := by
  refine ⟨by decide, by decide, by decide, by decide, by decide⟩

/-- C5: on a well-formed dictionary that does not hold key `k`, `addNode(k, i)`
returns `true`; `getSize()` grows by exactly one; `find(k)` afterwards
designates a node of the new tree whose key is `k` and whose info is `i`; every
key/info pair held before is still held; and on an empty tree the new node is
the root, with height 1 and balance factor 0. -/
theorem C5_addNode_absent_key (d : Dictionary K V) (k : K) (i : V) (fuel : Nat)
    (hw : d.WellFormed) (hk : k ∉ d.root.keys) (hf : 2 * d.root.count ≤ fuel) :
    ∃ d2, d.addNode fuel k i = .ok (true, d2) ∧ d2.getSize = d.getSize + 1 ∧
      (∃ it l b h r, d2.find k = .ok it ∧ it.curr = .node l k i b h r ∧
        rebuild it.curr it.up = d2.root) ∧
      (∀ p ∈ d.root.toList, p ∈ d2.root.toList) ∧
      (d.root = .nil → d2.root = .node .nil k i 0 1 .nil) := by
  obtain ⟨d2, h1, h2, h3, h4, -, h6⟩ := d.addNode_absent fuel k i hw hk hf
  have hmem : (k, i) ∈ d2.root.toList := by
    rw [h3, mem_insertPair]
    exact Or.inl rfl
  refine ⟨d2, h1, h4, ?_, ?_, h6⟩
  · obtain ⟨it, hf1, -, hf3, -⟩ := d2.find_spec k h2.bst (size_zero_iff h2.size_eq)
    obtain ⟨l, i2, b, h, r, hc, hreb⟩ := hf3 (mem_keys_of_mem_toList hmem)
    have hi : i2 = i := by
      rw [hc] at hreb
      exact info_unique h2.bst (mem_toList_of_on hreb) hmem
    subst hi
    exact ⟨it, l, b, h, r, hf1, hc, hreb⟩
  · intro p hp
    rw [h3, mem_insertPair]
    right
    refine ⟨hp, fun hpk => hk ?_⟩
    rw [← hpk]
    exact mem_keys_of_mem_toList hp

/-- C5, at the insertion of key 9 with info 7 into `builtDict`. -/
theorem C5_witness :
    builtDict.WellFormed ∧ 9 ∉ builtDict.root.keys ∧
      ∃ d2, builtDict.addNode 16 9 7 = .ok (true, d2) ∧ d2.getSize = builtDict.getSize + 1 ∧
        (∃ it l b h r, d2.find 9 = .ok it ∧ it.curr = .node l 9 7 b h r ∧
          rebuild it.curr it.up = d2.root) ∧
        (∀ p ∈ builtDict.root.toList, p ∈ d2.root.toList) ∧
        (builtDict.root = .nil → d2.root = .node .nil 9 7 0 1 .nil) :=
  ⟨by decide, by decide,
    C5_addNode_absent_key builtDict 9 7 16 (by decide) (by decide) (by decide)⟩

/-- C6: on a well-formed dictionary that already holds key `k`, `addNode(k, i)`
returns `false` and the dictionary after the call is the dictionary before it:
same shape, same size, same cached heights and balance factors, same infos (the
info stored under `k` is not replaced by `i`). -/
theorem C6_addNode_present_key (d : Dictionary K V) (k : K) (i : V) (fuel : Nat)
    (hw : d.WellFormed) (hk : k ∈ d.root.keys) :
    d.addNode fuel k i = .ok (false, d) :=
  d.addNode_present fuel k i hw.bst hw.size_eq hk

/-- C6, at the insertion of key 4 with info 7 into `builtDict`, which holds key
4 with info 0. -/
theorem C6_witness :
    builtDict.WellFormed ∧ 4 ∈ builtDict.root.keys ∧
      builtDict.addNode 0 4 7 = .ok (false, builtDict) :=
  ⟨by decide, by decide, C6_addNode_present_key builtDict 4 7 0 (by decide) (by decide)⟩

/-- C7: on a well-formed dictionary that holds key `k`, `deleteNode(k)` returns
`true`; `getSize()` drops by exactly one; `find(k)` afterwards is the end
iterator; every pair with another key is held after the call exactly when it
was held before; and when the last key is removed the root becomes absent. -/
theorem C7_deleteNode_present_key [DecidableEq V] (d : Dictionary K V) (k : K) (fuel : Nat)
    (hw : d.WellFormed) (hk : k ∈ d.root.keys) (hf : 2 * d.root.count ≤ fuel) :
    ∃ d2, d.deleteNode fuel k = .ok (true, d2) ∧ d2.getSize = d.getSize - 1 ∧
      d2.find k = .ok d2.end ∧
      (∀ p : K × V, p.1 ≠ k → (p ∈ d2.root.toList ↔ p ∈ d.root.toList)) ∧
      (d.getSize = 1 → d2.root = .nil) := by
  obtain ⟨d2, h1, h2, h3, -, h5, h6, h7⟩ := d.deleteNode_present fuel k hw hk hf
  refine ⟨d2, h1, h3, ?_, ?_, h7⟩
  · obtain ⟨it, hf1, -, -, hf4⟩ := d2.find_spec k h5 (size_zero_iff h6)
    rw [hf1, hf4]
    intro hmem
    rw [Node.keys, h2, List.mem_map] at hmem
    obtain ⟨p, hp, hpk⟩ := hmem
    rw [List.mem_filter] at hp
    simp [hpk] at hp
  · intro p hp
    rw [h2, List.mem_filter]
    simp [hp]

/-- C7, at the removal of key 3 (a node with two children) from `builtDict`. -/
theorem C7_witness :
    builtDict.WellFormed ∧ 3 ∈ builtDict.root.keys ∧
      ∃ d2, builtDict.deleteNode 16 3 = .ok (true, d2) ∧ d2.getSize = builtDict.getSize - 1 ∧
        d2.find 3 = .ok d2.end ∧
        (∀ p : Nat × Nat, p.1 ≠ 3 → (p ∈ d2.root.toList ↔ p ∈ builtDict.root.toList)) ∧
        (builtDict.getSize = 1 → d2.root = .nil) :=
  ⟨by decide, by decide,
    C7_deleteNode_present_key builtDict 3 16 (by decide) (by decide) (by decide)⟩

/-- C8: on a well-formed dictionary that does not hold key `k` (the empty one
included), `deleteNode(k)` returns `false` and the dictionary after the call is
the dictionary before it: same shape, size, keys, infos, cached heights and
balance factors. -/
theorem C8_deleteNode_absent_key [DecidableEq V] (d : Dictionary K V) (k : K) (fuel : Nat)
    (hw : d.WellFormed) (hk : k ∉ d.root.keys) :
    d.deleteNode fuel k = .ok (false, d) :=
  d.deleteNode_absent fuel k hw.bst hw.size_eq hk

/-- C8, at the removal of key 9 from `builtDict`. -/
theorem C8_witness :
    builtDict.WellFormed ∧ 9 ∉ builtDict.root.keys ∧
      builtDict.deleteNode 0 9 = .ok (false, builtDict) :=
  ⟨by decide, by decide, C8_deleteNode_absent_key builtDict 9 0 (by decide) (by decide)⟩

/-- C9: on a dictionary whose tree is in search-tree order (`size` being 0
exactly when the tree is empty, as it is after every call that returns)
`find(k)` returns an iterator of this dictionary; when some node has key `k`
the iterator designates a node of the tree whose key is `k`, and otherwise (on
the empty tree in particular) it is the end iterator.  `find` is a `const`
member that only reads: its embedding returns the iterator and nothing else. -/
theorem C9_find (d : Dictionary K V) (k : K) (hb : d.root.BST)
    (hs : d.size = 0 ↔ d.root = .nil) :
    ∃ it, d.find k = .ok it ∧ it.dictionary = some d.self ∧
      (k ∈ d.root.keys → ∃ l i b h r, it.curr = .node l k i b h r ∧
        rebuild it.curr it.up = d.root) ∧
      (k ∉ d.root.keys → it = d.end) ∧
      (d.root = .nil → it = d.end) := by
  obtain ⟨it, h1, h2, h3, h4⟩ := d.find_spec k hb hs
  refine ⟨it, h1, h2, h3, h4, fun hn => h4 ?_⟩
  rw [hn]
  simp [keys_nil]

/-- C9, at the search of key 5 in `builtDict`. -/
theorem C9_witness :
    builtDict.root.BST ∧ (builtDict.size = 0 ↔ builtDict.root = .nil) ∧
      ∃ it, builtDict.find 5 = .ok it ∧ it.dictionary = some builtDict.self ∧
        (5 ∈ builtDict.root.keys → ∃ l i b h r, it.curr = .node l 5 i b h r ∧
          rebuild it.curr it.up = builtDict.root) ∧
        (5 ∉ builtDict.root.keys → it = builtDict.end) ∧
        (builtDict.root = .nil → it = builtDict.end) :=
  ⟨by decide, by decide, C9_find builtDict 5 (by decide) (by decide)⟩

/-- C10: on a well-formed dictionary the loop that starts at `begin()` and
applies `operator++` until the iterator equals `end()` comes to its end; the
iterators it goes through designate nodes of the tree, and dereferencing them
gives the in-order sequence of all the pairs of the tree, each once, with
strictly increasing keys; their number is `getSize()`; on the empty tree
`begin()` is `end()` and nothing is visited. -/
theorem C10_walk_begin_to_end (d : Dictionary K V) (fuel : Nat) (hw : d.WellFormed)
    (hf : d.root.count ≤ fuel) :
    ∃ visited, traverse d.end fuel d.begin = .ok visited ∧
      visited.map Iterator.deref = d.root.toList.map Res.ok ∧
      (∀ v ∈ visited, v.On d.root) ∧
      (d.root.toList.map Prod.fst).Pairwise (· < ·) ∧
      (visited.map Iterator.deref).Nodup ∧
      (visited.length : Int) = d.getSize ∧
      (d.root = .nil → d.begin = d.end ∧ visited = []) := by
  obtain ⟨visited, h1, h2, h3, h4⟩ := d.traverse_begin hw.bst fuel hf
  have hsorted := (bst_iff_sorted _).mp hw.bst
  refine ⟨visited, h1, h2, h3, hsorted, ?_, ?_, ?_⟩
  · rw [h2]
    have hnd : (d.root.toList.map Prod.fst).Nodup := hsorted.imp (fun h => ne_of_lt h)
    exact (List.Nodup.of_map _ hnd).map (fun a b hab => by cases hab; rfl)
  · rw [h4]
    exact hw.size_eq.symm
  · intro hn
    refine ⟨d.begin_spec.2.2.2 hn, ?_⟩
    rw [hn] at h4
    exact List.length_eq_zero.mp h4

/-- C10, at the walk over `builtDict`. -/
theorem C10_witness :
    builtDict.WellFormed ∧
      ∃ visited, traverse builtDict.end 8 builtDict.begin = .ok visited ∧
        visited.map Iterator.deref = builtDict.root.toList.map Res.ok ∧
        (∀ v ∈ visited, v.On builtDict.root) ∧
        (builtDict.root.toList.map Prod.fst).Pairwise (· < ·) ∧
        (visited.map Iterator.deref).Nodup ∧
        (visited.length : Int) = builtDict.getSize ∧
        (builtDict.root = .nil → builtDict.begin = builtDict.end ∧ visited = []) :=
  ⟨by decide, C10_walk_begin_to_end builtDict 8 (by decide) (by decide)⟩

end Order

/-! ## The round trip of insertions and removals -/

set_option maxRecDepth 100000 in
/-- C11: the keys 6, 3, 7, 2, 4, 8, 1, 5 inserted in this order into the empty
dictionary and removed in the order 8, 3, 1, 2, 5, 7, 6, 4.  After the seventh
removal one node is left (key 4, height 1) and `size` is 2: the removal of 3
took the node of key 1 away with it, and the removal of 1 found nothing and
returned false.  The last removal frees the root and leaves `size` at 1, so
`root` is not reset: the run has no state after it in which `getSize()` and
`getHeight()` are 0. -/
theorem C11_round_trip_leaves_a_node :
    runOps 16 (buildOps ++ [.del 8, .del 3, .del 1, .del 2, .del 5, .del 7, .del 6])
        (Dictionary.empty 0) = .ok oneNodeSizeTwo ∧
      afterDelete3.deleteNode 16 1 = .ok (false, afterDelete3) ∧
      oneNodeSizeTwo.getSize = 2 ∧ oneNodeSizeTwo.getHeight = 1 ∧
      oneNodeSizeTwo.root.keys = [4] ∧
      (∀ fuel, oneNodeSizeTwo.deleteNode fuel 4 = .fail .danglingRoot) := by
  refine ⟨by decide, by decide, by decide, by decide, by decide, fun fuel => ?_⟩
  rfl

/-! ## Positions of cursors -/

theorem plug_inj {f g : Frame K V} {c c2 : Node K V} (h : f.plug c = g.plug c2)
    (hs : f.isLeft = g.isLeft) : f = g ∧ c = c2 := by
  cases f <;> cases g <;> simp [Frame.plug, Frame.isLeft] at h hs ⊢
  · obtain ⟨h1, h2, h3, h4, h5, h6⟩ := h
    exact ⟨⟨h2, h3, h4, h5, h6⟩, h1⟩
  · obtain ⟨h1, h2, h3, h4, h5, h6⟩ := h
    exact ⟨⟨h1, h2, h3, h4, h5⟩, h6⟩

theorem rebuild_inj (up : List (Frame K V)) :
    ∀ (up2 : List (Frame K V)) (c c2 : Node K V), rebuild c up = rebuild c2 up2 →
      up.map Frame.isLeft = up2.map Frame.isLeft → c = c2 ∧ up = up2 := by
  induction up with
  | nil =>
    intro up2 c c2 h hs
    cases up2 with
    | nil => exact ⟨h, rfl⟩
    | cons g t => simp at hs
  | cons f t ih =>
    intro up2 c c2 h hs
    cases up2 with
    | nil => simp at hs
    | cons g t2 =>
      simp only [List.map_cons, List.cons.injEq] at hs
      simp only [rebuild] at h
      obtain ⟨h1, h2⟩ := ih t2 _ _ h hs.2
      obtain ⟨h3, h4⟩ := plug_inj h1 hs.1
      exact ⟨h4, by rw [h3, h2]⟩

theorem toList_before_after (l : Node K V) (k : K) (i : V) (b h : Int) (r : Node K V)
    (up : List (Frame K V)) (dict : Option Nat) :
    (rebuild (.node l k i b h r) up).toList =
      (Iterator.mk (.node l k i b h r) up dict).before ++
        (k, i) :: (Iterator.mk (.node l k i b h r) up dict).after := by
  rw [toList_rebuild]
  simp [Iterator.before, Iterator.after, Node.toList]

theorem remaining_eq_after (l : Node K V) (k : K) (i : V) (b h : Int) (r : Node K V)
    (up : List (Frame K V)) (dict : Option Nat) :
    (Iterator.mk (.node l k i b h r) up dict).remaining =
      (k, i) :: (Iterator.mk (.node l k i b h r) up dict).after := rfl

section Order
variable [LinearOrder K]

theorem findLoop_here (dict : Nat) (l : Node K V) (k : K) (i : V) (b h : Int) (r : Node K V)
    (up : List (Frame K V)) :
    findLoop dict k (.node l k i b h r) up = .ok ⟨.node l k i b h r, up, some dict⟩ := by
  unfold findLoop
  simp

theorem findLoop_rebuild (dict : Nat) (k : K) (up : List (Frame K V)) :
    ∀ (c : Node K V) (up0 : List (Frame K V)), (rebuild c up).BST → k ∈ c.keys →
      findLoop dict k (rebuild c up) up0 = findLoop dict k c (up ++ up0) := by
  induction up with
  | nil => intro c up0 _ _; rfl
  | cons f t ih =>
    intro c up0 hb hk
    have hc : c.isNode = true := isNode_of_count_pos (count_pos_of_mem_keys hk)
    have hb2 : (f.plug c).BST := bst_of_rebuild (f.plug c) t hb
    have hk2 : k ∈ (f.plug c).keys := by
      cases f <;> simp [Frame.plug, mem_keys_node, hk]
    rw [show rebuild c (f :: t) = rebuild (f.plug c) t from rfl, ih _ up0 hb hk2]
    cases c with
    | nil => simp [Node.isNode] at hc
    | node cl ck ci cb ch cr =>
      cases f with
      | inLeft fk fi fb fh fr =>
        have hlt : k < fk := hb2.2.2.1 k hk
        simp only [Frame.plug]
        conv_lhs => unfold findLoop
        simp [ne_of_gt hlt, not_lt_of_gt hlt, hlt]
      | inRight fl fk fi fb fh =>
        have hlt : fk < k := hb2.2.2.2 k hk
        simp only [Frame.plug]
        conv_lhs => unfold findLoop
        simp [ne_of_lt hlt, hlt]

theorem on_unique {root : Node K V} (hb : root.BST) {c c2 : Node K V}
    {up up2 : List (Frame K V)} (h1 : rebuild c up = root) (h2 : rebuild c2 up2 = root)
    {l l2 r r2 : Node K V} {k : K} {i i2 : V} {b b2 h g2 : Int}
    (hc : c = .node l k i b h r) (hc2 : c2 = .node l2 k i2 b2 g2 r2) :
    c = c2 ∧ up = up2 := by
  subst hc hc2
  have e1 := findLoop_rebuild 0 k up (.node l k i b h r) [] (by rw [h1]; exact hb)
    (by rw [mem_keys_node]; simp)
  have e2 := findLoop_rebuild 0 k up2 (.node l2 k i2 b2 g2 r2) [] (by rw [h2]; exact hb)
    (by rw [mem_keys_node]; simp)
  rw [h1, List.append_nil, findLoop_here] at e1
  rw [h2, List.append_nil, findLoop_here, e1] at e2
  injection e2 with e3
  injection e3 with e4 e5
  exact ⟨e4, e5⟩

end Order

/-! ## The first and the last node -/

theorem ctxBefore_eq_nil (up : List (Frame K V)) :
    ctxBefore up = [] ↔ ∀ f ∈ up, f.isLeft = true := by
  induction up with
  | nil => simp [ctxBefore]
  | cons f up ih => cases f <;> simp [ctxBefore, Frame.isLeft, ih]

theorem ctxAfter_eq_nil (up : List (Frame K V)) :
    ctxAfter up = [] ↔ ∀ f ∈ up, f.isLeft = false := by
  induction up with
  | nil => simp [ctxAfter]
  | cons f up ih => cases f <;> simp [ctxAfter, Frame.isLeft, ih]

theorem toList_eq_nil {t : Node K V} (h : t.toList = []) : t = .nil := by
  cases t with
  | nil => rfl
  | node l k i b hh r => simp [Node.toList] at h

theorem goLeftmost_rebuild (up : List (Frame K V)) :
    ∀ (c : Node K V) (up0 : List (Frame K V)), c.isNode = true →
      (∀ f ∈ up, f.isLeft = true) →
      goLeftmost (rebuild c up) up0 = goLeftmost c (up ++ up0) := by
  induction up with
  | nil => intro c up0 _ _; rfl
  | cons f t ih =>
    intro c up0 hc hl
    have hf := hl f (List.mem_cons_self _ _)
    have ht : ∀ g ∈ t, g.isLeft = true := fun g hg => hl g (List.mem_cons_of_mem _ hg)
    cases c with
    | nil => simp [Node.isNode] at hc
    | node cl ck ci cb ch cr =>
      cases f with
      | inRight fl fk fi fb fh => simp [Frame.isLeft] at hf
      | inLeft fk fi fb fh fr =>
        rw [show rebuild (Node.node cl ck ci cb ch cr) (Frame.inLeft fk fi fb fh fr :: t) =
          rebuild (Node.node (Node.node cl ck ci cb ch cr) fk fi fb fh fr) t from rfl,
          ih (Node.node (Node.node cl ck ci cb ch cr) fk fi fb fh fr) up0 rfl ht]
        rfl

theorem goRightmost_rebuild (up : List (Frame K V)) :
    ∀ (c : Node K V) (up0 : List (Frame K V)), c.isNode = true →
      (∀ f ∈ up, f.isLeft = false) →
      goRightmost (rebuild c up) up0 = goRightmost c (up ++ up0) := by
  induction up with
  | nil => intro c up0 _ _; rfl
  | cons f t ih =>
    intro c up0 hc hl
    have hf := hl f (List.mem_cons_self _ _)
    have ht : ∀ g ∈ t, g.isLeft = false := fun g hg => hl g (List.mem_cons_of_mem _ hg)
    cases c with
    | nil => simp [Node.isNode] at hc
    | node cl ck ci cb ch cr =>
      cases f with
      | inLeft fk fi fb fh fr => simp [Frame.isLeft] at hf
      | inRight fl fk fi fb fh =>
        rw [show rebuild (Node.node cl ck ci cb ch cr) (Frame.inRight fl fk fi fb fh :: t) =
          rebuild (Node.node fl fk fi fb fh (Node.node cl ck ci cb ch cr)) t from rfl,
          ih (Node.node fl fk fi fb fh (Node.node cl ck ci cb ch cr)) up0 rfl ht]
        rfl

/-- The cursor before which nothing comes is the one `begin()` returns. -/
theorem leftmost_unique (it : Iterator K V) (root : Node K V) (hon : it.On root)
    (hb : it.before = []) : goLeftmost root [] = (it.curr, it.up) := by
  obtain ⟨c, up, dict⟩ := it
  obtain ⟨hn, hreb⟩ := hon
  simp only at hn hreb
  cases c with
  | nil => simp [Node.isNode] at hn
  | node l k i b h r =>
    simp only [Iterator.before, List.append_eq_nil] at hb
    have hl := toList_eq_nil hb.2
    subst hl
    rw [← hreb, goLeftmost_rebuild up (.node .nil k i b h r) [] rfl ((ctxBefore_eq_nil up).mp hb.1), List.append_nil]
    rfl

/-- The cursor after which nothing comes is the rightmost node from the root. -/
theorem rightmost_unique (it : Iterator K V) (root : Node K V) (hon : it.On root)
    (hb : it.after = []) : goRightmost root [] = (it.curr, it.up) := by
  obtain ⟨c, up, dict⟩ := it
  obtain ⟨hn, hreb⟩ := hon
  simp only at hn hreb
  cases c with
  | nil => simp [Node.isNode] at hn
  | node l k i b h r =>
    simp only [Iterator.after, List.append_eq_nil] at hb
    have hl := toList_eq_nil hb.1
    subst hl
    rw [← hreb, goRightmost_rebuild up (.node l k i b h .nil) [] rfl ((ctxAfter_eq_nil up).mp hb.2), List.append_nil]
    rfl

theorem on_root_isNode {it : Iterator K V} {root : Node K V} (hon : it.On root) :
    root.isNode = true := by
  rw [← hon.2]
  exact rebuild_isNode _ _ hon.1

/-- What `begin()` is on a tree with a root: a cursor on a node that nothing
comes before. -/
theorem Dictionary.begin_on (d : Dictionary K V) (hr : d.root.isNode = true) :
    d.begin.On d.root ∧ d.begin.before = [] ∧ d.begin.dictionary = some d.self := by
  obtain ⟨sk, si, sb, sh, sr, path, h1, h2, h3⟩ := goLeftmost_spec d.root hr []
  have hbeg : d.begin = ⟨.node .nil sk si sb sh sr, path, some d.self⟩ := by
    simp [Dictionary.begin, h1]
  rw [hbeg]
  refine ⟨⟨rfl, h2⟩, ?_, rfl⟩
  simp [Iterator.before, h3, Node.toList]

/-- On a tree with a root, a cursor on a node compares equal to `begin()`
exactly when no pair comes before its node. -/
theorem eq_begin_iff (d : Dictionary K V) (it : Iterator K V) (hon : it.On d.root)
    (hd : it.dictionary = some d.self) : it.eq d.begin = true ↔ it.before = [] := by
  have hr := on_root_isNode hon
  obtain ⟨b1, b2, b3⟩ := d.begin_on hr
  constructor
  · intro he
    simp only [Iterator.eq, Bool.and_eq_true, beq_iff_eq] at he
    obtain ⟨e1, e2⟩ := rebuild_inj it.up d.begin.up it.curr d.begin.curr
      (by rw [hon.2, b1.2]) he.1.2
    have : it.before = d.begin.before := by
      simp only [Iterator.before, e1, e2]
    rw [this, b2]
  · intro hb
    have h1 := leftmost_unique it d.root hon hb
    have : it = d.begin := by
      obtain ⟨c, up, dict⟩ := it
      simp only at hd h1
      subst hd
      simp only [Dictionary.begin, h1]
    rw [← this]
    exact Iterator.eq_self it

theorem eq_end_false (d : Dictionary K V) (it : Iterator K V) (hn : it.curr.isNode = true) :
    it.eq d.end = false := by
  cases hc : it.curr with
  | nil => rw [hc] at hn; simp [Node.isNode] at hn
  | node l k i b h r => simp [Iterator.eq, Dictionary.end, hc, Node.isNode]
theorem deref_node (l r : Node K V) (k : K) (i : V) (b h : Int) (up : List (Frame K V))
    (s : Nat) : (Iterator.mk (.node l k i b h r) up (some s)).deref = .ok (k, i) := by
  simp [Iterator.deref, Iterator.isEmpty]

theorem on_node {it : Iterator K V} {root : Node K V} (hon : it.On root) :
    ∃ l k i b h r, it.curr = .node l k i b h r := by
  cases hc : it.curr with
  | nil =>
    have := hon.1
    rw [hc] at this
    simp [Node.isNode] at this
  | node l k i b h r => exact ⟨l, k, i, b, h, r, rfl⟩

/-! ## Neighbours in a sorted sequence -/

theorem next_in_sorted {α : Type} [LinearOrder α] {β : Type} (A B : List (α × β))
    (p q : α × β) (hs : ((A ++ p :: q :: B).map Prod.fst).Pairwise (· < ·)) :
    p.1 < q.1 ∧ (∀ x ∈ (A ++ p :: q :: B).map Prod.fst, p.1 < x → q.1 ≤ x) ∧
      (∀ x ∈ (A ++ p :: q :: B).map Prod.fst, x < q.1 → x ≤ p.1) := by
  simp only [List.map_append, List.map_cons, List.pairwise_append, List.pairwise_cons,
    List.mem_cons, List.mem_map, forall_eq_or_imp] at hs
  obtain ⟨_, ⟨⟨hpq, hpB⟩, hqB, _⟩, hA⟩ := hs
  refine ⟨hpq, ?_, ?_⟩
  · intro x hx hlt
    simp only [List.map_append, List.map_cons, List.mem_append, List.mem_cons, List.mem_map] at hx
    rcases hx with hx | rfl | rfl | hx
    · exact absurd hlt (not_lt.mpr (hA x hx).1.le)
    · exact absurd hlt (lt_irrefl _)
    · exact le_refl _
    · exact (hqB x hx).le
  · intro x hx hlt
    simp only [List.map_append, List.map_cons, List.mem_append, List.mem_cons, List.mem_map] at hx
    rcases hx with hx | rfl | rfl | hx
    · exact (hA x hx).1.le
    · exact le_refl _
    · exact absurd hlt (lt_irrefl _)
    · exact absurd hlt (not_lt.mpr (hqB x hx).le)

theorem last_in_sorted {α : Type} [LinearOrder α] {β : Type} (A : List (α × β))
    (p : α × β) (hs : ((A ++ [p]).map Prod.fst).Pairwise (· < ·)) :
    ∀ x ∈ (A ++ [p]).map Prod.fst, x ≤ p.1 := by
  simp only [List.map_append, List.map_cons, List.pairwise_append, List.map_nil,
    List.mem_singleton, forall_eq] at hs
  intro x hx
  simp only [List.map_append, List.map_cons, List.map_nil, List.mem_append,
    List.mem_singleton] at hx
  rcases hx with hx | rfl
  · exact (hs.2.2 x hx).le
  · exact le_refl _

theorem first_in_sorted {α : Type} [LinearOrder α] {β : Type} (B : List (α × β))
    (p : α × β) (hs : ((p :: B).map Prod.fst).Pairwise (· < ·)) :
    ∀ x ∈ (p :: B).map Prod.fst, p.1 ≤ x := by
  simp only [List.map_cons, List.pairwise_cons] at hs
  intro x hx
  simp only [List.map_cons, List.mem_cons] at hx
  rcases hx with rfl | hx
  · exact le_refl _
  · exact (hs.1 x hx).le

section Order
variable [LinearOrder K]

/-! ## `operator++` and `operator--` as calls -/

theorem preIncrement_of_increment (it it2 : Iterator K V) (d : Dictionary K V)
    (h : it.increment = .ok it2) : it.preIncrement d = (.ok it2, it2) := by
  obtain ⟨c, up, dict⟩ := it
  cases dict with
  | none => simp [Iterator.increment, Iterator.isEmpty] at h
  | some s =>
    cases c with
    | nil => simp [Iterator.increment, Iterator.isEmpty] at h
    | node l k i b hh r =>
      cases r with
      | nil =>
        simp only [Iterator.increment, Iterator.isEmpty, Iterator.isRightPossible, Node.getRight,
          Node.isNode, Option.isNone_some, Bool.false_eq_true, if_false, Res.ok.injEq] at h
        subst h
        simp [Iterator.preIncrement, Iterator.isValidToMove, Iterator.isEmpty, Iterator.isEnd,
          Iterator.isRightPossible, Node.getRight, Node.isNode]
      | node rl rk ri rb rh rr =>
        simp only [Iterator.increment, Iterator.isEmpty, Iterator.isRightPossible, Node.getRight,
          Node.isNode, Option.isNone_some, Bool.false_eq_true, if_false, if_true,
          Res.ok.injEq] at h
        subst h
        simp [Iterator.preIncrement, Iterator.isValidToMove, Iterator.isEmpty, Iterator.isEnd,
          Iterator.isRightPossible, Node.getRight, Node.isNode]

/-- One `operator++` on a cursor on a node of a search tree: it returns, and
the cursor is past the end when nothing came after the node, else on the node
of the pair that came next. -/
theorem Iterator.preIncrement_spec (d : Dictionary K V) (it : Iterator K V)
    (hon : it.On d.root) (hb : d.root.BST) (hd : it.dictionary = some d.self)
    {l r : Node K V} {k : K} {i : V} {b h : Int} (hc : it.curr = .node l k i b h r) :
    ∃ it2, it.preIncrement d = (.ok it2, it2) ∧ it2.dictionary = some d.self ∧
      ((it.after = [] ∧ it2 = d.end) ∨
        (it2.On d.root ∧ ∃ l2 k2 i2 b2 h2 r2, it2.curr = .node l2 k2 i2 b2 h2 r2 ∧
          it2.before = it.before ++ [(k, i)] ∧ it.after = (k2, i2) :: it2.after)) := by
  obtain ⟨it2, h1, h2, h3, h4⟩ := it.increment_spec d.root d.self hon hb hd
  refine ⟨it2, preIncrement_of_increment it it2 d h1, h2, ?_⟩
  obtain ⟨c, up, dict⟩ := it
  simp only at hc hd
  subst hc
  have hrem : (Iterator.mk (.node l k i b h r) up dict).after = it2.remaining := by
    rw [remaining_eq_after] at h3
    simpa using h3
  rcases h4 with h4 | ⟨h4, h5⟩
  · right
    refine ⟨h4, ?_⟩
    obtain ⟨c2, up2, dict2⟩ := it2
    obtain ⟨hn2, hreb2⟩ := h4
    simp only at hn2 hreb2
    cases c2 with
    | nil => simp [Node.isNode] at hn2
    | node l2 k2 i2 b2 g2 r2 =>
      refine ⟨l2, k2, i2, b2, g2, r2, rfl, ?_, ?_⟩
      · have e1 := toList_before_after l k i b h r up dict
        have e2 := toList_before_after l2 k2 i2 b2 g2 r2 up2 dict2
        rw [hon.2] at e1
        rw [hreb2, e1, hrem, remaining_eq_after] at e2
        have e3 : ((Iterator.mk (.node l k i b h r) up dict).before ++ [(k, i)]) ++
            (k2, i2) :: (Iterator.mk (.node l2 k2 i2 b2 g2 r2) up2 dict2).after =
            (Iterator.mk (.node l2 k2 i2 b2 g2 r2) up2 dict2).before ++
            (k2, i2) :: (Iterator.mk (.node l2 k2 i2 b2 g2 r2) up2 dict2).after := by
          rw [← e2]
          simp
        exact (List.append_cancel_right e3).symm
      · rw [hrem]
        rfl
  · left
    obtain ⟨c2, up2, dict2⟩ := it2
    simp only at h4 h5 h2
    subst h4 h5 h2
    exact ⟨by rw [hrem]; rfl, rfl⟩

/-- Where the upward loop of `operator--` stops, when the parents are ordered
around `k` as in a search tree: at the nearest parent reached through a right
link, whose pair is the previous one of the in-order sequence; without such a
parent `goParent` throws. -/
theorem climbSmaller_spec (k : K) (c : Node K V) (up : List (Frame K V))
    (hord : ∀ f ∈ up, (f.isLeft = true → k < f.key) ∧ (f.isLeft = false → f.key < k)) :
    (ctxBefore up = [] ∧ climbSmaller k c up = .fail .logicError) ∨
    (∃ l2 k2 i2 b2 h2 r2 up2, climbSmaller k c up = .ok (.node l2 k2 i2 b2 h2 r2, up2) ∧
      rebuild (.node l2 k2 i2 b2 h2 r2) up2 = rebuild c up ∧
      ctxBefore up = ctxBefore up2 ++ l2.toList ++ [(k2, i2)]) := by
  induction up generalizing c with
  | nil => exact Or.inl ⟨rfl, rfl⟩
  | cons f up ih =>
    have hf := hord f (List.mem_cons_self _ _)
    have hup : ∀ g ∈ up, (g.isLeft = true → k < g.key) ∧ (g.isLeft = false → g.key < k) :=
      fun g hg => hord g (List.mem_cons_of_mem _ hg)
    cases f with
    | inRight fl fk fi fb fh =>
      have hlt : fk < k := hf.2 rfl
      right
      refine ⟨fl, fk, fi, fb, fh, c, up, ?_, ?_, ?_⟩ <;>
        simp [climbSmaller, Frame.key, hlt, Frame.plug, rebuild, ctxBefore]
    | inLeft fk fi fb fh fr =>
      have hlt : ¬ fk < k := not_lt.mpr (hf.1 rfl).le
      have hstep : climbSmaller k c (Frame.inLeft fk fi fb fh fr :: up) =
          climbSmaller k ((Frame.inLeft fk fi fb fh fr).plug c) up := by
        simp [climbSmaller, Frame.key, hlt]
      rw [hstep]
      rcases ih ((Frame.inLeft fk fi fb fh fr).plug c) hup with h1 | h1
      · left
        exact ⟨by simpa [ctxBefore] using h1.1, h1.2⟩
      · right
        obtain ⟨l2, k2, i2, b2, h2, r2, up2, e1, e2, e3⟩ := h1
        exact ⟨l2, k2, i2, b2, h2, r2, up2, e1, e2, by simpa [ctxBefore] using e3⟩

/-- One `operator--` on a cursor on a node of a search tree that some pair
comes before: it returns and the cursor is on the node of the pair that came
just before. -/
theorem Iterator.preDecrement_spec (d : Dictionary K V) (it : Iterator K V)
    (hon : it.On d.root) (hb : d.root.BST) (hd : it.dictionary = some d.self)
    {l r : Node K V} {k : K} {i : V} {b h : Int} (hc : it.curr = .node l k i b h r)
    (hne : it.before ≠ []) :
    ∃ it2, it.preDecrement d = (.ok it2, it2) ∧ it2.dictionary = some d.self ∧
      it2.On d.root ∧ ∃ l2 k2 i2 b2 h2 r2, it2.curr = .node l2 k2 i2 b2 h2 r2 ∧
        it.before = it2.before ++ [(k2, i2)] ∧ it2.after = (k, i) :: it.after := by
  have hbeg : it.eq d.begin = false := by
    cases he : it.eq d.begin with
    | false => rfl
    | true => exact absurd ((eq_begin_iff d it hon hd).mp he) hne
  have hend : it.eq d.end = false := eq_end_false d it hon.1
  obtain ⟨c, up, dict⟩ := it
  simp only at hc hd
  subst hc hd
  obtain ⟨_, hreb⟩ := hon
  simp only at hreb
  have key : ∃ it2, (Iterator.mk (.node l k i b h r) up (some d.self)).preDecrement d =
      (.ok it2, it2) ∧ it2.dictionary = some d.self ∧ it2.On d.root ∧
      ∃ l2 k2 i2 b2 h2 r2, it2.curr = .node l2 k2 i2 b2 h2 r2 ∧
        (Iterator.mk (.node l k i b h r) up (some d.self)).before = it2.before ++ [(k2, i2)] := by
    cases l with
    | node ll lk li lb lh lr =>
      obtain ⟨sl, sk, si, sb, sh, path, h1, h2, h3⟩ :=
        goRightmost_spec (.node ll lk li lb lh lr) rfl (Frame.inLeft k i b h r :: up)
      refine ⟨⟨.node sl sk si sb sh .nil, path ++ Frame.inLeft k i b h r :: up, some d.self⟩,
        ?_, rfl, ⟨rfl, ?_⟩, sl, sk, si, sb, sh, .nil, rfl, ?_⟩
      · simp [Iterator.preDecrement, Iterator.isValidToMove, Iterator.isEmpty, hbeg, hend,
          Iterator.isLeftPossible, Node.getLeft, Node.isNode, h1]
      · show rebuild (Node.node sl sk si sb sh .nil) (path ++ Frame.inLeft k i b h r :: up) =
          d.root
        rw [rebuild_append, h2, ← hreb]
        rfl
      · have hl : (Node.node ll lk li lb lh lr).toList =
            ctxBefore path ++ sl.toList ++ [(sk, si)] := by
          rw [← h2, toList_rebuild, h3]
          simp [Node.toList]
        simp only [Iterator.before, hl, ctxBefore_append, ctxBefore]
        simp [List.append_assoc]
    | nil =>
      have hord := ctx_order (.node .nil k i b h r) up (by rw [hreb]; exact hb) k
        (by rw [mem_keys_node]; exact Or.inr (Or.inl rfl))
      rcases climbSmaller_spec k (.node .nil k i b h r) up hord with
        ⟨h1, _⟩ | ⟨l2, k2, i2, b2, h2, r2, up2, e1, e2, e3⟩
      · exact absurd (by simp [Iterator.before, h1, Node.toList]) hne
      · refine ⟨⟨.node l2 k2 i2 b2 h2 r2, up2, some d.self⟩, ?_, rfl, ⟨rfl, ?_⟩,
          l2, k2, i2, b2, h2, r2, rfl, ?_⟩
        · simp [Iterator.preDecrement, Iterator.isValidToMove, Iterator.isEmpty, hbeg, hend,
            Iterator.isLeftPossible, Node.getLeft, Node.isNode, e1]
        · show rebuild (Node.node l2 k2 i2 b2 h2 r2) up2 = d.root
          rw [e2, hreb]
        · simp [Iterator.before, e3, Node.toList]
  obtain ⟨it2, h1, h2, h3, l2, k2, i2, b2, g2, r2, h4, h5⟩ := key
  refine ⟨it2, h1, h2, h3, l2, k2, i2, b2, g2, r2, h4, h5, ?_⟩
  obtain ⟨c2, up2, dict2⟩ := it2
  simp only at h4
  subst h4
  have e1 := toList_before_after l k i b h r up (some d.self)
  have e2 := toList_before_after l2 k2 i2 b2 g2 r2 up2 dict2
  rw [hreb] at e1
  rw [h3.2, e1, h5, List.append_assoc] at e2
  have e3 := List.append_cancel_left e2
  simp only [List.singleton_append, List.cons.injEq, true_and] at e3
  exact e3.symm

/-- One `operator--` on the end iterator of a tree with a root: it returns and
the cursor is on the last node. -/
theorem Iterator.preDecrement_end (d : Dictionary K V) (hr : d.root.isNode = true) :
    ∃ it2, d.end.preDecrement d = (.ok it2, it2) ∧ it2.dictionary = some d.self ∧
      it2.On d.root ∧ it2.after = [] ∧ goRightmost d.root [] = (it2.curr, it2.up) := by
  obtain ⟨b1, b2, b3⟩ := d.begin_on hr
  have hbeg : d.end.eq d.begin = false := by
    cases hcur : d.begin.curr with
    | nil => rw [Iterator.On, hcur] at b1; simp [Node.isNode] at b1
    | node l k i b h r => simp [Iterator.eq, Dictionary.end, hcur, Node.isNode]
  obtain ⟨sl, sk, si, sb, sh, path, h1, h2, h3⟩ := goRightmost_spec d.root hr []
  refine ⟨⟨.node sl sk si sb sh .nil, path, some d.self⟩, ?_, rfl, ⟨rfl, h2⟩, ?_, ?_⟩
  · have he : d.end.eq d.end = true := Iterator.eq_self _
    have h1b : goRightmost d.root [] = (.node sl sk si sb sh .nil, path) := by simpa using h1
    simp [Iterator.preDecrement, Iterator.isValidToMove, hbeg, he, Dictionary.top, h1b]
    simp [Dictionary.end, Iterator.isEmpty]
  · simp [Iterator.after, h3, Node.toList]
  · simpa using h1

/-! ## The place of a cursor in the sorted sequence -/

theorem before_after_keys (it : Iterator K V) (root : Node K V) (hon : it.On root)
    (hb : root.BST) {l r : Node K V} {k : K} {i : V} {b h : Int}
    (hc : it.curr = .node l k i b h r) :
    root.toList = it.before ++ (k, i) :: it.after ∧
      (∀ p ∈ it.before, p.1 < k) ∧ (∀ p ∈ it.after, k < p.1) := by
  obtain ⟨c, up, dict⟩ := it
  simp only at hc
  subst hc
  have e1 := toList_before_after l k i b h r up dict
  rw [hon.2] at e1
  have hs := (bst_iff_sorted root).mp hb
  rw [Node.keys, e1] at hs
  simp only [List.map_append, List.map_cons, List.pairwise_append, List.pairwise_cons,
    List.mem_cons, List.mem_map, forall_eq_or_imp] at hs
  refine ⟨e1, ?_, ?_⟩
  · intro p hp
    exact (hs.2.2 p.1 ⟨p, hp, rfl⟩).1
  · intro p hp
    exact hs.2.1.1 p.1 ⟨p, hp, rfl⟩

/-- Nothing comes before a node exactly when its key is the smallest. -/
theorem before_nil_iff (it : Iterator K V) (root : Node K V) (hon : it.On root)
    (hb : root.BST) {l r : Node K V} {k : K} {i : V} {b h : Int}
    (hc : it.curr = .node l k i b h r) :
    it.before = [] ↔ ∀ x ∈ root.keys, k ≤ x := by
  obtain ⟨e1, h1, h2⟩ := before_after_keys it root hon hb hc
  constructor
  · intro hn x hx
    rw [Node.keys, e1, hn] at hx
    simp only [List.nil_append, List.map_cons, List.mem_cons, List.mem_map] at hx
    rcases hx with rfl | ⟨p, hp, rfl⟩
    · exact le_refl _
    · exact (h2 p hp).le
  · intro hall
    cases hbef : it.before with
    | nil => rfl
    | cons p rest =>
      have hp : p ∈ it.before := by rw [hbef]; exact List.mem_cons_self _ _
      have hmem : p.1 ∈ root.keys := by
        rw [Node.keys, e1]
        exact List.mem_map.mpr ⟨p, List.mem_append_left _ hp, rfl⟩
      exact absurd (h1 p hp) (not_lt.mpr (hall p.1 hmem))

/-- Nothing comes after a node exactly when its key is the greatest. -/
theorem after_nil_iff (it : Iterator K V) (root : Node K V) (hon : it.On root)
    (hb : root.BST) {l r : Node K V} {k : K} {i : V} {b h : Int}
    (hc : it.curr = .node l k i b h r) :
    it.after = [] ↔ ∀ x ∈ root.keys, x ≤ k := by
  obtain ⟨e1, h1, h2⟩ := before_after_keys it root hon hb hc
  constructor
  · intro hn x hx
    rw [Node.keys, e1, hn] at hx
    simp only [List.map_append, List.map_cons, List.map_nil, List.mem_append, List.mem_map,
      List.mem_singleton] at hx
    rcases hx with ⟨p, hp, rfl⟩ | rfl
    · exact (h1 p hp).le
    · exact le_refl _
  · intro hall
    cases haft : it.after with
    | nil => rfl
    | cons p rest =>
      have hp : p ∈ it.after := by rw [haft]; exact List.mem_cons_self _ _
      have hmem : p.1 ∈ root.keys := by
        rw [Node.keys, e1]
        exact List.mem_map.mpr ⟨p, List.mem_append_right _ (List.mem_cons_of_mem _ hp), rfl⟩
      exact absurd (h2 p hp) (not_lt.mpr (hall p.1 hmem))

/-- Where the upward loop of `operator++` stops, whatever the tree: at the
nearest parent with a key greater than `k`, and past the end when no parent
has one. -/
theorem climbGreater_nearest (k : K) (c : Node K V) (up : List (Frame K V)) :
    ((∀ g ∈ up, ¬ k < g.key) ∧ climbGreater k c up = (.nil, [])) ∨
    (∃ pre f rest, up = pre ++ f :: rest ∧ (∀ g ∈ pre, ¬ k < g.key) ∧ k < f.key ∧
      climbGreater k c up = (f.plug (rebuild c pre), rest)) := by
  induction up generalizing c with
  | nil => exact Or.inl ⟨by simp, rfl⟩
  | cons f up ih =>
    by_cases hlt : k < f.key
    · right
      exact ⟨[], f, up, rfl, by simp, hlt, by simp [climbGreater, hlt, rebuild]⟩
    · have hstep : climbGreater k c (f :: up) = climbGreater k (f.plug c) up := by
        simp [climbGreater, hlt]
      rw [hstep]
      rcases ih (f.plug c) with ⟨h1, h2⟩ | ⟨pre, g, rest, h1, h2, h3, h4⟩
      · left
        refine ⟨?_, h2⟩
        intro g hg
        rcases List.mem_cons.mp hg with rfl | hg
        · exact hlt
        · exact h1 g hg
      · right
        refine ⟨f :: pre, g, rest, by rw [h1]; rfl, ?_, h3, by rw [h4]; rfl⟩
        intro x hx
        rcases List.mem_cons.mp hx with rfl | hx
        · exact hlt
        · exact h2 x hx

/-- Where the upward loop of `operator--` stops, whatever the tree: at the
nearest parent with a key smaller than `k`; `goParent` throws when no parent
has one. -/
theorem climbSmaller_nearest (k : K) (c : Node K V) (up : List (Frame K V)) :
    ((∀ g ∈ up, ¬ g.key < k) ∧ climbSmaller k c up = .fail .logicError) ∨
    (∃ pre f rest, up = pre ++ f :: rest ∧ (∀ g ∈ pre, ¬ g.key < k) ∧ f.key < k ∧
      climbSmaller k c up = .ok (f.plug (rebuild c pre), rest)) := by
  induction up generalizing c with
  | nil => exact Or.inl ⟨by simp, rfl⟩
  | cons f up ih =>
    by_cases hlt : f.key < k
    · right
      exact ⟨[], f, up, rfl, by simp, hlt, by simp [climbSmaller, hlt, rebuild]⟩
    · have hstep : climbSmaller k c (f :: up) = climbSmaller k (f.plug c) up := by
        simp [climbSmaller, hlt]
      rw [hstep]
      rcases ih (f.plug c) with ⟨h1, h2⟩ | ⟨pre, g, rest, h1, h2, h3, h4⟩
      · left
        refine ⟨?_, h2⟩
        intro g hg
        rcases List.mem_cons.mp hg with rfl | hg
        · exact hlt
        · exact h1 g hg
      · right
        refine ⟨f :: pre, g, rest, by rw [h1]; rfl, ?_, h3, by rw [h4]; rfl⟩
        intro x hx
        rcases List.mem_cons.mp hx with rfl | hx
        · exact hlt
        · exact h2 x hx

/-- The two branches of `operator++` on a bound cursor on a node. -/
theorem preIncrement_node (d : Dictionary K V) (l r : Node K V) (k : K) (i : V) (b h : Int)
    (up : List (Frame K V)) (s : Nat) :
    (r.isNode = true → (Iterator.mk (.node l k i b h r) up (some s)).preIncrement d =
      (.ok ⟨(goLeftmost r (.inRight l k i b h :: up)).1,
          (goLeftmost r (.inRight l k i b h :: up)).2, some s⟩,
        ⟨(goLeftmost r (.inRight l k i b h :: up)).1,
          (goLeftmost r (.inRight l k i b h :: up)).2, some s⟩)) ∧
    (r = .nil → (Iterator.mk (.node l k i b h r) up (some s)).preIncrement d =
      (.ok ⟨(climbGreater k (.node l k i b h r) up).1,
          (climbGreater k (.node l k i b h r) up).2, some s⟩,
        ⟨(climbGreater k (.node l k i b h r) up).1,
          (climbGreater k (.node l k i b h r) up).2, some s⟩)) := by
  constructor
  · intro hr
    cases r with
    | nil => simp [Node.isNode] at hr
    | node rl rk ri rb rh rr =>
      simp [Iterator.preIncrement, Iterator.isValidToMove, Iterator.isEmpty, Iterator.isEnd,
        Iterator.isRightPossible, Node.getRight, Node.isNode]
  · intro hr
    subst hr
    simp [Iterator.preIncrement, Iterator.isValidToMove, Iterator.isEmpty, Iterator.isEnd,
      Iterator.isRightPossible, Node.getRight, Node.isNode]

/-- The two branches of `operator--` on a bound cursor on a node that is not
the one `begin()` returns. -/
theorem preDecrement_node (d : Dictionary K V) (l r : Node K V) (k : K) (i : V) (b h : Int)
    (up : List (Frame K V)) (s : Nat)
    (hbeg : (Iterator.mk (.node l k i b h r) up (some s)).eq d.begin = false) :
    (l.isNode = true → (Iterator.mk (.node l k i b h r) up (some s)).preDecrement d =
      (.ok ⟨(goRightmost l (.inLeft k i b h r :: up)).1,
          (goRightmost l (.inLeft k i b h r :: up)).2, some s⟩,
        ⟨(goRightmost l (.inLeft k i b h r :: up)).1,
          (goRightmost l (.inLeft k i b h r :: up)).2, some s⟩)) ∧
    (l = .nil → ∀ p, climbSmaller k (.node l k i b h r) up = .ok p →
      (Iterator.mk (.node l k i b h r) up (some s)).preDecrement d =
        (.ok ⟨p.1, p.2, some s⟩, ⟨p.1, p.2, some s⟩)) := by
  have hend := eq_end_false d (Iterator.mk (.node l k i b h r) up (some s)) rfl
  constructor
  · intro hl
    cases l with
    | nil => simp [Node.isNode] at hl
    | node ll lk li lb lh lr =>
      simp [Iterator.preDecrement, Iterator.isValidToMove, Iterator.isEmpty, hbeg, hend,
        Iterator.isLeftPossible, Node.getLeft, Node.isNode]
  · intro hl p hp
    subst hl
    simp [Iterator.preDecrement, Iterator.isValidToMove, Iterator.isEmpty, hbeg, hend,
      Iterator.isLeftPossible, Node.getLeft, Node.isNode, hp]

/-! ## Claims on `operator++` and `operator--` -/

/-- C12: on a well-formed dictionary, `operator++` on a cursor of the
dictionary that stands on a node of key `k` returns; the cursor is then the end
iterator when `k` is the greatest key, and otherwise stands on the node of the
tree whose key is the smallest key greater than `k`.  With a right child that
node is in the right subtree, reached through left links only, and has no left
child; without one it is the nearest parent with a key greater than `k`, and
the cursor is the end iterator when no parent has one.  The postfix form
returns the former cursor and leaves the same cursor behind. -/
theorem C12_increment_moves_to_successor (d : Dictionary K V) (it : Iterator K V)
    (hw : d.WellFormed) (hon : it.On d.root) (hd : it.dictionary = some d.self)
    {l r : Node K V} {k : K} {i : V} {b h : Int} (hc : it.curr = .node l k i b h r) :
    ∃ it2, it.preIncrement d = (.ok it2, it2) ∧ it.postIncrement d = (.ok it, it2) ∧
      ((∀ x ∈ d.root.keys, x ≤ k) → it2 = d.end) ∧
      ((∃ x ∈ d.root.keys, k < x) → it2.On d.root ∧ it2.dictionary = some d.self ∧
        ∃ k2 i2, it2.deref = .ok (k2, i2) ∧ k < k2 ∧ ∀ x ∈ d.root.keys, k < x → k2 ≤ x) ∧
      (r.isNode = true → ∃ path, it2.up = path ++ .inRight l k i b h :: it.up ∧
        rebuild it2.curr path = r ∧ (∀ f ∈ path, f.isLeft = true) ∧
        it2.curr.isNode = true ∧ it2.curr.getLeft = .nil) ∧
      (r = .nil → ((∀ g ∈ it.up, ¬ k < g.key) ∧ it2 = d.end) ∨
        (∃ pre f rest, it.up = pre ++ f :: rest ∧ (∀ g ∈ pre, ¬ k < g.key) ∧ k < f.key ∧
          it2.curr = f.plug (rebuild it.curr pre) ∧ it2.up = rest)) := by
  obtain ⟨it2, h1, h2, h3⟩ := it.preIncrement_spec d hon hw.bst hd hc
  obtain ⟨e1, _, _⟩ := before_after_keys it d.root hon hw.bst hc
  refine ⟨it2, h1, by simp [Iterator.postIncrement, h1], ?_, ?_, ?_, ?_⟩
  · intro hall
    rcases h3 with h3 | ⟨_, l2, k2, i2, b2, g2, r2, _, _, h5⟩
    · exact h3.2
    · rw [(after_nil_iff it d.root hon hw.bst hc).mpr hall] at h5
      cases h5
  · rintro ⟨x, hx, hlt⟩
    rcases h3 with h3 | ⟨h3, l2, k2, i2, b2, g2, r2, h4, _, h5⟩
    · exact absurd hlt (not_lt.mpr ((after_nil_iff it d.root hon hw.bst hc).mp h3.1 x hx))
    · refine ⟨h3, h2, k2, i2, ?_, ?_⟩
      · obtain ⟨c2, up2, dict2⟩ := it2
        simp only at h4 h2
        subst h4 h2
        exact deref_node _ _ _ _ _ _ _ _
      · have hs := (bst_iff_sorted d.root).mp hw.bst
        rw [Node.keys, e1, h5] at hs
        have hn := next_in_sorted it.before it2.after (k, i) (k2, i2) hs
        rw [Node.keys, e1, h5]
        exact ⟨hn.1, hn.2.1⟩
  · intro hr
    obtain ⟨c, up, dict⟩ := it
    simp only at hc hd
    subst hc hd
    have hp := (preIncrement_node d l r k i b h up d.self).1 hr
    rw [h1] at hp
    obtain ⟨sk, si, sb, sh, sr, path, p1, p2, p3⟩ :=
      goLeftmost_spec r hr (Frame.inRight l k i b h :: up)
    have hit2 : it2 = ⟨.node .nil sk si sb sh sr, path ++ Frame.inRight l k i b h :: up,
        some d.self⟩ := by
      rw [p1] at hp
      exact (Prod.mk.inj hp).2
    subst hit2
    exact ⟨path, rfl, p2, (ctxBefore_eq_nil path).mp p3, rfl, rfl⟩
  · intro hr
    obtain ⟨c, up, dict⟩ := it
    simp only at hc hd
    subst hc hd
    have hp := (preIncrement_node d l r k i b h up d.self).2 hr
    rw [h1] at hp
    have hit2 := (Prod.mk.inj hp).2
    rcases climbGreater_nearest k (.node l k i b h r) up with ⟨n1, n2⟩ | ⟨pre, f, rest, n1, n2, n3, n4⟩
    · left
      rw [n2] at hit2
      exact ⟨n1, hit2⟩
    · right
      rw [n4] at hit2
      subst hit2
      exact ⟨pre, f, rest, n1, n2, n3, rfl, rfl⟩

/-- C12, at the cursor on the node of key 3 of `builtDict`. -/
theorem C12_witness :
    builtDict.WellFormed ∧ cursorAt3.On builtDict.root ∧
      ∃ it2, cursorAt3.preIncrement builtDict = (.ok it2, it2) ∧
        cursorAt3.postIncrement builtDict = (.ok cursorAt3, it2) ∧
        ((∀ x ∈ builtDict.root.keys, x ≤ 3) → it2 = builtDict.end) ∧
        ((∃ x ∈ builtDict.root.keys, 3 < x) → it2.On builtDict.root ∧
          it2.dictionary = some builtDict.self ∧
          ∃ k2 i2, it2.deref = .ok (k2, i2) ∧ 3 < k2 ∧
            ∀ x ∈ builtDict.root.keys, 3 < x → k2 ≤ x) ∧
        (cursorAt3.curr.getRight.isNode = true → ∃ path,
          it2.up = path ++ .inRight cursorAt3.curr.getLeft 3 0 0 3 :: cursorAt3.up ∧
          rebuild it2.curr path = cursorAt3.curr.getRight ∧ (∀ f ∈ path, f.isLeft = true) ∧
          it2.curr.isNode = true ∧ it2.curr.getLeft = .nil) ∧
        (cursorAt3.curr.getRight = .nil →
          ((∀ g ∈ cursorAt3.up, ¬ 3 < g.key) ∧ it2 = builtDict.end) ∨
          (∃ pre f rest, cursorAt3.up = pre ++ f :: rest ∧ (∀ g ∈ pre, ¬ 3 < g.key) ∧
            3 < f.key ∧ it2.curr = f.plug (rebuild cursorAt3.curr pre) ∧ it2.up = rest)) :=
  ⟨by decide, ⟨rfl, rfl⟩,
    C12_increment_moves_to_successor builtDict cursorAt3 (by decide) ⟨rfl, rfl⟩ rfl rfl⟩

/-- C13: on a well-formed dictionary with a root, `operator--` on the end
iterator returns and leaves the cursor on the node of the greatest key; on a
cursor of the dictionary that stands on a node of key `k`, some key being
smaller than `k`, it returns and leaves the cursor on the node of the tree
whose key is the greatest key smaller than `k`.  With a left child that node is
in the left subtree, reached through right links only, and has no right child;
without one it is the nearest parent with a key smaller than `k`, and there is
one: the upward walk does not run out of parents.  The postfix form returns the
former cursor and leaves the same cursor behind. -/
theorem C13_decrement_moves_to_predecessor (d : Dictionary K V) (it : Iterator K V)
    (hw : d.WellFormed) (hr : d.root.isNode = true) :
    (∃ it2, d.end.preDecrement d = (.ok it2, it2) ∧ d.end.postDecrement d = (.ok d.end, it2) ∧
      it2.On d.root ∧ it2.dictionary = some d.self ∧
      ∃ k2 i2, it2.deref = .ok (k2, i2) ∧ ∀ x ∈ d.root.keys, x ≤ k2) ∧
    (it.On d.root → it.dictionary = some d.self →
      ∀ l k i b h r, it.curr = .node l k i b h r → (∃ x ∈ d.root.keys, x < k) →
      ∃ it2, it.preDecrement d = (.ok it2, it2) ∧ it.postDecrement d = (.ok it, it2) ∧
        it2.On d.root ∧ it2.dictionary = some d.self ∧
        (∃ k2 i2, it2.deref = .ok (k2, i2) ∧ k2 < k ∧ ∀ x ∈ d.root.keys, x < k → x ≤ k2) ∧
        (l.isNode = true → ∃ path, it2.up = path ++ .inLeft k i b h r :: it.up ∧
          rebuild it2.curr path = l ∧ (∀ f ∈ path, f.isLeft = false) ∧
          it2.curr.isNode = true ∧ it2.curr.getRight = .nil) ∧
        (l = .nil → ∃ pre f rest, it.up = pre ++ f :: rest ∧ (∀ g ∈ pre, ¬ g.key < k) ∧
          f.key < k ∧ it2.curr = f.plug (rebuild it.curr pre) ∧ it2.up = rest)) := by
  constructor
  · obtain ⟨it2, h1, h2, h3, h4, _⟩ := Iterator.preDecrement_end d hr
    refine ⟨it2, h1, by simp [Iterator.postDecrement, h1], h3, h2, ?_⟩
    obtain ⟨c2, up2, dict2⟩ := it2
    obtain ⟨hn, hreb⟩ := h3
    simp only at hn hreb h2
    subst h2
    cases c2 with
    | nil => simp [Node.isNode] at hn
    | node l2 k2 i2 b2 g2 r2 =>
      refine ⟨k2, i2, deref_node _ _ _ _ _ _ _ _, ?_⟩
      exact (after_nil_iff ⟨.node l2 k2 i2 b2 g2 r2, up2, some d.self⟩ d.root ⟨rfl, hreb⟩
        hw.bst rfl).mp h4
  · intro hon hd l k i b h r hc hex
    have hne : it.before ≠ [] := by
      intro hn
      obtain ⟨x, hx, hlt⟩ := hex
      exact absurd hlt (not_lt.mpr ((before_nil_iff it d.root hon hw.bst hc).mp hn x hx))
    have hbeg : it.eq d.begin = false := by
      cases he : it.eq d.begin with
      | false => rfl
      | true => exact absurd ((eq_begin_iff d it hon hd).mp he) hne
    obtain ⟨it2, h1, h2, h3, l2, k2, i2, b2, g2, r2, h4, h5, h6⟩ :=
      it.preDecrement_spec d hon hw.bst hd hc hne
    obtain ⟨e1, _, _⟩ := before_after_keys it d.root hon hw.bst hc
    refine ⟨it2, h1, by simp [Iterator.postDecrement, h1], h3, h2, ⟨k2, i2, ?_, ?_⟩, ?_, ?_⟩
    · obtain ⟨c2, up2, dict2⟩ := it2
      simp only at h4 h2
      subst h4 h2
      exact deref_node _ _ _ _ _ _ _ _
    · have hs := (bst_iff_sorted d.root).mp hw.bst
      rw [Node.keys, e1, h5, List.append_assoc, List.singleton_append] at hs
      have hn := next_in_sorted it2.before it.after (k2, i2) (k, i) hs
      rw [Node.keys, e1, h5, List.append_assoc, List.singleton_append]
      exact ⟨hn.1, hn.2.2⟩
    · intro hl
      obtain ⟨c, up, dict⟩ := it
      simp only at hc hd
      subst hc hd
      have hp := (preDecrement_node d l r k i b h up d.self hbeg).1 hl
      rw [h1] at hp
      obtain ⟨sl, sk, si, sb, sh, path, p1, p2, p3⟩ :=
        goRightmost_spec l hl (Frame.inLeft k i b h r :: up)
      have hit2 : it2 = ⟨.node sl sk si sb sh .nil, path ++ Frame.inLeft k i b h r :: up,
          some d.self⟩ := by
        rw [p1] at hp
        exact (Prod.mk.inj hp).2
      subst hit2
      exact ⟨path, rfl, p2, (ctxAfter_eq_nil path).mp p3, rfl, rfl⟩
    · intro hl
      obtain ⟨c, up, dict⟩ := it
      simp only at hc hd
      subst hc hd
      rcases climbSmaller_nearest k (.node l k i b h r) up with
        ⟨n1, n2⟩ | ⟨pre, f, rest, n1, n2, n3, n4⟩
      · exfalso
        have hord := ctx_order (.node l k i b h r) up (by rw [hon.2]; exact hw.bst) k
          (by rw [mem_keys_node]; exact Or.inr (Or.inl rfl))
        rcases climbSmaller_spec k (.node l k i b h r) up hord with
          ⟨s1, _⟩ | ⟨_, _, _, _, _, _, _, s1, _, _⟩
        · subst hl
          exact hne (by simp [Iterator.before, s1, Node.toList])
        · rw [n2] at s1
          cases s1
      · have hp := (preDecrement_node d l r k i b h up d.self hbeg).2 hl _ n4
        rw [h1] at hp
        have hit2 := (Prod.mk.inj hp).2
        subst hit2
        exact ⟨pre, f, rest, n1, n2, n3, rfl, rfl⟩

/-- C13, at the end iterator of `builtDict` and at the cursor on its node of
key 3. -/
theorem C13_witness :
    builtDict.WellFormed ∧ builtDict.root.isNode = true ∧
      (∃ it2, builtDict.end.preDecrement builtDict = (.ok it2, it2) ∧
        builtDict.end.postDecrement builtDict = (.ok builtDict.end, it2) ∧
        it2.On builtDict.root ∧ it2.dictionary = some builtDict.self ∧
        ∃ k2 i2, it2.deref = .ok (k2, i2) ∧ ∀ x ∈ builtDict.root.keys, x ≤ k2) ∧
      ∃ it2, cursorAt3.preDecrement builtDict = (.ok it2, it2) ∧
        cursorAt3.postDecrement builtDict = (.ok cursorAt3, it2) ∧
        it2.On builtDict.root ∧ it2.dictionary = some builtDict.self ∧
        (∃ k2 i2, it2.deref = .ok (k2, i2) ∧ k2 < 3 ∧
          ∀ x ∈ builtDict.root.keys, x < 3 → x ≤ k2) ∧
        (cursorAt3.curr.getLeft.isNode = true → ∃ path,
          it2.up = path ++ .inLeft 3 0 0 3 cursorAt3.curr.getRight :: cursorAt3.up ∧
          rebuild it2.curr path = cursorAt3.curr.getLeft ∧ (∀ f ∈ path, f.isLeft = false) ∧
          it2.curr.isNode = true ∧ it2.curr.getRight = .nil) ∧
        (cursorAt3.curr.getLeft = .nil → ∃ pre f rest, cursorAt3.up = pre ++ f :: rest ∧
          (∀ g ∈ pre, ¬ g.key < 3) ∧ f.key < 3 ∧
          it2.curr = f.plug (rebuild cursorAt3.curr pre) ∧ it2.up = rest) :=
  ⟨by decide, rfl,
    (C13_decrement_moves_to_predecessor builtDict cursorAt3 (by decide) rfl).1,
    (C13_decrement_moves_to_predecessor builtDict cursorAt3 (by decide) rfl).2 ⟨rfl, rfl⟩ rfl
      _ 3 0 0 3 _ rfl ⟨2, by decide, by decide⟩⟩

/-- Two cursors of one dictionary on nodes of one search tree that hold the
same key are the same cursor. -/
theorem cursor_unique {root : Node K V} (hb : root.BST) {it it2 : Iterator K V}
    (h1 : it.On root) (h2 : it2.On root) (hd : it.dictionary = it2.dictionary)
    {l l2 r r2 : Node K V} {k : K} {i i2 : V} {b b2 h g2 : Int}
    (hc : it.curr = .node l k i b h r) (hc2 : it2.curr = .node l2 k i2 b2 g2 r2) :
    it = it2 := by
  obtain ⟨e1, e2⟩ := on_unique hb h1.2 h2.2 hc hc2
  obtain ⟨c, up, dict⟩ := it
  obtain ⟨c2, up2, dict2⟩ := it2
  simp only at e1 e2 hd
  rw [e1, e2, hd]

/-- C14: on a well-formed dictionary, for a cursor of the dictionary:
`operator++` on a cursor on a node followed by `operator--` gives back the same
cursor (through the end iterator when the node is the last one); `operator--`
on a cursor that is not `begin()`, on a node or past the end of a tree with a
root, followed by `operator++` gives back the same cursor.  Both calls return
in each case. -/
theorem C14_increment_decrement_inverse (d : Dictionary K V) (it : Iterator K V)
    (hw : d.WellFormed) (hd : it.dictionary = some d.self) :
    (it.On d.root →
      ∃ it2, it.preIncrement d = (.ok it2, it2) ∧ it2.preDecrement d = (.ok it, it)) ∧
    ((it.On d.root ∨ (it = d.end ∧ d.root.isNode = true)) → it.eq d.begin = false →
      ∃ it2, it.preDecrement d = (.ok it2, it2) ∧ it2.preIncrement d = (.ok it, it)) := by
  constructor
  · intro hon
    obtain ⟨l, k, i, b, h, r, hc⟩ := on_node hon
    obtain ⟨it2, h1, h2, h3⟩ := it.preIncrement_spec d hon hw.bst hd hc
    refine ⟨it2, h1, ?_⟩
    rcases h3 with ⟨h3, h4⟩ | ⟨h3, l2, k2, i2, b2, g2, r2, h4, h5, h6⟩
    · obtain ⟨it3, p1, p2, p3, _, p5⟩ := Iterator.preDecrement_end d (on_root_isNode hon)
      have hu := rightmost_unique it d.root hon h3
      rw [p5] at hu
      have : it3 = it := by
        obtain ⟨c, up, dict⟩ := it
        obtain ⟨c3, up3, dict3⟩ := it3
        simp only at hd p2 hu
        rw [(Prod.mk.inj hu).1, (Prod.mk.inj hu).2, hd, p2]
      rw [h4, p1, this]
    · have hne : it2.before ≠ [] := by rw [h5]; simp
      obtain ⟨it3, p1, p2, p3, l3, k3, i3, b3, g3, r3, p4, p5, _⟩ :=
        it2.preDecrement_spec d h3 hw.bst h2 h4 hne
      rw [h5] at p5
      have hk := List.append_inj_right' p5 rfl
      simp only [List.cons.injEq, Prod.mk.injEq, and_true] at hk
      rw [← hk.1] at p4
      have : it3 = it := cursor_unique hw.bst p3 hon (by rw [p2, hd]) p4 hc
      rw [p1, this]
  · intro hcase hbeg
    rcases hcase with hon | ⟨hend, hr⟩
    · obtain ⟨l, k, i, b, h, r, hc⟩ := on_node hon
      have hne : it.before ≠ [] := by
        intro hn
        rw [(eq_begin_iff d it hon hd).mpr hn] at hbeg
        cases hbeg
      obtain ⟨it2, p1, p2, p3, l2, k2, i2, b2, g2, r2, p4, p5, p6⟩ :=
        it.preDecrement_spec d hon hw.bst hd hc hne
      refine ⟨it2, p1, ?_⟩
      obtain ⟨it3, h1, h2, h3⟩ := it2.preIncrement_spec d p3 hw.bst p2 p4
      rcases h3 with ⟨h3, _⟩ | ⟨h3, l3, k3, i3, b3, g3, r3, h4, h5, h6⟩
      · rw [h3] at p6
        cases p6
      · rw [p6] at h6
        simp only [List.cons.injEq, Prod.mk.injEq] at h6
        rw [← h6.1.1] at h4
        have : it3 = it := cursor_unique hw.bst h3 hon (by rw [h2, hd]) h4 hc
        rw [h1, this]
    · subst hend
      obtain ⟨it2, p1, p2, p3, p4, _⟩ := Iterator.preDecrement_end d hr
      refine ⟨it2, p1, ?_⟩
      obtain ⟨l2, k2, i2, b2, g2, r2, hc2⟩ := on_node p3
      obtain ⟨it3, h1, h2, h3⟩ := it2.preIncrement_spec d p3 hw.bst p2 hc2
      rcases h3 with ⟨_, h4⟩ | ⟨_, l3, k3, i3, b3, g3, r3, _, _, h6⟩
      · rw [h1, h4]
      · rw [p4] at h6
        cases h6

/-- C14, at the cursor on the node of key 3 of `builtDict`. -/
theorem C14_witness :
    builtDict.WellFormed ∧ cursorAt3.dictionary = some builtDict.self ∧
      cursorAt3.On builtDict.root ∧ cursorAt3.eq builtDict.begin = false ∧
      (∃ it2, cursorAt3.preIncrement builtDict = (.ok it2, it2) ∧
        it2.preDecrement builtDict = (.ok cursorAt3, cursorAt3)) ∧
      ∃ it2, cursorAt3.preDecrement builtDict = (.ok it2, it2) ∧
        it2.preIncrement builtDict = (.ok cursorAt3, cursorAt3) :=
  ⟨by decide, rfl, ⟨rfl, rfl⟩, by decide,
    (C14_increment_decrement_inverse builtDict cursorAt3 (by decide) rfl).1 ⟨rfl, rfl⟩,
    (C14_increment_decrement_inverse builtDict cursorAt3 (by decide) rfl).2
      (Or.inl ⟨rfl, rfl⟩) (by decide)⟩

theorem preIncrement_fail_iff (d : Dictionary K V) (it : Iterator K V) :
    ((∃ f, (it.preIncrement d).1 = .fail f) ↔ (it.isEmpty = true ∨ it.isEnd = true)) ∧
      (it.isEmpty = true ∨ it.isEnd = true → it.preIncrement d = (.fail .logicError, it)) := by
  obtain ⟨c, up, dict⟩ := it
  cases dict with
  | none => simp [Iterator.preIncrement, Iterator.isValidToMove, Iterator.isEmpty]
  | some s =>
    cases c with
    | nil =>
      simp [Iterator.preIncrement, Iterator.isValidToMove, Iterator.isEmpty, Iterator.isEnd,
        Node.isNode]
    | node l k i b h r =>
      cases r <;>
        simp [Iterator.preIncrement, Iterator.isValidToMove, Iterator.isEmpty, Iterator.isEnd,
          Iterator.isRightPossible, Node.getRight, Node.isNode]

theorem postIncrement_fail_iff (d : Dictionary K V) (it : Iterator K V) :
    ((∃ f, (it.postIncrement d).1 = .fail f) ↔ (it.isEmpty = true ∨ it.isEnd = true)) ∧
      (it.isEmpty = true ∨ it.isEnd = true → it.postIncrement d = (.fail .logicError, it)) := by
  obtain ⟨h1, h2⟩ := preIncrement_fail_iff d it
  constructor
  · rw [← h1]
    unfold Iterator.postIncrement
    rcases hp : it.preIncrement d with ⟨res, s⟩
    cases res <;> simp
  · intro h
    simp [Iterator.postIncrement, h2 h]

theorem preDecrement_fail (d : Dictionary K V) (it : Iterator K V)
    (h : it.isEmpty = true ∨ it.eq d.begin = true) :
    it.preDecrement d = (.fail .logicError, it) ∧
      it.postDecrement d = (.fail .logicError, it) := by
  have h1 : it.preDecrement d = (.fail .logicError, it) := by
    rcases h with h | h
    · simp [Iterator.preDecrement, Iterator.isValidToMove, h]
    · cases he : it.isEmpty <;> simp [Iterator.preDecrement, Iterator.isValidToMove, h, he]
  exact ⟨h1, by simp [Iterator.postDecrement, h1]⟩

theorem postDecrement_fail_iff (d : Dictionary K V) (it : Iterator K V) :
    (∃ f, (it.postDecrement d).1 = .fail f) ↔ ∃ f, (it.preDecrement d).1 = .fail f := by
  unfold Iterator.postDecrement
  rcases hp : it.preDecrement d with ⟨res, s⟩
  cases res <;> simp

/-- When a cursor of the dictionary compares equal to `begin()`: on the node
of the smallest key, or past the end of a tree without root. -/
theorem eq_begin_cases (d : Dictionary K V) (it : Iterator K V) (hb : d.root.BST)
    (hd : it.dictionary = some d.self) (hcase : it.On d.root ∨ it = d.end) :
    it.eq d.begin = true ↔ (d.root = .nil ∧ it = d.end) ∨
      (∃ l k i b h r, it.curr = .node l k i b h r ∧ ∀ x ∈ d.root.keys, k ≤ x) := by
  rcases hcase with hon | hend
  · obtain ⟨l, k, i, b, h, r, hc⟩ := on_node hon
    rw [eq_begin_iff d it hon hd, before_nil_iff it d.root hon hb hc]
    constructor
    · intro hall
      exact Or.inr ⟨l, k, i, b, h, r, hc, hall⟩
    · rintro (⟨hn, _⟩ | ⟨l2, k2, i2, b2, g2, r2, hc2, hall⟩)
      · have := on_root_isNode hon
        rw [hn] at this
        simp [Node.isNode] at this
      · rw [hc] at hc2
        injection hc2 with _ hk
        rw [hk]
        exact hall
  · subst hend
    cases hroot : d.root.isNode with
    | false =>
      have hn : d.root = .nil := by
        cases hr : d.root with
        | nil => rfl
        | node l k i b h r => rw [hr] at hroot; simp [Node.isNode] at hroot
      have : d.begin = d.end := d.begin_spec.2.2.2 hn
      rw [this]
      simp [Iterator.eq_self, hn]
    | true =>
      obtain ⟨b1, _, _⟩ := d.begin_on hroot
      obtain ⟨l, k, i, b, h, r, hc⟩ := on_node b1
      have hne : d.root ≠ .nil := by
        intro hn
        rw [hn] at hroot
        simp [Node.isNode] at hroot
      simp [Iterator.eq, Dictionary.end, hc, Node.isNode, hne]

/-- On a search tree `operator--` returns on every cursor of the dictionary,
on a node or past the end, that is not equal to `begin()`. -/
theorem preDecrement_returns (d : Dictionary K V) (it : Iterator K V) (hb : d.root.BST)
    (hd : it.dictionary = some d.self) (hcase : it.On d.root ∨ it = d.end)
    (hbeg : it.eq d.begin = false) : ∃ it2, it.preDecrement d = (.ok it2, it2) := by
  rcases hcase with hon | hend
  · obtain ⟨l, k, i, b, h, r, hc⟩ := on_node hon
    have hne : it.before ≠ [] := by
      intro hn
      rw [(eq_begin_iff d it hon hd).mpr hn] at hbeg
      cases hbeg
    obtain ⟨it2, p1, _⟩ := it.preDecrement_spec d hon hb hd hc hne
    exact ⟨it2, p1⟩
  · cases hroot : d.root.isNode with
    | true =>
      obtain ⟨it2, h1, _⟩ := Iterator.preDecrement_end d hroot
      exact ⟨it2, by rw [hend, h1]⟩
    | false =>
      have hn : d.root = .nil := by
        cases hr : d.root with
        | nil => rfl
        | node l k i b h r => rw [hr] at hroot; simp [Node.isNode] at hroot
      rw [hend, d.begin_spec.2.2.2 hn, Iterator.eq_self] at hbeg
      cases hbeg

/-- C15: `operator++`, prefix and postfix, throws exactly on a cursor without
dictionary and on a cursor past the end; `operator--`, prefix and postfix,
throws on a cursor without dictionary and on a cursor equal to `begin()`, and
on a well-formed dictionary (for a cursor of the dictionary, on a node or past
the end) in no other case; a cursor equal to `begin()` is one on the node of
the smallest key, or past the end of a tree without root.  What is thrown is a
`std::logic_error`, and the cursor is left as it was. -/
theorem C15_increment_decrement_raise (d : Dictionary K V) (it : Iterator K V) :
    ((∃ f, (it.preIncrement d).1 = .fail f) ↔ (it.isEmpty = true ∨ it.isEnd = true)) ∧
    ((∃ f, (it.postIncrement d).1 = .fail f) ↔ (it.isEmpty = true ∨ it.isEnd = true)) ∧
    (it.isEmpty = true ∨ it.isEnd = true →
      it.preIncrement d = (.fail .logicError, it) ∧
        it.postIncrement d = (.fail .logicError, it)) ∧
    (it.isEmpty = true ∨ it.eq d.begin = true →
      it.preDecrement d = (.fail .logicError, it) ∧
        it.postDecrement d = (.fail .logicError, it)) ∧
    (d.WellFormed → it.dictionary = some d.self → (it.On d.root ∨ it = d.end) →
      ((∃ f, (it.preDecrement d).1 = .fail f) ↔ it.eq d.begin = true) ∧
      ((∃ f, (it.postDecrement d).1 = .fail f) ↔ it.eq d.begin = true) ∧
      (it.eq d.begin = true ↔ (d.root = .nil ∧ it = d.end) ∨
        (∃ l k i b h r, it.curr = .node l k i b h r ∧ ∀ x ∈ d.root.keys, k ≤ x))) := by
  refine ⟨(preIncrement_fail_iff d it).1, (postIncrement_fail_iff d it).1,
    fun h => ⟨(preIncrement_fail_iff d it).2 h, (postIncrement_fail_iff d it).2 h⟩,
    preDecrement_fail d it, ?_⟩
  intro hw hd hcase
  have key : (∃ f, (it.preDecrement d).1 = .fail f) ↔ it.eq d.begin = true := by
    constructor
    · rintro ⟨f, hf⟩
      cases hbeg : it.eq d.begin with
      | true => rfl
      | false =>
        exfalso
        have hexists := preDecrement_returns d it hw.bst hd hcase hbeg
        obtain ⟨it2, h2⟩ := hexists
        rw [h2] at hf
        cases hf
    · intro hbeg
      exact ⟨.logicError, by rw [(preDecrement_fail d it (Or.inr hbeg)).1]⟩
  exact ⟨key, (postDecrement_fail_iff d it).trans key, eq_begin_cases d it hw.bst hd hcase⟩

/-- C15, at `begin()` of `builtDict`. -/
theorem C15_witness :
    builtDict.WellFormed ∧ builtDict.begin.On builtDict.root ∧
      ((∃ f, (builtDict.begin.preDecrement builtDict).1 = .fail f) ↔
        builtDict.begin.eq builtDict.begin = true) ∧
      ((∃ f, (builtDict.begin.postDecrement builtDict).1 = .fail f) ↔
        builtDict.begin.eq builtDict.begin = true) ∧
      (builtDict.begin.eq builtDict.begin = true ↔
        (builtDict.root = .nil ∧ builtDict.begin = builtDict.end) ∨
        (∃ l k i b h r, builtDict.begin.curr = .node l k i b h r ∧
          ∀ x ∈ builtDict.root.keys, k ≤ x)) :=
  ⟨by decide, ⟨rfl, rfl⟩,
    (C15_increment_decrement_raise builtDict builtDict.begin).2.2.2.2 (by decide) rfl
      (Or.inl ⟨rfl, rfl⟩)⟩

end Order

/-! ## Claims on the moves along one link and on the dereference -/

/-- C16: `goLeft`, `goRight`, `goParent` throw exactly when the cursor has no
dictionary, is past the end, or its node has no left child, no right child, no
parent; `getLeft`, `getRight`, `getParent` return what the `go` member returns
and leave the cursor as it was.  What is thrown is a `std::logic_error` and the
cursor is then unchanged.  A move that succeeds leaves the cursor on the left
child, the right child, the parent of the node it was on: one link away, in the
same tree.  On a cursor with a dictionary `isLeftPossible`, `isRightPossible`,
`isParentPossible` answer true exactly when the move succeeds. -/
theorem C16_moves_along_one_link (d : Dictionary K V) (it : Iterator K V) :
    ((∃ f, (it.goLeft d).1 = .fail f) ↔
      (it.isEmpty = true ∨ it.isEnd = true ∨ it.curr.getLeft = .nil)) ∧
    ((∃ f, (it.goRight d).1 = .fail f) ↔
      (it.isEmpty = true ∨ it.isEnd = true ∨ it.curr.getRight = .nil)) ∧
    ((∃ f, (it.goParent d).1 = .fail f) ↔
      (it.isEmpty = true ∨ it.isEnd = true ∨ it.up = [])) ∧
    (it.getLeft d = ((it.goLeft d).1, it) ∧ it.getRight d = ((it.goRight d).1, it) ∧
      it.getParent d = ((it.goParent d).1, it)) ∧
    (∀ f, (it.goLeft d).1 = .fail f → it.goLeft d = (.fail .logicError, it)) ∧
    (∀ f, (it.goRight d).1 = .fail f → it.goRight d = (.fail .logicError, it)) ∧
    (∀ f, (it.goParent d).1 = .fail f → it.goParent d = (.fail .logicError, it)) ∧
    (∀ it2, (it.goLeft d).1 = .ok it2 → (it.goLeft d).2 = it2 ∧
      it2.curr = it.curr.getLeft ∧ it2.curr.isNode = true ∧ it2.toParent = it ∧
      rebuild it2.curr it2.up = rebuild it.curr it.up) ∧
    (∀ it2, (it.goRight d).1 = .ok it2 → (it.goRight d).2 = it2 ∧
      it2.curr = it.curr.getRight ∧ it2.curr.isNode = true ∧ it2.toParent = it ∧
      rebuild it2.curr it2.up = rebuild it.curr it.up) ∧
    (∀ it2, (it.goParent d).1 = .ok it2 → (it.goParent d).2 = it2 ∧
      it2.curr.isNode = true ∧ (it2.toLeft = it ∨ it2.toRight = it) ∧
      (it2.curr.getLeft = it.curr ∨ it2.curr.getRight = it.curr) ∧
      rebuild it2.curr it2.up = rebuild it.curr it.up) ∧
    (it.isEmpty = false →
      (it.isLeftPossible = true ↔ ∃ it2, (it.goLeft d).1 = .ok it2) ∧
      (it.isRightPossible = true ↔ ∃ it2, (it.goRight d).1 = .ok it2) ∧
      (it.isParentPossible = true ↔ ∃ it2, (it.goParent d).1 = .ok it2)) := by
  obtain ⟨c, up, dict⟩ := it
  refine ⟨?_, ?_, ?_, ⟨?_, ?_, ?_⟩, ?_, ?_, ?_, ?_, ?_, ?_, ?_⟩
  · cases dict <;> cases c with
    | nil => simp [Iterator.goLeft, Iterator.isValidToMove, Iterator.isEmpty, Iterator.isEnd,
        Iterator.isLeftPossible, Node.getLeft, Node.isNode]
    | node l k i b h r =>
      cases l <;> simp [Iterator.goLeft, Iterator.isValidToMove, Iterator.isEmpty,
        Iterator.isEnd, Iterator.isLeftPossible, Node.getLeft, Node.isNode]
  · cases dict <;> cases c with
    | nil => simp [Iterator.goRight, Iterator.isValidToMove, Iterator.isEmpty, Iterator.isEnd,
        Iterator.isRightPossible, Node.getRight, Node.isNode]
    | node l k i b h r =>
      cases r <;> simp [Iterator.goRight, Iterator.isValidToMove, Iterator.isEmpty,
        Iterator.isEnd, Iterator.isRightPossible, Node.getRight, Node.isNode]
  · cases dict <;> cases c <;> cases up <;>
      simp [Iterator.goParent, Iterator.isValidToMove, Iterator.isEmpty, Iterator.isEnd,
        Iterator.isParentPossible, Node.isNode]
  · cases dict <;> cases c with
    | nil => simp [Iterator.getLeft, Iterator.goLeft, Iterator.isValidToMove, Iterator.isEmpty,
        Iterator.isLeftPossible, Node.getLeft, Node.isNode]
    | node l k i b h r =>
      cases l <;> simp [Iterator.getLeft, Iterator.goLeft, Iterator.isValidToMove,
        Iterator.isEmpty, Iterator.isLeftPossible, Node.getLeft, Node.isNode]
  · cases dict <;> cases c with
    | nil => simp [Iterator.getRight, Iterator.goRight, Iterator.isValidToMove,
        Iterator.isEmpty, Iterator.isRightPossible, Node.getRight, Node.isNode]
    | node l k i b h r =>
      cases r <;> simp [Iterator.getRight, Iterator.goRight, Iterator.isValidToMove,
        Iterator.isEmpty, Iterator.isRightPossible, Node.getRight, Node.isNode]
  · cases dict <;> cases c <;> cases up <;>
      simp [Iterator.getParent, Iterator.goParent, Iterator.isValidToMove, Iterator.isEmpty,
        Iterator.isParentPossible, Node.isNode]
  · intro f
    cases dict <;> cases c with
    | nil => simp [Iterator.goLeft, Iterator.isValidToMove, Iterator.isEmpty,
        Iterator.isLeftPossible, Node.getLeft, Node.isNode]
    | node l k i b h r =>
      cases l <;> simp [Iterator.goLeft, Iterator.isValidToMove, Iterator.isEmpty,
        Iterator.isLeftPossible, Node.getLeft, Node.isNode]
  · intro f
    cases dict <;> cases c with
    | nil => simp [Iterator.goRight, Iterator.isValidToMove, Iterator.isEmpty,
        Iterator.isRightPossible, Node.getRight, Node.isNode]
    | node l k i b h r =>
      cases r <;> simp [Iterator.goRight, Iterator.isValidToMove, Iterator.isEmpty,
        Iterator.isRightPossible, Node.getRight, Node.isNode]
  · intro f
    cases dict <;> cases c <;> cases up <;>
      simp [Iterator.goParent, Iterator.isValidToMove, Iterator.isEmpty,
        Iterator.isParentPossible, Node.isNode]
  · intro it2
    cases dict <;> cases c with
    | nil => simp [Iterator.goLeft, Iterator.isValidToMove, Iterator.isEmpty,
        Iterator.isLeftPossible, Node.getLeft, Node.isNode]
    | node l k i b h r =>
      cases l <;> simp [Iterator.goLeft, Iterator.isValidToMove, Iterator.isEmpty,
        Iterator.isLeftPossible, Node.getLeft, Node.isNode, Iterator.toLeft]
      all_goals
        intro h2
        subst h2
        simp [Node.isNode, Iterator.toParent, Frame.plug, rebuild]
  · intro it2
    cases dict <;> cases c with
    | nil => simp [Iterator.goRight, Iterator.isValidToMove, Iterator.isEmpty,
        Iterator.isRightPossible, Node.getRight, Node.isNode]
    | node l k i b h r =>
      cases r <;> simp [Iterator.goRight, Iterator.isValidToMove, Iterator.isEmpty,
        Iterator.isRightPossible, Node.getRight, Node.isNode, Iterator.toRight]
      all_goals
        intro h2
        subst h2
        simp [Node.isNode, Iterator.toParent, Frame.plug, rebuild]
  · intro it2
    cases dict <;> cases c <;> cases up with
    | nil => simp [Iterator.goParent, Iterator.isValidToMove, Iterator.isEmpty,
        Iterator.isParentPossible, Node.isNode]
    | cons f rest =>
      simp [Iterator.goParent, Iterator.isValidToMove, Iterator.isEmpty,
        Iterator.isParentPossible, Node.isNode, Iterator.toParent]
      all_goals
        intro h2
        subst h2
        cases f <;>
          simp [Node.isNode, Iterator.toLeft, Iterator.toRight, Frame.plug, rebuild,
            Node.getLeft, Node.getRight]
  · intro he
    cases dict with
    | none => simp [Iterator.isEmpty] at he
    | some s =>
      refine ⟨?_, ?_, ?_⟩
      · cases c with
        | nil => simp [Iterator.goLeft, Iterator.isValidToMove, Iterator.isEmpty,
            Iterator.isLeftPossible, Node.getLeft, Node.isNode]
        | node l k i b h r =>
          cases l <;> simp [Iterator.goLeft, Iterator.isValidToMove, Iterator.isEmpty,
            Iterator.isLeftPossible, Node.getLeft, Node.isNode]
      · cases c with
        | nil => simp [Iterator.goRight, Iterator.isValidToMove, Iterator.isEmpty,
            Iterator.isRightPossible, Node.getRight, Node.isNode]
        | node l k i b h r =>
          cases r <;> simp [Iterator.goRight, Iterator.isValidToMove, Iterator.isEmpty,
            Iterator.isRightPossible, Node.getRight, Node.isNode]
      · cases c <;> cases up <;>
          simp [Iterator.goParent, Iterator.isValidToMove, Iterator.isEmpty,
            Iterator.isParentPossible, Node.isNode]

/-- C16, at the cursor on the node of key 3 of `builtDict`, a cursor with a
dictionary. -/
theorem C16_witness :
    cursorAt3.isEmpty = false ∧
      (cursorAt3.isLeftPossible = true ↔ ∃ it2, (cursorAt3.goLeft builtDict).1 = .ok it2) ∧
      (cursorAt3.isRightPossible = true ↔ ∃ it2, (cursorAt3.goRight builtDict).1 = .ok it2) ∧
      (cursorAt3.isParentPossible = true ↔
        ∃ it2, (cursorAt3.goParent builtDict).1 = .ok it2) :=
  ⟨rfl, (C16_moves_along_one_link builtDict cursorAt3).2.2.2.2.2.2.2.2.2.2 rfl⟩

/-! ## Faults of the up-propagation -/

section Order
variable [LinearOrder K]

/-! ## Claims on the dereference and on `deleteNode(Iterator)` -/

/-- C17: `operator*` and `operator->` throw (a `std::logic_error`) exactly on
the end iterator and on a cursor without dictionary, which is when
`isValidToAcces` throws; on a cursor with a dictionary on a node they give the
key and the info of the node.  Assigning `v` through the info reference of a
cursor on a node of the tree returns and changes that one field: the tree
after is the tree before with `v` in the place of the info of the node, same
links, keys, cached fields and all other infos; the in-order sequence has
`(k, v)` where `(k, i)` stood; the cursor reads `(k, v)`, and so does every
cursor that stands on the same place of the tree after. -/
theorem C17_dereference_and_assign [DecidableEq V] (d : Dictionary K V) (it : Iterator K V)
    (v : V) :
    ((∃ f, it.deref = .fail f) ↔ (it.isEnd = true ∨ it.isEmpty = true)) ∧
    ((∃ f, it.isValidToAcces = .fail f) ↔ (it.isEnd = true ∨ it.isEmpty = true)) ∧
    (∀ f, it.deref = .fail f → f = .logicError) ∧
    (∀ l k i b h r, it.curr = .node l k i b h r → it.isEmpty = false →
      it.deref = .ok (k, i) ∧
      (it.On d.root → ∃ d2 it2, d.assignInfo it v = .ok (d2, it2) ∧
        it2 = { it with curr := .node l k v b h r } ∧ it2.deref = .ok (k, v) ∧
        d.root = rebuild (.node l k i b h r) it.up ∧
        d2.root = rebuild (.node l k v b h r) it.up ∧
        d2.size = d.size ∧ d2.self = d.self ∧
        d.root.toList = it.before ++ (k, i) :: it.after ∧
        d2.root.toList = it.before ++ (k, v) :: it.after ∧
        d2.root.keys = d.root.keys ∧
        (∀ other : Iterator K V, other.On d2.root →
          other.up.map Frame.isLeft = it.up.map Frame.isLeft → other.isEmpty = false →
          other.deref = .ok (k, v)))) := by
  obtain ⟨c, up, dict⟩ := it
  refine ⟨?_, ?_, ?_, ?_⟩
  · cases c <;> cases dict <;>
      simp [Iterator.deref, Iterator.isEnd, Iterator.isEmpty, Node.isNode]
  · cases c <;> cases dict <;>
      simp [Iterator.isValidToAcces, Iterator.isEnd, Iterator.isEmpty, Node.isNode]
  · intro f
    cases c <;> cases dict <;> simp [Iterator.deref, Iterator.isEmpty] <;>
      exact fun h => h.symm
  · intro l k i b h r hc he
    simp only at hc
    subst hc
    cases dict with
    | none => simp [Iterator.isEmpty] at he
    | some s =>
      refine ⟨deref_node _ _ _ _ _ _ _ _, ?_⟩
      intro hon
      have hreb : rebuild (.node l k i b h r) up = d.root := hon.2
      refine ⟨{ d with root := rebuild (.node l k v b h r) up },
        ⟨.node l k v b h r, up, some s⟩, ?_, rfl, deref_node _ _ _ _ _ _ _ _, hreb.symm, rfl,
        rfl, rfl, ?_, ?_, ?_, ?_⟩
      · simp [Dictionary.assignInfo, deref_node, hreb]
      · rw [← hreb]
        exact toList_before_after l k i b h r up (some s)
      · exact toList_before_after l k v b h r up (some s)
      · show (rebuild (.node l k v b h r) up).keys = d.root.keys
        rw [← hreb, Node.keys, Node.keys, toList_rebuild, toList_rebuild]
        simp [Node.toList]
      · intro other ho hs hoe
        obtain ⟨c2, up2, dict2⟩ := other
        have hr2 : rebuild c2 up2 = rebuild (.node l k v b h r) up := ho.2
        obtain ⟨e1, _⟩ := rebuild_inj up2 up c2 _ hr2 hs
        subst e1
        cases dict2 with
        | none => simp [Iterator.isEmpty] at hoe
        | some s2 => exact deref_node _ _ _ _ _ _ _ _

/-- C17, at the cursor on the node of key 3 of `builtDict` and the value 10. -/
theorem C17_witness :
    cursorAt3.isEmpty = false ∧ cursorAt3.On builtDict.root ∧
      cursorAt3.deref = .ok (3, 0) ∧
      ∃ d2 it2, builtDict.assignInfo cursorAt3 10 = .ok (d2, it2) ∧
        it2 = ⟨.node cursorAt3.curr.getLeft 3 10 0 3 cursorAt3.curr.getRight, cursorAt3.up,
          cursorAt3.dictionary⟩ ∧
        it2.deref = .ok (3, 10) ∧
        builtDict.root = rebuild (.node cursorAt3.curr.getLeft 3 0 0 3
          cursorAt3.curr.getRight) cursorAt3.up ∧
        d2.root = rebuild (.node cursorAt3.curr.getLeft 3 10 0 3
          cursorAt3.curr.getRight) cursorAt3.up ∧
        d2.size = builtDict.size ∧ d2.self = builtDict.self ∧
        builtDict.root.toList = cursorAt3.before ++ (3, 0) :: cursorAt3.after ∧
        d2.root.toList = cursorAt3.before ++ (3, 10) :: cursorAt3.after ∧
        d2.root.keys = builtDict.root.keys ∧
        (∀ other : Iterator Nat Nat, other.On d2.root →
          other.up.map Frame.isLeft = cursorAt3.up.map Frame.isLeft →
          other.isEmpty = false → other.deref = .ok (3, 10)) :=
  ⟨rfl, ⟨rfl, rfl⟩,
    ((C17_dereference_and_assign builtDict cursorAt3 10).2.2.2 _ 3 0 0 3 _ rfl rfl).1,
    ((C17_dereference_and_assign builtDict cursorAt3 10).2.2.2 _ 3 0 0 3 _ rfl rfl).2
      ⟨rfl, rfl⟩⟩

end Order

/-! ## Removal at a cursor, node by node -/

/-- With the assignment of the code, `deleteNodeCasesWith` is `deleteNodeCases`. -/
theorem deleteNodeCasesWith_code (fuel : Nat) (size : Int) (c : Node K V)
    (up : List (Frame K V)) :
    deleteNodeCasesWith (fun s _ => s) fuel size c up = deleteNodeCases fuel size c up := by
  cases c with
  | nil => rfl
  | node l k i b h r =>
    cases l <;> cases r <;> cases up <;> rfl

theorem deleteNodeCasesWith_right (copy : V → V → V) (fuel : Nat) (size : Int) (k : K) (i : V)
    (b h : Int) (rl : Node K V) (rk : K) (ri : V) (rb rh : Int) (rr : Node K V)
    (up : List (Frame K V)) :
    deleteNodeCasesWith copy fuel size (.node .nil k i b h (.node rl rk ri rb rh rr)) up =
      updateNodesAndRotate fuel (.node .nil rk (copy ri i) b h .nil) up := rfl

theorem deleteNodeCasesWith_left (copy : V → V → V) (fuel : Nat) (size : Int) (k : K) (i : V)
    (b h : Int) (ll : Node K V) (lk : K) (li : V) (lb lh : Int) (lr : Node K V)
    (up : List (Frame K V)) :
    deleteNodeCasesWith copy fuel size (.node (.node ll lk li lb lh lr) k i b h .nil) up =
      updateNodesAndRotate fuel (.node .nil lk (copy li i) b h .nil) up := rfl

theorem deleteNodeCasesWith_two (copy : V → V → V) (fuel : Nat) (size : Int) (k : K) (i : V)
    (b h : Int) (ll : Node K V) (lk : K) (li : V) (lb lh : Int) (lr : Node K V)
    (rl : Node K V) (rk : K) (ri : V) (rb rh : Int) (rr : Node K V) (up : List (Frame K V)) :
    deleteNodeCasesWith copy fuel size
        (.node (.node ll lk li lb lh lr) k i b h (.node rl rk ri rb rh rr)) up =
      match goRightmost (.node ll lk li lb lh lr) [] with
      | (.node sl sk si _ _ _, []) =>
        updateNodesAndRotate fuel (.node sl sk (copy si i) b h (.node rl rk ri rb rh rr)) up
      | (.node sl sk si _ _ _, f :: path) =>
        updateNodesAndRotate fuel (f.plug sl)
          (path ++ .inLeft sk (copy si i) b h (.node rl rk ri rb rh rr) :: up)
      | (.nil, _) => .fail .nullPointer := rfl

theorem maxPair_removeMax_rebuild (path : List (Frame K V)) :
    ∀ c : Node K V, c.isNode = true → (∀ f ∈ path, f.isLeft = false) →
      (rebuild c path).maxPair = c.maxPair ∧
        (rebuild c path).removeMax = rebuild c.removeMax path := by
  induction path with
  | nil => intro c _ _; exact ⟨rfl, rfl⟩
  | cons f t ih =>
    intro c hc hall
    have hf := hall f (List.mem_cons_self _ _)
    have ht : ∀ g ∈ t, g.isLeft = false := fun g hg => hall g (List.mem_cons_of_mem _ hg)
    cases f with
    | inLeft fk fi fb fh fr => simp [Frame.isLeft] at hf
    | inRight fl fk fi fb fh =>
      cases c with
      | nil => simp [Node.isNode] at hc
      | node cl ck ci cb ch cr =>
        obtain ⟨h1, h2⟩ := ih (.node fl fk fi fb fh (.node cl ck ci cb ch cr)) rfl ht
        exact ⟨h1, h2⟩

/-- What `goRightmost` finds in a subtree: the node of its last pair, under
which hangs what `removeMax` puts in its place. -/
theorem goRightmost_maxPair (l : Node K V) (hl : l.isNode = true) :
    ∃ sl sk si sb sh path, goRightmost l [] = (.node sl sk si sb sh .nil, path) ∧
      l.maxPair = some (sk, si) ∧ l.removeMax = rebuild sl path ∧
      l.toList = l.removeMax.toList ++ [(sk, si)] ∧
      rebuild (.node sl sk si sb sh .nil) path = l := by
  obtain ⟨sl, sk, si, sb, sh, path, h1, h2, h3⟩ := goRightmost_spec l hl []
  have hall := (ctxAfter_eq_nil path).mp h3
  obtain ⟨m1, m2⟩ := maxPair_removeMax_rebuild path (.node sl sk si sb sh .nil) rfl hall
  rw [h2] at m1 m2
  refine ⟨sl, sk, si, sb, sh, path, by simpa using h1, m1, m2, ?_, h2⟩
  rw [m2]
  show l.toList = (rebuild sl path).toList ++ [(sk, si)]
  rw [← h2, toList_rebuild, toList_rebuild, h3]
  simp [Node.toList]

/-! ## Subtrees that the up-propagation does not touch -/

theorem self_mem_subtrees (x : Node K V) (hx : x.isNode = true) : x ∈ x.subtrees := by
  cases x with
  | nil => simp [Node.isNode] at hx
  | node l k i b h r => simp [Node.subtrees]

theorem subtrees_trans {x y z : Node K V} (h1 : x ∈ y.subtrees) (h2 : y ∈ z.subtrees) :
    x ∈ z.subtrees := by
  induction z with
  | nil => simp [Node.subtrees] at h2
  | node l k i b h r ihl ihr =>
    simp only [Node.subtrees, List.mem_cons, List.mem_append] at h2 ⊢
    rcases h2 with h2 | h2 | h2
    · subst h2
      simpa [Node.subtrees] using h1
    · exact Or.inr (Or.inl (ihl h2))
    · exact Or.inr (Or.inr (ihr h2))

theorem mem_subtrees_node {x l r : Node K V} {k : K} {i : V} {b h : Int} :
    x ∈ (Node.node l k i b h r).subtrees ↔
      x = .node l k i b h r ∨ x ∈ l.subtrees ∨ x ∈ r.subtrees := by
  simp [Node.subtrees]

theorem rotateLeft_keeps {x l r n2 : Node K V} {k : K} {i : V} {b h : Int}
    (hx : x ∈ l.subtrees) (hr : rotateLeft (updateNode (.node l k i b h r)) = .ok n2) :
    x ∈ n2.subtrees := by
  cases r with
  | nil => simp [updateNode_node, rotateLeft] at hr
  | node rl rk ri rb rh rr =>
    simp only [updateNode_node, rotateLeft, Res.ok.injEq] at hr
    subst hr
    simp only [updateNode_node, mem_subtrees_node]
    exact Or.inr (Or.inl (Or.inr (Or.inl hx)))

theorem rotateRight_keeps {x l r n2 : Node K V} {k : K} {i : V} {b h : Int}
    (hx : x ∈ r.subtrees) (hr : rotateRight (updateNode (.node l k i b h r)) = .ok n2) :
    x ∈ n2.subtrees := by
  cases l with
  | nil => simp [updateNode_node, rotateRight] at hr
  | node ll lk li lb lh lr =>
    simp only [updateNode_node, rotateRight, Res.ok.injEq] at hr
    subst hr
    simp only [updateNode_node, mem_subtrees_node]
    exact Or.inr (Or.inr (Or.inr (Or.inr hx)))

theorem rotateRightLeft_keeps {x l r n2 : Node K V} {k : K} {i : V} {b h : Int}
    (hx : x ∈ l.subtrees) (hr : rotateRightLeft (updateNode (.node l k i b h r)) = .ok n2) :
    x ∈ n2.subtrees := by
  cases r with
  | nil => simp [updateNode_node, rotateRightLeft] at hr
  | node rl rk ri rb rh rr =>
    simp only [updateNode_node, rotateRightLeft] at hr
    cases hrr : rotateRight (.node rl rk ri rb rh rr) with
    | fail f => rw [hrr] at hr; cases hr
    | ok r2 =>
      rw [hrr] at hr
      simp only at hr
      cases r2 with
      | nil => simp [rotateLeft] at hr
      | node a ak ai ab ah c =>
        simp only [rotateLeft, Res.ok.injEq] at hr
        subst hr
        simp only [updateNode_node, mem_subtrees_node]
        exact Or.inr (Or.inl (Or.inr (Or.inl hx)))

theorem rotateLeftRight_keeps {x l r n2 : Node K V} {k : K} {i : V} {b h : Int}
    (hx : x ∈ r.subtrees) (hr : rotateLeftRight (updateNode (.node l k i b h r)) = .ok n2) :
    x ∈ n2.subtrees := by
  cases l with
  | nil => simp [updateNode_node, rotateLeftRight] at hr
  | node ll lk li lb lh lr =>
    simp only [updateNode_node, rotateLeftRight] at hr
    cases hrr : rotateLeft (.node ll lk li lb lh lr) with
    | fail f => rw [hrr] at hr; cases hr
    | ok l2 =>
      rw [hrr] at hr
      simp only at hr
      cases l2 with
      | nil => simp [rotateRight] at hr
      | node a ak ai ab ah c =>
        simp only [rotateRight, Res.ok.injEq] at hr
        subst hr
        simp only [updateNode_node, mem_subtrees_node]
        exact Or.inr (Or.inr (Or.inr (Or.inr hx)))

/-- One level of the up-propagation after a removal, with the subtree `x` on
the side that lost a level: a rotation, if any, turns the other side, and `x`
hangs below the node the loop goes on with. -/
theorem del_level_keeps (x : Node K V) (up : List (Frame K V)) (h0 : Int) (N : Nat)
    (hnext : ∀ c : Node K V, Settled h0 c → x ∈ c.subtrees →
      ∀ fuel, N ≤ fuel → ∃ t, goUp fuel c up = .ok t ∧ x ∈ t.subtrees)
    (c : Node K V) (hc : DelStateAt x h0 c) (fuel : Nat) (hf : N + 2 ≤ fuel) :
    ∃ t, updateNodesAndRotate fuel c up = .ok t ∧ x ∈ t.subtrees := by
  cases c with
  | nil => exact absurd hc id
  | node l k i b h r =>
    obtain ⟨fuel1, rfl⟩ : ∃ m, fuel = m + 1 := ⟨fuel - 1, by omega⟩
    obtain ⟨fuel2, rfl⟩ : ∃ m, fuel1 = m + 1 := ⟨fuel1 - 1, by omega⟩
    rcases hc with ⟨hin, hx, hr, hl0, a1, a2, a3, a4⟩ | ⟨hin, hl, hx, hr0, a1, a2, a3, a4⟩
    · have hnr := hr.nonneg
      by_cases h2 : r.cachedHeight - l.cachedHeight = 2
      · cases r with
        | nil =>
          simp only [cachedHeight_nil] at h2
          omega
        | node rl rk ri rb rh rr =>
          simp only [cachedHeight_node] at h2 a2 a3 a4
          rw [loop_rotR _ l k i b h rl rk ri rb rh rr up h2]
          by_cases h3 : rb = 1
          · obtain ⟨n2, e, g⟩ := del_rotateLeft k i b h hx hr h2 h3
            have hk := rotateLeft_keeps hin e
            rw [if_pos h3, e]
            simp only
            rw [loop_settled _ up g]
            exact hnext n2 (by rw [show h0 = rh + 1 by omega]; exact g) hk _ (by omega)
          · obtain ⟨n2, e, g⟩ := del_rotateRightLeft k i b h hx hr h2 h3
            have hk := rotateRightLeft_keeps hin e
            rw [if_neg h3, e]
            simp only
            rw [loop_settled _ up g]
            exact hnext n2 (by rw [show h0 = rh + 1 by omega]; exact g) hk _ (by omega)
      · rw [loop_norot _ l k i b h r up (by omega) h2]
        exact hnext (.node l k i (r.cachedHeight - l.cachedHeight)
          (max l.cachedHeight r.cachedHeight + 1) r)
          ⟨rfl, rfl, by omega, by omega, by omega, by omega⟩
          (mem_subtrees_node.mpr (Or.inr (Or.inl hin))) _ (by omega)
    · have hnl := hl.nonneg
      by_cases h2 : r.cachedHeight - l.cachedHeight = -2
      · cases l with
        | nil =>
          simp only [cachedHeight_nil] at h2
          omega
        | node ll lk li lb lh lr =>
          simp only [cachedHeight_node] at h2 a2 a3 a4
          rw [loop_rotL _ ll lk li lb lh lr k i b h r up h2]
          by_cases h3 : lb = -1
          · obtain ⟨n2, e, g⟩ := del_rotateRight k i b h hl hx h2 h3
            have hk := rotateRight_keeps hin e
            rw [if_pos h3, e]
            simp only
            rw [loop_settled _ up g]
            exact hnext n2 (by rw [show h0 = lh + 1 by omega]; exact g) hk _ (by omega)
          · obtain ⟨n2, e, g⟩ := del_rotateLeftRight k i b h hl hx h2 h3
            have hk := rotateLeftRight_keeps hin e
            rw [if_neg h3, e]
            simp only
            rw [loop_settled _ up g]
            exact hnext n2 (by rw [show h0 = lh + 1 by omega]; exact g) hk _ (by omega)
      · rw [loop_norot _ l k i b h r up h2 (by omega)]
        exact hnext (.node l k i (r.cachedHeight - l.cachedHeight)
          (max l.cachedHeight r.cachedHeight + 1) r)
          ⟨rfl, rfl, by omega, by omega, by omega, by omega⟩
          (mem_subtrees_node.mpr (Or.inr (Or.inr hin))) _ (by omega)

theorem del_state_plug_at (x : Node K V) (f : Frame K V) (rest : List (Frame K V)) (h0 : Int)
    (c : Node K V) (hx : x ∈ c.subtrees)
    (c5 : 0 ≤ c.cachedHeight) (c6 : c.cachedHeight = h0 ∨ c.cachedHeight = h0 - 1)
    (hu : GoodCtx (f :: rest) h0) :
    ∃ h1, DelStateAt x h1 (f.plug c) ∧ GoodCtx rest h1 := by
  cases f with
  | inLeft k i b h r =>
    obtain ⟨hr, e1, e2, e3, e4, hu2⟩ := hu
    exact ⟨h, Or.inl ⟨hx, c5, hr, h0, c6, e1, by omega, by omega⟩, hu2⟩
  | inRight l k i b h =>
    obtain ⟨hl, e1, e2, e3, e4, hu2⟩ := hu
    exact ⟨h, Or.inr ⟨hx, hl, c5, h0, c6, e1, by omega, by omega⟩, hu2⟩

/-- After a removal in a `Good` tree the up-propagation returns a tree in
which the subtree `x`, on the side of the removal at the start, still hangs. -/
theorem del_up_keeps (x : Node K V) (up : List (Frame K V)) :
    ∀ (h0 : Int) (c : Node K V) (fuel : Nat), DelStateAt x h0 c → GoodCtx up h0 →
      2 * up.length + 2 ≤ fuel →
      ∃ t, updateNodesAndRotate fuel c up = .ok t ∧ x ∈ t.subtrees := by
  induction up with
  | nil =>
    intro h0 c fuel hc _ hf
    exact del_level_keeps x [] h0 0 (fun c _ hk _ _ => ⟨c, rfl, hk⟩) c hc fuel (by omega)
  | cons f rest ih =>
    intro h0 c fuel hc hu hf
    simp only [List.length_cons] at hf
    refine del_level_keeps x (f :: rest) h0 (2 * rest.length + 2) ?_ c hc fuel (by omega)
    intro c2 g hk fuel2 hf2
    obtain ⟨h1, hs, hu2⟩ := del_state_plug_at x f rest h0 c2 hk g.height.1 g.height.2 hu
    exact ih h1 (f.plug c2) fuel2 hs hu2 hf2

/-- The up-propagation started on a node that lost its only child, a leaf, in
a `Good` tree: it returns a tree in which that node hangs as a leaf. -/
theorem leaf_up_keeps (k : K) (i : V) (b : Int) (up : List (Frame K V)) (fuel : Nat)
    (hu : GoodCtx up 2) (hf : 2 * up.length + 3 ≤ fuel) :
    ∃ t, updateNodesAndRotate fuel (.node .nil k i b 2 .nil) up = .ok t ∧
      Node.leaf k i ∈ t.subtrees := by
  obtain ⟨fuel1, rfl⟩ : ∃ m, fuel = m + 1 := ⟨fuel - 1, by omega⟩
  rw [loop_norot fuel1 .nil k i b 2 .nil up (by simp [cachedHeight_nil])
    (by simp [cachedHeight_nil])]
  have hleaf : Node.node (.nil : Node K V) k i
      ((.nil : Node K V).cachedHeight - (.nil : Node K V).cachedHeight)
      (max (.nil : Node K V).cachedHeight (.nil : Node K V).cachedHeight + 1) .nil =
      Node.leaf k i := by
    simp [cachedHeight_nil, Node.leaf]
  rw [hleaf]
  cases up with
  | nil => exact ⟨_, rfl, self_mem_subtrees _ rfl⟩
  | cons f rest =>
    obtain ⟨h1, hs, hu2⟩ := del_state_plug_at (Node.leaf k i) f rest 2 (Node.leaf k i)
      (self_mem_subtrees _ rfl) (by simp [cachedHeight_leaf])
      (Or.inr (by simp [cachedHeight_leaf])) hu
    simp only [List.length_cons] at hf
    exact del_up_keeps (Node.leaf k i) rest h1 _ fuel1 hs hu2 (by omega)

/-- The removal at a node with two children of a `Good` tree: the pair of the
last node of the left subtree goes into the node, that last node goes away,
its left subtree standing in its place; the up-propagation starts on that tree
and returns. -/
theorem deleteNodeCasesWith_two_ok (copy : V → V → V) (fuel : Nat) (size : Int)
    (l : Node K V) (k : K) (i : V) (b h : Int) (r : Node K V) (up : List (Frame K V))
    (hl : l.isNode = true) (hr : r.isNode = true)
    (hg : (rebuild (.node l k i b h r) up).Good)
    (hf : 2 * (rebuild (.node l k i b h r) up).count ≤ fuel) :
    ∃ sk si, l.maxPair = some (sk, si) ∧ l.toList = l.removeMax.toList ++ [(sk, si)] ∧
      (∃ c chain, deleteNodeCasesWith copy fuel size (.node l k i b h r) up =
          updateNodesAndRotate fuel c chain ∧
        rebuild c chain = rebuild (.node l.removeMax sk (copy si i) b h r) up) ∧
      ∃ t, deleteNodeCasesWith copy fuel size (.node l k i b h r) up = .ok t ∧
        t.toList = (rebuild (.node l.removeMax sk (copy si i) b h r) up).toList := by
  have hcnt := count_rebuild (.node l k i b h r) up
  cases l with
  | nil => simp [Node.isNode] at hl
  | node ll lk li lb lh lr =>
    cases r with
    | nil => simp [Node.isNode] at hr
    | node rl rk ri rb rh rr =>
      obtain ⟨sl, sk, si, sb, sh, path, h1, m1, m2, m3, h2⟩ :=
        goRightmost_maxPair (.node ll lk li lb lh lr) rfl
      have hroot : rebuild (.node sl sk si sb sh .nil)
          (path ++ Frame.inLeft k i b h (.node rl rk ri rb rh rr) :: up) =
          rebuild (.node (.node ll lk li lb lh lr) k i b h (.node rl rk ri rb rh rr)) up := by
        rw [rebuild_append, h2]
        rfl
      have hg2 := hg
      rw [← hroot] at hg2
      obtain ⟨hsw, hctx⟩ := good_of_rebuild _ _ hg2
      have hctx2 := goodCtx_rekey path k sk i (copy si i) b h _ up _ hctx
      have hcnt2 := count_rebuild (.node sl sk si sb sh .nil)
        (path ++ Frame.inLeft k i b h (.node rl rk ri rb rh rr) :: up)
      rw [hroot] at hcnt2
      simp only [List.length_append, List.length_cons, Node.count] at hcnt2 hcnt
      obtain ⟨gsl, -, g1, -⟩ := hsw
      have := gsl.nonneg
      simp only [cachedHeight_nil, cachedHeight_node] at g1 hctx2
      have hstart : ∃ c chain,
          deleteNodeCasesWith copy fuel size
            (.node (.node ll lk li lb lh lr) k i b h (.node rl rk ri rb rh rr)) up =
            updateNodesAndRotate fuel c chain ∧
          rebuild c chain = rebuild (.node (Node.node ll lk li lb lh lr).removeMax sk
            (copy si i) b h (.node rl rk ri rb rh rr)) up ∧
          ∃ t, updateNodesAndRotate fuel c chain = .ok t := by
        rw [deleteNodeCasesWith_two, h1, m2]
        cases path with
        | nil =>
          refine ⟨_, _, rfl, rfl, ?_⟩
          simp only [List.nil_append] at hctx2
          obtain ⟨c1, c2, c3, c4, c5, c6⟩ := hctx2
          exact del_up up h _ fuel (Or.inl ⟨this, c1, sh, Or.inr (by omega), c2, by omega,
            by omega⟩) c6 (by omega)
        | cons f rest =>
          refine ⟨_, _, rfl, ?_, ?_⟩
          · rw [rebuild_append]
            rfl
          · obtain ⟨h1, hst, hu2⟩ := del_state_plug f
              (rest ++ Frame.inLeft sk (copy si i) b h (.node rl rk ri rb rh rr) :: up) sh sl
              this (Or.inr (by omega)) hctx2
            refine del_up _ h1 _ fuel hst hu2 ?_
            simp only [List.length_append, List.length_cons] at hcnt2 ⊢
            omega
      obtain ⟨c, chain, e1, e2, t, e3⟩ := hstart
      refine ⟨sk, si, m1, m3, ⟨c, chain, e1, e2⟩, t, by rw [e1, e3], ?_⟩
      rw [toList_updateNodesAndRotate fuel c chain e3, e2]

/-- A node of a `Good` tree with a right child and no left child: the child is
a leaf and the node has height 2. -/
theorem only_right_child {k : K} {i : V} {b h : Int} {r : Node K V}
    (hg : (Node.node .nil k i b h r).Good) (hr : r.isNode = true) :
    h = 2 ∧ ∃ ck ci, r = Node.leaf ck ci := by
  cases r with
  | nil => simp [Node.isNode] at hr
  | node rl rk ri rb rh rr =>
    obtain ⟨_, gr, e1, e2, e3, e4⟩ := hg
    have gr2 := gr
    obtain ⟨grl, grr, f1, f2, f3, f4⟩ := gr2
    have := grl.nonneg
    have := grr.nonneg
    simp only [cachedHeight_nil, cachedHeight_node] at e1 e2
    have hrl : rl = .nil := grl.eq_nil (by omega)
    have hrr : rr = .nil := grr.eq_nil (by omega)
    subst hrl hrr
    simp only [cachedHeight_nil] at f1 f2
    refine ⟨by omega, rk, ri, ?_⟩
    simp only [Node.leaf]
    rw [f1, f2]
    rfl

/-- A node of a `Good` tree with a left child and no right child: the child is
a leaf and the node has height 2. -/
theorem only_left_child {k : K} {i : V} {b h : Int} {l : Node K V}
    (hg : (Node.node l k i b h .nil).Good) (hl : l.isNode = true) :
    h = 2 ∧ ∃ ck ci, l = Node.leaf ck ci := by
  cases l with
  | nil => simp [Node.isNode] at hl
  | node ll lk li lb lh lr =>
    obtain ⟨gl, _, e1, e2, e3, e4⟩ := hg
    have gl2 := gl
    obtain ⟨gll, glr, f1, f2, f3, f4⟩ := gl2
    have := gll.nonneg
    have := glr.nonneg
    simp only [cachedHeight_nil, cachedHeight_node] at e1 e2
    have hll : ll = .nil := gll.eq_nil (by omega)
    have hlr : lr = .nil := glr.eq_nil (by omega)
    subst hll hlr
    simp only [cachedHeight_nil] at f1 f2
    refine ⟨by omega, lk, li, ?_⟩
    simp only [Node.leaf]
    rw [f1, f2]
    rfl

/-- The removal at a node with one child of a `Good` tree: the child is a
leaf, its pair goes into the node, the link to it is cleared, and the
up-propagation returns a tree in which the node hangs as a leaf. -/
theorem deleteNodeCasesWith_one_ok (copy : V → V → V) (fuel : Nat) (size : Int)
    (l : Node K V) (k : K) (i : V) (b h : Int) (r : Node K V) (up : List (Frame K V))
    (hone : (l.isNode = true ∧ r = .nil) ∨ (l = .nil ∧ r.isNode = true))
    (hg : (rebuild (.node l k i b h r) up).Good)
    (hf : 2 * (rebuild (.node l k i b h r) up).count ≤ fuel) :
    ∃ ck ci, (r = .nil → l = Node.leaf ck ci) ∧ (l = .nil → r = Node.leaf ck ci) ∧
      deleteNodeCasesWith copy fuel size (.node l k i b h r) up =
        updateNodesAndRotate fuel (.node .nil ck (copy ci i) b h .nil) up ∧
      ∃ t, deleteNodeCasesWith copy fuel size (.node l k i b h r) up = .ok t ∧
        Node.leaf ck (copy ci i) ∈ t.subtrees ∧
        t.toList = ctxBefore up ++ (ck, copy ci i) :: ctxAfter up := by
  have hcnt := count_rebuild (.node l k i b h r) up
  obtain ⟨hc, hu⟩ := good_of_rebuild up _ hg
  simp only [cachedHeight_node] at hu
  simp only [Node.count] at hcnt
  have hch : 1 ≤ l.count + r.count := by
    rcases hone with ⟨hl, _⟩ | ⟨_, hr⟩
    · cases l with
      | nil => simp [Node.isNode] at hl
      | node ll lk li lb lh lr => simp only [Node.count]; omega
    · cases r with
      | nil => simp [Node.isNode] at hr
      | node rl rk ri rb rh rr => simp only [Node.count]; omega
  have finish : ∀ (ck : K) (ci : V), h = 2 →
      ∃ t, updateNodesAndRotate fuel (.node .nil ck (copy ci i) b h .nil) up = .ok t ∧
        Node.leaf ck (copy ci i) ∈ t.subtrees ∧
        t.toList = ctxBefore up ++ (ck, copy ci i) :: ctxAfter up := by
    intro ck ci h2
    subst h2
    obtain ⟨t, t1, t2⟩ := leaf_up_keeps ck (copy ci i) b up fuel hu (by omega)
    refine ⟨t, t1, t2, ?_⟩
    rw [toList_updateNodesAndRotate fuel _ up t1, toList_rebuild]
    simp [Node.toList]
  rcases hone with ⟨hl, hr⟩ | ⟨hl, hr⟩
  · subst hr
    obtain ⟨h2, ck, ci, hleaf⟩ := only_left_child hc hl
    subst hleaf
    refine ⟨ck, ci, fun _ => rfl, fun hn => by simp [Node.leaf] at hn, rfl, ?_⟩
    exact finish ck ci h2
  · subst hl
    obtain ⟨h2, ck, ci, hleaf⟩ := only_right_child hc hr
    subst hleaf
    refine ⟨ck, ci, fun hn => by simp [Node.leaf] at hn, fun _ => rfl, rfl, ?_⟩
    exact finish ck ci h2

section Order
variable [LinearOrder K]

/-- What `deleteNode(Iterator)` returns on a cursor of the dictionary on a node
of its tree, once the structural part returned, more than one node being in
the tree. -/
theorem Dictionary.deleteNodeAt_of_cases [DecidableEq V] (d : Dictionary K V)
    (it : Iterator K V) (fuel : Nat) (hon : it.On d.root) (hd : it.dictionary = some d.self)
    (hs : d.size - 1 ≠ 0) {t : Node K V}
    (ht : deleteNodeCasesWith (fun s _ => s) fuel d.size it.curr it.up = .ok t) :
    d.deleteNodeAt fuel it = .ok (true, { d with root := t, size := d.size - 1 }) := by
  rw [deleteNodeCasesWith_code] at ht
  have hend : it.isEnd = false := by simp [Iterator.isEnd, hon.1]
  simp [Dictionary.deleteNodeAt, hd, hend, hon.2, ht, hs]

/-! ## Claims on the removal at a node with children -/

/-- C19: on a well-formed dictionary, `deleteNode` on a cursor of the
dictionary that stands on a node `n` of key `k` with two children, the
iterations granted being twice the number of nodes or more.  The last node of
the left subtree of `n` holds the greatest key smaller than `k`; its key goes
into `n` and its info is assigned to the info of `n` (`copy source
destination`); that last node leaves the tree and its left subtree stands in
its place: the up-propagation starts on the tree before the call with this one
change, the node `n` keeping its place, its cached fields and its right
subtree.  The call returns, and the in-order sequence after it is the one
before without the pair of `n` and with the assigned info in the place of the
info of that last node.  With an info that carries the address of the node, and
an assignment that leaves the address alone, this reads: the address of `n`
now comes with the key and the value of the predecessor, the address of the
predecessor is gone, every other address comes with the pair it came with.
The assignment of the code is `copy s _ = s`, with which this is what
`deleteNode(Iterator)` does, and it returns true. -/
theorem C19_deleteNode_two_children [DecidableEq V] (copy : V → V → V)
    (d : Dictionary K V) (it : Iterator K V) (fuel : Nat) (hw : d.WellFormed)
    (hon : it.On d.root) (hd : it.dictionary = some d.self) (hf : 2 * d.root.count ≤ fuel)
    {l r : Node K V} {k : K} {i : V} {b h : Int} (hc : it.curr = .node l k i b h r)
    (hl : l.isNode = true) (hr : r.isNode = true) :
    ∃ sk si, l.maxPair = some (sk, si) ∧
      (sk < k ∧ ∀ x ∈ d.root.keys, x < k → x ≤ sk) ∧
      d.root.toList = ctxBefore it.up ++
        (l.removeMax.toList ++ (sk, si) :: (k, i) :: r.toList) ++ ctxAfter it.up ∧
      (∃ c chain, deleteNodeCasesWith copy fuel d.size it.curr it.up =
          updateNodesAndRotate fuel c chain ∧
        rebuild c chain = rebuild (.node l.removeMax sk (copy si i) b h r) it.up) ∧
      (∃ t, deleteNodeCasesWith copy fuel d.size it.curr it.up = .ok t ∧
        t.toList = ctxBefore it.up ++
          (l.removeMax.toList ++ (sk, copy si i) :: r.toList) ++ ctxAfter it.up) ∧
      (∃ t, deleteNodeCasesWith (fun s _ => s) fuel d.size it.curr it.up = .ok t ∧
        d.deleteNodeAt fuel it = .ok (true, { d with root := t, size := d.size - 1 })) := by
  obtain ⟨c, up, dict⟩ := it
  simp only at hc hd
  subst hc hd
  have hreb : rebuild (.node l k i b h r) up = d.root := hon.2
  have hg : (rebuild (.node l k i b h r) up).Good := by rw [hreb]; exact hw.good
  have hf2 : 2 * (rebuild (.node l k i b h r) up).count ≤ fuel := by rw [hreb]; exact hf
  obtain ⟨sk, si, m1, m2, m3, t, t1, t2⟩ :=
    deleteNodeCasesWith_two_ok copy fuel d.size l k i b h r up hl hr hg hf2
  obtain ⟨_, _, _, _, _, t0, u1, _⟩ :=
    deleteNodeCasesWith_two_ok (fun s _ => s) fuel d.size l k i b h r up hl hr hg hf2
  have hlist : d.root.toList = ctxBefore up ++
      (l.removeMax.toList ++ (sk, si) :: (k, i) :: r.toList) ++ ctxAfter up := by
    rw [← hreb, toList_rebuild]
    simp [Node.toList, m2]
  have hsize : d.size - 1 ≠ 0 := by
    have h1 := count_rebuild (.node l k i b h r) up
    rw [hreb] at h1
    have h2 := hw.size_eq
    have h3 : 1 ≤ l.count := by
      cases l with
      | nil => simp [Node.isNode] at hl
      | node ll lk li lb lh lr => simp only [Node.count]; omega
    simp only [Node.count] at h1
    omega
  refine ⟨sk, si, m1, ?_, hlist, m3, ⟨t, t1, ?_⟩, t0, u1,
    d.deleteNodeAt_of_cases _ fuel hon rfl hsize u1⟩
  · have hs := (bst_iff_sorted d.root).mp hw.bst
    have e : d.root.toList = (ctxBefore up ++ l.removeMax.toList) ++
        (sk, si) :: (k, i) :: (r.toList ++ ctxAfter up) := by
      rw [hlist]
      simp [List.append_assoc]
    rw [Node.keys, e] at hs
    have hn := next_in_sorted _ _ (sk, si) (k, i) hs
    rw [Node.keys, e]
    exact ⟨hn.1, hn.2.2⟩
  · rw [t2, toList_rebuild]
    simp [Node.toList]

/-- C19, at the root of `taggedDict`, with infos that carry the address of
their node. -/
theorem C19_witness :
    taggedDict.WellFormed ∧ taggedDict.top.On taggedDict.root ∧
      2 * taggedDict.root.count ≤ 8 ∧
      ∃ sk si, taggedDict.root.getLeft.maxPair = some (sk, si) ∧
        (sk < 2 ∧ ∀ x ∈ taggedDict.root.keys, x < 2 → x ≤ sk) ∧
        taggedDict.root.toList = ctxBefore taggedDict.top.up ++
          (taggedDict.root.getLeft.removeMax.toList ++ (sk, si) :: (2, (20, 100)) ::
            taggedDict.root.getRight.toList) ++ ctxAfter taggedDict.top.up ∧
        (∃ c chain, deleteNodeCasesWith keepAddress 8 taggedDict.size taggedDict.top.curr
            taggedDict.top.up = updateNodesAndRotate 8 c chain ∧
          rebuild c chain = rebuild (.node taggedDict.root.getLeft.removeMax sk
            (keepAddress si (20, 100)) 1 3 taggedDict.root.getRight) taggedDict.top.up) ∧
        (∃ t, deleteNodeCasesWith keepAddress 8 taggedDict.size taggedDict.top.curr
            taggedDict.top.up = .ok t ∧
          t.toList = ctxBefore taggedDict.top.up ++
            (taggedDict.root.getLeft.removeMax.toList ++ (sk, keepAddress si (20, 100)) ::
              taggedDict.root.getRight.toList) ++ ctxAfter taggedDict.top.up) ∧
        (∃ t, deleteNodeCasesWith (fun s _ => s) 8 taggedDict.size taggedDict.top.curr
            taggedDict.top.up = .ok t ∧
          taggedDict.deleteNodeAt 8 taggedDict.top =
            .ok (true, { taggedDict with root := t, size := taggedDict.size - 1 })) :=
  ⟨by decide, ⟨rfl, rfl⟩, by decide,
    C19_deleteNode_two_children keepAddress taggedDict taggedDict.top 8 (by decide)
      ⟨rfl, rfl⟩ rfl (by decide) rfl rfl rfl⟩

/-- C20: on a well-formed dictionary, `deleteNode` on a cursor of the
dictionary that stands on a node `n` of key `k` with one child, left or right,
the iterations granted being twice the number of nodes or more.  The child is
a leaf; its key goes into `n`, its info is assigned to the info of `n` (`copy
source destination`), the link to it is cleared, and the up-propagation starts
at `n`, which keeps its place.  The call returns; in the tree after it `n`
hangs as a leaf with the key of the child and the assigned info; the in-order
sequence is the one before without the pair of `n` and with the assigned info
in the place of the info of the child; the keys are those held before other
than `k`.  With an info that carries the address of the node, and an
assignment that leaves the address alone, this reads: the address of `n` now
comes with the key and the value of the child, the address of the child is
gone, every other address comes with the pair it came with.  The assignment of
the code is `copy s _ = s`, with which this is what `deleteNode(Iterator)`
does, and it returns true. -/
theorem C20_deleteNode_single_child [DecidableEq V] (copy : V → V → V)
    (d : Dictionary K V) (it : Iterator K V) (fuel : Nat) (hw : d.WellFormed)
    (hon : it.On d.root) (hd : it.dictionary = some d.self) (hf : 2 * d.root.count ≤ fuel)
    {l r : Node K V} {k : K} {i : V} {b h : Int} (hc : it.curr = .node l k i b h r)
    (hone : (l.isNode = true ∧ r = .nil) ∨ (l = .nil ∧ r.isNode = true)) :
    ∃ ck ci, (r = .nil → l = Node.leaf ck ci) ∧ (l = .nil → r = Node.leaf ck ci) ∧
      d.root.toList = ctxBefore it.up ++ (l.toList ++ (k, i) :: r.toList) ++ ctxAfter it.up ∧
      l.toList ++ r.toList = [(ck, ci)] ∧
      deleteNodeCasesWith copy fuel d.size it.curr it.up =
        updateNodesAndRotate fuel (.node .nil ck (copy ci i) b h .nil) it.up ∧
      (∃ t, deleteNodeCasesWith copy fuel d.size it.curr it.up = .ok t ∧
        Node.leaf ck (copy ci i) ∈ t.subtrees ∧
        t.toList = ctxBefore it.up ++ (ck, copy ci i) :: ctxAfter it.up ∧
        (∀ x, x ∈ t.keys ↔ (x ∈ d.root.keys ∧ x ≠ k))) ∧
      (∃ t, deleteNodeCasesWith (fun s _ => s) fuel d.size it.curr it.up = .ok t ∧
        d.deleteNodeAt fuel it = .ok (true, { d with root := t, size := d.size - 1 })) := by
  obtain ⟨bk, hb1, hb2⟩ := before_after_keys it d.root hon hw.bst hc
  obtain ⟨c, up, dict⟩ := it
  simp only at hc hd
  subst hc hd
  have hreb : rebuild (.node l k i b h r) up = d.root := hon.2
  have hg : (rebuild (.node l k i b h r) up).Good := by rw [hreb]; exact hw.good
  have hf2 : 2 * (rebuild (.node l k i b h r) up).count ≤ fuel := by rw [hreb]; exact hf
  obtain ⟨ck, ci, c1, c2, c3, t, t1, t2, t3⟩ :=
    deleteNodeCasesWith_one_ok copy fuel d.size l k i b h r up hone hg hf2
  obtain ⟨_, _, _, _, _, t0, u1, _⟩ :=
    deleteNodeCasesWith_one_ok (fun s _ => s) fuel d.size l k i b h r up hone hg hf2
  have hlist : d.root.toList =
      ctxBefore up ++ (l.toList ++ (k, i) :: r.toList) ++ ctxAfter up := by
    rw [← hreb, toList_rebuild]
    simp [Node.toList]
  have hchild : l.toList ++ r.toList = [(ck, ci)] := by
    rcases hone with ⟨_, hr⟩ | ⟨hl, _⟩
    · rw [c1 hr, hr]
      simp [Node.leaf, Node.toList]
    · rw [c2 hl, hl]
      simp [Node.leaf, Node.toList]
  have hsize : d.size - 1 ≠ 0 := by
    have h1 := count_rebuild (.node l k i b h r) up
    rw [hreb] at h1
    have h2 := hw.size_eq
    have h3 := congrArg List.length hchild
    simp only [List.length_append, length_toList, List.length_singleton] at h3
    simp only [Node.count] at h1
    omega
  refine ⟨ck, ci, c1, c2, hlist, hchild, c3, ⟨t, t1, t2, t3, ?_⟩, t0, u1,
    d.deleteNodeAt_of_cases _ fuel hon rfl hsize u1⟩
  have hb1b : ∀ p ∈ ctxBefore up ++ l.toList, p.1 < k := hb1
  have hb2b : ∀ p ∈ r.toList ++ ctxAfter up, k < p.1 := hb2
  have hB : ∀ p ∈ ctxBefore up, p.1 ≠ k := fun p hp =>
    ne_of_lt (hb1b p (List.mem_append_left _ hp))
  have hA : ∀ p ∈ ctxAfter up, p.1 ≠ k := fun p hp =>
    ne_of_gt (hb2b p (List.mem_append_right _ hp))
  have hmem : (ck, ci) ∈ l.toList ∨ (ck, ci) ∈ r.toList := by
    have : (ck, ci) ∈ l.toList ++ r.toList := by rw [hchild]; exact List.mem_singleton_self _
    exact List.mem_append.mp this
  have hck : ck ≠ k := by
    rcases hmem with hm | hm
    · exact ne_of_lt (hb1b (ck, ci) (List.mem_append_right _ hm))
    · exact ne_of_gt (hb2b (ck, ci) (List.mem_append_left _ hm))
  have hkeys : ∀ x, (x ∈ l.keys ∨ x ∈ r.keys) ↔ x = ck := by
    intro x
    have : x ∈ (l.toList ++ r.toList).map Prod.fst ↔ x = ck := by
      rw [hchild]
      simp
    rw [← this, List.map_append, List.mem_append]
    rfl
  intro x
  rw [Node.keys, t3, Node.keys, hlist]
  simp only [List.map_append, List.map_cons, List.mem_append, List.mem_cons]
  constructor
  · rintro (hx | rfl | hx)
    · obtain ⟨p, hp, rfl⟩ := List.mem_map.mp hx
      exact ⟨Or.inl (Or.inl hx), hB p hp⟩
    · exact ⟨Or.inl (Or.inr (by
        rcases (hkeys x).mpr rfl with h1 | h1
        · exact Or.inl h1
        · exact Or.inr (Or.inr h1))), hck⟩
    · obtain ⟨p, hp, rfl⟩ := List.mem_map.mp hx
      exact ⟨Or.inr hx, hA p hp⟩
  · rintro ⟨((hx | hx | rfl | hx) | hx), hne⟩
    · exact Or.inl hx
    · exact Or.inr (Or.inl ((hkeys x).mp (Or.inl hx)))
    · exact absurd rfl hne
    · exact Or.inr (Or.inl ((hkeys x).mp (Or.inr hx)))
    · exact Or.inr (Or.inr hx)

/-- C20, at the node of key 3 of `taggedDict`, whose only child is its right
child, with infos that carry the address of their node. -/
theorem C20_witness :
    taggedDict.WellFormed ∧ taggedDict.top.toRight.On taggedDict.root ∧
      2 * taggedDict.root.count ≤ 8 ∧
      ∃ ck ci, ((Node.leaf 4 (40, 103) : Node Nat (Nat × Nat)) = .nil →
          (.nil : Node Nat (Nat × Nat)) = Node.leaf ck ci) ∧
        ((.nil : Node Nat (Nat × Nat)) = .nil → Node.leaf 4 (40, 103) = Node.leaf ck ci) ∧
        taggedDict.root.toList = ctxBefore taggedDict.top.toRight.up ++
          ((.nil : Node Nat (Nat × Nat)).toList ++ (3, (30, 102)) ::
            (Node.leaf 4 (40, 103)).toList) ++ ctxAfter taggedDict.top.toRight.up ∧
        (.nil : Node Nat (Nat × Nat)).toList ++ (Node.leaf 4 (40, 103)).toList = [(ck, ci)] ∧
        deleteNodeCasesWith keepAddress 8 taggedDict.size taggedDict.top.toRight.curr
            taggedDict.top.toRight.up =
          updateNodesAndRotate 8 (.node .nil ck (keepAddress ci (30, 102)) 1 2 .nil)
            taggedDict.top.toRight.up ∧
        (∃ t, deleteNodeCasesWith keepAddress 8 taggedDict.size taggedDict.top.toRight.curr
            taggedDict.top.toRight.up = .ok t ∧
          Node.leaf ck (keepAddress ci (30, 102)) ∈ t.subtrees ∧
          t.toList = ctxBefore taggedDict.top.toRight.up ++
            (ck, keepAddress ci (30, 102)) :: ctxAfter taggedDict.top.toRight.up ∧
          (∀ x, x ∈ t.keys ↔ (x ∈ taggedDict.root.keys ∧ x ≠ 3))) ∧
        (∃ t, deleteNodeCasesWith (fun s _ => s) 8 taggedDict.size
            taggedDict.top.toRight.curr taggedDict.top.toRight.up = .ok t ∧
          taggedDict.deleteNodeAt 8 taggedDict.top.toRight =
            .ok (true, { taggedDict with root := t, size := taggedDict.size - 1 })) :=
  ⟨by decide, ⟨rfl, rfl⟩, by decide,
    C20_deleteNode_single_child keepAddress taggedDict taggedDict.top.toRight 8 (by decide)
      ⟨rfl, rfl⟩ rfl (by decide) rfl (Or.inr ⟨rfl, rfl⟩)⟩

/-- The removal at the root of `taggedDict`, a node with two children: the
address 100 of the root comes with the key 1 and the value 10 of the
predecessor, the address 101 of the predecessor is gone, and the rotation that
follows leaves the other addresses with their pairs. -/
theorem taggedDict_remove_root :
    deleteNodeCasesWith keepAddress 8 taggedDict.size taggedDict.top.curr taggedDict.top.up =
      .ok (.node (.node .nil 1 (10, 100) 0 1 .nil) 3 (30, 102) 0 2
        (.node .nil 4 (40, 103) 0 1 .nil)) := by
  decide

/-- The removal at the node of key 3 of `taggedDict`, a node with one child:
the address 102 of the node comes with the key 4 and the value 40 of the
child, on a leaf, and the address 103 of the child is gone. -/
theorem taggedDict_remove_single_child :
    deleteNodeCasesWith keepAddress 8 taggedDict.size taggedDict.top.toRight.curr
        taggedDict.top.toRight.up =
      .ok (.node (.node .nil 1 (10, 101) 0 1 .nil) 2 (20, 100) 0 2
        (.node .nil 4 (40, 102) 0 1 .nil)) := by
  decide

end Order

end AVL

/-! ## What `isAVL` checks -/

namespace AVL

variable {K V : Type}

/-- When the loop of `isAVL` answers `true`, `updateNode` has found the cached
fields of every stacked node as it would write them, and the balance factor in
range. -/
theorem isAVLLoop_true (stack : List (Iterator K V)) :
    ∀ (d d2 : Dictionary K V), isAVLLoop d stack = (true, d2) →
      ∀ it ∈ stack, (updateNode it.curr).bf = it.curr.bf ∧
        (updateNode it.curr).cachedHeight = it.curr.cachedHeight ∧
        -1 ≤ (updateNode it.curr).bf ∧ (updateNode it.curr).bf ≤ 1 := by
  induction stack with
  | nil => intro d d2 _ it hit; cases hit
  | cons x stack ih =>
    intro d d2 e it hit
    rw [isAVLLoop] at e
    split at e
    · simp at e
    · rename_i c1
      split at e
      · simp at e
      · rename_i c2
        rw [List.mem_cons] at hit
        rcases hit with rfl | hit
        · refine ⟨?_, ?_, ?_, ?_⟩
          · by_contra h; exact c1 (Or.inl h)
          · by_contra h; exact c1 (Or.inr h)
          · by_contra h; exact c2 (Or.inl (by omega))
          · by_contra h; exact c2 (Or.inr (by omega))
        · exact ih _ _ e it hit

/-- The loop of `createStack` stacks every node that hangs below a queued
iterator, given one iteration per such node. -/
theorem createStackLoop_complete (fuel : Nat) :
    ∀ (queue stack : List (Iterator K V)),
      (∀ it ∈ queue, it.curr.isNode = true) →
      (queue.map (fun it => it.curr.count)).sum ≤ fuel →
      ∀ n, (n ∈ stack.map Iterator.curr ∨ ∃ it ∈ queue, n ∈ it.curr.subtrees) →
        n ∈ (createStackLoop fuel queue stack).map Iterator.curr := by
  induction fuel with
  | zero =>
    intro queue stack _ hf n hn
    rcases hn with hn | ⟨it, hit, hn⟩
    · cases queue <;> exact hn
    · exfalso
      have h1 : it.curr.count ≤ (queue.map (fun it => it.curr.count)).sum :=
        List.single_le_sum (fun _ _ => Nat.zero_le _) _ (List.mem_map_of_mem _ hit)
      cases hc : it.curr with
      | nil => rw [hc] at hn; cases hn
      | node l k i b h r =>
        rw [hc] at h1
        simp only [Node.count] at h1
        omega
  | succ fuel ih =>
    intro queue stack hq hf n hn
    cases queue with
    | nil =>
      rcases hn with hn | ⟨it, hit, _⟩
      · exact hn
      · cases hit
    | cons it queue =>
      rw [createStackLoop]
      have hq0 : ∀ x ∈ queue, x.curr.isNode = true :=
        fun x hx => hq x (List.mem_cons_of_mem _ hx)
      have hit := hq it (List.mem_cons_self _ _)
      obtain ⟨curr, up, dict⟩ := it
      cases curr with
      | nil => cases hit
      | node l k i b h r =>
        simp only [List.map_cons, List.sum_cons, Node.count] at hf
        apply ih
        · intro x hx
          simp only [Iterator.isLeftPossible, Iterator.isRightPossible, Node.getLeft,
            Node.getRight, Iterator.toLeft, Iterator.toRight] at hx
          cases l <;> cases r <;>
            simp [Node.isNode] at hx <;>
            first
              | exact hq0 x hx
              | (rcases hx with hx | hx
                 · exact hq0 x hx
                 · subst hx; rfl)
              | (rcases hx with hx | hx | hx
                 · exact hq0 x hx
                 · subst hx; rfl
                 · subst hx; rfl)
        · simp only [Iterator.isLeftPossible, Iterator.isRightPossible, Node.getLeft,
            Node.getRight, Iterator.toLeft, Iterator.toRight]
          cases l <;> cases r <;>
            simp [Node.isNode, Node.count] at hf ⊢ <;> omega
        · rcases hn with hn | ⟨x, hx, hn⟩
          · exact Or.inl (List.mem_cons_of_mem _ hn)
          · rw [List.mem_cons] at hx
            rcases hx with rfl | hx
            · simp only [Node.subtrees, List.mem_cons, List.mem_append] at hn
              rcases hn with rfl | hn | hn
              · left
                simp
              · right
                refine ⟨Iterator.toLeft ⟨.node l k i b h r, up, dict⟩, ?_, hn⟩
                have hl : l.isNode = true := by
                  cases l with
                  | nil => cases hn
                  | node _ _ _ _ _ _ => rfl
                simp only [Iterator.isLeftPossible, Iterator.isRightPossible, Node.getLeft,
                  Node.getRight, hl, if_true]
                split <;> simp
              · right
                refine ⟨Iterator.toRight ⟨.node l k i b h r, up, dict⟩, ?_, hn⟩
                have hr : r.isNode = true := by
                  cases r with
                  | nil => cases hn
                  | node _ _ _ _ _ _ => rfl
                simp only [Iterator.isLeftPossible, Iterator.isRightPossible, Node.getLeft,
                  Node.getRight, hr, if_true]
                simp
            · right
              refine ⟨x, ?_, hn⟩
              simp only [Iterator.isLeftPossible, Iterator.isRightPossible]
              split <;> split <;> simp [hx]

/-- A tree in which `updateNode` would write, at every node, the cached fields
the node has, with the balance factor in range, is `Good`. -/
theorem good_of_local (t : Node K V)
    (h : ∀ n ∈ t.subtrees, (updateNode n).bf = n.bf ∧
      (updateNode n).cachedHeight = n.cachedHeight ∧
      -1 ≤ (updateNode n).bf ∧ (updateNode n).bf ≤ 1) : t.Good := by
  induction t with
  | nil => trivial
  | node l k i b hh r ihl ihr =>
    have h0 := h _ (self_mem_subtrees (.node l k i b hh r) rfl)
    simp only [updateNode_node, Node.bf, cachedHeight_node] at h0
    refine ⟨ihl ?_, ihr ?_, by omega, by omega, by omega, by omega⟩
    · intro n hn
      exact h n (by simp [Node.subtrees, hn])
    · intro n hn
      exact h n (by simp [Node.subtrees, hn])

/-- C23: on a dictionary whose `size` is positive when it has a root, `isAVL`
returns `true` exactly when, at every node, the cached height is one more than
the greater of the true heights of the two subtrees (0 for an absent one), the
cached balance factor is the height of the right subtree minus that of the
left one, and the balance factor is -1, 0 or 1; on the empty tree it returns
`true`. -/
theorem C23_isAVL_checks_every_node (d : Dictionary K V)
    (hsize : d.root.isNode = true → 0 < d.size) :
    (d.isAVL.1 = true ↔ d.root.Cached ∧ d.root.Balanced) ∧
      (d.root = .nil → d.isAVL = (true, d)) := by
  refine ⟨⟨?_, fun h => ?_⟩, fun h => ?_⟩
  · intro h
    rw [← good_iff]
    by_cases hn : d.root.isNode = true
    · have hpos := hsize hn
      have e : isAVLLoop d d.createStack = (true, (isAVLLoop d d.createStack).2) := by
        have h2 : d.isAVL = isAVLLoop d d.createStack := by
          unfold Dictionary.isAVL
          rw [hn]
          rfl
        rw [h2] at h
        exact Prod.ext h rfl
      have hloc := isAVLLoop_true _ _ _ e
      apply good_of_local
      intro n hn2
      have hmem : n ∈ d.createStack.map Iterator.curr := by
        unfold Dictionary.createStack
        rw [if_pos hpos]
        apply createStackLoop_complete
        · intro it hit
          rw [List.mem_singleton] at hit
          subst hit
          exact hn
        · simp [Dictionary.top]
        · right
          exact ⟨d.top, List.mem_singleton.mpr rfl, hn2⟩
      obtain ⟨it, hit, rfl⟩ := List.mem_map.mp hmem
      exact hloc it hit
    · cases hr : d.root with
      | nil => trivial
      | node l k i b hh r => rw [hr] at hn; exact absurd rfl hn
  · rw [d.isAVL_good ((good_iff _).mpr h)]
  · unfold Dictionary.isAVL
    rw [h]
    rfl

/-- C23 on the tree drawn in the tests: `isAVL` returns `true` there, and the
cached fields of every node are right and in range. -/
theorem C23_witness :
    (drawnDict.root.isNode = true → 0 < drawnDict.size) ∧
      (drawnDict.isAVL.1 = true ↔ drawnDict.root.Cached ∧ drawnDict.root.Balanced) :=
  ⟨fun _ => by decide, (C23_isAVL_checks_every_node drawnDict (fun _ => by decide)).1⟩

end AVL

namespace AVL

variable {K V : Type}

/-! ## The drawn tree of the tests, and the choice of the rotation -/

set_option maxRecDepth 100000 in
/-- C25: `addNode` of the keys d, b, f, a, c, e, g in this order (info 1, as
`createDictionary` of the tests does) on the empty dictionary gives the tree
with root d, left child b (children a and c), right child f (children e and
g); `getHeight()` is 3, `getSize()` is 7 and `isAVL()` is true and writes
nothing.  `deleteNode` of c, by key or through the cursor the test builds
(`begin()`, `goParent()`, `goRight()`), returns true and leaves b with the
left child a and no right child, `isAVL()` true.  `deleteNode` of f after that
returns true and leaves e in the node that held f, with the right child g and
no left child, `isAVL()` true. -/
theorem C25_drawn_tree_of_the_tests :
    runOps 8 createDictionaryOps (Dictionary.empty 0) = .ok drawnDict ∧
      drawnDict.getHeight = 3 ∧ drawnDict.getSize = 7 ∧ drawnDict.isAVL = (true, drawnDict) ∧
      drawnDict.deleteNode 8 'c' = .ok (true, drawnDictWithoutC) ∧
      ((drawnDict.begin.goParent drawnDict).2.goRight drawnDict).2.deref = .ok ('c', 1) ∧
      drawnDict.deleteNodeAt 8 ((drawnDict.begin.goParent drawnDict).2.goRight drawnDict).2 =
        .ok (true, drawnDictWithoutC) ∧
      drawnDictWithoutC.isAVL = (true, drawnDictWithoutC) ∧
      drawnDictWithoutC.deleteNode 8 'f' = .ok (true, drawnDictWithoutCF) ∧
      drawnDictWithoutCF.isAVL = (true, drawnDictWithoutCF) := by
  refine ⟨by decide, by decide, by decide, by decide, by decide, by decide, by decide,
    by decide, by decide, by decide⟩

set_option maxRecDepth 100000 in
/-- C30: the node of key 6 as `updateNodesAndRotate` finds it during
`deleteNode(8)` on `builtDict`.  Its recomputed balance factor is -2 and the
balance factor of its left child is 0.  The loop calls `rotateLeftRight` (the
test is `left->bfactor == -1`, every other value takes the double rotation)
and ends with the tree of `afterDelete8`, whose node of key 3 has balance
factor -2; `rotateRight`, the single rotation, gives another tree, whose
cached fields are right and whose balance factors are in range. -/
theorem C30_double_rotation_on_level_child :
    (updateNode pivotAfterDelete8).bf = -2 ∧ pivotAfterDelete8.getLeft.bf = 0 ∧
      updateNodesAndRotateLog 2 pivotAfterDelete8 [] =
        .ok (afterDelete8.root, [Rotation.rotateLeftRight]) ∧
      updateNodesAndRotate 2 pivotAfterDelete8 [] = .ok afterDelete8.root ∧
      ¬ afterDelete8.root.Balanced ∧
      (∃ t, rotateRight (updateNode pivotAfterDelete8) = .ok t ∧ t.Cached ∧ t.Balanced ∧
        t ≠ afterDelete8.root) := by
  refine ⟨by decide, by decide, by decide, by decide, by decide, ?_⟩
  exact ⟨_, rfl, by decide, by decide, by decide⟩

end AVL

/-! ## Cached fields recomputed from the shape -/

namespace AVL

variable {K V : Type}

theorem recache_node (l : Node K V) (k : K) (i : V) (b h : Int) (r : Node K V) :
    (Node.node l k i b h r).recache =
      .node l.recache k i (r.recache.cachedHeight - l.recache.cachedHeight)
        (max l.recache.cachedHeight r.recache.cachedHeight + 1) r.recache := rfl

/-- The recomputed height is the height of the shape. -/
theorem cachedHeight_recache (t : Node K V) : t.recache.cachedHeight = t.trueHeight := by
  induction t with
  | nil => rfl
  | node l k i b h r ihl ihr =>
    rw [recache_node, cachedHeight_node, ihl, ihr]
    rfl

theorem trueHeight_recache (t : Node K V) : t.recache.trueHeight = t.trueHeight := by
  induction t with
  | nil => rfl
  | node l k i b h r ihl ihr =>
    rw [recache_node]
    simp only [Node.trueHeight, ihl, ihr]

/-- The recomputed fields are right. -/
theorem recache_cached (t : Node K V) : t.recache.Cached := by
  induction t with
  | nil => trivial
  | node l k i b h r ihl ihr =>
    rw [recache_node]
    refine ⟨ihl, ihr, ?_, ?_⟩
    · rw [cachedHeight_recache, cachedHeight_recache, trueHeight_recache, trueHeight_recache]
    · rw [cachedHeight_recache, cachedHeight_recache, trueHeight_recache, trueHeight_recache]

/-- Recomputing changes nothing where the cached fields are right. -/
theorem recache_of_cached (t : Node K V) (h : t.Cached) : t.recache = t := by
  induction t with
  | nil => rfl
  | node l k i b hh r ihl ihr =>
    obtain ⟨hl, hr, h1, h2⟩ := h
    rw [recache_node, ihl hl, ihr hr, hl.cachedHeight_eq, hr.cachedHeight_eq, h1, h2]

theorem recache_of_good (t : Node K V) (h : t.Good) : t.recache = t :=
  recache_of_cached t ((good_iff t).mp h).1

theorem recache_recache (t : Node K V) : t.recache.recache = t.recache :=
  recache_of_cached _ (recache_cached t)

/-- A recomputed tree is `Good` as soon as its balance factors are in range. -/
theorem recache_good (t : Node K V) (h : t.recache.Balanced) : t.recache.Good :=
  (good_iff _).mpr ⟨recache_cached t, h⟩

/-- The recomputed whole depends on a part only through the recomputed part. -/
theorem recache_plug (f : Frame K V) (x y : Node K V) (h : x.recache = y.recache) :
    (f.plug x).recache = (f.plug y).recache := by
  cases f with
  | inLeft k i b hh r => simp only [Frame.plug, recache_node, h]
  | inRight l k i b hh => simp only [Frame.plug, recache_node, h]

theorem recache_rebuild (up : List (Frame K V)) :
    ∀ x y : Node K V, x.recache = y.recache →
      (rebuild x up).recache = (rebuild y up).recache := by
  induction up with
  | nil => intro x y h; exact h
  | cons f rest ih =>
    intro x y h
    exact ih _ _ (recache_plug f x y h)

theorem recache_updateNode (c : Node K V) : (updateNode c).recache = c.recache := by
  cases c with
  | nil => rfl
  | node l k i b h r => rfl

/-- Balance of the recomputed whole gives balance of the recomputed part. -/
theorem balanced_of_rebuild (up : List (Frame K V)) :
    ∀ c : Node K V, (rebuild c up).recache.Balanced → c.recache.Balanced := by
  induction up with
  | nil => intro c h; exact h
  | cons f rest ih =>
    intro c h
    have h2 := ih _ h
    cases f with
    | inLeft k i b hh r => exact h2.1
    | inRight l k i b hh => exact h2.2.1

/-- The other children along a chain of parents of a `Good` tree are `Good`. -/
theorem goodCtx_sibling (up : List (Frame K V)) :
    ∀ h0 : Int, GoodCtx up h0 → ∀ f ∈ up, f.sibling.Good := by
  induction up with
  | nil => intro _ _ f hf; cases hf
  | cons g rest ih =>
    intro h0 hu f hf
    cases g with
    | inLeft k i b hh r =>
      obtain ⟨hr, -, -, -, -, hu2⟩ := hu
      rw [List.mem_cons] at hf
      rcases hf with rfl | hf
      · exact hr
      · exact ih _ hu2 f hf
    | inRight l k i b hh =>
      obtain ⟨hl, -, -, -, -, hu2⟩ := hu
      rw [List.mem_cons] at hf
      rcases hf with rfl | hf
      · exact hl
      · exact ih _ hu2 f hf

/-- The up-propagation from a node whose subtrees have right cached fields,
in a tree whose shape is balanced and whose other subtrees have right cached
fields: no rotation member is called, and the result is the tree with its
cached fields recomputed. -/
theorem norot_recache (up : List (Frame K V)) :
    ∀ (fuel : Nat) (l : Node K V) (k : K) (i : V) (b h : Int) (r : Node K V),
      l.Good → r.Good → (∀ f ∈ up, f.sibling.Good) →
      (rebuild (.node l k i b h r) up).recache.Balanced → up.length + 1 ≤ fuel →
      updateNodesAndRotateLog fuel (.node l k i b h r) up
        = .ok ((rebuild (.node l k i b h r) up).recache, []) := by
  induction up with
  | nil =>
    intro fuel l k i b h r hl hr _ hb hf
    obtain ⟨fuel, rfl⟩ : ∃ m, fuel = m + 1 := ⟨fuel - 1, by omega⟩
    have hb2 : (Node.node l k i b h r).recache.Balanced := hb
    rw [recache_node, recache_of_good l hl, recache_of_good r hr] at hb2
    obtain ⟨-, -, b1, b2⟩ := hb2
    unfold updateNodesAndRotateLog
    simp only [updateNode_node, bf_node]
    rw [if_neg (by omega), if_neg (by omega)]
    simp only [rebuild, recache_node, recache_of_good l hl, recache_of_good r hr]
  | cons f rest ih =>
    intro fuel l k i b h r hl hr hs hb hf
    simp only [List.length_cons] at hf
    obtain ⟨fuel, rfl⟩ : ∃ m, fuel = m + 1 := ⟨fuel - 1, by omega⟩
    have hb2 : (Node.node l k i b h r).recache.Balanced := balanced_of_rebuild _ _ hb
    rw [recache_node, recache_of_good l hl, recache_of_good r hr] at hb2
    obtain ⟨-, -, b1, b2⟩ := hb2
    have hc : (updateNode (Node.node l k i b h r)).Good := by
      rw [updateNode_node]
      exact ⟨hl, hr, rfl, rfl, b1, b2⟩
    have hsf : f.sibling.Good := hs f (List.mem_cons_self _ _)
    have hrest : ∀ g ∈ rest, g.sibling.Good := fun g hg => hs g (List.mem_cons_of_mem _ hg)
    have heq : (rebuild (f.plug (updateNode (Node.node l k i b h r))) rest).recache
        = (rebuild (Node.node l k i b h r) (f :: rest)).recache :=
      recache_rebuild rest _ _ (recache_plug f _ _ (recache_updateNode _))
    unfold updateNodesAndRotateLog
    simp only [updateNode_node, bf_node]
    rw [if_neg (by omega), if_neg (by omega)]
    rw [← updateNode_node l k i b h r]
    rw [← heq] at hb ⊢
    cases f with
    | inLeft fk fi fb fh fr =>
      exact ih fuel _ fk fi fb fh fr hc hsf hrest hb (by omega)
    | inRight fl fk fi fb fh =>
      exact ih fuel fl fk fi fb fh _ hsf hc hrest hb (by omega)

end AVL

/-! ## A balanced tree cut at a level -/

namespace AVL

variable {K V : Type}

theorem trueHeight_nonneg (t : Node K V) : 0 ≤ t.trueHeight := by
  cases t with
  | nil => exact le_refl _
  | node l k i b h r =>
    have : 0 ≤ max l.trueHeight r.trueHeight + 1 := by
      have h1 := trueHeight_nonneg l
      omega
    exact this

theorem nil_mem_paths (l : Node K V) (k : K) (i : V) (b h : Int) (r : Node K V) :
    [] ∈ (Node.node l k i b h r).paths := List.mem_cons_self _ _

theorem left_mem_paths {l : Node K V} {k : K} {i : V} {b h : Int} {r : Node K V}
    {q : List Bool} (hq : q ∈ l.paths) : true :: q ∈ (Node.node l k i b h r).paths := by
  simp only [Node.paths, List.mem_cons, List.mem_append, List.mem_map]
  exact Or.inr (Or.inl ⟨q, hq, rfl⟩)

theorem right_mem_paths {l : Node K V} {k : K} {i : V} {b h : Int} {r : Node K V}
    {q : List Bool} (hq : q ∈ r.paths) : false :: q ∈ (Node.node l k i b h r).paths := by
  simp only [Node.paths, List.mem_cons, List.mem_append, List.mem_map]
  exact Or.inr (Or.inr ⟨q, hq, rfl⟩)

/-- The height of a tree cut so that every node above level `m` is kept and
no node below level `m` is: between the height cut at `m` and at `m + 1`. -/
theorem prune_height (x : Node K V) :
    ∀ (keep : List Bool → Bool) (m : Int), -1 ≤ m →
      (∀ q ∈ x.paths, (q.length : Int) < m → keep q = true) →
      (∀ q ∈ x.paths, keep q = true → (q.length : Int) ≤ m) →
      min x.trueHeight m ≤ (x.prune keep).trueHeight ∧
        (x.prune keep).trueHeight ≤ min x.trueHeight (m + 1) := by
  induction x with
  | nil =>
    intro keep m hm _ _
    simp only [Node.prune, Node.trueHeight]
    omega
  | node l k i b h r ihl ihr =>
    intro keep m hm h1 h2
    have hl0 := trueHeight_nonneg l
    have hr0 := trueHeight_nonneg r
    by_cases hk : keep [] = true
    · have hm0 : (0 : Int) ≤ m := by simpa using h2 [] (nil_mem_paths _ _ _ _ _ _) hk
      have el := ihl (fun q => keep (true :: q)) (m - 1) (by omega)
        (fun q hq hlt => h1 _ (left_mem_paths hq) (by simp only [List.length_cons]; omega))
        (fun q hq hkq => by
          have := h2 _ (left_mem_paths hq) hkq
          simp only [List.length_cons] at this
          omega)
      have er := ihr (fun q => keep (false :: q)) (m - 1) (by omega)
        (fun q hq hlt => h1 _ (right_mem_paths hq) (by simp only [List.length_cons]; omega))
        (fun q hq hkq => by
          have := h2 _ (right_mem_paths hq) hkq
          simp only [List.length_cons] at this
          omega)
      simp only [Node.prune, hk, if_true, Node.trueHeight]
      omega
    · have hm0 : m ≤ 0 := by
        by_contra hc
        exact hk (h1 [] (nil_mem_paths _ _ _ _ _ _) (by simp only [List.length_nil]; omega))
      simp only [Node.prune, hk, Bool.false_eq_true, if_false, Node.trueHeight]
      omega

/-- A tree with right cached fields and balance factors in range, cut so that
every node above a level is kept and no node below it is, is balanced. -/
theorem prune_balanced (x : Node K V) :
    ∀ (keep : List Bool → Bool) (m : Int), -1 ≤ m → x.Cached → x.Balanced →
      (∀ q ∈ x.paths, (q.length : Int) < m → keep q = true) →
      (∀ q ∈ x.paths, keep q = true → (q.length : Int) ≤ m) →
      (x.prune keep).recache.Balanced := by
  induction x with
  | nil => intro keep m _ _ _ _ _; trivial
  | node l k i b h r ihl ihr =>
    intro keep m hm hc hb h1 h2
    obtain ⟨cl, cr, c1, c2⟩ := hc
    obtain ⟨bl, br, b1, b2⟩ := hb
    by_cases hk : keep [] = true
    · have hm0 : (0 : Int) ≤ m := by simpa using h2 [] (nil_mem_paths _ _ _ _ _ _) hk
      have hl1 : ∀ q ∈ l.paths, (q.length : Int) < m - 1 → keep (true :: q) = true :=
        fun q hq hlt => h1 _ (left_mem_paths hq) (by simp only [List.length_cons]; omega)
      have hl2 : ∀ q ∈ l.paths, keep (true :: q) = true → (q.length : Int) ≤ m - 1 :=
        fun q hq hkq => by
          have := h2 _ (left_mem_paths hq) hkq
          simp only [List.length_cons] at this
          omega
      have hr1 : ∀ q ∈ r.paths, (q.length : Int) < m - 1 → keep (false :: q) = true :=
        fun q hq hlt => h1 _ (right_mem_paths hq) (by simp only [List.length_cons]; omega)
      have hr2 : ∀ q ∈ r.paths, keep (false :: q) = true → (q.length : Int) ≤ m - 1 :=
        fun q hq hkq => by
          have := h2 _ (right_mem_paths hq) hkq
          simp only [List.length_cons] at this
          omega
      have el := prune_height l (fun q => keep (true :: q)) (m - 1) (by omega) hl1 hl2
      have er := prune_height r (fun q => keep (false :: q)) (m - 1) (by omega) hr1 hr2
      simp only [Node.prune, hk, if_true, recache_node]
      refine ⟨ihl _ (m - 1) (by omega) cl bl hl1 hl2, ihr _ (m - 1) (by omega) cr br hr1 hr2,
        ?_, ?_⟩
      · rw [cachedHeight_recache, cachedHeight_recache]
        omega
      · rw [cachedHeight_recache, cachedHeight_recache]
        omega
    · simp only [Node.prune, hk]
      trivial

/-- Cutting twice is cutting once with both tests. -/
theorem prune_prune (x : Node K V) :
    ∀ k1 k2 : List Bool → Bool, (x.prune k2).prune k1 = x.prune (fun q => k1 q && k2 q) := by
  induction x with
  | nil => intro _ _; rfl
  | node l k i b h r ihl ihr =>
    intro k1 k2
    by_cases h2 : k2 [] = true
    · by_cases h1 : k1 [] = true
      · simp only [Node.prune, h1, h2, if_true, Bool.and_self, ihl, ihr]
      · simp only [Node.prune, h1, h2, if_true, Bool.and_true]
        simp
    · simp only [Node.prune, h2, Bool.and_false]
      simp [Node.prune]

/-- A cut only asks about the child links of the tree. -/
theorem prune_congr (x : Node K V) :
    ∀ k1 k2 : List Bool → Bool, (∀ q ∈ x.paths, k1 q = k2 q) → x.prune k1 = x.prune k2 := by
  induction x with
  | nil => intro _ _ _; rfl
  | node l k i b h r ihl ihr =>
    intro k1 k2 hq
    have h0 := hq [] (nil_mem_paths _ _ _ _ _ _)
    simp only [Node.prune, h0]
    rw [ihl _ _ (fun q hq2 => hq _ (left_mem_paths hq2)),
      ihr _ _ (fun q hq2 => hq _ (right_mem_paths hq2))]

/-- Cutting sees the shape only: recomputing the cached fields before the cut
makes no difference after recomputing them again. -/
theorem recache_prune_recache (x : Node K V) :
    ∀ keep : List Bool → Bool, (x.recache.prune keep).recache = (x.prune keep).recache := by
  induction x with
  | nil => intro _; rfl
  | node l k i b h r ihl ihr =>
    intro keep
    by_cases hk : keep [] = true
    · simp only [recache_node, Node.prune, hk, if_true, ihl, ihr]
    · simp only [recache_node, Node.prune, hk, Bool.false_eq_true, if_false]

/-- Keeping everything cuts nothing. -/
theorem prune_all (x : Node K V) :
    ∀ keep : List Bool → Bool, (∀ q ∈ x.paths, keep q = true) → x.prune keep = x := by
  induction x with
  | nil => intro _ _; rfl
  | node l k i b h r ihl ihr =>
    intro keep hq
    simp only [Node.prune, hq [] (nil_mem_paths _ _ _ _ _ _), if_true]
    rw [ihl _ (fun q hq2 => hq _ (left_mem_paths hq2)),
      ihr _ (fun q hq2 => hq _ (right_mem_paths hq2))]

/-- The paths of a cut tree are paths of the tree, and kept. -/
theorem paths_prune (x : Node K V) :
    ∀ (keep : List Bool → Bool) (q : List Bool), q ∈ (x.prune keep).paths →
      q ∈ x.paths ∧ keep q = true := by
  induction x with
  | nil => intro _ q hq; cases hq
  | node l k i b h r ihl ihr =>
    intro keep q hq
    by_cases hk : keep [] = true
    · simp only [Node.prune, hk, if_true, Node.paths, List.mem_cons, List.mem_append,
        List.mem_map] at hq
      rcases hq with rfl | ⟨q2, hq2, rfl⟩ | ⟨q2, hq2, rfl⟩
      · exact ⟨nil_mem_paths _ _ _ _ _ _, hk⟩
      · obtain ⟨a1, a2⟩ := ihl _ _ hq2
        exact ⟨left_mem_paths a1, a2⟩
      · obtain ⟨a1, a2⟩ := ihr _ _ hq2
        exact ⟨right_mem_paths a1, a2⟩
    · simp only [Node.prune, hk] at hq
      cases hq

theorem paths_recache (x : Node K V) : x.recache.paths = x.paths := by
  induction x with
  | nil => rfl
  | node l k i b h r ihl ihr => simp only [recache_node, Node.paths, ihl, ihr]

end AVL

/-! ## Finding a node again by its child links -/

namespace AVL

variable {K V : Type}

/-- What `descend` finds: a node, whose parents are the new parents followed by
those given, at the end of the child links. -/
theorem descend_spec (p : List Bool) :
    ∀ (x : Node K V) (up0 : List (Frame K V)) (c : Node K V) (up : List (Frame K V)),
      descend p x up0 = some (c, up) →
      c.isNode = true ∧ ∃ upx, up = upx ++ up0 ∧ rebuild c upx = x ∧
        (upx.map Frame.isLeft).reverse = p := by
  induction p with
  | nil =>
    intro x up0 c up h
    cases x with
    | nil => simp [descend] at h
    | node l k i b hh r =>
      simp only [descend, Option.some.injEq, Prod.mk.injEq] at h
      obtain ⟨rfl, rfl⟩ := h
      exact ⟨rfl, [], rfl, rfl, rfl⟩
  | cons d p ih =>
    intro x up0 c up h
    cases x with
    | nil => simp [descend] at h
    | node l k i b hh r =>
      cases d with
      | true =>
        simp only [descend] at h
        obtain ⟨hc, upx, e1, e2, e3⟩ := ih _ _ _ _ h
        refine ⟨hc, upx ++ [.inLeft k i b hh r], by simp [e1], ?_, ?_⟩
        · rw [rebuild_append, e2]
          rfl
        · simp [e3, Frame.isLeft]
      | false =>
        simp only [descend] at h
        obtain ⟨hc, upx, e1, e2, e3⟩ := ih _ _ _ _ h
        refine ⟨hc, upx ++ [.inRight l k i b hh], by simp [e1], ?_, ?_⟩
        · rw [rebuild_append, e2]
          rfl
        · simp [e3, Frame.isLeft]

/-- The child links of a node of the tree lead to a node. -/
theorem descend_of_mem (p : List Bool) :
    ∀ (x : Node K V) (up0 : List (Frame K V)), p ∈ x.paths →
      ∃ c up, descend p x up0 = some (c, up) := by
  induction p with
  | nil =>
    intro x up0 h
    cases x with
    | nil => cases h
    | node l k i b hh r => exact ⟨_, _, rfl⟩
  | cons d p ih =>
    intro x up0 h
    cases x with
    | nil => cases h
    | node l k i b hh r =>
      simp only [Node.paths, List.mem_cons, List.mem_append, List.mem_map] at h
      rcases h with h | ⟨q, hq, e⟩ | ⟨q, hq, e⟩
      · cases h
      · obtain ⟨rfl, rfl⟩ := List.cons.inj e
        exact ih l _ hq
      · obtain ⟨rfl, rfl⟩ := List.cons.inj e
        exact ih r _ hq

/-- Without the node found and what hangs below it, the tree is the tree cut
at that node. -/
theorem descend_prune (p : List Bool) :
    ∀ (x : Node K V) (up0 : List (Frame K V)) (c : Node K V) (up : List (Frame K V)),
      descend p x up0 = some (c, up) →
      rebuild .nil up = rebuild (x.prune (fun q => !p.isPrefixOf q)) up0 := by
  induction p with
  | nil =>
    intro x up0 c up h
    cases x with
    | nil => simp [descend] at h
    | node l k i b hh r =>
      simp only [descend, Option.some.injEq, Prod.mk.injEq] at h
      obtain ⟨-, rfl⟩ := h
      simp [Node.prune]
  | cons d p ih =>
    intro x up0 c up h
    cases x with
    | nil => simp [descend] at h
    | node l k i b hh r =>
      cases d with
      | true =>
        simp only [descend] at h
        rw [ih _ _ _ _ h]
        have hr : r.prune (fun q => !(true :: p).isPrefixOf (false :: q)) = r :=
          prune_all r _ (fun q _ => by simp [List.isPrefixOf])
        have hl : l.prune (fun q => !(true :: p).isPrefixOf (true :: q))
            = l.prune (fun q => !p.isPrefixOf q) :=
          prune_congr l _ _ (fun q _ => by simp [List.isPrefixOf])
        have e : (Node.node l k i b hh r).prune (fun q => !(true :: p).isPrefixOf q)
            = .node (l.prune (fun q => !p.isPrefixOf q)) k i b hh r := by
          rw [Node.prune, if_pos (by rfl), hl, hr]
        rw [e]
        rfl
      | false =>
        simp only [descend] at h
        rw [ih _ _ _ _ h]
        have hl : l.prune (fun q => !(false :: p).isPrefixOf (true :: q)) = l :=
          prune_all l _ (fun q _ => by simp [List.isPrefixOf])
        have hr : r.prune (fun q => !(false :: p).isPrefixOf (false :: q))
            = r.prune (fun q => !p.isPrefixOf q) :=
          prune_congr r _ _ (fun q _ => by simp [List.isPrefixOf])
        have e : (Node.node l k i b hh r).prune (fun q => !(false :: p).isPrefixOf q)
            = .node l k i b hh (r.prune (fun q => !p.isPrefixOf q)) := by
          rw [Node.prune, if_pos (by rfl), hl, hr]
        rw [e]
        rfl

/-- A node found by `descend` whose child links lead nowhere further is a
leaf. -/
theorem descend_leaf (p : List Bool) :
    ∀ (x : Node K V) (up0 : List (Frame K V)) (c : Node K V) (up : List (Frame K V)),
      descend p x up0 = some (c, up) → (∀ d : Bool, p ++ [d] ∉ x.paths) →
      c.getLeft = .nil ∧ c.getRight = .nil := by
  induction p with
  | nil =>
    intro x up0 c up h hd
    cases x with
    | nil => simp [descend] at h
    | node l k i b hh r =>
      simp only [descend, Option.some.injEq, Prod.mk.injEq] at h
      obtain ⟨rfl, -⟩ := h
      constructor
      · cases l with
        | nil => rfl
        | node _ _ _ _ _ _ =>
          exact absurd (left_mem_paths (nil_mem_paths _ _ _ _ _ _)) (hd true)
      · cases r with
        | nil => rfl
        | node _ _ _ _ _ _ =>
          exact absurd (right_mem_paths (nil_mem_paths _ _ _ _ _ _)) (hd false)
  | cons d p ih =>
    intro x up0 c up h hd
    cases x with
    | nil => simp [descend] at h
    | node l k i b hh r =>
      cases d with
      | true =>
        simp only [descend] at h
        exact ih _ _ _ _ h (fun d hm => hd d (left_mem_paths hm))
      | false =>
        simp only [descend] at h
        exact ih _ _ _ _ h (fun d hm => hd d (right_mem_paths hm))

/-- A node of the tree all of whose ancestors are kept, and which is kept, is
a node of the cut tree. -/
theorem mem_paths_prune (x : Node K V) :
    ∀ (keep : List Bool → Bool) (p : List Bool), p ∈ x.paths →
      (∀ q, q <+: p → keep q = true) → p ∈ (x.prune keep).paths := by
  induction x with
  | nil => intro _ p hp _; cases hp
  | node l k i b h r ihl ihr =>
    intro keep p hp hq
    have h0 : keep [] = true := hq [] (List.nil_prefix)
    simp only [Node.prune, h0, if_true]
    simp only [Node.paths, List.mem_cons, List.mem_append, List.mem_map] at hp
    rcases hp with rfl | ⟨q, hq2, rfl⟩ | ⟨q, hq2, rfl⟩
    · exact nil_mem_paths _ _ _ _ _ _
    · exact left_mem_paths (ihl _ q hq2 (fun q' hq' => hq _ (List.cons_prefix_cons.mpr ⟨rfl, hq'⟩)))
    · exact right_mem_paths (ihr _ q hq2 (fun q' hq' => hq _ (List.cons_prefix_cons.mpr ⟨rfl, hq'⟩)))

/-- Ancestors are nodes. -/
theorem prefix_mem_paths (x : Node K V) :
    ∀ (p q : List Bool), p ∈ x.paths → q <+: p → q ∈ x.paths := by
  induction x with
  | nil => intro p _ hp _; cases hp
  | node l k i b h r ihl ihr =>
    intro p q hp hq
    cases q with
    | nil => exact nil_mem_paths _ _ _ _ _ _
    | cons d q =>
      simp only [Node.paths, List.mem_cons, List.mem_append, List.mem_map] at hp
      rcases hp with rfl | ⟨p2, hp2, rfl⟩ | ⟨p2, hp2, rfl⟩
      · simp at hq
      · obtain ⟨rfl, hq2⟩ := List.cons_prefix_cons.mp hq
        exact left_mem_paths (ihl _ _ hp2 hq2)
      · obtain ⟨rfl, hq2⟩ := List.cons_prefix_cons.mp hq
        exact right_mem_paths (ihr _ _ hp2 hq2)

/-- A node lies less deep than the tree has nodes. -/
theorem length_lt_count (x : Node K V) : ∀ p ∈ x.paths, p.length < x.count := by
  induction x with
  | nil => intro p hp; cases hp
  | node l k i b h r ihl ihr =>
    intro p hp
    simp only [Node.paths, List.mem_cons, List.mem_append, List.mem_map] at hp
    simp only [Node.count]
    rcases hp with rfl | ⟨q, hq, rfl⟩ | ⟨q, hq, rfl⟩
    · simp
    · have := ihl q hq
      simp only [List.length_cons]
      omega
    · have := ihr q hq
      simp only [List.length_cons]
      omega

end AVL

/-! ## Sets of nodes that are complete above their deepest level -/

namespace AVL

variable {K V : Type}

theorem exists_longest (nodes : List (List Bool)) (h : nodes ≠ []) :
    ∃ p ∈ nodes, ∀ q ∈ nodes, q.length ≤ p.length := by
  induction nodes with
  | nil => exact absurd rfl h
  | cons a rest ih =>
    by_cases hr : rest = []
    · subst hr
      exact ⟨a, List.mem_cons_self _ _, fun q hq => by
        rw [List.mem_singleton] at hq
        rw [hq]⟩
    · obtain ⟨p, hp, hmax⟩ := ih hr
      by_cases c : p.length ≤ a.length
      · refine ⟨a, List.mem_cons_self _ _, fun q hq => ?_⟩
        rw [List.mem_cons] at hq
        rcases hq with rfl | hq
        · exact le_refl _
        · exact le_trans (hmax q hq) c
      · refine ⟨p, List.mem_cons_of_mem _ hp, fun q hq => ?_⟩
        rw [List.mem_cons] at hq
        rcases hq with rfl | hq
        · omega
        · exact hmax q hq

/-- A balanced tree with right cached fields, cut down to a set of nodes that
is complete above its deepest level and with the cached fields recomputed, is
`Good`. -/
theorem levelSet_good (s : Node K V) (hs : s.Good) (nodes : List (List Bool))
    (h : LevelSet s nodes) : (s.prune (fun q => decide (q ∈ nodes))).recache.Good := by
  apply recache_good
  obtain ⟨hc, hb⟩ := (good_iff s).mp hs
  by_cases hn : nodes = []
  · subst hn
    exact prune_balanced s _ (-1) (le_refl _) hc hb (fun q _ hlt => by omega)
      (fun q _ hk => by simp at hk)
  · obtain ⟨p, hp, hmax⟩ := exists_longest nodes hn
    refine prune_balanced s _ (p.length : Int) (by omega) hc hb ?_ ?_
    · intro q hq hlt
      by_contra hk
      have hq2 : q ∉ nodes := by simpa using hk
      have := h.2.2 q hq hq2 p hp
      omega
    · intro q _ hk
      have hq2 : q ∈ nodes := by simpa using hk
      exact_mod_cast hmax q hq2

/-- The ancestors of a node of such a set are in the set. -/
theorem levelSet_prefix (s : Node K V) (nodes : List (List Bool)) (h : LevelSet s nodes)
    (p q : List Bool) (hp : p ∈ nodes) (hq : q <+: p) : q ∈ nodes := by
  by_contra hc
  have h1 := h.2.2 q (prefix_mem_paths s p q (h.2.1 p hp) hq) hc p hp
  have h2 := hq.length_le
  have h3 : q = p := hq.eq_of_length (by omega)
  exact hc (h3 ▸ hp)

/-- Without one of its deepest nodes such a set is still complete above its
deepest level. -/
theorem levelSet_tail (s : Node K V) (p : List Bool) (nodes : List (List Bool))
    (h : LevelSet s (p :: nodes)) (hmax : ∀ q ∈ nodes, q.length ≤ p.length) :
    LevelSet s nodes := by
  refine ⟨(List.nodup_cons.mp h.1).2, fun q hq => h.2.1 q (List.mem_cons_of_mem _ hq), ?_⟩
  intro q hq hn r hr
  by_cases c : q = p
  · subst c
    exact hmax r hr
  · exact h.2.2 q hq (by simp [c, hn]) r (List.mem_cons_of_mem _ hr)

/-- With one more node, among the least deep ones outside, such a set is still
complete above its deepest level, and the new node is among its deepest. -/
theorem levelSet_cons (s : Node K V) (q : List Bool) (nodes : List (List Bool))
    (h : LevelSet s nodes) (hq : q ∈ s.paths) (hn : q ∉ nodes)
    (hmin : ∀ r ∈ s.paths, r ∉ nodes → q.length ≤ r.length) :
    LevelSet s (q :: nodes) ∧ ∀ r ∈ nodes, r.length ≤ q.length := by
  refine ⟨⟨List.nodup_cons.mpr ⟨hn, h.1⟩, ?_, ?_⟩, fun r hr => h.2.2 q hq hn r hr⟩
  · intro r hr
    rw [List.mem_cons] at hr
    rcases hr with rfl | hr
    · exact hq
    · exact h.2.1 r hr
  · intro r hr hnr x hx
    have hnr2 : r ∉ nodes := fun hc => hnr (List.mem_cons_of_mem _ hc)
    rw [List.mem_cons] at hx
    rcases hx with rfl | hx
    · exact hmin r hr hnr2
    · exact h.2.2 r hr hnr2 x hx

end AVL

/-! ## One call of `deleteNode` in `clear` -/

namespace AVL

variable {K V : Type}

/-- Cutting the tree, already cut down to a set of nodes, at one of the
deepest nodes of the set is cutting it down to the other nodes of the set. -/
theorem prune_without_deepest (s : Node K V) (p : List Bool) (nodes : List (List Bool))
    (hn : (p :: nodes).Nodup) (hmax : ∀ q ∈ nodes, q.length ≤ p.length) :
    (((s.prune (fun q => decide (q ∈ p :: nodes))).recache.prune
        (fun q => !p.isPrefixOf q)).recache)
      = (s.prune (fun q => decide (q ∈ nodes))).recache := by
  rw [recache_prune_recache, prune_prune]
  congr 1
  apply prune_congr
  intro q _
  by_cases hq : q ∈ nodes
  · have h1 : q ≠ p := fun e => (List.nodup_cons.mp hn).1 (e ▸ hq)
    have h2 : ¬ p <+: q := by
      intro hp
      have h3 := hp.length_le
      have h4 := hmax q hq
      exact h1 (hp.eq_of_length (by omega)).symm
    have h5 : p.isPrefixOf q = false := by
      rw [← Bool.not_eq_true, List.isPrefixOf_iff_prefix]
      exact h2
    simp [h5, hq]
  · by_cases hqp : q = p
    · subst hqp
      have h5 : q.isPrefixOf q = true := List.isPrefixOf_iff_prefix.mpr (List.prefix_refl _)
      simp [h5, hq]
    · simp [hq, hqp]

section Order

variable [LinearOrder K] [DecidableEq V]

/-- One iteration of the loop of `clear`, on the tree `s` cut down to the
nodes still on the stack (a set complete above its deepest level, the top of
the stack among the deepest): the iterator is found again, it is on a leaf,
`deleteNode(it)` calls no rotation member, and what is left is `s` cut down to
the rest of the stack. -/
theorem clear_step (s : Node K V) (hs : s.Good) (p : List Bool) (nodes : List (List Bool))
    (hl : LevelSet s (p :: nodes)) (hmax : ∀ q ∈ nodes, q.length ≤ p.length)
    (d : Dictionary K V) (it : Iterator K V) (fuel : Nat) (hf : s.count ≤ fuel)
    (hp : it.path = p) (hd : it.dictionary = some d.self)
    (hroot : d.root = (s.prune (fun q => decide (q ∈ p :: nodes))).recache)
    (hsize : d.size = ((p :: nodes).length : Int)) :
    ∃ here, it.relocate d = some here ∧ here.isLeaf = true ∧
      d.deleteNodeAtLog fuel here
        = .ok (true, ⟨(s.prune (fun q => decide (q ∈ nodes))).recache, (nodes.length : Int),
            d.self⟩, []) := by
  have hgood : d.root.Good := by
    rw [hroot]
    exact levelSet_good s hs _ hl
  have hps : p ∈ s.paths := hl.2.1 p (List.mem_cons_self _ _)
  have hpT : p ∈ d.root.paths := by
    rw [hroot, paths_recache]
    apply mem_paths_prune _ _ _ hps
    intro q hq
    simpa using levelSet_prefix s _ hl p q (List.mem_cons_self _ _) hq
  obtain ⟨c, up, hdesc⟩ := descend_of_mem p d.root [] hpT
  obtain ⟨hc, upx, e1, e2, e3⟩ := descend_spec p _ _ _ _ hdesc
  rw [List.append_nil] at e1
  subst e1
  have hleaf := descend_leaf p _ _ _ _ hdesc (by
    intro b hb
    rw [hroot, paths_recache] at hb
    have h1 := (paths_prune _ _ _ hb).2
    have h2 : p ++ [b] ∈ p :: nodes := by simpa using h1
    rw [List.mem_cons] at h2
    rcases h2 with h2 | h2
    · have := congrArg List.length h2
      simp at this
    · have := hmax _ h2
      simp at this)
  have hlen : up.length = p.length := by
    rw [← e3]
    simp
  have hplt := length_lt_count s p hps
  refine ⟨⟨c, up, it.dictionary⟩, ?_, ?_, ?_⟩
  · unfold Iterator.relocate
    rw [hp, hdesc]
  · cases c with
    | nil => cases hc
    | node l k i b h r =>
      simp only [Node.getLeft, Node.getRight] at hleaf
      obtain ⟨rfl, rfl⟩ := hleaf
      rfl
  · cases c with
    | nil => cases hc
    | node l k i b h r =>
      simp only [Node.getLeft, Node.getRight] at hleaf
      obtain ⟨rfl, rfl⟩ := hleaf
      have hctx := (good_of_rebuild up _ (e2 ▸ hgood)).2
      have hsib := goodCtx_sibling up _ hctx
      have hcut := descend_prune p _ _ _ _ hdesc
      simp only [rebuild] at hcut
      unfold Dictionary.deleteNodeAtLog
      rw [if_neg (by simp [hd]), if_neg (by simp [Iterator.isEnd, Node.isNode]),
        if_neg (by simp [e2])]
      cases up with
      | nil =>
        have hp0 : p = [] := by
          rw [← e3]
          rfl
        have hn0 : nodes = [] := by
          cases nodes with
          | nil => rfl
          | cons q rest =>
            exfalso
            have h1 := hmax q (List.mem_cons_self _ _)
            rw [hp0] at h1
            have h2 : q = [] := List.length_eq_zero.mp (by simpa using h1)
            have h3 := (List.nodup_cons.mp hl.1).1
            rw [hp0, h2] at h3
            exact h3 (List.mem_cons_self _ _)
        subst hn0
        have hsz : d.size - 1 = 0 := by
          rw [hsize]
          rfl
        simp only [deleteNodeCasesLog, hsz, if_true]
        have hnil : (s.prune (fun q => decide (q ∈ ([] : List (List Bool))))).recache
            = .nil := by
          cases s with
          | nil => rfl
          | node _ _ _ _ _ _ => simp [Node.prune, Node.recache]
        rw [hnil]
        rfl
      | cons f rest =>
        have hne : nodes ≠ [] := by
          intro e
          subst e
          have h0 : ([] : List Bool) ∈ [p] :=
            levelSet_prefix s _ hl p [] (List.mem_cons_self _ _) List.nil_prefix
          rw [List.mem_singleton] at h0
          rw [← h0] at hlen
          simp at hlen
        have hsz : ¬ (d.size - 1 = 0) := by
          rw [hsize]
          have : 0 < nodes.length := List.length_pos.mpr hne
          simp only [List.length_cons]
          push_cast
          omega
        have hbal : (rebuild (f.plug .nil) rest).recache.Balanced := by
          have h1 : rebuild (f.plug .nil) rest = d.root.prune (fun q => !p.isPrefixOf q) :=
            hcut
          rw [h1, hroot, prune_without_deepest s p nodes hl.1 hmax]
          exact ((good_iff _).mp (levelSet_good s hs nodes (levelSet_tail s p nodes hl hmax))).2
        have hres : updateNodesAndRotateLog fuel (f.plug .nil) rest
            = .ok ((s.prune (fun q => decide (q ∈ nodes))).recache, []) := by
          have h1 : rebuild (f.plug .nil) rest = d.root.prune (fun q => !p.isPrefixOf q) :=
            hcut
          have h2 : (rebuild (f.plug .nil) rest).recache
              = (s.prune (fun q => decide (q ∈ nodes))).recache := by
            rw [h1, hroot, prune_without_deepest s p nodes hl.1 hmax]
          rw [← h2]
          have hf2 : rest.length + 1 ≤ fuel := by
            simp only [List.length_cons] at hlen
            omega
          have hsf := hsib f (List.mem_cons_self _ _)
          have hsr : ∀ g ∈ rest, g.sibling.Good :=
            fun g hg => hsib g (List.mem_cons_of_mem _ hg)
          cases f with
          | inLeft fk fi fb fh fr =>
            exact norot_recache rest fuel .nil fk fi fb fh fr trivial hsf hsr hbal hf2
          | inRight fl fk fi fb fh =>
            exact norot_recache rest fuel fl fk fi fb fh .nil hsf trivial hsr hbal hf2
        simp only [deleteNodeCasesLog, hres, hsz, if_false]
        rw [hsize]
        simp

end Order

end AVL

/-! ## Breadth-first order -/

namespace AVL

variable {K V : Type}

theorem length_paths (x : Node K V) : x.paths.length = x.count := by
  induction x with
  | nil => rfl
  | node l k i b h r ihl ihr =>
    simp only [Node.paths, Node.count, List.length_cons, List.length_append, List.length_map,
      ihl, ihr]
    omega

theorem paths_nodup (x : Node K V) : x.paths.Nodup := by
  induction x with
  | nil => exact List.nodup_nil
  | node l k i b h r ihl ihr =>
    simp only [Node.paths]
    rw [List.nodup_cons]
    constructor
    · simp
    · rw [List.nodup_append]
      refine ⟨ihl.map (List.cons_injective), ihr.map (List.cons_injective), ?_⟩
      intro q h1 h2
      rw [List.mem_map] at h1 h2
      obtain ⟨a, -, rfl⟩ := h1
      obtain ⟨b, -, e⟩ := h2
      cases e

/-- Nothing kept, nothing left. -/
theorem prune_none (x : Node K V) : x.prune (fun q => decide (q ∈ ([] : List (List Bool))))
    = .nil := by
  cases x with
  | nil => rfl
  | node _ _ _ _ _ _ => simp [Node.prune]

theorem path_toLeft (it : Iterator K V) (h : it.curr.isNode = true) :
    it.toLeft.path = it.path ++ [true] := by
  obtain ⟨curr, up, dict⟩ := it
  cases curr with
  | nil => cases h
  | node l k i b hh r => simp [Iterator.toLeft, Iterator.path, Frame.isLeft]

theorem path_toRight (it : Iterator K V) (h : it.curr.isNode = true) :
    it.toRight.path = it.path ++ [false] := by
  obtain ⟨curr, up, dict⟩ := it
  cases curr with
  | nil => cases h
  | node l k i b hh r => simp [Iterator.toRight, Iterator.path, Frame.isLeft]

/-- The child links from the root to the nodes that hang below an iterator. -/
theorem below_node (it : Iterator K V) (l : Node K V) (k : K) (i : V) (b h : Int)
    (r : Node K V) (hc : it.curr = .node l k i b h r) :
    it.curr.paths.map (fun q => it.path ++ q) = it.path ::
      (l.paths.map (fun q => (it.path ++ [true]) ++ q) ++
        r.paths.map (fun q => (it.path ++ [false]) ++ q)) := by
  rw [hc]
  simp [Node.paths, List.map_append, List.map_map, Function.comp_def]

theorem curr_toLeft (it : Iterator K V) (l : Node K V) (k : K) (i : V) (b h : Int)
    (r : Node K V) (hc : it.curr = .node l k i b h r) : it.toLeft.curr = l := by
  obtain ⟨curr, up, dict⟩ := it
  simp only at hc
  subst hc
  rfl

theorem curr_toRight (it : Iterator K V) (l : Node K V) (k : K) (i : V) (b h : Int)
    (r : Node K V) (hc : it.curr = .node l k i b h r) : it.toRight.curr = r := by
  obtain ⟨curr, up, dict⟩ := it
  simp only at hc
  subst hc
  rfl

/-- The children pushed by one iteration, with the nodes below them. -/
theorem below_children (it : Iterator K V) (l : Node K V) (k : K) (i : V) (b h : Int)
    (r : Node K V) (hc : it.curr = .node l k i b h r) :
    ((if it.isLeftPossible then [it.toLeft] else []).flatMap
        (fun x => x.curr.paths.map (fun q => x.path ++ q))
      = l.paths.map (fun q => (it.path ++ [true]) ++ q)) ∧
    ((if it.isRightPossible then [it.toRight] else []).flatMap
        (fun x => x.curr.paths.map (fun q => x.path ++ q))
      = r.paths.map (fun q => (it.path ++ [false]) ++ q)) := by
  have hn : it.curr.isNode = true := by rw [hc]; rfl
  have hl : it.isLeftPossible = l.isNode := by
    simp [Iterator.isLeftPossible, hc, Node.getLeft]
  have hr : it.isRightPossible = r.isNode := by
    simp [Iterator.isRightPossible, hc, Node.getRight]
  constructor
  · rw [hl]
    cases hln : l.isNode
    · cases l with
      | nil => simp [Node.paths]
      | node _ _ _ _ _ _ => cases hln
    · simp only [if_true, List.flatMap_cons, List.flatMap_nil, List.append_nil,
        path_toLeft it hn, curr_toLeft it l k i b h r hc]
  · rw [hr]
    cases hrn : r.isNode
    · cases r with
      | nil => simp [Node.paths]
      | node _ _ _ _ _ _ => cases hrn
    · simp only [if_true, List.flatMap_cons, List.flatMap_nil, List.append_nil,
        path_toRight it hn, curr_toRight it l k i b h r hc]

/-- Breadth-first order lists every node that hangs below a queued iterator
once, given one iteration per such node. -/
theorem bfsLoop_perm (rf : Bool) (fuel : Nat) :
    ∀ queue : List (Iterator K V), (∀ it ∈ queue, it.curr.isNode = true) →
      (queue.map (fun it => it.curr.count)).sum ≤ fuel →
      ((bfsLoop rf fuel queue).map Iterator.path).Perm
        (queue.flatMap (fun x => x.curr.paths.map (fun q => x.path ++ q))) := by
  induction fuel with
  | zero =>
    intro queue hq hf
    cases queue with
    | nil => exact List.Perm.refl _
    | cons it queue =>
      exfalso
      have hit := hq it (List.mem_cons_self _ _)
      cases hc : it.curr with
      | nil => rw [hc] at hit; cases hit
      | node l k i b h r =>
        simp only [List.map_cons, List.sum_cons, hc, Node.count] at hf
        omega
  | succ fuel ih =>
    intro queue hq hf
    cases queue with
    | nil => exact List.Perm.refl _
    | cons it queue =>
      have hit := hq it (List.mem_cons_self _ _)
      have hq0 : ∀ x ∈ queue, x.curr.isNode = true :=
        fun x hx => hq x (List.mem_cons_of_mem _ hx)
      cases hc : it.curr with
      | nil => rw [hc] at hit; cases hit
      | node l k i b h r =>
        obtain ⟨cl, cr⟩ := below_children it l k i b h r hc
        have hl : it.isLeftPossible = l.isNode := by
          simp [Iterator.isLeftPossible, hc, Node.getLeft]
        have hr : it.isRightPossible = r.isNode := by
          simp [Iterator.isRightPossible, hc, Node.getRight]
        have hnl : ∀ x ∈ (if it.isLeftPossible then [it.toLeft] else []),
            x.curr.isNode = true := by
          intro x hx
          by_cases c : it.isLeftPossible = true
          · rw [if_pos c, List.mem_singleton] at hx
            rw [hx, curr_toLeft it l k i b h r hc, ← hl, c]
          · rw [if_neg c] at hx
            cases hx
        have hnr : ∀ x ∈ (if it.isRightPossible then [it.toRight] else []),
            x.curr.isNode = true := by
          intro x hx
          by_cases c : it.isRightPossible = true
          · rw [if_pos c, List.mem_singleton] at hx
            rw [hx, curr_toRight it l k i b h r hc, ← hr, c]
          · rw [if_neg c] at hx
            cases hx
        have hsl : ((if it.isLeftPossible then [it.toLeft] else []).map
            (fun x => x.curr.count)).sum = l.count := by
          rw [hl]
          cases hln : l.isNode
          · cases l with
            | nil => rfl
            | node _ _ _ _ _ _ => cases hln
          · simp [curr_toLeft it l k i b h r hc]
        have hsr : ((if it.isRightPossible then [it.toRight] else []).map
            (fun x => x.curr.count)).sum = r.count := by
          rw [hr]
          cases hrn : r.isNode
          · cases r with
            | nil => rfl
            | node _ _ _ _ _ _ => cases hrn
          · simp [curr_toRight it l k i b h r hc]
        simp only [List.map_cons, List.sum_cons, hc, Node.count] at hf
        rw [bfsLoop]
        simp only [List.map_cons, List.flatMap_cons]
        rw [below_node it l k i b h r hc, List.cons_append]
        apply List.Perm.cons
        cases rf
        · simp only [Bool.false_eq_true, if_false]
          refine (ih _ ?_ ?_).trans ?_
          · intro x hx
            rw [List.mem_append, List.mem_append] at hx
            rcases hx with (hx | hx) | hx
            · exact hq0 x hx
            · exact hnl x hx
            · exact hnr x hx
          · rw [List.map_append, List.map_append, List.sum_append, List.sum_append, hsl, hsr]
            omega
          · rw [List.flatMap_append, List.flatMap_append, cl, cr, List.append_assoc]
            exact List.perm_append_comm
        · simp only [if_true]
          refine (ih _ ?_ ?_).trans ?_
          · intro x hx
            rw [List.mem_append, List.mem_append] at hx
            rcases hx with (hx | hx) | hx
            · exact hq0 x hx
            · exact hnr x hx
            · exact hnl x hx
          · rw [List.map_append, List.map_append, List.sum_append, List.sum_append, hsl, hsr]
            omega
          · rw [List.flatMap_append, List.flatMap_append, cl, cr, List.append_assoc]
            refine List.perm_append_comm.trans ?_
            exact List.Perm.append_right _ List.perm_append_comm

end AVL

namespace AVL

variable {K V : Type}

/-- What holds of the queued iterators and goes over to the children holds of
every iterator of the breadth-first order. -/
theorem bfsLoop_all (P : Iterator K V → Prop)
    (hl : ∀ it, P it → it.isLeftPossible = true → P it.toLeft)
    (hr : ∀ it, P it → it.isRightPossible = true → P it.toRight) (rf : Bool) (fuel : Nat) :
    ∀ queue : List (Iterator K V), (∀ it ∈ queue, P it) →
      ∀ x ∈ bfsLoop rf fuel queue, P x := by
  induction fuel with
  | zero => intro queue _ x hx; cases hx
  | succ fuel ih =>
    intro queue hq x hx
    cases queue with
    | nil => cases hx
    | cons it queue =>
      rw [bfsLoop, List.mem_cons] at hx
      rcases hx with rfl | hx
      · exact hq _ (List.mem_cons_self _ _)
      · refine ih _ ?_ x hx
        have hit := hq it (List.mem_cons_self _ _)
        have hq0 : ∀ y ∈ queue, P y := fun y hy => hq y (List.mem_cons_of_mem _ hy)
        have hL : ∀ y ∈ (if it.isLeftPossible then [it.toLeft] else []), P y := by
          intro y hy
          by_cases c : it.isLeftPossible = true
          · rw [if_pos c, List.mem_singleton] at hy
            exact hy ▸ hl it hit c
          · rw [if_neg c] at hy
            cases hy
        have hR : ∀ y ∈ (if it.isRightPossible then [it.toRight] else []), P y := by
          intro y hy
          by_cases c : it.isRightPossible = true
          · rw [if_pos c, List.mem_singleton] at hy
            exact hy ▸ hr it hit c
          · rw [if_neg c] at hy
            cases hy
        intro y hy
        cases rf
        · simp only [Bool.false_eq_true, if_false, List.mem_append] at hy
          rcases hy with (hy | hy) | hy
          · exact hq0 y hy
          · exact hL y hy
          · exact hR y hy
        · simp only [if_true, List.mem_append] at hy
          rcases hy with (hy | hy) | hy
          · exact hq0 y hy
          · exact hR y hy
          · exact hL y hy

theorem isNode_toLeft (it : Iterator K V) (h : it.isLeftPossible = true) :
    it.toLeft.curr.isNode = true := by
  obtain ⟨curr, up, dict⟩ := it
  cases curr with
  | nil => simp [Iterator.isLeftPossible, Node.getLeft, Node.isNode] at h
  | node l k i b hh r => exact h

theorem isNode_toRight (it : Iterator K V) (h : it.isRightPossible = true) :
    it.toRight.curr.isNode = true := by
  obtain ⟨curr, up, dict⟩ := it
  cases curr with
  | nil => simp [Iterator.isRightPossible, Node.getRight, Node.isNode] at h
  | node l k i b hh r => exact h

theorem dictionary_toLeft (it : Iterator K V) : it.toLeft.dictionary = it.dictionary := by
  obtain ⟨curr, up, dict⟩ := it
  cases curr <;> rfl

theorem dictionary_toRight (it : Iterator K V) : it.toRight.dictionary = it.dictionary := by
  obtain ⟨curr, up, dict⟩ := it
  cases curr <;> rfl

/-- Breadth-first order goes level by level: from a queue in order of depth
whose depths are `m` or `m + 1`, the nodes come in order of depth, none above
level `m`. -/
theorem bfsLoop_sorted (rf : Bool) (fuel : Nat) :
    ∀ (queue : List (Iterator K V)) (m : Nat), (∀ it ∈ queue, it.curr.isNode = true) →
      queue.Pairwise (fun a b => a.path.length ≤ b.path.length) →
      (∀ a ∈ queue, m ≤ a.path.length ∧ a.path.length ≤ m + 1) →
      (bfsLoop rf fuel queue).Pairwise (fun a b => a.path.length ≤ b.path.length) ∧
        ∀ x ∈ bfsLoop rf fuel queue, m ≤ x.path.length := by
  induction fuel with
  | zero =>
    intro queue m _ _ _
    exact ⟨List.Pairwise.nil, fun x hx => by cases hx⟩
  | succ fuel ih =>
    intro queue m hn hp hm
    cases queue with
    | nil => exact ⟨List.Pairwise.nil, fun x hx => by cases hx⟩
    | cons it queue =>
      rw [bfsLoop]
      have hit := hn it (List.mem_cons_self _ _)
      have hitm := hm it (List.mem_cons_self _ _)
      rw [List.pairwise_cons] at hp
      obtain ⟨hp1, hp2⟩ := hp
      have hL : ∀ y ∈ (if it.isLeftPossible then [it.toLeft] else []),
          y.curr.isNode = true ∧ y.path.length = it.path.length + 1 := by
        intro y hy
        by_cases c : it.isLeftPossible = true
        · rw [if_pos c, List.mem_singleton] at hy
          subst hy
          exact ⟨isNode_toLeft it c, by rw [path_toLeft it hit]; simp⟩
        · rw [if_neg c] at hy
          cases hy
      have hR : ∀ y ∈ (if it.isRightPossible then [it.toRight] else []),
          y.curr.isNode = true ∧ y.path.length = it.path.length + 1 := by
        intro y hy
        by_cases c : it.isRightPossible = true
        · rw [if_pos c, List.mem_singleton] at hy
          subst hy
          exact ⟨isNode_toRight it c, by rw [path_toRight it hit]; simp⟩
        · rw [if_neg c] at hy
          cases hy
      have hpL : (if it.isLeftPossible then [it.toLeft] else []).Pairwise
          (fun a b => a.path.length ≤ b.path.length) := by
        split
        · exact List.pairwise_singleton _ _
        · exact List.Pairwise.nil
      have hpR : (if it.isRightPossible then [it.toRight] else []).Pairwise
          (fun a b => a.path.length ≤ b.path.length) := by
        split
        · exact List.pairwise_singleton _ _
        · exact List.Pairwise.nil
      have hq : ∀ a ∈ queue, it.path.length ≤ a.path.length ∧
          a.path.length ≤ it.path.length + 1 := by
        intro a ha
        have h1 := hp1 a ha
        have h2 := hm a (List.mem_cons_of_mem _ ha)
        omega
      have key : ∀ A B : List (Iterator K V),
          (∀ y ∈ A, y.curr.isNode = true ∧ y.path.length = it.path.length + 1) →
          (∀ y ∈ B, y.curr.isNode = true ∧ y.path.length = it.path.length + 1) →
          A.Pairwise (fun a b => a.path.length ≤ b.path.length) →
          B.Pairwise (fun a b => a.path.length ≤ b.path.length) →
          (it :: bfsLoop rf fuel (queue ++ A ++ B)).Pairwise
              (fun a b => a.path.length ≤ b.path.length) ∧
            ∀ x ∈ it :: bfsLoop rf fuel (queue ++ A ++ B), m ≤ x.path.length := by
        intro A B hA hB pA pB
        obtain ⟨i1, i2⟩ := ih (queue ++ A ++ B) it.path.length
          (by
            intro y hy
            rw [List.mem_append, List.mem_append] at hy
            rcases hy with (hy | hy) | hy
            · exact hn y (List.mem_cons_of_mem _ hy)
            · exact (hA y hy).1
            · exact (hB y hy).1)
          (by
            rw [List.pairwise_append, List.pairwise_append]
            refine ⟨⟨hp2, pA, ?_⟩, pB, ?_⟩
            · intro a ha b hb
              have := hq a ha
              have := (hA b hb).2
              omega
            · intro a ha b hb
              have h2 := (hB b hb).2
              rw [List.mem_append] at ha
              rcases ha with ha | ha
              · have := hq a ha
                omega
              · have := (hA a ha).2
                omega)
          (by
            intro y hy
            rw [List.mem_append, List.mem_append] at hy
            rcases hy with (hy | hy) | hy
            · exact hq y hy
            · have := (hA y hy).2
              omega
            · have := (hB y hy).2
              omega)
        refine ⟨List.pairwise_cons.mpr ⟨i2, i1⟩, ?_⟩
        intro x hx
        rw [List.mem_cons] at hx
        rcases hx with rfl | hx
        · exact hitm.1
        · have := i2 x hx
          omega
      cases rf
      · exact key _ _ hL hR hpL hpR
      · exact key _ _ hR hL hpR hpL

/-- The loop of `createStack` stacks the nodes in breadth-first order, the
left child first. -/
theorem createStackLoop_eq_bfsLoop (fuel : Nat) :
    ∀ queue stack : List (Iterator K V),
      createStackLoop fuel queue stack = (bfsLoop false fuel queue).reverse ++ stack := by
  induction fuel with
  | zero => intro queue stack; rfl
  | succ fuel ih =>
    intro queue stack
    cases queue with
    | nil => rfl
    | cons it queue =>
      rw [createStackLoop, bfsLoop, ih]
      simp only [Bool.false_eq_true, if_false, List.reverse_cons, List.append_assoc,
        List.singleton_append]
      congr 3
      by_cases c1 : it.isLeftPossible = true <;> by_cases c2 : it.isRightPossible = true <;>
        simp [c1, c2]

end AVL

/-! ## `clear` -/

namespace AVL

variable {K V : Type}

/-- The stack of `createStack` on a dictionary with a root: every node once,
deepest first, each iterator with the dictionary as its own. -/
theorem createStack_spec (d : Dictionary K V) (hn : d.root.isNode = true) (hsz : 0 < d.size) :
    (d.createStack.map Iterator.path).Perm d.root.paths ∧
      (d.createStack.map Iterator.path).Pairwise (fun a b => b.length ≤ a.length) ∧
      ∀ it ∈ d.createStack, it.dictionary = some d.self := by
  have hst : d.createStack = (bfsLoop false (d.root.count + 1) [d.top]).reverse := by
    unfold Dictionary.createStack
    rw [if_pos hsz, createStackLoop_eq_bfsLoop, List.append_nil]
  have hq : ∀ it ∈ [d.top], it.curr.isNode = true := by
    intro it hit
    rw [List.mem_singleton] at hit
    subst hit
    exact hn
  have hperm := bfsLoop_perm false (d.root.count + 1) [d.top] hq (by simp [Dictionary.top])
  have hsort := (bfsLoop_sorted false (d.root.count + 1) [d.top] 0 hq
    (List.pairwise_singleton _ _) (by
      intro a ha
      rw [List.mem_singleton] at ha
      subst ha
      simp [Dictionary.top, Iterator.path])).1
  have hdict := bfsLoop_all (fun it : Iterator K V => it.dictionary = some d.self)
    (fun it h _ => (dictionary_toLeft it).trans h)
    (fun it h _ => (dictionary_toRight it).trans h) false (d.root.count + 1) [d.top]
    (by
      intro it hit
      rw [List.mem_singleton] at hit
      subst hit
      rfl)
  rw [hst]
  refine ⟨?_, ?_, ?_⟩
  · rw [List.map_reverse]
    refine (List.reverse_perm _).trans (hperm.trans ?_)
    simp [Dictionary.top, Iterator.path]
  · rw [List.map_reverse, List.pairwise_reverse, List.pairwise_map]
    exact hsort
  · intro it hit
    exact hdict it (List.mem_reverse.mp hit)

section Order

variable [LinearOrder K] [DecidableEq V]

/-- The loop of `clear` on the tree `s` cut down to the nodes on the stack, a
set complete above its deepest level and stacked deepest first: every call of
`deleteNode` is on a leaf and calls no rotation member, and the loop leaves
the empty dictionary. -/
theorem clearLoop_spec (s : Node K V) (hs : s.Good) (fuel : Nat) (hf : s.count ≤ fuel) :
    ∀ (stack : List (Iterator K V)) (d : Dictionary K V) (calls : List (Bool × List Rotation)),
      LevelSet s (stack.map Iterator.path) →
      (stack.map Iterator.path).Pairwise (fun a b => b.length ≤ a.length) →
      (∀ it ∈ stack, it.dictionary = some d.self) →
      d.root = (s.prune (fun q => decide (q ∈ stack.map Iterator.path))).recache →
      d.size = ((stack.map Iterator.path).length : Int) →
      clearLoop fuel stack d calls
        = .ok (⟨.nil, 0, d.self⟩, calls ++ List.replicate stack.length (true, [])) := by
  intro stack
  induction stack with
  | nil =>
    intro d calls _ _ _ hroot hsize
    simp only [List.map_nil, prune_none] at hroot
    simp only [List.map_nil, List.length_nil, Nat.cast_zero] at hsize
    obtain ⟨root, size, self⟩ := d
    simp only at hroot hsize
    subst hroot hsize
    simp [clearLoop, Node.recache]
  | cons it stack ih =>
    intro d calls hl hp hd hroot hsize
    simp only [List.map_cons] at hl hp hroot hsize
    have hmax : ∀ q ∈ stack.map Iterator.path, q.length ≤ it.path.length :=
      (List.pairwise_cons.mp hp).1
    obtain ⟨here, e1, e2, e3⟩ := clear_step s hs it.path _ hl hmax d it fuel hf rfl
      (hd it (List.mem_cons_self _ _)) hroot hsize
    rw [clearLoop, e1]
    simp only
    rw [e3]
    simp only [e2, Bool.not_true, bne_self_eq_false, Bool.or_self, Bool.false_and,
      Bool.false_eq_true, if_false]
    rw [ih ⟨(s.prune (fun q => decide (q ∈ stack.map Iterator.path))).recache,
      ((stack.map Iterator.path).length : Int), d.self⟩ (calls ++ [(true, [])])
      (levelSet_tail s _ _ hl hmax) (List.pairwise_cons.mp hp).2
      (fun x hx => hd x (List.mem_cons_of_mem _ hx)) rfl rfl]
    simp [List.replicate_succ]

/-- What `clear` does on a well-formed dictionary: one `deleteNode(it)` per
node, each on a leaf and without rotation, and nothing is left. -/
theorem Dictionary.clear_spec (d : Dictionary K V) (fuel : Nat) (hw : d.WellFormed)
    (hf : d.root.count ≤ fuel) :
    ∃ d2 calls, d.clear fuel = .ok (d2, calls) ∧ d2.getSize = 0 ∧ d2.root = .nil ∧
      d2.self = d.self ∧ d2.top = d2.end ∧ d2.begin = d2.end ∧
      calls = List.replicate d.root.count (true, []) ∧
      (d.size = 0 → d2 = d ∧ calls = []) := by
  have hs := hw.good
  have hsize := hw.size_eq
  by_cases hz : 0 < d.size
  · have hn : d.root.isNode = true := by
      cases hr : d.root with
      | nil =>
        rw [hr] at hsize
        simp only [Node.count] at hsize
        omega
      | node _ _ _ _ _ _ => rfl
    obtain ⟨h1, h2, h3⟩ := createStack_spec d hn hz
    have hlev : LevelSet d.root (d.createStack.map Iterator.path) :=
      ⟨h1.nodup_iff.mpr (paths_nodup _), fun q hq => h1.mem_iff.mp hq,
        fun q hq hnq => absurd (h1.mem_iff.mpr hq) hnq⟩
    have hroot : d.root = (d.root.prune
        (fun q => decide (q ∈ d.createStack.map Iterator.path))).recache := by
      rw [prune_all _ _ (fun q hq => by simpa using h1.mem_iff.mpr hq), recache_of_good _ hs]
    have hlen : d.size = ((d.createStack.map Iterator.path).length : Int) := by
      rw [h1.length_eq, length_paths, hsize]
    have hres := clearLoop_spec d.root hs fuel hf d.createStack d [] hlev h2 h3 hroot hlen
    refine ⟨⟨.nil, 0, d.self⟩, [] ++ List.replicate d.createStack.length (true, []), ?_, rfl,
      rfl, rfl, rfl, rfl, ?_, fun h0 => by omega⟩
    · unfold Dictionary.clear
      rw [if_pos hz, hres]
    · rw [List.nil_append]
      congr 1
      have := h1.length_eq
      rw [List.length_map, length_paths] at this
      exact this
  · have hc : d.root.count = 0 := by omega
    have hr : d.root = .nil := by
      cases hr : d.root with
      | nil => rfl
      | node _ _ _ _ _ _ =>
        rw [hr] at hc
        simp only [Node.count] at hc
        omega
    have h0 : d.size = 0 := by omega
    refine ⟨d, [], ?_, h0, hr, rfl, ?_, ?_, by rw [hc]; rfl, fun _ => ⟨rfl, rfl⟩⟩
    · unfold Dictionary.clear
      rw [if_neg hz]
    · simp [Dictionary.top, Dictionary.end, hr]
    · simp [Dictionary.begin, Dictionary.end, hr, goLeftmost]

/-- C22: on a well-formed dictionary `clear` returns (given as many iterations
of the up-propagation as the tree has nodes), `getSize()` is then 0 and the
root is absent, so that `top()` and `begin()` are `end()`; it has issued one
`deleteNode(it)` per node, each on a node that was a leaf at that moment and
none calling a rotation member; and on an empty dictionary it issues no call
and changes nothing. -/
theorem C22_clear_removes_leaves (d : Dictionary K V) (fuel : Nat) (hw : d.WellFormed)
    (hf : d.root.count ≤ fuel) :
    ∃ d2 calls, d.clear fuel = .ok (d2, calls) ∧ d2.getSize = 0 ∧ d2.root = .nil ∧
      d2.self = d.self ∧ d2.top = d2.end ∧ d2.begin = d2.end ∧
      calls = List.replicate d.root.count (true, []) ∧
      (d.size = 0 → d2 = d ∧ calls = []) :=
  d.clear_spec fuel hw hf

/-- C22 on the tree drawn in the tests: seven calls, each on a leaf and
without rotation, and the empty dictionary at the end. -/
theorem C22_witness :
    drawnDict.WellFormed ∧ drawnDict.root.count ≤ 7 ∧
      drawnDict.clear 7 = .ok (⟨.nil, 0, 0⟩, List.replicate 7 (true, [])) := by
  have hw : drawnDict.WellFormed := ⟨by decide, by decide, by decide, by decide⟩
  obtain ⟨d2, calls, e1, e2, e3, e4, -, -, e5, -⟩ :=
    C22_clear_removes_leaves drawnDict 7 hw (by decide)
  refine ⟨hw, by decide, ?_⟩
  rw [e1]
  obtain ⟨root, size, self⟩ := d2
  simp only [Dictionary.getSize] at e2 e3 e4
  subst e2 e3 e4 e5
  rfl

end Order

end AVL

/-! ## One call of `addNode` in `copy` -/

namespace AVL

variable {K V : Type}

/-- A tree whose root is not kept is cut down to nothing. -/
theorem prune_root_false (x : Node K V) (keep : List Bool → Bool) (h : keep [] = false) :
    x.prune keep = .nil := by
  cases x with
  | nil => rfl
  | node _ _ _ _ _ _ => simp [Node.prune, h]

theorem prune_node (l : Node K V) (k : K) (i : V) (b h : Int) (r : Node K V)
    (keep : List Bool → Bool) (h0 : keep [] = true) :
    (Node.node l k i b h r).prune keep
      = .node (l.prune (fun q => keep (true :: q))) k i b h
          (r.prune (fun q => keep (false :: q))) := by
  rw [Node.prune, if_pos h0]

/-- The cut that keeps one more node, below the left child of the root. -/
theorem prune_more_left (l : Node K V) (k : K) (i : V) (b h : Int) (r : Node K V)
    (keep : List Bool → Bool) (q : List Bool) :
    (Node.node l k i b h r).prune (fun p => decide (p = true :: q) || keep p)
      = if keep [] then
          .node (l.prune (fun p => decide (p = q) || keep (true :: p))) k i b h
            (r.prune (fun p => keep (false :: p)))
        else .nil := by
  rw [Node.prune]
  have h1 : (fun p => decide (true :: p = true :: q) || keep (true :: p))
      = (fun p => decide (p = q) || keep (true :: p)) := by
    funext p
    simp
  have h2 : (fun p => decide (false :: p = true :: q) || keep (false :: p))
      = (fun p => keep (false :: p)) := by
    funext p
    simp
  simp only [h1, h2]
  simp

/-- The cut that keeps one more node, below the right child of the root. -/
theorem prune_more_right (l : Node K V) (k : K) (i : V) (b h : Int) (r : Node K V)
    (keep : List Bool → Bool) (q : List Bool) :
    (Node.node l k i b h r).prune (fun p => decide (p = false :: q) || keep p)
      = if keep [] then
          .node (l.prune (fun p => keep (true :: p))) k i b h
            (r.prune (fun p => decide (p = q) || keep (false :: p)))
        else .nil := by
  rw [Node.prune]
  have h1 : (fun p => decide (true :: p = false :: q) || keep (true :: p))
      = (fun p => keep (true :: p)) := by
    funext p
    simp
  have h2 : (fun p => decide (false :: p = false :: q) || keep (false :: p))
      = (fun p => decide (p = q) || keep (false :: p)) := by
    funext p
    simp
  simp only [h1, h2]
  simp

/-- The cut that keeps one more node, the root, of whose subtrees nothing is
kept: a single node. -/
theorem prune_more_root (l : Node K V) (k : K) (i : V) (b h : Int) (r : Node K V)
    (keep : List Bool → Bool) (hk : ∀ p, keep p = false) :
    (Node.node l k i b h r).prune (fun p => decide (p = []) || keep p)
      = .node .nil k i b h .nil := by
  rw [Node.prune, if_pos (by simp)]
  rw [prune_root_false l _ (by simp [hk]), prune_root_false r _ (by simp [hk])]

/-- The key of a node found by `descend` is a key of the tree. -/
theorem key_of_descend (p : List Bool) :
    ∀ (x : Node K V) (up0 : List (Frame K V)) (cl : Node K V) (k : K) (i : V) (cb ch : Int)
      (cr : Node K V) (up : List (Frame K V)),
      descend p x up0 = some (.node cl k i cb ch cr, up) → k ∈ x.keys := by
  induction p with
  | nil =>
    intro x up0 cl k i cb ch cr up h
    cases x with
    | nil => simp [descend] at h
    | node l kx ix b hh r =>
      simp only [descend, Option.some.injEq, Prod.mk.injEq, Node.node.injEq] at h
      obtain ⟨⟨-, rfl, -⟩, -⟩ := h
      exact (mem_keys_node _ _ _ _ _ _).mpr (Or.inr (Or.inl rfl))
  | cons d p ih =>
    intro x up0 cl k i cb ch cr up h
    cases x with
    | nil => simp [descend] at h
    | node l kx ix b hh r =>
      cases d with
      | true =>
        simp only [descend] at h
        exact (mem_keys_node _ _ _ _ _ _).mpr (Or.inl (ih _ _ _ _ _ _ _ _ _ h))
      | false =>
        simp only [descend] at h
        exact (mem_keys_node _ _ _ _ _ _).mpr (Or.inr (Or.inr (ih _ _ _ _ _ _ _ _ _ h)))

/-- The shortcut of `addNode` under a node of a `Good` tree that has its other
child: the tree it leaves is `Good`. -/
theorem shortcut_good_left (up : List (Frame K V)) (kx : K) (ix : V) (b h : Int)
    (r : Node K V) (k : K) (i : V) (hr : r.isNode = true)
    (hg : (rebuild (.node .nil kx ix b h r) up).Good) :
    (rebuild (.node (Node.leaf k i) kx ix 0 h r) up).Good := by
  obtain ⟨hc, hu⟩ := good_of_rebuild up _ hg
  obtain ⟨-, hrg, h1, h2, h3, h4⟩ := hc
  cases r with
  | nil => cases hr
  | node rl rk ri rb rh rr =>
    have hp := hrg.pos
    simp only [cachedHeight_node, cachedHeight_nil] at h1 h2
    refine good_rebuild up _ ⟨good_leaf k i, hrg, ?_, ?_, by omega, by omega⟩ hu
    · simp only [cachedHeight_node, cachedHeight_leaf]
      omega
    · simp only [cachedHeight_node, cachedHeight_leaf]
      omega

theorem shortcut_good_right (up : List (Frame K V)) (l : Node K V) (kx : K) (ix : V)
    (b h : Int) (k : K) (i : V) (hl : l.isNode = true)
    (hg : (rebuild (.node l kx ix b h .nil) up).Good) :
    (rebuild (.node l kx ix 0 h (Node.leaf k i)) up).Good := by
  obtain ⟨hc, hu⟩ := good_of_rebuild up _ hg
  obtain ⟨hlg, -, h1, h2, h3, h4⟩ := hc
  cases l with
  | nil => cases hl
  | node ll lk li lb lh lr =>
    have hp := hlg.pos
    simp only [cachedHeight_node, cachedHeight_nil] at h1 h2
    refine good_rebuild up _ ⟨hlg, good_leaf k i, ?_, ?_, by omega, by omega⟩ hu
    · simp only [cachedHeight_node, cachedHeight_leaf]
      omega
    · simp only [cachedHeight_node, cachedHeight_leaf]
      omega

end AVL

namespace AVL

variable {K V : Type}

theorem recache_nil : (Node.nil : Node K V).recache = .nil := rfl

theorem recache_single (k : K) (i : V) (b h : Int) :
    (Node.node .nil k i b h .nil).recache = Node.leaf k i := rfl

/-- Recomputing sees neither the cached fields of a node nor those below. -/
theorem recache_node_congr (l1 l2 : Node K V) (k : K) (i : V) (b1 h1 b2 h2 : Int)
    (r1 r2 : Node K V) (hl : l1.recache = l2.recache) (hr : r1.recache = r2.recache) :
    (Node.node l1 k i b1 h1 r1).recache = (Node.node l2 k i b2 h2 r2).recache := by
  rw [recache_node, recache_node, hl, hr]

/-- The branch of `addNode` that puts the new node to the left of a node
without left child. -/
theorem ins_bottom_left (fuel : Nat) (k : K) (i : V) (kx : K) (ix : V) (b0 h0 : Int)
    (right : Node K V) (up : List (Frame K V)) (whole : Node K V)
    (hgood : (rebuild (.node .nil kx ix b0 h0 right) up).Good)
    (hw : whole.recache = (Node.node (Node.leaf k i) kx ix b0 h0 right).recache)
    (hbal : (rebuild whole up).recache.Balanced) (hf : up.length + 1 ≤ fuel) :
    (if !right.isNode then
        match updateNodesAndRotateLog fuel (.node (Node.leaf k i) kx ix b0 h0 right) up with
        | .fail f => Res.fail f
        | .ok t => Res.ok (some t)
      else Res.ok (some (rebuild (.node (Node.leaf k i) kx ix 0 h0 right) up, [])))
      = Res.ok (some ((rebuild whole up).recache, [])) := by
  obtain ⟨hc, hu⟩ := good_of_rebuild up _ hgood
  have hrg : right.Good := hc.2.1
  have hsib := goodCtx_sibling up _ hu
  have e1 := recache_rebuild up _ _ hw
  by_cases hn : right.isNode = true
  · rw [if_neg (by simp [hn])]
    have hg2 := shortcut_good_left up kx ix b0 h0 right k i hn hgood
    have e2 : (Node.node (Node.leaf k i) kx ix 0 h0 right).recache
        = (Node.node (Node.leaf k i) kx ix b0 h0 right).recache :=
      recache_node_congr _ _ _ _ _ _ _ _ _ _ rfl rfl
    rw [e1, ← recache_rebuild up _ _ e2, recache_of_good _ hg2]
  · rw [if_pos (by simp [hn])]
    rw [e1] at hbal ⊢
    rw [norot_recache up fuel (Node.leaf k i) kx ix b0 h0 right (good_leaf k i) hrg hsib hbal
      hf]

/-- The branch of `addNode` that puts the new node to the right of a node
without right child. -/
theorem ins_bottom_right (fuel : Nat) (k : K) (i : V) (left : Node K V) (kx : K) (ix : V)
    (b0 h0 : Int) (up : List (Frame K V)) (whole : Node K V)
    (hgood : (rebuild (.node left kx ix b0 h0 .nil) up).Good)
    (hw : whole.recache = (Node.node left kx ix b0 h0 (Node.leaf k i)).recache)
    (hbal : (rebuild whole up).recache.Balanced) (hf : up.length + 1 ≤ fuel) :
    (if !left.isNode then
        match updateNodesAndRotateLog fuel (.node left kx ix b0 h0 (Node.leaf k i)) up with
        | .fail f => Res.fail f
        | .ok t => Res.ok (some t)
      else Res.ok (some (rebuild (.node left kx ix 0 h0 (Node.leaf k i)) up, [])))
      = Res.ok (some ((rebuild whole up).recache, [])) := by
  obtain ⟨hc, hu⟩ := good_of_rebuild up _ hgood
  have hlg : left.Good := hc.1
  have hsib := goodCtx_sibling up _ hu
  have e1 := recache_rebuild up _ _ hw
  by_cases hn : left.isNode = true
  · rw [if_neg (by simp [hn])]
    have hg2 := shortcut_good_right up left kx ix b0 h0 k i hn hgood
    have e2 : (Node.node left kx ix 0 h0 (Node.leaf k i)).recache
        = (Node.node left kx ix b0 h0 (Node.leaf k i)).recache :=
      recache_node_congr _ _ _ _ _ _ _ _ _ _ rfl rfl
    rw [e1, ← recache_rebuild up _ _ e2, recache_of_good _ hg2]
  · rw [if_pos (by simp [hn])]
    rw [e1] at hbal ⊢
    rw [norot_recache up fuel left kx ix b0 h0 (Node.leaf k i) hlg (good_leaf k i) hsib hbal
      hf]

/-- A tree in which `descend` finds something is a node. -/
theorem isNode_of_descend (p : List Bool) (x : Node K V) (up0 : List (Frame K V))
    (c : Node K V) (up : List (Frame K V)) (h : descend p x up0 = some (c, up)) :
    ∃ l k i b hh r, x = .node l k i b hh r := by
  cases x with
  | nil => cases p <;> simp [descend] at h
  | node l k i b hh r => exact ⟨l, k, i, b, hh, r, rfl⟩

section Order

variable [LinearOrder K]

theorem addNodeLoopLog_node (fuel : Nat) (k : K) (i : V) (l : Node K V) (key : K) (info : V)
    (b h : Int) (r : Node K V) (up : List (Frame K V)) :
    addNodeLoopLog fuel k i (.node l key info b h r) up =
    if key < k then
      match r with
      | .node rl rk ri rb rh rr =>
        addNodeLoopLog fuel k i (.node rl rk ri rb rh rr) (.inRight l key info b h :: up)
      | .nil =>
        if !l.isNode then
          match updateNodesAndRotateLog fuel (.node l key info b h (Node.leaf k i)) up with
          | .fail f => .fail f
          | .ok t => .ok (some t)
        else .ok (some (rebuild (.node l key info 0 h (Node.leaf k i)) up, []))
    else if k < key then
      match l with
      | .node ll lk li lb lh lr =>
        addNodeLoopLog fuel k i (.node ll lk li lb lh lr) (.inLeft key info b h r :: up)
      | .nil =>
        if !r.isNode then
          match updateNodesAndRotateLog fuel (.node (Node.leaf k i) key info b h r) up with
          | .fail f => .fail f
          | .ok t => .ok (some t)
        else .ok (some (rebuild (.node (Node.leaf k i) key info 0 h r) up, []))
    else .ok none := by
  cases l <;> cases r <;> rfl

/-- The loop of `addNode` for the key and info of a node of a search tree, on
that tree cut down to nodes among which are the ancestors of the node but
neither the node nor what hangs below it, with the cached fields recomputed
and `Good`: when the cut that keeps the node as well is balanced, the loop
puts the node at its place, calls no rotation member, and leaves the cached
fields recomputed. -/
theorem ins_descend (k : K) (i : V) (fuel : Nat) :
    ∀ (q : List Bool) (x : Node K V) (keep : List Bool → Bool) (up : List (Frame K V)),
      x.BST → q ≠ [] →
      (∃ up0 ql qb qh qr qup, descend q x up0 = some (.node ql k i qb qh qr, qup)) →
      (∀ r, r <+: q → r ≠ q → keep r = true) →
      (∀ r, q <+: r → keep r = false) →
      (rebuild (x.prune keep).recache up).Good →
      (rebuild (x.prune (fun r => decide (r = q) || keep r)) up).recache.Balanced →
      up.length + q.length ≤ fuel →
      addNodeLoopLog fuel k i (x.prune keep).recache up
        = .ok (some ((rebuild (x.prune (fun r => decide (r = q) || keep r)) up).recache,
            [])) := by
  intro q
  induction q with
  | nil => intro x keep up _ h; exact absurd rfl h
  | cons d q ih =>
    intro x keep up hbst _ hdesc hpre hpost hgood hbal hfuel
    obtain ⟨up0, ql, qb, qh, qr, qup, hdesc⟩ := hdesc
    cases x with
    | nil => simp [descend] at hdesc
    | node l kx ix b h r =>
      have h0 : keep [] = true := hpre [] List.nil_prefix (by simp)
      obtain ⟨bl, br, bkl, bkr⟩ := hbst
      simp only [List.length_cons] at hfuel
      cases d with
      | true =>
        simp only [descend] at hdesc
        have hk : k < kx := bkl k (key_of_descend _ _ _ _ _ _ _ _ _ _ hdesc)
        have hpre2 : ∀ r, r <+: q → r ≠ q → keep (true :: r) = true :=
          fun r h1 h2 => hpre _ (List.cons_prefix_cons.mpr ⟨rfl, h1⟩) (by simpa using h2)
        have hpost2 : ∀ r, q <+: r → keep (true :: r) = false :=
          fun r h1 => hpost _ (List.cons_prefix_cons.mpr ⟨rfl, h1⟩)
        rw [prune_more_left, if_pos h0] at hbal ⊢
        rw [prune_node _ _ _ _ _ _ _ h0, recache_node] at hgood ⊢
        rw [addNodeLoopLog_node, if_neg (not_lt_of_gt hk), if_pos hk]
        cases q with
        | nil =>
          cases l with
          | nil => simp [descend] at hdesc
          | node ll lk li lb lh lr =>
            simp only [descend, Option.some.injEq, Prod.mk.injEq, Node.node.injEq] at hdesc
            obtain ⟨⟨-, rfl, rfl, -⟩, -⟩ := hdesc
            have hL : (Node.node ll lk li lb lh lr).prune (fun p => keep (true :: p)) = .nil :=
              prune_root_false _ _ (hpost2 [] (List.prefix_refl _))
            rw [prune_more_root _ _ _ _ _ _ _ (fun p => hpost2 p List.nil_prefix)] at hbal ⊢
            rw [hL, recache_nil] at hgood ⊢
            exact ins_bottom_left fuel lk li kx ix _ _ _ up _ hgood
              (recache_node_congr _ _ _ _ _ _ _ _ _ _ rfl (recache_recache _).symm) hbal
              (by omega)
        | cons d2 q2 =>
          obtain ⟨ll, lk, li, lb, lh, lr, rfl⟩ := isNode_of_descend _ _ _ _ _ hdesc
          have hl0 : keep [true] = true := hpre2 [] List.nil_prefix (by simp)
          have e2 : ∀ A : Node K V,
              (rebuild A (.inLeft kx ix
                ((r.prune (fun q => keep (false :: q))).recache.cachedHeight
                  - ((Node.node ll lk li lb lh lr).prune
                      (fun q => keep (true :: q))).recache.cachedHeight)
                (max ((Node.node ll lk li lb lh lr).prune
                      (fun q => keep (true :: q))).recache.cachedHeight
                  (r.prune (fun q => keep (false :: q))).recache.cachedHeight + 1)
                (r.prune (fun q => keep (false :: q))).recache :: up)).recache
              = (rebuild (.node A kx ix b h (r.prune (fun q => keep (false :: q)))) up).recache :=
            fun A => recache_rebuild up _ _
              (recache_node_congr _ _ _ _ _ _ _ _ _ _ rfl (recache_recache _))
          have hstep := ih (.node ll lk li lb lh lr) (fun p => keep (true :: p))
            (.inLeft kx ix _ _ (r.prune (fun q => keep (false :: q))).recache :: up) bl
            (by simp) ⟨_, _, _, _, _, _, hdesc⟩ hpre2 hpost2 hgood
            (by rw [e2]; exact hbal) (by simp only [List.length_cons] at hfuel ⊢; omega)
          rw [e2] at hstep
          rw [← hstep]
          rw [prune_node _ _ _ _ _ _ _ hl0, recache_node]
      | false =>
        simp only [descend] at hdesc
        have hk : kx < k := bkr k (key_of_descend _ _ _ _ _ _ _ _ _ _ hdesc)
        have hpre2 : ∀ r, r <+: q → r ≠ q → keep (false :: r) = true :=
          fun r h1 h2 => hpre _ (List.cons_prefix_cons.mpr ⟨rfl, h1⟩) (by simpa using h2)
        have hpost2 : ∀ r, q <+: r → keep (false :: r) = false :=
          fun r h1 => hpost _ (List.cons_prefix_cons.mpr ⟨rfl, h1⟩)
        rw [prune_more_right, if_pos h0] at hbal ⊢
        rw [prune_node _ _ _ _ _ _ _ h0, recache_node] at hgood ⊢
        rw [addNodeLoopLog_node, if_pos hk]
        cases q with
        | nil =>
          cases r with
          | nil => simp [descend] at hdesc
          | node rl rk ri rb rh rr =>
            simp only [descend, Option.some.injEq, Prod.mk.injEq, Node.node.injEq] at hdesc
            obtain ⟨⟨-, rfl, rfl, -⟩, -⟩ := hdesc
            have hR : (Node.node rl rk ri rb rh rr).prune (fun p => keep (false :: p)) = .nil :=
              prune_root_false _ _ (hpost2 [] (List.prefix_refl _))
            rw [prune_more_root _ _ _ _ _ _ _ (fun p => hpost2 p List.nil_prefix)] at hbal ⊢
            rw [hR, recache_nil] at hgood ⊢
            exact ins_bottom_right fuel rk ri _ kx ix _ _ up _ hgood
              (recache_node_congr _ _ _ _ _ _ _ _ _ _ (recache_recache _).symm rfl) hbal
              (by omega)
        | cons d2 q2 =>
          obtain ⟨rl, rk, ri, rb, rh, rr, rfl⟩ := isNode_of_descend _ _ _ _ _ hdesc
          have hr0 : keep [false] = true := hpre2 [] List.nil_prefix (by simp)
          have e2 : ∀ A : Node K V,
              (rebuild A (.inRight (l.prune (fun q => keep (true :: q))).recache kx ix
                (((Node.node rl rk ri rb rh rr).prune
                      (fun q => keep (false :: q))).recache.cachedHeight
                  - (l.prune (fun q => keep (true :: q))).recache.cachedHeight)
                (max (l.prune (fun q => keep (true :: q))).recache.cachedHeight
                  ((Node.node rl rk ri rb rh rr).prune
                      (fun q => keep (false :: q))).recache.cachedHeight + 1) :: up)).recache
              = (rebuild (.node (l.prune (fun q => keep (true :: q))) kx ix b h A) up).recache :=
            fun A => recache_rebuild up _ _
              (recache_node_congr _ _ _ _ _ _ _ _ _ _ (recache_recache _) rfl)
          have hstep := ih (.node rl rk ri rb rh rr) (fun p => keep (false :: p))
            (.inRight (l.prune (fun q => keep (true :: q))).recache kx ix _ _ :: up) br
            (by simp) ⟨_, _, _, _, _, _, hdesc⟩ hpre2 hpost2 hgood
            (by rw [e2]; exact hbal) (by simp only [List.length_cons] at hfuel ⊢; omega)
          rw [e2] at hstep
          rw [← hstep]
          rw [prune_node _ _ _ _ _ _ _ hr0, recache_node]

end Order

end AVL

namespace AVL

variable {K V : Type}

/-- Child links followed one stretch after the other. -/
theorem descend_append (p1 : List Bool) :
    ∀ (p2 : List Bool) (x : Node K V) (up0 : List (Frame K V)) (c : Node K V)
      (up : List (Frame K V)), descend p1 x up0 = some (c, up) →
      descend (p1 ++ p2) x up0 = descend p2 c up := by
  induction p1 with
  | nil =>
    intro p2 x up0 c up h
    cases x with
    | nil => simp [descend] at h
    | node l k i b hh r =>
      simp only [descend, Option.some.injEq, Prod.mk.injEq] at h
      obtain ⟨rfl, rfl⟩ := h
      rfl
  | cons d p1 ih =>
    intro p2 x up0 c up h
    cases x with
    | nil => simp [descend] at h
    | node l k i b hh r =>
      cases d with
      | true =>
        simp only [descend] at h
        simp only [List.cons_append, descend]
        exact ih _ _ _ _ _ h
      | false =>
        simp only [descend] at h
        simp only [List.cons_append, descend]
        exact ih _ _ _ _ _ h

/-- The child links of an iterator lead from the root to its node, with its
parents. -/
theorem descend_rebuild (up : List (Frame K V)) :
    ∀ (c : Node K V) (up0 : List (Frame K V)), c.isNode = true →
      descend (up.map Frame.isLeft).reverse (rebuild c up) up0 = some (c, up ++ up0) := by
  induction up with
  | nil =>
    intro c up0 hc
    cases c with
    | nil => cases hc
    | node l k i b hh r => rfl
  | cons f rest ih =>
    intro c up0 hc
    have hp : (f.plug c).isNode = true := by cases f <;> rfl
    simp only [List.map_cons, List.reverse_cons, rebuild]
    rw [descend_append _ _ _ _ _ _ (ih (f.plug c) up0 hp)]
    cases c with
    | nil => cases hc
    | node l k i b hh r => cases f <;> rfl

theorem descend_of_on (it : Iterator K V) (root : Node K V) (h : it.On root) :
    descend it.path root [] = some (it.curr, it.up) := by
  have := descend_rebuild it.up it.curr [] h.1
  rw [h.2, List.append_nil] at this
  exact this

/-- Where `descend` finds a node, there is a node. -/
theorem mem_paths_of_descend (p : List Bool) :
    ∀ (x : Node K V) (up0 : List (Frame K V)) (c : Node K V) (up : List (Frame K V)),
      descend p x up0 = some (c, up) → p ∈ x.paths := by
  induction p with
  | nil =>
    intro x up0 c up h
    cases x with
    | nil => simp [descend] at h
    | node l k i b hh r => exact nil_mem_paths _ _ _ _ _ _
  | cons d p ih =>
    intro x up0 c up h
    cases x with
    | nil => simp [descend] at h
    | node l k i b hh r =>
      cases d with
      | true =>
        simp only [descend] at h
        exact left_mem_paths (ih _ _ _ _ h)
      | false =>
        simp only [descend] at h
        exact right_mem_paths (ih _ _ _ _ h)

section Order

variable [LinearOrder K]

/-- One iteration of the loop of `copy`, on the source `s` cut down to the
nodes already copied (a set complete above its deepest level) when the
iterator is on a node of `s` outside the set, among the least deep ones:
`addNode` of its key and info calls no rotation member and leaves `s` cut down
to the set with that node. -/
theorem copy_step (s : Node K V) (hs : s.Good) (hb : s.BST) (q : List Bool)
    (nodes : List (List Bool)) (hl : LevelSet s (q :: nodes))
    (hmax : ∀ r ∈ nodes, r.length ≤ q.length) (d : Dictionary K V) (it : Iterator K V)
    (fuel : Nat) (hf : s.count ≤ fuel) (hon : it.On s) (hne : it.isEmpty = false)
    (hp : it.path = q)
    (hroot : d.root = (s.prune (fun p => decide (p ∈ nodes))).recache)
    (hsize : d.size = (nodes.length : Int)) :
    ∃ k i, it.deref = .ok (k, i) ∧
      d.addNodeLog fuel k i
        = .ok (true, ⟨(s.prune (fun p => decide (p ∈ q :: nodes))).recache,
            ((q :: nodes).length : Int), d.self⟩, []) := by
  have hdesc := descend_of_on it s hon
  rw [hp] at hdesc
  obtain ⟨hnode, -⟩ := hon
  obtain ⟨curr, up, dict⟩ := it
  simp only at hdesc hnode
  cases curr with
  | nil => cases hnode
  | node cl k i cb ch cr =>
    refine ⟨k, i, by simp [Iterator.deref, hne], ?_⟩
    have hkeep : (fun p => decide (p ∈ q :: nodes))
        = (fun p => decide (p = q) || decide (p ∈ nodes)) := by
      funext p
      simp [List.mem_cons]
    have hqn : q ∉ nodes := (List.nodup_cons.mp hl.1).1
    unfold Dictionary.addNodeLog
    by_cases hn : nodes = []
    · subst hn
      have hq0 : q = [] := by
        have := levelSet_prefix s _ hl q [] (List.mem_cons_self _ _) List.nil_prefix
        rw [List.mem_singleton] at this
        exact this.symm
      subst hq0
      cases s with
      | nil => simp [descend] at hdesc
      | node sl sk si sb sh sr =>
        simp only [descend, Option.some.injEq, Prod.mk.injEq, Node.node.injEq] at hdesc
        obtain ⟨⟨-, rfl, rfl, -⟩, -⟩ := hdesc
        rw [if_pos (by rw [hsize]; rfl), hkeep,
          prune_more_root _ _ _ _ _ _ _ (fun p => by simp), recache_single, hsize]
        rfl
    · have hnil : ([] : List Bool) ∈ nodes := by
        obtain ⟨p, hp2, -⟩ := exists_longest nodes hn
        exact levelSet_prefix s nodes (levelSet_tail s q nodes hl hmax) p [] hp2
          List.nil_prefix
      have hq0 : q ≠ [] := fun e => hqn (e ▸ hnil)
      have hsz : ¬ d.size = 0 := by
        rw [hsize]
        have : 0 < nodes.length := List.length_pos.mpr hn
        omega
      have hlt := length_lt_count s q (hl.2.1 q (List.mem_cons_self _ _))
      have hres := ins_descend k i fuel q s (fun p => decide (p ∈ nodes)) [] hb hq0
        ⟨_, _, _, _, _, _, hdesc⟩
        (by
          intro r h1 h2
          have h3 := levelSet_prefix s _ hl q r (List.mem_cons_self _ _) h1
          rw [List.mem_cons] at h3
          simpa using h3.resolve_left h2)
        (by
          intro r h1
          by_contra hc
          have h3 : r ∈ nodes := by simpa using hc
          have h4 := hmax r h3
          have h5 := h1.length_le
          exact hqn ((h1.eq_of_length (by omega)) ▸ h3))
        (levelSet_good s hs nodes (levelSet_tail s q nodes hl hmax))
        (by
          rw [← hkeep]
          exact ((good_iff _).mp (levelSet_good s hs _ hl)).2)
        (by
          simp only [List.length_nil, Nat.zero_add]
          omega)
      rw [if_neg hsz, hroot, hres, hkeep, hsize]
      simp only [rebuild, List.length_cons]
      push_cast
      rfl

end Order

end AVL

/-! ## `copy` -/

namespace AVL

variable {K V : Type}

section Order

variable [LinearOrder K]

/-- The calls of `addNode` for iterators of the source `s` in order of depth,
from `s` cut down to a set of nodes complete above its deepest level, the
iterators being on all the other nodes: no rotation member is called, and the
result is `s`. -/
theorem addAll_spec (s : Node K V) (hs : s.Good) (hb : s.BST) (fuel : Nat)
    (hf : s.count ≤ fuel) :
    ∀ (rest : List (Iterator K V)) (nodes : List (List Bool)) (d : Dictionary K V)
      (rotations : List Rotation),
      LevelSet s nodes → (rest.map Iterator.path).Nodup →
      (∀ it ∈ rest, it.On s ∧ it.isEmpty = false) →
      (∀ it ∈ rest, it.path ∉ nodes) →
      (rest.map Iterator.path).Pairwise (fun a b => a.length ≤ b.length) →
      (∀ r ∈ s.paths, r ∉ nodes → r ∈ rest.map Iterator.path) →
      d.root = (s.prune (fun p => decide (p ∈ nodes))).recache →
      d.size = (nodes.length : Int) → nodes.length + rest.length = s.count →
      addAll fuel rest d rotations = .ok (⟨s, (s.count : Int), d.self⟩, rotations) := by
  intro rest
  induction rest with
  | nil =>
    intro nodes d rotations _ _ _ _ _ hall hroot hsize hcount
    have hk : ∀ q ∈ s.paths, decide (q ∈ nodes) = true := by
      intro q hq
      by_contra hc
      have := hall q hq (by simpa using hc)
      cases this
    rw [prune_all s _ hk, recache_of_good s hs] at hroot
    simp only [List.length_nil, Nat.add_zero] at hcount
    rw [hcount] at hsize
    obtain ⟨root, size, self⟩ := d
    simp only at hroot hsize
    subst hroot hsize
    rfl
  | cons it rest ih =>
    intro nodes d rotations hl hnd hon hnot hsort hall hroot hsize hcount
    simp only [List.map_cons] at hnd hsort hall
    obtain ⟨hit, hne⟩ := hon it (List.mem_cons_self _ _)
    have hq : it.path ∈ s.paths := mem_paths_of_descend _ _ _ _ _ (descend_of_on it s hit)
    have hqn := hnot it (List.mem_cons_self _ _)
    obtain ⟨hl2, hmax⟩ := levelSet_cons s it.path nodes hl hq hqn (by
      intro r hr hrn
      have h1 := hall r hr hrn
      rw [List.mem_cons] at h1
      rcases h1 with rfl | h1
      · exact le_refl _
      · exact (List.pairwise_cons.mp hsort).1 r h1)
    obtain ⟨k, i, e1, e2⟩ := copy_step s hs hb it.path nodes hl2 hmax d it fuel hf hit hne rfl
      hroot hsize
    rw [addAll, e1]
    simp only
    rw [e2]
    simp only [List.append_nil]
    refine ih (it.path :: nodes) ⟨_, _, d.self⟩ rotations hl2 (List.nodup_cons.mp hnd).2
      (fun x hx => hon x (List.mem_cons_of_mem _ hx)) ?_ (List.pairwise_cons.mp hsort).2 ?_
      rfl rfl ?_
    · intro x hx hc
      rw [List.mem_cons] at hc
      rcases hc with hc | hc
      · exact (List.nodup_cons.mp hnd).1 (hc ▸ List.mem_map_of_mem _ hx)
      · exact hnot x (List.mem_cons_of_mem _ hx) hc
    · intro r hr hrn
      have h1 := hall r hr (fun hc => hrn (List.mem_cons_of_mem _ hc))
      rw [List.mem_cons] at h1
      rcases h1 with rfl | h1
      · exact absurd (List.mem_cons_self _ _) hrn
      · exact h1
    · simp only [List.length_cons] at hcount ⊢
      omega

/-- The loop of `copy` makes the calls of `addNode` in breadth-first order,
the right child first. -/
theorem copyLoop_eq_addAll (fuel : Nat) (n : Nat) :
    ∀ (queue : List (Iterator K V)) (d : Dictionary K V) (rotations : List Rotation),
      (∀ it ∈ queue, it.curr.isNode = true) →
      (queue.map (fun it => it.curr.count)).sum ≤ n →
      copyLoop fuel n queue d rotations = addAll fuel (bfsLoop true n queue) d rotations := by
  induction n with
  | zero =>
    intro queue d rotations hq hn
    cases queue with
    | nil => rfl
    | cons it queue =>
      exfalso
      have hit := hq it (List.mem_cons_self _ _)
      cases hc : it.curr with
      | nil => rw [hc] at hit; cases hit
      | node l k i b h r =>
        simp only [List.map_cons, List.sum_cons, hc, Node.count] at hn
        omega
  | succ n ih =>
    intro queue d rotations hq hn
    cases queue with
    | nil => rfl
    | cons it queue =>
      have hit := hq it (List.mem_cons_self _ _)
      have hq0 : ∀ x ∈ queue, x.curr.isNode = true :=
        fun x hx => hq x (List.mem_cons_of_mem _ hx)
      rw [copyLoop, bfsLoop, addAll]
      cases hderef : it.deref with
      | fail f => rfl
      | ok p =>
        simp only
        cases hadd : d.addNodeLog fuel p.1 p.2 with
        | fail f => rfl
        | ok res =>
          obtain ⟨b, d2, more⟩ := res
          simp only [if_true]
          have hqueue : (if it.isLeftPossible = true then
                (if it.isRightPossible = true then queue ++ [it.toRight] else queue)
                  ++ [it.toLeft]
              else if it.isRightPossible = true then queue ++ [it.toRight] else queue)
              = queue ++ (if it.isRightPossible = true then [it.toRight] else [])
                ++ (if it.isLeftPossible = true then [it.toLeft] else []) := by
            by_cases c1 : it.isLeftPossible = true <;>
              by_cases c2 : it.isRightPossible = true <;> simp [c1, c2]
          rw [hqueue]
          apply ih
          · intro x hx
            rw [List.mem_append, List.mem_append] at hx
            rcases hx with (hx | hx) | hx
            · exact hq0 x hx
            · by_cases c : it.isRightPossible = true
              · rw [if_pos c, List.mem_singleton] at hx
                exact hx ▸ isNode_toRight it c
              · rw [if_neg c] at hx
                cases hx
            · by_cases c : it.isLeftPossible = true
              · rw [if_pos c, List.mem_singleton] at hx
                exact hx ▸ isNode_toLeft it c
              · rw [if_neg c] at hx
                cases hx
          · cases hc : it.curr with
            | nil => rw [hc] at hit; cases hit
            | node l k i bb h r =>
              simp only [List.map_cons, List.sum_cons, hc, Node.count] at hn
              have hl : it.isLeftPossible = l.isNode := by
                simp [Iterator.isLeftPossible, hc, Node.getLeft]
              have hr : it.isRightPossible = r.isNode := by
                simp [Iterator.isRightPossible, hc, Node.getRight]
              have hsl : ((if it.isLeftPossible = true then [it.toLeft] else []).map
                  (fun x => x.curr.count)).sum = l.count := by
                rw [hl]
                cases hln : l.isNode
                · cases l with
                  | nil => rfl
                  | node _ _ _ _ _ _ => cases hln
                · simp [curr_toLeft it l k i bb h r hc]
              have hsr : ((if it.isRightPossible = true then [it.toRight] else []).map
                  (fun x => x.curr.count)).sum = r.count := by
                rw [hr]
                cases hrn : r.isNode
                · cases r with
                  | nil => rfl
                  | node _ _ _ _ _ _ => cases hrn
                · simp [curr_toRight it l k i bb h r hc]
              rw [List.map_append, List.map_append, List.sum_append, List.sum_append, hsl,
                hsr]
              omega

end Order

end AVL

namespace AVL

variable {K V : Type}

theorem flatten_replicate_nil (n : Nat) :
    ((List.replicate n ((true, []) : Bool × List Rotation)).map Prod.snd).flatten = [] := by
  induction n with
  | zero => rfl
  | succ n ih => simp [List.replicate_succ]

/-- The queue of `copy` on a source with a root: breadth-first order lists
every node once, in order of depth, each iterator on the source and with a
dictionary. -/
theorem copy_order (s : Dictionary K V) (hn : s.root.isNode = true) :
    ((bfsLoop true (s.root.count + 1) [s.top]).map Iterator.path).Perm s.root.paths ∧
      ((bfsLoop true (s.root.count + 1) [s.top]).map Iterator.path).Pairwise
        (fun a b => a.length ≤ b.length) ∧
      ∀ it ∈ bfsLoop true (s.root.count + 1) [s.top], it.On s.root ∧ it.isEmpty = false := by
  have hq : ∀ it ∈ [s.top], it.curr.isNode = true := by
    intro it hit
    rw [List.mem_singleton] at hit
    subst hit
    exact hn
  have hperm := bfsLoop_perm true (s.root.count + 1) [s.top] hq (by simp [Dictionary.top])
  have hsort := (bfsLoop_sorted true (s.root.count + 1) [s.top] 0 hq
    (List.pairwise_singleton _ _) (by
      intro a ha
      rw [List.mem_singleton] at ha
      subst ha
      simp [Dictionary.top, Iterator.path])).1
  have hall := bfsLoop_all (fun it : Iterator K V => it.On s.root ∧ it.isEmpty = false)
    (fun it h c => ⟨Iterator.toLeft_on h.1 c, by
      have := h.2
      simp only [Iterator.isEmpty, dictionary_toLeft] at this ⊢
      exact this⟩)
    (fun it h c => ⟨Iterator.toRight_on h.1 c, by
      have := h.2
      simp only [Iterator.isEmpty, dictionary_toRight] at this ⊢
      exact this⟩) true (s.root.count + 1) [s.top]
    (by
      intro it hit
      rw [List.mem_singleton] at hit
      subst hit
      exact ⟨⟨hn, rfl⟩, rfl⟩)
  refine ⟨?_, ?_, hall⟩
  · refine hperm.trans ?_
    simp [Dictionary.top, Iterator.path]
  · rw [List.pairwise_map]
    exact hsort

section Order

variable [LinearOrder K] [DecidableEq V]

/-- What `copy` does with a well-formed source and a well-formed destination
that is another object: the destination gets the tree of the source, node for
node and cached field for cached field, and its size, and no rotation member
is called. -/
theorem Dictionary.copy_spec (d toCopy : Dictionary K V) (fuel : Nat) (hd : d.WellFormed)
    (hs : toCopy.WellFormed) (hself : d.self ≠ toCopy.self) (hf1 : d.root.count ≤ fuel)
    (hf2 : toCopy.root.count ≤ fuel) :
    d.copy fuel toCopy = .ok (⟨toCopy.root, toCopy.size, d.self⟩, []) := by
  obtain ⟨d1, calls, e1, e2, e3, e4, -, -, e5, -⟩ := d.clear_spec fuel hd hf1
  obtain ⟨root1, size1, self1⟩ := d1
  simp only [Dictionary.getSize] at e2 e3 e4
  subst e2 e3 e4 e5
  unfold Dictionary.copy
  rw [if_neg hself, e1]
  simp only [flatten_replicate_nil]
  have hsize := hs.size_eq
  by_cases hz : toCopy.getSize = 0
  · rw [if_pos hz]
    have hz2 : toCopy.size = 0 := hz
    have hr : toCopy.root = .nil := by
      cases hr : toCopy.root with
      | nil => rfl
      | node _ _ _ _ _ _ =>
        rw [hr, hz2] at hsize
        simp only [Node.count] at hsize
        omega
    rw [hr, hz2]
  · rw [if_neg hz]
    have hz2 : toCopy.size ≠ 0 := hz
    have hn : toCopy.root.isNode = true := by
      cases hr : toCopy.root with
      | nil =>
        rw [hr] at hsize
        exact absurd hsize hz2
      | node _ _ _ _ _ _ => rfl
    obtain ⟨h1, h2, h3⟩ := copy_order toCopy hn
    rw [copyLoop_eq_addAll fuel _ _ _ _ (by
        intro it hit
        rw [List.mem_singleton] at hit
        subst hit
        exact hn) (by simp [Dictionary.top])]
    have hl0 : LevelSet toCopy.root [] := by
      refine ⟨List.nodup_nil, ?_, ?_⟩
      · intro q hq
        cases hq
      · intro q _ _ p hp
        cases hp
    rw [addAll_spec toCopy.root hs.good hs.bst fuel hf2 _ [] ⟨.nil, 0, d.self⟩ [] hl0
      (h1.nodup_iff.mpr (paths_nodup _)) h3 (fun it _ hc => by cases hc) h2
      (fun r hr _ => h1.mem_iff.mpr hr) (by rw [prune_none]; rfl) rfl (by
        have := h1.length_eq
        rw [List.length_map, length_paths] at this
        simp only [List.length_nil, Nat.zero_add]
        exact this)]
    rw [hsize]

/-- For a well-formed source and a well-formed destination that is another
object, whatever the destination holds, `destination.copy(source)` returns
(given as many iterations of the up-propagation as either tree has nodes) and
leaves in the destination the tree of the source: the same key and info at the
root and, recursively, in every left and right child, the same
cached heights and balance factors, and the same size; no rotation member is
called on the way.  Copying a dictionary onto itself leaves it unchanged, and
copying an empty dictionary gives an empty one. -/
theorem copy_same_shape_of_wellFormed (d toCopy : Dictionary K V) (fuel : Nat)
    (hd : d.WellFormed) (hs : toCopy.WellFormed) (hself : d.self ≠ toCopy.self)
    (hf1 : d.root.count ≤ fuel)
    (hf2 : toCopy.root.count ≤ fuel) :
    d.copy fuel toCopy = .ok (⟨toCopy.root, toCopy.size, d.self⟩, []) ∧
      d.copy fuel d = .ok (d, []) ∧
      (toCopy.getSize = 0 → d.copy fuel toCopy = .ok (⟨.nil, 0, d.self⟩, [])) := by
  have h := d.copy_spec toCopy fuel hd hs hself hf1 hf2
  refine ⟨h, ?_, ?_⟩
  · unfold Dictionary.copy
    rw [if_pos rfl]
  · intro hz
    have hz2 : toCopy.size = 0 := hz
    have hsize := hs.size_eq
    have hr : toCopy.root = .nil := by
      cases hr : toCopy.root with
      | nil => rfl
      | node _ _ _ _ _ _ =>
        rw [hr, hz2] at hsize
        simp only [Node.count] at hsize
        omega
    rw [h, hr, hz2]

/-- The copy of the tests: copying the drawn tree of seven nodes into the
dictionary, at another address, that holds the tree without c and f. -/
theorem copy_same_shape_on_tests :
    (⟨drawnDictWithoutCF.root, 5, 1⟩ : Dictionary Char Nat).WellFormed ∧
      drawnDict.WellFormed ∧ (1 : Nat) ≠ drawnDict.self ∧
      (⟨drawnDictWithoutCF.root, 5, 1⟩ : Dictionary Char Nat).copy 7 drawnDict
        = .ok (⟨drawnDict.root, 7, 1⟩, []) := by
  have h1 : (⟨drawnDictWithoutCF.root, 5, 1⟩ : Dictionary Char Nat).WellFormed :=
    ⟨by decide, by decide, by decide, by decide⟩
  have h2 : drawnDict.WellFormed := ⟨by decide, by decide, by decide, by decide⟩
  exact ⟨h1, h2, by decide,
    (copy_same_shape_of_wellFormed ⟨drawnDictWithoutCF.root, 5, 1⟩ drawnDict 7 h1 h2
      (by decide) (by decide) (by decide)).1⟩

set_option maxRecDepth 100000 in
/-- C21 (the code departs from the claim): the destination reached by the
insertions 6, 3, 7, 2, 4, 8, 1, 5 and the calls `deleteNode(8)`, `deleteNode(3)`
has `size` 6 and five nodes.  `copy` first calls `clear()`, which removes the
five nodes and leaves `size` at 1, so the last `deleteNode` frees the root
without resetting `root`: `clear()` and with it `copy`, of the well-formed tree
of eight nodes at another address as of an empty dictionary, end with the root
dangling, and no number of iterations makes `copy` return a destination with
the shape of the source. -/
theorem C21_copy_onto_tree_with_lost_node :
    runOps 16 (buildOps ++ [.del 8, .del 3]) (Dictionary.empty 0) = .ok afterDelete3 ∧
      afterDelete3.getSize = 6 ∧ afterDelete3.root.count = 5 ∧
      (⟨builtDict.root, 8, 1⟩ : Dictionary Nat Nat).WellFormed ∧
      (∀ fuel, afterDelete3.clear (fuel + 2) = .fail .danglingRoot) ∧
      (∀ fuel, afterDelete3.copy (fuel + 2) ⟨builtDict.root, 8, 1⟩ = .fail .danglingRoot) ∧
      (∀ fuel, afterDelete3.copy (fuel + 2) (Dictionary.empty 1) = .fail .danglingRoot) ∧
      (∀ fuel r, afterDelete3.copy fuel ⟨builtDict.root, 8, 1⟩ ≠ .ok r) ∧
      ∀ fuel r, afterDelete3.copy fuel (Dictionary.empty 1) ≠ .ok r := by
  refine ⟨by decide, by decide, by decide, by decide, fun fuel => rfl, fun fuel => rfl,
    fun fuel => rfl, ?_, ?_⟩
  · intro fuel r e
    match fuel, e with
    | 0, e => cases e
    | 1, e => cases e
    | fuel + 2, e => cases e
  · intro fuel r e
    match fuel, e with
    | 0, e => cases e
    | 1, e => cases e
    | fuel + 2, e => cases e

end Order

end AVL

/-! ## The definitions with the rotation members are the definitions without -/

namespace AVL

variable {K V : Type}

/-- Without the rotation members called, `updateNodesAndRotateLog` is
`updateNodesAndRotate`. -/
theorem updateNodesAndRotateLog_fst (fuel : Nat) :
    ∀ (c : Node K V) (up : List (Frame K V)),
      (match updateNodesAndRotateLog fuel c up with
        | .ok p => Res.ok p.1
        | .fail f => Res.fail f) = updateNodesAndRotate fuel c up := by
  induction fuel with
  | zero => intro c up; rfl
  | succ fuel ih =>
    intro c up
    cases c with
    | nil => rfl
    | node l k i b h r =>
      unfold updateNodesAndRotateLog updateNodesAndRotate
      simp only
      by_cases c1 : (updateNode (Node.node l k i b h r)).bf = -2
      · simp only [if_pos c1]
        cases l with
        | nil => rfl
        | node ll lk li lb lh lr =>
          simp only
          cases (if lb = -1 then rotateRight (updateNode (.node (.node ll lk li lb lh lr) k i b h r))
            else rotateLeftRight (updateNode (.node (.node ll lk li lb lh lr) k i b h r))) with
          | fail f => rfl
          | ok n2 =>
            simp only
            rw [← ih n2 up]
            cases updateNodesAndRotateLog fuel n2 up <;> rfl
      · simp only [if_neg c1]
        by_cases c2 : (updateNode (Node.node l k i b h r)).bf = 2
        · simp only [if_pos c2]
          cases r with
          | nil => rfl
          | node rl rk ri rb rh rr =>
            simp only
            cases (if rb = 1 then rotateLeft (updateNode (.node l k i b h (.node rl rk ri rb rh rr)))
              else rotateRightLeft (updateNode (.node l k i b h (.node rl rk ri rb rh rr)))) with
            | fail f => rfl
            | ok n2 =>
              simp only
              rw [← ih n2 up]
              cases updateNodesAndRotateLog fuel n2 up <;> rfl
        · simp only [if_neg c2]
          cases up with
          | nil => rfl
          | cons f rest => exact ih _ _

section Order

variable [LinearOrder K]

/-- Without the rotation members called, `addNodeLoopLog` is `addNodeLoop`. -/
theorem addNodeLoopLog_fst (fuel : Nat) (k : K) (i : V) :
    ∀ (c : Node K V) (up : List (Frame K V)),
      (match addNodeLoopLog fuel k i c up with
        | .ok (some p) => Res.ok (some p.1)
        | .ok none => Res.ok none
        | .fail f => Res.fail f) = addNodeLoop fuel k i c up := by
  intro c
  induction c with
  | nil => intro up; rfl
  | node l key info b h r ihl ihr =>
    intro up
    rw [addNodeLoopLog_node, addNodeLoop_node]
    by_cases c1 : key < k
    · simp only [if_pos c1]
      cases r with
      | node rl rk ri rb rh rr => exact ihr _
      | nil =>
        simp only
        by_cases c3 : (!l.isNode) = true
        · simp only [if_pos c3]
          rw [← updateNodesAndRotateLog_fst]
          cases updateNodesAndRotateLog fuel (.node l key info b h (Node.leaf k i)) up <;> rfl
        · simp only [if_neg c3]
    · simp only [if_neg c1]
      by_cases c2 : k < key
      · simp only [if_pos c2]
        cases l with
        | node ll lk li lb lh lr => exact ihl _
        | nil =>
          simp only
          by_cases c3 : (!r.isNode) = true
          · simp only [if_pos c3]
            rw [← updateNodesAndRotateLog_fst]
            cases updateNodesAndRotateLog fuel (.node (Node.leaf k i) key info b h r) up <;> rfl
          · simp only [if_neg c3]
      · simp only [if_neg c2]

/-- Without the rotation members called, `Dictionary.addNodeLog` is
`Dictionary.addNode`. -/
theorem Dictionary.addNodeLog_fst (fuel : Nat) (d : Dictionary K V) (k : K) (i : V) :
    (match d.addNodeLog fuel k i with
      | .ok p => Res.ok (p.1, p.2.1)
      | .fail f => Res.fail f) = d.addNode fuel k i := by
  unfold Dictionary.addNodeLog Dictionary.addNode
  by_cases c : d.size = 0
  · simp only [if_pos c]
  · simp only [if_neg c]
    rw [← addNodeLoopLog_fst]
    cases addNodeLoopLog fuel k i d.root [] with
    | fail f => rfl
    | ok o => cases o <;> rfl

end Order

/-- Without the rotation members called, `deleteNodeCasesLog` is
`deleteNodeCases`. -/
theorem deleteNodeCasesLog_fst (fuel : Nat) (size : Int) (c : Node K V)
    (up : List (Frame K V)) :
    (match deleteNodeCasesLog fuel size c up with
      | .ok p => Res.ok p.1
      | .fail f => Res.fail f) = deleteNodeCases fuel size c up := by
  cases c with
  | nil => rfl
  | node l k i b h r =>
    cases l with
    | nil =>
      cases r with
      | nil =>
        cases up with
        | nil =>
          simp only [deleteNodeCasesLog, deleteNodeCases]
          by_cases c : size - 1 = 0
          · simp only [if_pos c]
          · simp only [if_neg c]
        | cons f rest =>
          simp only [deleteNodeCasesLog, deleteNodeCases]
          exact updateNodesAndRotateLog_fst _ _ _
      | node rl rk ri rb rh rr =>
        simp only [deleteNodeCasesLog, deleteNodeCases]
        exact updateNodesAndRotateLog_fst _ _ _
    | node ll lk li lb lh lr =>
      cases r with
      | nil =>
        simp only [deleteNodeCasesLog, deleteNodeCases]
        exact updateNodesAndRotateLog_fst _ _ _
      | node rl rk ri rb rh rr =>
        simp only [deleteNodeCasesLog, deleteNodeCases]
        cases goRightmost (Node.node ll lk li lb lh lr) [] with
        | mk c path =>
          cases c with
          | nil => rfl
          | node sl sk si sb sh sr =>
            cases path with
            | nil => exact updateNodesAndRotateLog_fst _ _ _
            | cons f path => exact updateNodesAndRotateLog_fst _ _ _

section Order

variable [LinearOrder K] [DecidableEq V]

/-- Without the rotation members called, `Dictionary.deleteNodeAtLog` is
`Dictionary.deleteNodeAt`. -/
theorem Dictionary.deleteNodeAtLog_fst (fuel : Nat) (d : Dictionary K V)
    (it : Iterator K V) :
    (match d.deleteNodeAtLog fuel it with
      | .ok p => Res.ok (p.1, p.2.1)
      | .fail f => Res.fail f) = d.deleteNodeAt fuel it := by
  unfold Dictionary.deleteNodeAtLog Dictionary.deleteNodeAt
  by_cases c1 : it.dictionary ≠ some d.self
  · simp only [if_pos c1]
  · simp only [if_neg c1]
    by_cases c2 : it.isEnd = true
    · simp only [if_pos c2]
    · simp only [if_neg c2]
      by_cases c3 : rebuild it.curr it.up ≠ d.root
      · simp only [if_pos c3]
      · simp only [if_neg c3]
        rw [← deleteNodeCasesLog_fst]
        cases deleteNodeCasesLog fuel d.size it.curr it.up <;> rfl

end Order

end AVL

namespace AVL

variable {K V : Type}

/-! ## Parent links -/

namespace Linked

theorem kept_fail {α : Type} (P : α → Prop) (f : Fault) (h : f ≠ .brokenLink) :
    Kept P (Res.fail f) := h

theorem kept_ok {α : Type} (P : α → Prop) (a : α) (h : P a) : Kept P (Res.ok a) := h

theorem kept_mono {α : Type} {P Q : α → Prop} (h : ∀ a, P a → Q a) (r : Res α)
    (hr : Kept P r) : Kept Q r := by
  cases r with
  | ok a => exact h a hr
  | fail f => exact hr

theorem parentOK_updateNode (o : Option Nat) (t : Node K (Cell V)) :
    ParentOK o (updateNode t) ↔ ParentOK o t := by
  cases t with
  | nil => exact Iff.rfl
  | node l k c b h r => exact Iff.rfl

theorem parentOK_setParent (o q : Option Nat) (t : Node K (Cell V)) (h : ParentOK o t) :
    ParentOK q (setParent q t) := by
  cases t with
  | nil => trivial
  | node l k c b h r => exact ⟨rfl, h.2.1, h.2.2⟩

theorem parentOK_plug (f : Frame K (Cell V)) (up : List (Frame K (Cell V)))
    (n : Node K (Cell V)) :
    ParentOK (above up) (f.plug n) ∧ ParentOKCtx up ↔
      ParentOK (above (f :: up)) n ∧ ParentOKCtx (f :: up) := by
  cases f with
  | inLeft k c b h r =>
    simp only [Frame.plug, ParentOK, ParentOKCtx, above, frameAddr]
    tauto
  | inRight l k c b h =>
    simp only [Frame.plug, ParentOK, ParentOKCtx, above, frameAddr]
    tauto

/-- The links of a whole tree are consistent when they are below and around a
cursor of it. -/
theorem parentOK_rebuild (up : List (Frame K (Cell V))) :
    ∀ n : Node K (Cell V),
      ParentOK none (rebuild n up) ↔ ParentOK (above up) n ∧ ParentOKCtx up := by
  induction up with
  | nil =>
    intro n
    simp only [rebuild, above, ParentOKCtx, and_true]
  | cons f up ih =>
    intro n
    rw [rebuild, ih (f.plug n), parentOK_plug]

theorem rotateRight_kept (o : Option Nat) (t : Node K (Cell V)) (h : ParentOK o t) :
    Kept (ParentOK o) (rotateRight o t) := by
  match t, h with
  | .node (.node n3 k2 c2 b2 h2 temp) k1 c1 b1 h1 r, ⟨e1, ⟨_, a3, a4⟩, a5⟩ =>
    rw [rotateRight, if_neg (not_not.mpr e1)]
    refine (parentOK_updateNode _ _).mpr ⟨e1, a3, (parentOK_updateNode _ _).mpr ⟨rfl, ?_, a5⟩⟩
    exact parentOK_setParent _ _ _ a4
  | .node .nil _ _ _ _ _, _ => exact kept_fail _ _ (by decide)
  | .nil, _ => exact kept_fail _ _ (by decide)

theorem rotateLeft_kept (o : Option Nat) (t : Node K (Cell V)) (h : ParentOK o t) :
    Kept (ParentOK o) (rotateLeft o t) := by
  match t, h with
  | .node l k1 c1 b1 h1 (.node temp k2 c2 b2 h2 n3), ⟨e1, a5, ⟨_, a4, a3⟩⟩ =>
    rw [rotateLeft, if_neg (not_not.mpr e1)]
    refine (parentOK_updateNode _ _).mpr ⟨e1, (parentOK_updateNode _ _).mpr ⟨rfl, a5, ?_⟩, a3⟩
    exact parentOK_setParent _ _ _ a4
  | .node _ _ _ _ _ .nil, _ => exact kept_fail _ _ (by decide)
  | .nil, _ => exact kept_fail _ _ (by decide)

theorem rotateRightLeft_kept (o : Option Nat) (t : Node K (Cell V)) (h : ParentOK o t) :
    Kept (ParentOK o) (rotateRightLeft o t) := by
  match t, h with
  | .nil, _ => exact kept_fail _ _ (by decide)
  | .node _ _ _ _ _ .nil, _ => exact kept_fail _ _ (by decide)
  | .node l k c b h (.node rl rk rc rb rh rr), ⟨e1, a1, a2⟩ =>
    have h1 := rotateRight_kept (some c.addr) (.node rl rk rc rb rh rr) a2
    simp only [rotateRightLeft]
    cases e : rotateRight (some c.addr) (.node rl rk rc rb rh rr) with
    | fail f =>
      rw [e] at h1
      exact h1
    | ok r2 =>
      rw [e] at h1
      exact rotateLeft_kept o _ ⟨e1, a1, h1⟩

theorem rotateLeftRight_kept (o : Option Nat) (t : Node K (Cell V)) (h : ParentOK o t) :
    Kept (ParentOK o) (rotateLeftRight o t) := by
  match t, h with
  | .nil, _ => exact kept_fail _ _ (by decide)
  | .node .nil _ _ _ _ _, _ => exact kept_fail _ _ (by decide)
  | .node (.node ll lk lc lb lh lr) k c b h r, ⟨e1, a1, a2⟩ =>
    have h1 := rotateLeft_kept (some c.addr) (.node ll lk lc lb lh lr) a1
    simp only [rotateLeftRight]
    cases e : rotateLeft (some c.addr) (.node ll lk lc lb lh lr) with
    | fail f =>
      rw [e] at h1
      exact h1
    | ok l2 =>
      rw [e] at h1
      exact rotateRight_kept o _ ⟨e1, h1, a2⟩

end Linked

end AVL

namespace AVL

variable {K V : Type}

namespace Linked

theorem above_eq_none (up : List (Frame K (Cell V))) (h : above up = none) : up = [] := by
  cases up with
  | nil => rfl
  | cons f up => simp [above] at h

/-- The propagation keeps consistent links consistent, and every field
`parent` it reads designates the node above. -/
theorem updateNodesAndRotate_kept (fuel : Nat) :
    ∀ (n : Node K (Cell V)) (up : List (Frame K (Cell V))),
      ParentOK (above up) n → ParentOKCtx up →
        Kept (ParentOK none) (updateNodesAndRotate fuel n up) := by
  induction fuel with
  | zero =>
    intro n up _ _
    exact kept_fail _ _ (by decide)
  | succ fuel ih =>
    intro n up hn hup
    cases n with
    | nil => exact kept_fail _ _ (by decide)
    | node l k c b h r =>
      have hu : ParentOK (above up) (updateNode (.node l k c b h r)) :=
        (parentOK_updateNode _ _).mpr hn
      unfold updateNodesAndRotate
      simp only []
      by_cases c1 : (updateNode (Node.node l k c b h r)).bf = -2
      · simp only [if_pos c1]
        cases l with
        | nil => exact kept_fail _ _ (by decide)
        | node ll lk lc lb lh lr =>
          simp only []
          have hrot : Kept (ParentOK (above up))
              (if lb = -1 then rotateRight (above up) (updateNode (.node (.node ll lk lc lb lh lr) k c b h r))
               else rotateLeftRight (above up) (updateNode (.node (.node ll lk lc lb lh lr) k c b h r))) := by
            by_cases c3 : lb = -1
            · rw [if_pos c3]
              exact rotateRight_kept _ _ hu
            · rw [if_neg c3]
              exact rotateLeftRight_kept _ _ hu
          revert hrot
          generalize (if lb = -1 then rotateRight (above up) (updateNode (.node (.node ll lk lc lb lh lr) k c b h r))
               else rotateLeftRight (above up) (updateNode (.node (.node ll lk lc lb lh lr) k c b h r))) = res
          intro hrot
          cases res with
          | fail f => exact hrot
          | ok n2 => exact ih n2 up hrot hup
      · simp only [if_neg c1]
        by_cases c2 : (updateNode (Node.node l k c b h r)).bf = 2
        · simp only [if_pos c2]
          cases r with
          | nil => exact kept_fail _ _ (by decide)
          | node rl rk rc rb rh rr =>
            simp only []
            have hrot : Kept (ParentOK (above up))
                (if rb = 1 then rotateLeft (above up) (updateNode (.node l k c b h (.node rl rk rc rb rh rr)))
                 else rotateRightLeft (above up) (updateNode (.node l k c b h (.node rl rk rc rb rh rr)))) := by
              by_cases c3 : rb = 1
              · rw [if_pos c3]
                exact rotateLeft_kept _ _ hu
              · rw [if_neg c3]
                exact rotateRightLeft_kept _ _ hu
            revert hrot
            generalize (if rb = 1 then rotateLeft (above up) (updateNode (.node l k c b h (.node rl rk rc rb rh rr)))
                 else rotateRightLeft (above up) (updateNode (.node l k c b h (.node rl rk rc rb rh rr)))) = res
            intro hrot
            cases res with
            | fail f => exact hrot
            | ok n2 => exact ih n2 up hrot hup
        · simp only [if_neg c2]
          have hp : c.parent = above up := hn.1
          cases up with
          | nil =>
            have e : c.parent = none := hp
            simp only [e]
            exact (parentOK_rebuild [] _).mpr ⟨hu, hup⟩
          | cons f rest =>
            have e : c.parent = some (frameAddr f) := hp
            simp only [e, if_true]
            have h2 := (parentOK_plug f rest _).mpr ⟨hu, hup⟩
            exact ih _ rest h2.1 h2.2

/-- Going down along the right child links keeps the links below and around
the cursor consistent. -/
theorem goRightmost_parentOK (n : Node K (Cell V)) :
    ∀ up : List (Frame K (Cell V)),
      ParentOK (above up) n → ParentOKCtx up →
        ParentOK (above (goRightmost n up).2) (goRightmost n up).1 ∧
          ParentOKCtx (goRightmost n up).2 := by
  induction n with
  | nil =>
    intro up hn hup
    exact ⟨hn, hup⟩
  | node l k c b h r _ ihr =>
    intro up hn hup
    cases r with
    | nil => exact ⟨hn, hup⟩
    | node rl rk rc rb rh rr =>
      rw [goRightmost]
      exact ihr (.inRight l k c b h :: up) hn.2.2 ⟨hn.1, hn.2.1, hup⟩

/-- The frame of a node does not depend, for the links, on the key and the info
of the node. -/
theorem parentOKCtx_append (path : List (Frame K (Cell V))) (f g : Frame K (Cell V))
    (up : List (Frame K (Cell V)))
    (hf : frameAddr f = frameAddr g)
    (hg : ParentOKCtx (f :: up) → ParentOKCtx (g :: up)) :
    (above (path ++ f :: up) = above (path ++ g :: up)) ∧
      (ParentOKCtx (path ++ f :: up) → ParentOKCtx (path ++ g :: up)) := by
  induction path with
  | nil => exact ⟨by simp only [List.nil_append, above, hf], hg⟩
  | cons p path ih =>
    refine ⟨rfl, ?_⟩
    cases p with
    | inLeft k c b h r =>
      intro h1
      exact ⟨h1.1.trans ih.1, h1.2.1, ih.2 h1.2.2⟩
    | inRight l k c b h =>
      intro h1
      exact ⟨h1.1.trans ih.1, h1.2.1, ih.2 h1.2.2⟩

end Linked

end AVL

namespace AVL

variable {K V : Type}

namespace Linked

theorem parentOK_leaf (k : K) (i : V) (fresh : Nat) (o : Option Nat) :
    ParentOK o (Node.leaf k (⟨i, fresh, o⟩ : Cell V)) := ⟨rfl, trivial, trivial⟩

theorem goRightmost_append (n : Node K V) :
    ∀ acc tail : List (Frame K V),
      goRightmost n (acc ++ tail) = ((goRightmost n acc).1, (goRightmost n acc).2 ++ tail) := by
  induction n with
  | nil =>
    intro acc tail
    rfl
  | node l k i b h r _ ihr =>
    intro acc tail
    cases r with
    | nil => rfl
    | node rl rk ri rb rh rr =>
      rw [goRightmost, goRightmost]
      exact ihr (.inRight l k i b h :: acc) tail

/-- The case of a leaf below the root in `deleteNodeCases`. -/
theorem deleteNodeCases_leaf_kept (fuel : Nat) (size : Int) (k : K) (c : Cell V) (b h : Int)
    (f : Frame K (Cell V)) (rest : List (Frame K (Cell V)))
    (hn : ParentOK (above (f :: rest)) (.node .nil k c b h .nil))
    (hup : ParentOKCtx (f :: rest)) :
    Kept (ParentOK none) (deleteNodeCases fuel size (.node .nil k c b h .nil) (f :: rest)) := by
  have e : c.parent = some (frameAddr f) := hn.1
  simp only [deleteNodeCases, e, if_true]
  have h2 := (parentOK_plug f rest .nil).mpr ⟨trivial, hup⟩
  exact updateNodesAndRotate_kept fuel _ rest h2.1 h2.2

/-- The cases of a node with one child in `deleteNodeCases`. -/
theorem deleteNodeCases_right_kept (fuel : Nat) (size : Int) (k : K) (c : Cell V) (b h : Int)
    (rl : Node K (Cell V)) (rk : K) (rc : Cell V) (rb rh : Int) (rr : Node K (Cell V))
    (up : List (Frame K (Cell V)))
    (hn : ParentOK (above up) (.node .nil k c b h (.node rl rk rc rb rh rr)))
    (hup : ParentOKCtx up) :
    Kept (ParentOK none)
      (deleteNodeCases fuel size (.node .nil k c b h (.node rl rk rc rb rh rr)) up) := by
  simp only [deleteNodeCases]
  exact updateNodesAndRotate_kept fuel _ up ⟨hn.1, trivial, trivial⟩ hup

theorem deleteNodeCases_left_kept (fuel : Nat) (size : Int) (k : K) (c : Cell V) (b h : Int)
    (ll : Node K (Cell V)) (lk : K) (lc : Cell V) (lb lh : Int) (lr : Node K (Cell V))
    (up : List (Frame K (Cell V)))
    (hn : ParentOK (above up) (.node (.node ll lk lc lb lh lr) k c b h .nil))
    (hup : ParentOKCtx up) :
    Kept (ParentOK none)
      (deleteNodeCases fuel size (.node (.node ll lk lc lb lh lr) k c b h .nil) up) := by
  simp only [deleteNodeCases]
  exact updateNodesAndRotate_kept fuel _ up ⟨hn.1, trivial, trivial⟩ hup

/-- The case of a node with two children in `deleteNodeCases`. -/
theorem deleteNodeCases_two_kept (fuel : Nat) (size : Int) (k : K) (c : Cell V) (b h : Int)
    (ll : Node K (Cell V)) (lk : K) (lc : Cell V) (lb lh : Int) (lr : Node K (Cell V))
    (rl : Node K (Cell V)) (rk : K) (rc : Cell V) (rb rh : Int) (rr : Node K (Cell V))
    (up : List (Frame K (Cell V)))
    (hn : ParentOK (above up)
      (.node (.node ll lk lc lb lh lr) k c b h (.node rl rk rc rb rh rr)))
    (hup : ParentOKCtx up) :
    Kept (ParentOK none)
      (deleteNodeCases fuel size
        (.node (.node ll lk lc lb lh lr) k c b h (.node rl rk rc rb rh rr)) up) := by
  have hg := goRightmost_parentOK (.node ll lk lc lb lh lr)
    (.inLeft k c b h (.node rl rk rc rb rh rr) :: up) hn.2.1 ⟨hn.1, hn.2.2, hup⟩
  have ha := goRightmost_append (.node ll lk lc lb lh lr) []
    (.inLeft k c b h (.node rl rk rc rb rh rr) :: up)
  rw [List.nil_append] at ha
  rw [ha] at hg
  simp only [deleteNodeCases]
  revert hg
  generalize goRightmost (.node ll lk lc lb lh lr) [] = g
  obtain ⟨s, path⟩ := g
  intro hg
  cases s with
  | nil => exact kept_fail _ _ (by decide)
  | node sl sk sc sb sh sr =>
    simp only []
    simp only [] at hg
    by_cases c1 : sc.parent = some c.addr
    · simp only [if_pos c1]
      exact updateNodesAndRotate_kept fuel _ up
        ⟨hn.1, parentOK_setParent _ _ _ hg.1.2.1, hn.2.2⟩ hup
    · simp only [if_neg c1]
      cases path with
      | nil => exact absurd hg.1.1 c1
      | cons f path =>
        have e : sc.parent = some (frameAddr f) := hg.1.1
        simp only [e, if_true]
        have h4 := parentOKCtx_append (f :: path)
          (.inLeft k c b h (.node rl rk rc rb rh rr))
          (.inLeft sk { c with info := sc.info } b h (.node rl rk rc rb rh rr)) up rfl id
        have h5 := (parentOK_plug f
          (path ++ .inLeft sk { c with info := sc.info } b h (.node rl rk rc rb rh rr) :: up)
          (setParent (some (frameAddr f)) sl)).mpr
          ⟨parentOK_setParent _ _ _ hg.1.2.1, h4.2 hg.2⟩
        exact updateNodesAndRotate_kept fuel _ _ h5.1 h5.2

/-- What `deleteNodeCases` leaves: consistent links, when it started on
consistent links. -/
theorem deleteNodeCases_kept (fuel : Nat) (size : Int) (n : Node K (Cell V))
    (up : List (Frame K (Cell V))) (hn : ParentOK (above up) n) (hup : ParentOKCtx up) :
    Kept (ParentOK none) (deleteNodeCases fuel size n up) := by
  cases n with
  | nil => exact kept_fail _ _ (by decide)
  | node l k c b h r =>
    cases l with
    | nil =>
      cases r with
      | nil =>
        cases up with
        | nil =>
          simp only [deleteNodeCases]
          by_cases c1 : size - 1 = 0
          · rw [if_pos c1]
            exact kept_ok _ _ trivial
          · rw [if_neg c1]
            exact kept_fail _ _ (by decide)
        | cons f rest => exact deleteNodeCases_leaf_kept fuel size k c b h f rest hn hup
      | node rl rk rc rb rh rr =>
        exact deleteNodeCases_right_kept fuel size k c b h rl rk rc rb rh rr up hn hup
    | node ll lk lc lb lh lr =>
      cases r with
      | nil => exact deleteNodeCases_left_kept fuel size k c b h ll lk lc lb lh lr up hn hup
      | node rl rk rc rb rh rr =>
        exact deleteNodeCases_two_kept fuel size k c b h ll lk lc lb lh lr rl rk rc rb rh rr
          up hn hup

end Linked

end AVL

namespace AVL

variable {K V : Type}

namespace Linked

section Order

variable [LinearOrder K]

/-- The equation of `addNodeLoop` on a node. -/
theorem linked_addNodeLoop_node (fuel fresh : Nat) (k : K) (i : V) (l : Node K (Cell V))
    (key : K) (c : Cell V) (b h : Int) (r : Node K (Cell V)) (up : List (Frame K (Cell V))) :
    addNodeLoop fuel fresh k i (.node l key c b h r) up =
      if key < k then
        match r with
        | .node rl rk rc rb rh rr =>
          addNodeLoop fuel fresh k i (.node rl rk rc rb rh rr) (.inRight l key c b h :: up)
        | .nil =>
          if !l.isNode then
            match updateNodesAndRotate fuel
              (.node l key c b h (Node.leaf k ⟨i, fresh, some c.addr⟩)) up with
            | .fail f => .fail f
            | .ok t => .ok (some t)
          else .ok (some (rebuild (.node l key c 0 h (Node.leaf k ⟨i, fresh, some c.addr⟩)) up))
      else if k < key then
        match l with
        | .node ll lk lc lb lh lr =>
          addNodeLoop fuel fresh k i (.node ll lk lc lb lh lr) (.inLeft key c b h r :: up)
        | .nil =>
          if !r.isNode then
            match updateNodesAndRotate fuel
              (.node (Node.leaf k ⟨i, fresh, some c.addr⟩) key c b h r) up with
            | .fail f => .fail f
            | .ok t => .ok (some t)
          else .ok (some (rebuild (.node (Node.leaf k ⟨i, fresh, some c.addr⟩) key c 0 h r) up))
      else .ok none := by
  cases l <;> cases r <;> rfl

/-- The loop of `addNode` keeps consistent links consistent. -/
theorem addNodeLoop_kept (fuel fresh : Nat) (k : K) (i : V) (n : Node K (Cell V)) :
    ∀ up : List (Frame K (Cell V)), ParentOK (above up) n → ParentOKCtx up →
      Kept (fun o => ∀ t, o = some t → ParentOK none t) (addNodeLoop fuel fresh k i n up) := by
  induction n with
  | nil =>
    intro up _ _
    exact kept_fail _ _ (by decide)
  | node l key c b h r ihl ihr =>
    intro up hn hup
    rw [linked_addNodeLoop_node]
    by_cases c1 : key < k
    · simp only [if_pos c1]
      cases r with
      | node rl rk rc rb rh rr =>
        exact ihr (.inRight l key c b h :: up) hn.2.2 ⟨hn.1, hn.2.1, hup⟩
      | nil =>
        simp only []
        by_cases c2 : (!l.isNode) = true
        · simp only [if_pos c2]
          have h1 := updateNodesAndRotate_kept fuel
            (.node l key c b h (Node.leaf k ⟨i, fresh, some c.addr⟩)) up
            ⟨hn.1, hn.2.1, parentOK_leaf k i fresh _⟩ hup
          revert h1
          generalize updateNodesAndRotate fuel
            (.node l key c b h (Node.leaf k ⟨i, fresh, some c.addr⟩)) up = res
          intro h1
          cases res with
          | fail f => exact h1
          | ok t =>
            intro t2 e
            cases e
            exact h1
        · simp only [if_neg c2]
          intro t2 e
          cases e
          exact (parentOK_rebuild up _).mpr ⟨⟨hn.1, hn.2.1, parentOK_leaf k i fresh _⟩, hup⟩
    · simp only [if_neg c1]
      by_cases c3 : k < key
      · simp only [if_pos c3]
        cases l with
        | node ll lk lc lb lh lr =>
          exact ihl (.inLeft key c b h r :: up) hn.2.1 ⟨hn.1, hn.2.2, hup⟩
        | nil =>
          simp only []
          by_cases c2 : (!r.isNode) = true
          · simp only [if_pos c2]
            have h1 := updateNodesAndRotate_kept fuel
              (.node (Node.leaf k ⟨i, fresh, some c.addr⟩) key c b h r) up
              ⟨hn.1, parentOK_leaf k i fresh _, hn.2.2⟩ hup
            revert h1
            generalize updateNodesAndRotate fuel
              (.node (Node.leaf k ⟨i, fresh, some c.addr⟩) key c b h r) up = res
            intro h1
            cases res with
            | fail f => exact h1
            | ok t =>
              intro t2 e
              cases e
              exact h1
          · simp only [if_neg c2]
            intro t2 e
            cases e
            exact (parentOK_rebuild up _).mpr ⟨⟨hn.1, parentOK_leaf k i fresh _, hn.2.2⟩, hup⟩
      · simp only [if_neg c3]
        intro t2 e
        cases e

/-- The search of `find` reads no field `parent`. -/
theorem findLoop_no_brokenLink (dict : Nat) (k : K) (n : Node K V) :
    ∀ up : List (Frame K V), findLoop dict k n up ≠ .fail .brokenLink := by
  induction n with
  | nil =>
    intro up
    simp [findLoop]
  | node l key info b h r ihl ihr =>
    intro up
    unfold findLoop
    by_cases c1 : key ≠ k
    · simp only [if_pos c1]
      by_cases c2 : key < k
      · simp only [if_pos c2]
        cases r with
        | nil => simp
        | node rl rk ri rb rh rr => exact ihr _
      · simp only [if_neg c2]
        by_cases c3 : k < key
        · simp only [if_pos c3]
          cases l with
          | nil => simp
          | node ll lk li lb lh lr => exact ihl _
        · simp only [if_neg c3]
          simp
    · simp only [if_neg c1]
      simp

/-- One `addNode` keeps consistent links consistent. -/
theorem addNode_kept (fuel : Nat) (d : Dictionary K V) (k : K) (i : V)
    (hd : ParentOK none d.tree.root) :
    Kept (fun p => ParentOK none p.2.tree.root) (d.addNode fuel k i) := by
  unfold Dictionary.addNode
  by_cases c1 : d.tree.size = 0
  · simp only [if_pos c1]
    exact parentOK_leaf k i d.fresh none
  · simp only [if_neg c1]
    have h1 := addNodeLoop_kept fuel d.fresh k i d.tree.root [] hd trivial
    revert h1
    generalize addNodeLoop fuel d.fresh k i d.tree.root [] = res
    intro h1
    cases res with
    | fail f => exact h1
    | ok o =>
      cases o with
      | none => exact hd
      | some t => exact h1 t rfl

/-- One `deleteNode(Iterator)` keeps consistent links consistent. -/
theorem deleteNodeAt_kept [DecidableEq V] (fuel : Nat) (d : Dictionary K V)
    (it : Iterator K (Cell V)) (hd : ParentOK none d.tree.root) :
    Kept (fun p => ParentOK none p.2.tree.root) (d.deleteNodeAt fuel it) := by
  unfold Dictionary.deleteNodeAt
  by_cases c1 : it.dictionary ≠ some d.tree.self
  · simp only [if_pos c1]
    exact kept_fail _ _ (by decide)
  · simp only [if_neg c1]
    by_cases c2 : it.isEnd = true
    · simp only [if_pos c2]
      exact kept_fail _ _ (by decide)
    · simp only [if_neg c2]
      by_cases c3 : rebuild it.curr it.up ≠ d.tree.root
      · simp only [if_pos c3]
        exact kept_fail _ _ (by decide)
      · simp only [if_neg c3]
        have e : rebuild it.curr it.up = d.tree.root := not_not.mp c3
        have h0 := (parentOK_rebuild it.up it.curr).mp (e ▸ hd)
        have h1 := deleteNodeCases_kept fuel d.tree.size it.curr it.up h0.1 h0.2
        revert h1
        generalize deleteNodeCases fuel d.tree.size it.curr it.up = res
        intro h1
        cases res with
        | fail f => exact h1
        | ok t =>
          show ParentOK none (if d.tree.size - 1 = 0 then Node.nil else t)
          by_cases c4 : d.tree.size - 1 = 0
          · rw [if_pos c4]
            trivial
          · rw [if_neg c4]
            exact h1

/-- One `deleteNode(Key)` keeps consistent links consistent. -/
theorem deleteNode_kept [DecidableEq V] (fuel : Nat) (d : Dictionary K V) (k : K)
    (hd : ParentOK none d.tree.root) :
    Kept (fun p => ParentOK none p.2.tree.root) (d.deleteNode fuel k) := by
  unfold Dictionary.deleteNode
  have h1 : d.tree.find k ≠ .fail .brokenLink := by
    unfold AVL.Dictionary.find
    by_cases c1 : d.tree.size = 0
    · simp only [if_pos c1]
      simp
    · simp only [if_neg c1]
      exact findLoop_no_brokenLink _ _ _ _
  revert h1
  generalize d.tree.find k = res
  intro h1
  cases res with
  | fail f =>
    exact fun e => h1 (by rw [e])
  | ok it =>
    simp only []
    by_cases c2 : it.eq d.tree.end = true
    · simp only [if_pos c2]
      exact hd
    · simp only [if_neg c2]
      exact deleteNodeAt_kept fuel d it hd

/-- Every run of calls keeps consistent links consistent. -/
theorem runOps_kept [DecidableEq V] (fuel : Nat) (ops : List (Op K V)) :
    ∀ d : Dictionary K V, ParentOK none d.tree.root →
      Kept (fun d2 => ParentOK none d2.tree.root) (runOps fuel ops d) := by
  induction ops with
  | nil =>
    intro d hd
    exact hd
  | cons op ops ih =>
    intro d hd
    cases op with
    | add k i =>
      have h1 := addNode_kept fuel d k i hd
      simp only [runOps]
      revert h1
      generalize d.addNode fuel k i = res
      intro h1
      cases res with
      | fail f => exact h1
      | ok p => exact ih p.2 h1
    | del k =>
      have h1 := deleteNode_kept fuel d k hd
      simp only [runOps]
      revert h1
      generalize d.deleteNode fuel k = res
      intro h1
      cases res with
      | fail f => exact h1
      | ok p => exact ih p.2 h1

end Order

end Linked

end AVL

namespace AVL

variable {K V : Type}

namespace Linked

theorem addrs_updateNode (t : Node K (Cell V)) : addrs (updateNode t) = addrs t := by
  cases t with
  | nil => rfl
  | node l k c b h r => rfl

theorem addrs_setParent (q : Option Nat) (t : Node K (Cell V)) :
    addrs (setParent q t) = addrs t := by
  cases t with
  | nil => rfl
  | node l k c b h r => rfl

theorem addrs_plug (f : Frame K (Cell V)) (up : List (Frame K (Cell V)))
    (n : Node K (Cell V)) :
    (addrs (f.plug n) ++ ctxAddrs up).Perm (addrs n ++ ctxAddrs (f :: up)) := by
  cases f with
  | inLeft k c b h r =>
    simp only [Frame.plug, addrs, ctxAddrs, List.append_assoc, List.cons_append]
    exact List.Perm.refl _
  | inRight l k c b h =>
    simp only [Frame.plug, addrs, ctxAddrs, List.append_assoc, List.cons_append]
    rw [List.perm_iff_count]
    intro a
    simp only [List.count_append, List.count_cons]
    omega

/-- The addresses of a whole tree are those below and around a cursor of it. -/
theorem addrs_rebuild (up : List (Frame K (Cell V))) :
    ∀ n : Node K (Cell V), (addrs (rebuild n up)).Perm (addrs n ++ ctxAddrs up) := by
  induction up with
  | nil =>
    intro n
    simp only [rebuild, ctxAddrs, List.append_nil]
    exact List.Perm.refl _
  | cons f up ih =>
    intro n
    rw [rebuild]
    exact (ih (f.plug n)).trans (addrs_plug f up n)

theorem rotateRight_addrs (o : Option Nat) (t t2 : Node K (Cell V))
    (h : rotateRight o t = .ok t2) : addrs t2 = addrs t := by
  match t, h with
  | .node (.node n3 k2 c2 b2 h2 temp) k1 c1 b1 h1 r, h =>
    rw [rotateRight] at h
    by_cases c : c1.parent ≠ o
    · rw [if_pos c] at h
      cases h
    · rw [if_neg c] at h
      cases h
      simp only [addrs_updateNode, addrs, addrs_setParent, List.append_assoc, List.cons_append]
  | .node .nil _ _ _ _ _, h => cases h
  | .nil, h => cases h

theorem rotateLeft_addrs (o : Option Nat) (t t2 : Node K (Cell V))
    (h : rotateLeft o t = .ok t2) : addrs t2 = addrs t := by
  match t, h with
  | .node l k1 c1 b1 h1 (.node temp k2 c2 b2 h2 n3), h =>
    rw [rotateLeft] at h
    by_cases c : c1.parent ≠ o
    · rw [if_pos c] at h
      cases h
    · rw [if_neg c] at h
      cases h
      simp only [addrs_updateNode, addrs, addrs_setParent, List.append_assoc, List.cons_append]
  | .node _ _ _ _ _ .nil, h => cases h
  | .nil, h => cases h

theorem rotateRightLeft_addrs (o : Option Nat) (t t2 : Node K (Cell V))
    (h : rotateRightLeft o t = .ok t2) : addrs t2 = addrs t := by
  match t, h with
  | .nil, h => cases h
  | .node _ _ _ _ _ .nil, h => cases h
  | .node l k c b hh (.node rl rk rc rb rh rr), h =>
    simp only [rotateRightLeft] at h
    cases e : rotateRight (some c.addr) (.node rl rk rc rb rh rr) with
    | fail f =>
      rw [e] at h
      cases h
    | ok r2 =>
      rw [e] at h
      rw [rotateLeft_addrs o _ t2 h]
      simp only [addrs, rotateRight_addrs _ _ _ e]

theorem rotateLeftRight_addrs (o : Option Nat) (t t2 : Node K (Cell V))
    (h : rotateLeftRight o t = .ok t2) : addrs t2 = addrs t := by
  match t, h with
  | .nil, h => cases h
  | .node .nil _ _ _ _ _, h => cases h
  | .node (.node ll lk lc lb lh lr) k c b hh r, h =>
    simp only [rotateLeftRight] at h
    cases e : rotateLeft (some c.addr) (.node ll lk lc lb lh lr) with
    | fail f =>
      rw [e] at h
      cases h
    | ok l2 =>
      rw [e] at h
      rw [rotateRight_addrs o _ t2 h]
      simp only [addrs, rotateLeft_addrs _ _ _ e]

/-- The propagation moves no node to another address and loses none. -/
theorem updateNodesAndRotate_addrs (fuel : Nat) :
    ∀ (n : Node K (Cell V)) (up : List (Frame K (Cell V))) (t : Node K (Cell V)),
      updateNodesAndRotate fuel n up = .ok t → (addrs t).Perm (addrs n ++ ctxAddrs up) := by
  induction fuel with
  | zero =>
    intro n up t h
    cases h
  | succ fuel ih =>
    intro n up t h
    cases n with
    | nil => cases h
    | node l k c b hh r =>
      unfold updateNodesAndRotate at h
      simp only [] at h
      by_cases c1 : (updateNode (Node.node l k c b hh r)).bf = -2
      · simp only [if_pos c1] at h
        cases l with
        | nil => cases h
        | node ll lk lc lb lh lr =>
          simp only [] at h
          have hrot : ∀ n2, (if lb = -1 then rotateRight (above up) (updateNode (.node (.node ll lk lc lb lh lr) k c b hh r))
               else rotateLeftRight (above up) (updateNode (.node (.node ll lk lc lb lh lr) k c b hh r))) = .ok n2 →
              addrs n2 = addrs (.node (.node ll lk lc lb lh lr) k c b hh r) := by
            intro n2 e
            by_cases c3 : lb = -1
            · rw [if_pos c3] at e
              rw [rotateRight_addrs _ _ _ e, addrs_updateNode]
            · rw [if_neg c3] at e
              rw [rotateLeftRight_addrs _ _ _ e, addrs_updateNode]
          revert hrot h
          generalize (if lb = -1 then rotateRight (above up) (updateNode (.node (.node ll lk lc lb lh lr) k c b hh r))
               else rotateLeftRight (above up) (updateNode (.node (.node ll lk lc lb lh lr) k c b hh r))) = res
          intro h hrot
          cases res with
          | fail f => cases h
          | ok n2 =>
            rw [← hrot n2 rfl]
            exact ih n2 up t h
      · simp only [if_neg c1] at h
        by_cases c2 : (updateNode (Node.node l k c b hh r)).bf = 2
        · simp only [if_pos c2] at h
          cases r with
          | nil => cases h
          | node rl rk rc rb rh rr =>
            simp only [] at h
            have hrot : ∀ n2, (if rb = 1 then rotateLeft (above up) (updateNode (.node l k c b hh (.node rl rk rc rb rh rr)))
                 else rotateRightLeft (above up) (updateNode (.node l k c b hh (.node rl rk rc rb rh rr)))) = .ok n2 →
                addrs n2 = addrs (.node l k c b hh (.node rl rk rc rb rh rr)) := by
              intro n2 e
              by_cases c3 : rb = 1
              · rw [if_pos c3] at e
                rw [rotateLeft_addrs _ _ _ e, addrs_updateNode]
              · rw [if_neg c3] at e
                rw [rotateRightLeft_addrs _ _ _ e, addrs_updateNode]
            revert hrot h
            generalize (if rb = 1 then rotateLeft (above up) (updateNode (.node l k c b hh (.node rl rk rc rb rh rr)))
                 else rotateRightLeft (above up) (updateNode (.node l k c b hh (.node rl rk rc rb rh rr)))) = res
            intro h hrot
            cases res with
            | fail f => cases h
            | ok n2 =>
              rw [← hrot n2 rfl]
              exact ih n2 up t h
        · simp only [if_neg c2] at h
          have hu : addrs (updateNode (.node l k c b hh r)) = addrs (.node l k c b hh r) :=
            addrs_updateNode _
          cases hp : c.parent with
          | none =>
            rw [hp] at h
            simp only [] at h
            cases h
            rw [← hu]
            exact addrs_rebuild up _
          | some p =>
            rw [hp] at h
            simp only [] at h
            cases up with
            | nil => cases h
            | cons f rest =>
              simp only [] at h
              by_cases c4 : frameAddr f = p
              · rw [if_pos c4] at h
                rw [← hu]
                exact (ih _ rest t h).trans (addrs_plug f rest _)
              · rw [if_neg c4] at h
                cases h

end Linked

end AVL

namespace AVL

variable {K V : Type}

namespace Linked

theorem updateNodesAndRotate_count (fuel : Nat) (n : Node K (Cell V))
    (up : List (Frame K (Cell V))) (t : Node K (Cell V))
    (h : updateNodesAndRotate fuel n up = .ok t) (a : Nat) :
    (addrs t).count a = (addrs n).count a + (ctxAddrs up).count a := by
  rw [(updateNodesAndRotate_addrs fuel n up t h).count_eq a, List.count_append]

theorem rebuild_count (n : Node K (Cell V)) (up : List (Frame K (Cell V))) (a : Nat) :
    (addrs (rebuild n up)).count a = (addrs n).count a + (ctxAddrs up).count a := by
  rw [(addrs_rebuild up n).count_eq a, List.count_append]

theorem ctxAddrs_append (p q : List (Frame K (Cell V))) :
    ctxAddrs (p ++ q) = ctxAddrs p ++ ctxAddrs q := by
  induction p with
  | nil => rfl
  | cons f p ih =>
    cases f with
    | inLeft k c b h r =>
      show c.addr :: (addrs r ++ ctxAddrs (p ++ q)) = _
      rw [ih]
      simp only [List.cons_append, ctxAddrs, List.append_assoc]
    | inRight l k c b h =>
      show c.addr :: (addrs l ++ ctxAddrs (p ++ q)) = _
      rw [ih]
      simp only [List.cons_append, ctxAddrs, List.append_assoc]

section Order

variable [LinearOrder K]

/-- The loop of `addNode` adds one node, at the address `fresh`. -/
theorem addNodeLoop_count (fuel fresh : Nat) (k : K) (i : V) (n : Node K (Cell V)) :
    ∀ (up : List (Frame K (Cell V))) (t : Node K (Cell V)),
      addNodeLoop fuel fresh k i n up = .ok (some t) → ∀ a,
        (addrs t).count a = [fresh].count a + (addrs n).count a + (ctxAddrs up).count a := by
  induction n with
  | nil =>
    intro up t h
    cases h
  | node l key c b hh r ihl ihr =>
    intro up t h a
    rw [linked_addNodeLoop_node] at h
    by_cases c1 : key < k
    · simp only [if_pos c1] at h
      cases r with
      | node rl rk rc rb rh rr =>
        have h1 := ihr (.inRight l key c b hh :: up) t h a
        simp only [addrs, ctxAddrs, List.count_append, List.count_cons] at h1 ⊢
        omega
      | nil =>
        simp only [] at h
        by_cases c2 : (!l.isNode) = true
        · simp only [if_pos c2] at h
          cases e : updateNodesAndRotate fuel
              (.node l key c b hh (Node.leaf k ⟨i, fresh, some c.addr⟩)) up with
          | fail f =>
            rw [e] at h
            cases h
          | ok t2 =>
            rw [e] at h
            cases h
            have h1 := updateNodesAndRotate_count fuel _ up t e a
            simp only [addrs, Node.leaf, List.count_append, List.count_cons, List.count_nil,
              List.nil_append] at h1 ⊢
            omega
        · simp only [if_neg c2] at h
          cases h
          have h1 := rebuild_count
            (.node l key c 0 hh (Node.leaf k (⟨i, fresh, some c.addr⟩ : Cell V))) up a
          simp only [addrs, Node.leaf, List.count_append, List.count_cons, List.count_nil,
            List.nil_append] at h1 ⊢
          omega
    · simp only [if_neg c1] at h
      by_cases c3 : k < key
      · simp only [if_pos c3] at h
        cases l with
        | node ll lk lc lb lh lr =>
          have h1 := ihl (.inLeft key c b hh r :: up) t h a
          simp only [addrs, ctxAddrs, List.count_append, List.count_cons] at h1 ⊢
          omega
        | nil =>
          simp only [] at h
          by_cases c2 : (!r.isNode) = true
          · simp only [if_pos c2] at h
            cases e : updateNodesAndRotate fuel
                (.node (Node.leaf k ⟨i, fresh, some c.addr⟩) key c b hh r) up with
            | fail f =>
              rw [e] at h
              cases h
            | ok t2 =>
              rw [e] at h
              cases h
              have h1 := updateNodesAndRotate_count fuel _ up t e a
              simp only [addrs, Node.leaf, List.count_append, List.count_cons, List.count_nil,
                List.nil_append] at h1 ⊢
              omega
          · simp only [if_neg c2] at h
            cases h
            have h1 := rebuild_count
              (.node (Node.leaf k (⟨i, fresh, some c.addr⟩ : Cell V)) key c 0 hh r) up a
            simp only [addrs, Node.leaf, List.count_append, List.count_cons, List.count_nil,
              List.nil_append] at h1 ⊢
            omega
      · simp only [if_neg c3] at h
        cases h

end Order

/-- A deletion brings no node in and moves none to another address. -/
theorem deleteNodeCases_count (fuel : Nat) (size : Int) (n : Node K (Cell V))
    (up : List (Frame K (Cell V))) (t : Node K (Cell V))
    (h : deleteNodeCases fuel size n up = .ok t) (a : Nat) :
    (addrs t).count a ≤ (addrs n).count a + (ctxAddrs up).count a := by
  cases n with
  | nil => cases h
  | node l k c b hh r =>
    cases l with
    | nil =>
      cases r with
      | nil =>
        cases up with
        | nil =>
          simp only [deleteNodeCases] at h
          by_cases c1 : size - 1 = 0
          · rw [if_pos c1] at h
            cases h
            simp only [addrs, List.count_nil]
            omega
          · rw [if_neg c1] at h
            cases h
        | cons f rest =>
          simp only [deleteNodeCases] at h
          cases hp : c.parent with
          | none =>
            rw [hp] at h
            cases h
          | some p =>
            rw [hp] at h
            simp only [] at h
            by_cases c1 : p = frameAddr f
            · rw [if_pos c1] at h
              have h1 := updateNodesAndRotate_count fuel _ rest t h a
              have h2 := (addrs_plug f rest .nil).count_eq a
              simp only [addrs, List.count_append, List.count_cons, List.count_nil,
                List.nil_append] at h1 h2 ⊢
              omega
            · rw [if_neg c1] at h
              cases h
      | node rl rk rc rb rh rr =>
        simp only [deleteNodeCases] at h
        have h1 := updateNodesAndRotate_count fuel _ up t h a
        simp only [addrs, List.count_append, List.count_cons, List.count_nil,
          List.nil_append] at h1 ⊢
        omega
    | node ll lk lc lb lh lr =>
      cases r with
      | nil =>
        simp only [deleteNodeCases] at h
        have h1 := updateNodesAndRotate_count fuel _ up t h a
        simp only [addrs, List.count_append, List.count_cons, List.count_nil,
          List.nil_append] at h1 ⊢
        omega
      | node rl rk rc rb rh rr =>
        obtain ⟨sl, sk, sc, sb, sh, path, h3, h4, -⟩ :=
          goRightmost_spec (.node ll lk lc lb lh lr) rfl []
        rw [List.append_nil] at h3
        have h5 := rebuild_count (.node sl sk sc sb sh .nil) path a
        rw [h4] at h5
        simp only [deleteNodeCases, h3] at h
        by_cases c1 : sc.parent = some c.addr
        · simp only [if_pos c1] at h
          have h1 := updateNodesAndRotate_count fuel _ up t h a
          simp only [addrs, addrs_setParent, List.count_append, List.count_cons, List.count_nil,
            List.nil_append] at h1 h5 ⊢
          omega
        · simp only [if_neg c1] at h
          cases hp : sc.parent with
          | none =>
            rw [hp] at h
            cases h
          | some p =>
            rw [hp] at h
            cases path with
            | nil => cases h
            | cons f path =>
              simp only [] at h
              by_cases c2 : p = frameAddr f
              · rw [if_pos c2] at h
                have h1 := updateNodesAndRotate_count fuel _ _ t h a
                have h2 := (addrs_plug f path (setParent (some p) sl)).count_eq a
                rw [ctxAddrs_append] at h1
                simp only [addrs, ctxAddrs, addrs_setParent, List.count_append, List.count_cons,
                  List.count_nil, List.nil_append] at h1 h2 h5 ⊢
                omega
              · rw [if_neg c2] at h
                cases h

end Linked

end AVL

namespace AVL

variable {K V : Type}

namespace Linked

theorem allocated_of_count_le (fresh : Nat) (t t2 : Node K (Cell V))
    (h : ∀ a, (addrs t2).count a ≤ (addrs t).count a) (ht : Allocated fresh t) :
    Allocated fresh t2 := by
  constructor
  · rw [List.nodup_iff_count_le_one]
    intro a
    exact (h a).trans (List.nodup_iff_count_le_one.mp ht.1 a)
  · intro a ha
    have h1 := List.count_pos_iff.mpr ha
    exact ht.2 a (List.count_pos_iff.mp (lt_of_lt_of_le h1 (h a)))

theorem allocated_add (fresh : Nat) (t t2 : Node K (Cell V))
    (h : ∀ a, (addrs t2).count a = [fresh].count a + (addrs t).count a)
    (ht : Allocated fresh t) : Allocated (fresh + 1) t2 := by
  have hfresh : (addrs t).count fresh = 0 :=
    List.count_eq_zero.mpr (fun hm => absurd (ht.2 fresh hm) (lt_irrefl _))
  constructor
  · rw [List.nodup_iff_count_le_one]
    intro a
    rw [h a]
    by_cases c : fresh = a
    · subst c
      rw [hfresh]
      simp
    · have h1 := List.nodup_iff_count_le_one.mp ht.1 a
      have h2 : [fresh].count a = 0 := List.count_eq_zero.mpr (by simp [Ne.symm c])
      omega
  · intro a ha
    have h1 := List.count_pos_iff.mpr ha
    rw [h a] at h1
    by_cases c : fresh = a
    · omega
    · have h2 : [fresh].count a = 0 := List.count_eq_zero.mpr (by simp [Ne.symm c])
      have h3 : 0 < (addrs t).count a := by omega
      have := ht.2 a (List.count_pos_iff.mp h3)
      omega

section Order

variable [LinearOrder K]

/-- One `addNode` keeps the nodes at different addresses. -/
theorem addNode_allocated (fuel : Nat) (d : Dictionary K V) (k : K) (i : V)
    (p : Bool × Dictionary K V) (h : d.addNode fuel k i = .ok p)
    (hd : Allocated d.fresh d.tree.root) : Allocated p.2.fresh p.2.tree.root := by
  unfold Dictionary.addNode at h
  by_cases c1 : d.tree.size = 0
  · simp only [if_pos c1] at h
    cases h
    refine ⟨?_, ?_⟩
    · simp [addrs, Node.leaf]
    · intro a ha
      simp only [addrs, Node.leaf, List.nil_append, List.mem_singleton] at ha
      show a < d.fresh + 1
      omega
  · simp only [if_neg c1] at h
    cases e : addNodeLoop fuel d.fresh k i d.tree.root [] with
    | fail f =>
      rw [e] at h
      cases h
    | ok o =>
      rw [e] at h
      cases o with
      | none =>
        cases h
        exact hd
      | some t =>
        cases h
        refine allocated_add d.fresh d.tree.root t ?_ hd
        intro a
        have h1 := addNodeLoop_count fuel d.fresh k i d.tree.root [] t e a
        simp only [ctxAddrs, List.count_nil] at h1
        omega

/-- One `deleteNode(Iterator)` keeps the nodes at different addresses. -/
theorem deleteNodeAt_allocated [DecidableEq V] (fuel : Nat) (d : Dictionary K V)
    (it : Iterator K (Cell V)) (p : Bool × Dictionary K V)
    (h : d.deleteNodeAt fuel it = .ok p)
    (hd : Allocated d.fresh d.tree.root) : Allocated p.2.fresh p.2.tree.root := by
  unfold Dictionary.deleteNodeAt at h
  by_cases c1 : it.dictionary ≠ some d.tree.self
  · simp only [if_pos c1] at h
    cases h
  · simp only [if_neg c1] at h
    by_cases c2 : it.isEnd = true
    · simp only [if_pos c2] at h
      cases h
    · simp only [if_neg c2] at h
      by_cases c3 : rebuild it.curr it.up ≠ d.tree.root
      · simp only [if_pos c3] at h
        cases h
      · simp only [if_neg c3] at h
        have e : rebuild it.curr it.up = d.tree.root := not_not.mp c3
        cases e2 : deleteNodeCases fuel d.tree.size it.curr it.up with
        | fail f =>
          rw [e2] at h
          cases h
        | ok t =>
          rw [e2] at h
          cases h
          show Allocated d.fresh (if d.tree.size - 1 = 0 then Node.nil else t)
          by_cases c4 : d.tree.size - 1 = 0
          · rw [if_pos c4]
            exact ⟨List.nodup_nil, fun a ha => absurd ha (List.not_mem_nil a)⟩
          · rw [if_neg c4]
            refine allocated_of_count_le d.fresh d.tree.root t ?_ hd
            intro a
            have h1 := deleteNodeCases_count fuel d.tree.size it.curr it.up t e2 a
            have h2 := rebuild_count it.curr it.up a
            rw [e] at h2
            omega

/-- One `deleteNode(Key)` keeps the nodes at different addresses. -/
theorem deleteNode_allocated [DecidableEq V] (fuel : Nat) (d : Dictionary K V) (k : K)
    (p : Bool × Dictionary K V) (h : d.deleteNode fuel k = .ok p)
    (hd : Allocated d.fresh d.tree.root) : Allocated p.2.fresh p.2.tree.root := by
  unfold Dictionary.deleteNode at h
  cases e : d.tree.find k with
  | fail f =>
    rw [e] at h
    cases h
  | ok it =>
    rw [e] at h
    simp only [] at h
    by_cases c2 : it.eq d.tree.end = true
    · simp only [if_pos c2] at h
      cases h
      exact hd
    · simp only [if_neg c2] at h
      exact deleteNodeAt_allocated fuel d it p h hd

/-- Every run of calls keeps the nodes at different addresses. -/
theorem runOps_allocated [DecidableEq V] (fuel : Nat) (ops : List (Op K V)) :
    ∀ d d2 : Dictionary K V, runOps fuel ops d = .ok d2 →
      Allocated d.fresh d.tree.root → Allocated d2.fresh d2.tree.root := by
  induction ops with
  | nil =>
    intro d d2 h hd
    cases h
    exact hd
  | cons op ops ih =>
    intro d d2 h hd
    cases op with
    | add k i =>
      simp only [runOps] at h
      cases e : d.addNode fuel k i with
      | fail f =>
        rw [e] at h
        cases h
      | ok p =>
        rw [e] at h
        exact ih p.2 d2 h (addNode_allocated fuel d k i p e hd)
    | del k =>
      simp only [runOps] at h
      cases e : d.deleteNode fuel k with
      | fail f =>
        rw [e] at h
        cases h
      | ok p =>
        rw [e] at h
        exact ih p.2 d2 h (deleteNode_allocated fuel d k p e hd)

/-- A run of calls is the run of its first part followed by that of the rest. -/
theorem runOps_append [DecidableEq V] (fuel : Nat) (ops ops2 : List (Op K V)) :
    ∀ d d2 : Dictionary K V, runOps fuel ops d = .ok d2 →
      runOps fuel (ops ++ ops2) d = runOps fuel ops2 d2 := by
  induction ops with
  | nil =>
    intro d d2 h
    cases h
    rfl
  | cons op ops ih =>
    intro d d2 h
    cases op with
    | add k i =>
      simp only [runOps, List.cons_append] at h ⊢
      cases e : d.addNode fuel k i with
      | fail f =>
        rw [e] at h
        cases h
      | ok p =>
        rw [e] at h
        simp only []
        exact ih p.2 d2 h
    | del k =>
      simp only [runOps, List.cons_append] at h ⊢
      cases e : d.deleteNode fuel k with
      | fail f =>
        rw [e] at h
        cases h
      | ok p =>
        rw [e] at h
        simp only []
        exact ih p.2 d2 h

end Order

end Linked

end AVL

namespace AVL

variable {K V : Type}

/-! ## The tree with parent fields and the tree without -/

namespace Linked

theorem erase_node (l : Node K (Cell V)) (k : K) (c : Cell V) (b h : Int)
    (r : Node K (Cell V)) :
    erase (.node l k c b h r) = .node (erase l) k c.info b h (erase r) := rfl

theorem cachedHeight_erase (t : Node K (Cell V)) : (erase t).cachedHeight = t.cachedHeight := by
  cases t <;> rfl

theorem bf_erase (t : Node K (Cell V)) : (erase t).bf = t.bf := by
  cases t <;> rfl

theorem isNode_erase (t : Node K (Cell V)) : (erase t).isNode = t.isNode := by
  cases t <;> rfl

theorem erase_updateNode (t : Node K (Cell V)) : erase (updateNode t) = updateNode (erase t) := by
  cases t with
  | nil => rfl
  | node l k c b h r =>
    simp only [updateNode, erase, cachedHeight_erase]

theorem erase_setParent (q : Option Nat) (t : Node K (Cell V)) :
    erase (setParent q t) = erase t := by
  cases t <;> rfl

theorem erase_plug (f : Frame K (Cell V)) (n : Node K (Cell V)) :
    erase (f.plug n) = (eraseFrame f).plug (erase n) := by
  cases f <;> rfl

theorem erase_rebuild (up : List (Frame K (Cell V))) :
    ∀ n : Node K (Cell V), erase (rebuild n up) = rebuild (erase n) (up.map eraseFrame) := by
  induction up with
  | nil =>
    intro n
    rfl
  | cons f up ih =>
    intro n
    rw [rebuild, ih, erase_plug]
    rfl

theorem rotateRight_erase (o : Option Nat) (t : Node K (Cell V)) (h : ParentOK o t) :
    mapRes erase (rotateRight o t) = AVL.rotateRight (erase t) := by
  match t, h with
  | .node (.node n3 k2 c2 b2 h2 temp) k1 c1 b1 h1 r, ⟨e1, _, _⟩ =>
    rw [rotateRight, if_neg (not_not.mpr e1)]
    simp only [mapRes]
    rw [erase_updateNode, erase_node, erase_updateNode, erase_node, erase_setParent]
    rfl
  | .node .nil _ _ _ _ _, _ => rfl
  | .nil, _ => rfl

theorem rotateLeft_erase (o : Option Nat) (t : Node K (Cell V)) (h : ParentOK o t) :
    mapRes erase (rotateLeft o t) = AVL.rotateLeft (erase t) := by
  match t, h with
  | .node l k1 c1 b1 h1 (.node temp k2 c2 b2 h2 n3), ⟨e1, _, _⟩ =>
    rw [rotateLeft, if_neg (not_not.mpr e1)]
    simp only [mapRes]
    rw [erase_updateNode, erase_node, erase_updateNode, erase_node, erase_setParent]
    rfl
  | .node _ _ _ _ _ .nil, _ => rfl
  | .nil, _ => rfl

theorem rotateRightLeft_erase (o : Option Nat) (t : Node K (Cell V)) (h : ParentOK o t) :
    mapRes erase (rotateRightLeft o t) = AVL.rotateRightLeft (erase t) := by
  match t, h with
  | .nil, _ => rfl
  | .node _ _ _ _ _ .nil, _ => rfl
  | .node l k c b hh (.node rl rk rc rb rh rr), ⟨e1, a1, a2⟩ =>
    have h1 := rotateRight_kept (some c.addr) (.node rl rk rc rb rh rr) a2
    have h2 := rotateRight_erase (some c.addr) (.node rl rk rc rb rh rr) a2
    simp only [rotateRightLeft, AVL.rotateRightLeft, erase]
    rw [erase_node] at h2
    rw [← h2]
    cases e : rotateRight (some c.addr) (.node rl rk rc rb rh rr) with
    | fail f => rfl
    | ok r2 =>
      rw [e] at h1
      exact rotateLeft_erase o (.node l k c b hh r2) ⟨e1, a1, h1⟩

theorem rotateLeftRight_erase (o : Option Nat) (t : Node K (Cell V)) (h : ParentOK o t) :
    mapRes erase (rotateLeftRight o t) = AVL.rotateLeftRight (erase t) := by
  match t, h with
  | .nil, _ => rfl
  | .node .nil _ _ _ _ _, _ => rfl
  | .node (.node ll lk lc lb lh lr) k c b hh r, ⟨e1, a1, a2⟩ =>
    have h1 := rotateLeft_kept (some c.addr) (.node ll lk lc lb lh lr) a1
    have h2 := rotateLeft_erase (some c.addr) (.node ll lk lc lb lh lr) a1
    simp only [rotateLeftRight, AVL.rotateLeftRight, erase]
    rw [erase_node] at h2
    rw [← h2]
    cases e : rotateLeft (some c.addr) (.node ll lk lc lb lh lr) with
    | fail f => rfl
    | ok l2 =>
      rw [e] at h1
      exact rotateRight_erase o (.node l2 k c b hh r) ⟨e1, h1, a2⟩

end Linked

end AVL

namespace AVL

variable {K V : Type}

namespace Linked

/-- On consistent links the propagation does what it does in the embedding
without parent fields. -/
theorem updateNodesAndRotate_erase (fuel : Nat) :
    ∀ (n : Node K (Cell V)) (up : List (Frame K (Cell V))),
      ParentOK (above up) n → ParentOKCtx up →
        mapRes erase (updateNodesAndRotate fuel n up) =
          AVL.updateNodesAndRotate fuel (erase n) (up.map eraseFrame) := by
  induction fuel with
  | zero =>
    intro n up _ _
    rfl
  | succ fuel ih =>
    intro n up hn hup
    cases n with
    | nil => rfl
    | node l k c b h r =>
      have hu : ParentOK (above up) (updateNode (.node l k c b h r)) :=
        (parentOK_updateNode _ _).mpr hn
      have he : updateNode (Node.node (erase l) k c.info b h (erase r)) =
          erase (updateNode (.node l k c b h r)) := by
        rw [erase_updateNode, erase_node]
      have hb : (updateNode (Node.node (erase l) k c.info b h (erase r))).bf =
          (updateNode (.node l k c b h r)).bf := by
        rw [he, bf_erase]
      rw [erase_node]
      unfold Linked.updateNodesAndRotate AVL.updateNodesAndRotate
      simp only []
      rw [hb]
      by_cases c1 : (updateNode (Node.node l k c b h r)).bf = -2
      · simp only [if_pos c1]
        cases l with
        | nil => rfl
        | node ll lk lc lb lh lr =>
          rw [erase_node] at he ⊢
          simp only []
          rw [he]
          have hk : Kept (ParentOK (above up))
              (if lb = -1 then rotateRight (above up) (updateNode (.node (.node ll lk lc lb lh lr) k c b h r))
               else rotateLeftRight (above up) (updateNode (.node (.node ll lk lc lb lh lr) k c b h r))) := by
            by_cases c3 : lb = -1
            · rw [if_pos c3]
              exact rotateRight_kept _ _ hu
            · rw [if_neg c3]
              exact rotateLeftRight_kept _ _ hu
          have hr : (if lb = -1 then AVL.rotateRight (erase (updateNode (.node (.node ll lk lc lb lh lr) k c b h r)))
               else AVL.rotateLeftRight (erase (updateNode (.node (.node ll lk lc lb lh lr) k c b h r)))) =
              mapRes erase (if lb = -1 then rotateRight (above up) (updateNode (.node (.node ll lk lc lb lh lr) k c b h r))
               else rotateLeftRight (above up) (updateNode (.node (.node ll lk lc lb lh lr) k c b h r))) := by
            by_cases c3 : lb = -1
            · rw [if_pos c3, if_pos c3]
              exact (rotateRight_erase _ _ hu).symm
            · rw [if_neg c3, if_neg c3]
              exact (rotateLeftRight_erase _ _ hu).symm
          rw [hr]
          revert hk
          generalize (if lb = -1 then rotateRight (above up) (updateNode (.node (.node ll lk lc lb lh lr) k c b h r))
               else rotateLeftRight (above up) (updateNode (.node (.node ll lk lc lb lh lr) k c b h r))) = res
          intro hk
          cases res with
          | fail f => rfl
          | ok n2 => exact ih n2 up hk hup
      · simp only [if_neg c1]
        by_cases c2 : (updateNode (Node.node l k c b h r)).bf = 2
        · simp only [if_pos c2]
          cases r with
          | nil => rfl
          | node rl rk rc rb rh rr =>
            rw [erase_node] at he ⊢
            simp only []
            rw [he]
            have hk : Kept (ParentOK (above up))
                (if rb = 1 then rotateLeft (above up) (updateNode (.node l k c b h (.node rl rk rc rb rh rr)))
                 else rotateRightLeft (above up) (updateNode (.node l k c b h (.node rl rk rc rb rh rr)))) := by
              by_cases c3 : rb = 1
              · rw [if_pos c3]
                exact rotateLeft_kept _ _ hu
              · rw [if_neg c3]
                exact rotateRightLeft_kept _ _ hu
            have hr : (if rb = 1 then AVL.rotateLeft (erase (updateNode (.node l k c b h (.node rl rk rc rb rh rr))))
                 else AVL.rotateRightLeft (erase (updateNode (.node l k c b h (.node rl rk rc rb rh rr))))) =
                mapRes erase (if rb = 1 then rotateLeft (above up) (updateNode (.node l k c b h (.node rl rk rc rb rh rr)))
                 else rotateRightLeft (above up) (updateNode (.node l k c b h (.node rl rk rc rb rh rr)))) := by
              by_cases c3 : rb = 1
              · rw [if_pos c3, if_pos c3]
                exact (rotateLeft_erase _ _ hu).symm
              · rw [if_neg c3, if_neg c3]
                exact (rotateRightLeft_erase _ _ hu).symm
            rw [hr]
            revert hk
            generalize (if rb = 1 then rotateLeft (above up) (updateNode (.node l k c b h (.node rl rk rc rb rh rr)))
                 else rotateRightLeft (above up) (updateNode (.node l k c b h (.node rl rk rc rb rh rr)))) = res
            intro hk
            cases res with
            | fail f => rfl
            | ok n2 => exact ih n2 up hk hup
        · simp only [if_neg c2]
          have hp : c.parent = above up := hn.1
          rw [he]
          cases up with
          | nil =>
            have e : c.parent = none := hp
            simp only [e]
            rfl
          | cons f rest =>
            have e : c.parent = some (frameAddr f) := hp
            simp only [e, if_true, List.map_cons]
            have h2 := (parentOK_plug f rest _).mpr ⟨hu, hup⟩
            rw [← erase_plug]
            exact ih _ rest h2.1 h2.2

end Linked

end AVL

namespace AVL

variable {K V : Type}

namespace Linked

theorem goRightmost_erase (n : Node K (Cell V)) :
    ∀ up : List (Frame K (Cell V)),
      goRightmost (erase n) (up.map eraseFrame) =
        (erase (goRightmost n up).1, (goRightmost n up).2.map eraseFrame) := by
  induction n with
  | nil =>
    intro up
    rfl
  | node l k c b h r _ ihr =>
    intro up
    cases r with
    | nil => rfl
    | node rl rk rc rb rh rr =>
      rw [erase_node, erase_node, goRightmost, goRightmost]
      exact ihr (.inRight l k c b h :: up)

theorem frameAddr_count (f : Frame K (Cell V)) (up : List (Frame K (Cell V))) :
    0 < (ctxAddrs (f :: up)).count (frameAddr f) := by
  cases f <;> simp [ctxAddrs, frameAddr]

section Order

variable [LinearOrder K]

/-- On consistent links the loop of `addNode` does what it does in the
embedding without parent fields. -/
theorem addNodeLoop_erase (fuel fresh : Nat) (k : K) (i : V) (n : Node K (Cell V)) :
    ∀ up : List (Frame K (Cell V)), ParentOK (above up) n → ParentOKCtx up →
      mapRes (Option.map erase) (addNodeLoop fuel fresh k i n up) =
        AVL.addNodeLoop fuel k i (erase n) (up.map eraseFrame) := by
  induction n with
  | nil =>
    intro up _ _
    rfl
  | node l key c b h r ihl ihr =>
    intro up hn hup
    rw [linked_addNodeLoop_node, erase_node, addNodeLoop_node]
    by_cases c1 : key < k
    · simp only [if_pos c1]
      cases r with
      | node rl rk rc rb rh rr =>
        exact ihr (.inRight l key c b h :: up) hn.2.2 ⟨hn.1, hn.2.1, hup⟩
      | nil =>
        rw [show erase (Node.nil : Node K (Cell V)) = Node.nil from rfl]
        simp only [isNode_erase]
        by_cases c2 : (!l.isNode) = true
        · simp only [if_pos c2]
          have h1 := updateNodesAndRotate_erase fuel
            (.node l key c b h (Node.leaf k ⟨i, fresh, some c.addr⟩)) up
            ⟨hn.1, hn.2.1, parentOK_leaf k i fresh _⟩ hup
          rw [show erase (.node l key c b h (Node.leaf k (⟨i, fresh, some c.addr⟩ : Cell V))) =
            .node (erase l) key c.info b h (Node.leaf k i) from rfl] at h1
          rw [← h1]
          cases updateNodesAndRotate fuel
            (.node l key c b h (Node.leaf k ⟨i, fresh, some c.addr⟩)) up with
          | fail f => rfl
          | ok t => rfl
        · simp only [if_neg c2]
          show Res.ok (some (erase _)) = _
          rw [erase_rebuild]
          rfl
    · simp only [if_neg c1]
      by_cases c3 : k < key
      · simp only [if_pos c3]
        cases l with
        | node ll lk lc lb lh lr =>
          exact ihl (.inLeft key c b h r :: up) hn.2.1 ⟨hn.1, hn.2.2, hup⟩
        | nil =>
          rw [show erase (Node.nil : Node K (Cell V)) = Node.nil from rfl]
          simp only [isNode_erase]
          by_cases c2 : (!r.isNode) = true
          · simp only [if_pos c2]
            have h1 := updateNodesAndRotate_erase fuel
              (.node (Node.leaf k ⟨i, fresh, some c.addr⟩) key c b h r) up
              ⟨hn.1, parentOK_leaf k i fresh _, hn.2.2⟩ hup
            rw [show erase (.node (Node.leaf k (⟨i, fresh, some c.addr⟩ : Cell V)) key c b h r) =
              .node (Node.leaf k i) key c.info b h (erase r) from rfl] at h1
            rw [← h1]
            cases updateNodesAndRotate fuel
              (.node (Node.leaf k ⟨i, fresh, some c.addr⟩) key c b h r) up with
            | fail f => rfl
            | ok t => rfl
          · simp only [if_neg c2]
            show Res.ok (some (erase _)) = _
            rw [erase_rebuild]
            rfl
      · simp only [if_neg c3]
        rfl

/-- The search of `find` in the tree with parent fields is the search in the
tree without. -/
theorem findLoop_erase (dict : Nat) (k : K) (n : Node K (Cell V)) :
    ∀ up : List (Frame K (Cell V)),
      mapRes eraseIterator (findLoop dict k n up) =
        findLoop dict k (erase n) (up.map eraseFrame) := by
  induction n with
  | nil =>
    intro up
    rfl
  | node l key c b h r ihl ihr =>
    intro up
    rw [erase_node]
    unfold findLoop
    by_cases c1 : key ≠ k
    · simp only [if_pos c1]
      by_cases c2 : key < k
      · simp only [if_pos c2]
        cases r with
        | nil => rfl
        | node rl rk rc rb rh rr => exact ihr (.inRight l key c b h :: up)
      · simp only [if_neg c2]
        by_cases c3 : k < key
        · simp only [if_pos c3]
          cases l with
          | nil => rfl
          | node ll lk lc lb lh lr => exact ihl (.inLeft key c b h r :: up)
        · simp only [if_neg c3]
          rfl
    · simp only [if_neg c1]
      rfl

/-- What the search of `find` returns: the end iterator, or a cursor of the
tree it went through. -/
theorem findLoop_result (dict : Nat) (k : K) (n : Node K V) :
    ∀ (up : List (Frame K V)) (it : Iterator K V), findLoop dict k n up = .ok it →
      it = ⟨.nil, [], some dict⟩ ∨
        (it.curr.isNode = true ∧ rebuild it.curr it.up = rebuild n up) := by
  induction n with
  | nil =>
    intro up it h
    cases h
  | node l key info b h r ihl ihr =>
    intro up it h
    unfold findLoop at h
    by_cases c1 : key ≠ k
    · simp only [if_pos c1] at h
      by_cases c2 : key < k
      · simp only [if_pos c2] at h
        cases r with
        | nil =>
          cases h
          exact Or.inl rfl
        | node rl rk ri rb rh rr => exact ihr _ it h
      · simp only [if_neg c2] at h
        by_cases c3 : k < key
        · simp only [if_pos c3] at h
          cases l with
          | nil =>
            cases h
            exact Or.inl rfl
          | node ll lk li lb lh lr => exact ihl _ it h
        · simp only [if_neg c3] at h
          cases h
    · simp only [if_neg c1] at h
      cases h
      exact Or.inr ⟨rfl, rfl⟩

end Order

/-- On consistent links between nodes at different addresses the removal does
what it does in the embedding without parent fields. -/
theorem deleteNodeCases_erase (fuel : Nat) (size : Int) (n : Node K (Cell V))
    (up : List (Frame K (Cell V))) (hn : ParentOK (above up) n) (hup : ParentOKCtx up)
    (hd : (addrs n).Nodup) :
    mapRes erase (deleteNodeCases fuel size n up) =
      AVL.deleteNodeCases fuel size (erase n) (up.map eraseFrame) := by
  cases n with
  | nil => rfl
  | node l k c b h r =>
    cases l with
    | nil =>
      cases r with
      | nil =>
        cases up with
        | nil =>
          show mapRes erase (if size - 1 = 0 then .ok .nil else .fail .danglingRoot) =
            if size - 1 = 0 then .ok .nil else .fail .danglingRoot
          by_cases c1 : size - 1 = 0
          · rw [if_pos c1, if_pos c1]
            rfl
          · rw [if_neg c1, if_neg c1]
            rfl
        | cons f rest =>
          have e : c.parent = some (frameAddr f) := hn.1
          have h2 := (parentOK_plug f rest .nil).mpr ⟨trivial, hup⟩
          have h3 := updateNodesAndRotate_erase fuel _ rest h2.1 h2.2
          rw [erase_plug] at h3
          simp only [deleteNodeCases, e, if_true]
          exact h3
      | node rl rk rc rb rh rr =>
        simp only [deleteNodeCases]
        exact updateNodesAndRotate_erase fuel _ up ⟨hn.1, trivial, trivial⟩ hup
    | node ll lk lc lb lh lr =>
      cases r with
      | nil =>
        simp only [deleteNodeCases]
        exact updateNodesAndRotate_erase fuel _ up ⟨hn.1, trivial, trivial⟩ hup
      | node rl rk rc rb rh rr =>
        have hg := goRightmost_parentOK (.node ll lk lc lb lh lr)
          (.inLeft k c b h (.node rl rk rc rb rh rr) :: up) hn.2.1 ⟨hn.1, hn.2.2, hup⟩
        have ha := goRightmost_append (.node ll lk lc lb lh lr) []
          (.inLeft k c b h (.node rl rk rc rb rh rr) :: up)
        rw [List.nil_append] at ha
        rw [ha] at hg
        have he := goRightmost_erase (.node ll lk lc lb lh lr) []
        obtain ⟨sl, sk, sc, sb, sh, path, h3, h4, -⟩ :=
          goRightmost_spec (.node ll lk lc lb lh lr) rfl []
        rw [List.append_nil] at h3
        rw [h3] at hg he
        simp only [] at hg he
        rw [erase_node, erase_node, erase_node, deleteNodeCases_two, ← erase_node,
          show ([] : List (Frame K V)) = ([] : List (Frame K (Cell V))).map eraseFrame from rfl,
          he]
        simp only [deleteNodeCases, h3]
        cases path with
        | nil =>
          have e : sc.parent = some c.addr := hg.1.1
          simp only [if_pos e, List.map_nil, erase_node]
          have h5 := updateNodesAndRotate_erase fuel
            (.node (setParent (some c.addr) sl) sk { c with info := sc.info } b h
              (.node rl rk rc rb rh rr)) up
            ⟨hn.1, parentOK_setParent _ _ _ hg.1.2.1, hn.2.2⟩ hup
          rw [erase_node, erase_setParent, erase_node] at h5
          exact h5
        | cons f path =>
          have e : sc.parent = some (frameAddr f) := hg.1.1
          have hne : frameAddr f ≠ c.addr := by
            intro hc
            have h6 := rebuild_count (.node sl sk sc sb sh .nil) (f :: path) (frameAddr f)
            rw [h4] at h6
            have h7 := frameAddr_count f path
            have h8 := List.nodup_iff_count_le_one.mp hd (frameAddr f)
            simp only [addrs, List.count_append, List.count_cons, hc, beq_self_eq_true,
              if_true] at h6 h8
            rw [hc] at h7
            omega
          have c1 : ¬ some (frameAddr f) = some c.addr :=
            fun hc => hne (Option.some.inj hc)
          simp only [e, if_neg c1, if_true, List.map_cons, erase_node]
          have h4b := parentOKCtx_append (f :: path)
            (.inLeft k c b h (.node rl rk rc rb rh rr))
            (.inLeft sk { c with info := sc.info } b h (.node rl rk rc rb rh rr)) up rfl id
          have h5 := (parentOK_plug f
            (path ++ .inLeft sk { c with info := sc.info } b h (.node rl rk rc rb rh rr) :: up)
            (setParent (some (frameAddr f)) sl)).mpr
            ⟨parentOK_setParent _ _ _ hg.1.2.1, h4b.2 hg.2⟩
          have h9 := updateNodesAndRotate_erase fuel _ _ h5.1 h5.2
          rw [erase_plug, erase_setParent, List.map_append, List.map_cons] at h9
          exact h9

end Linked

end AVL

namespace AVL

variable {K V : Type}

namespace Linked

theorem isLeft_eraseFrame (up : List (Frame K (Cell V))) :
    (up.map eraseFrame).map Frame.isLeft = up.map Frame.isLeft := by
  rw [List.map_map]
  refine List.map_congr_left ?_
  intro f _
  cases f <;> rfl

theorem eq_eraseIterator (a b : Iterator K (Cell V)) :
    (eraseIterator a).eq (eraseIterator b) = a.eq b := by
  simp only [Iterator.eq, eraseIterator, isNode_erase, isLeft_eraseFrame]

theorem nodup_of_rebuild (n : Node K (Cell V)) (up : List (Frame K (Cell V)))
    (h : (addrs (rebuild n up)).Nodup) : (addrs n).Nodup := by
  rw [List.nodup_iff_count_le_one] at h ⊢
  intro a
  have h1 := h a
  rw [rebuild_count] at h1
  omega

theorem allocated_nil (fresh : Nat) : Allocated fresh (Node.nil : Node K (Cell V)) :=
  ⟨List.nodup_nil, fun a ha => absurd ha (List.not_mem_nil a)⟩

section Order

variable [LinearOrder K]

/-- On consistent links `addNode` does what it does in the embedding without
parent fields. -/
theorem addNode_erase (fuel : Nat) (d : Dictionary K V) (k : K) (i : V)
    (hd : ParentOK none d.tree.root) :
    mapRes (fun p => (p.1, p.2.erase)) (d.addNode fuel k i) = d.erase.addNode fuel k i := by
  unfold Dictionary.addNode AVL.Dictionary.addNode
  show mapRes _ (if d.tree.size = 0 then _ else _) = if d.tree.size = 0 then _ else _
  by_cases c1 : d.tree.size = 0
  · rw [if_pos c1, if_pos c1]
    rfl
  · rw [if_neg c1, if_neg c1]
    have h1 := addNodeLoop_erase fuel d.fresh k i d.tree.root [] hd trivial
    show _ = match AVL.addNodeLoop fuel k i (erase d.tree.root) ([].map eraseFrame) with
      | .fail f => .fail f
      | .ok none => .ok (false, d.erase)
      | .ok (some t) => .ok (true, { d.erase with root := t, size := d.erase.size + 1 })
    rw [← h1]
    cases addNodeLoop fuel d.fresh k i d.tree.root [] with
    | fail f => rfl
    | ok o =>
      cases o with
      | none => rfl
      | some t => rfl

/-- On consistent links between nodes at different addresses
`deleteNode(Iterator)` at a cursor of the tree does what it does in the
embedding without parent fields. -/
theorem deleteNodeAt_erase [DecidableEq V] (fuel : Nat) (d : Dictionary K V)
    (it : Iterator K (Cell V)) (hd : ParentOK none d.tree.root)
    (ha : (addrs d.tree.root).Nodup) (hon : rebuild it.curr it.up = d.tree.root) :
    mapRes (fun p => (p.1, p.2.erase)) (d.deleteNodeAt fuel it) =
      d.erase.deleteNodeAt fuel (eraseIterator it) := by
  unfold Dictionary.deleteNodeAt AVL.Dictionary.deleteNodeAt
  by_cases c1 : it.dictionary ≠ some d.tree.self
  · have c1b : (eraseIterator it).dictionary ≠ some d.erase.self := c1
    simp only [if_pos c1, if_pos c1b]
    rfl
  · have c1b : ¬ (eraseIterator it).dictionary ≠ some d.erase.self := c1
    simp only [if_neg c1, if_neg c1b]
    have hend : (eraseIterator it).isEnd = it.isEnd := by
      simp only [Iterator.isEnd, eraseIterator, isNode_erase]
    rw [hend]
    by_cases c2 : it.isEnd = true
    · simp only [if_pos c2]
      rfl
    · simp only [if_neg c2]
      have c3 : ¬ rebuild it.curr it.up ≠ d.tree.root := not_not.mpr hon
      have c3b : ¬ rebuild (eraseIterator it).curr (eraseIterator it).up ≠ d.erase.root := by
        refine not_not.mpr ?_
        show rebuild (erase it.curr) (it.up.map eraseFrame) = erase d.tree.root
        rw [← erase_rebuild, hon]
      simp only [if_neg c3, if_neg c3b]
      have h0 := (parentOK_rebuild it.up it.curr).mp (hon ▸ hd)
      have h1 := deleteNodeCases_erase fuel d.tree.size it.curr it.up h0.1 h0.2
        (nodup_of_rebuild it.curr it.up (hon ▸ ha))
      show _ = match AVL.deleteNodeCases fuel d.tree.size (erase it.curr)
          (it.up.map eraseFrame) with
        | .fail f => .fail f
        | .ok t => .ok (true, { d.erase with
            root := if d.erase.size - 1 = 0 then .nil else t, size := d.erase.size - 1 })
      rw [← h1]
      cases deleteNodeCases fuel d.tree.size it.curr it.up with
      | fail f => rfl
      | ok t =>
        show Res.ok (true, (⟨erase (if d.tree.size - 1 = 0 then Node.nil else t),
          d.tree.size - 1, d.tree.self⟩ : AVL.Dictionary K V)) = Res.ok (true,
            (⟨if d.tree.size - 1 = 0 then Node.nil else erase t, d.tree.size - 1,
              d.tree.self⟩ : AVL.Dictionary K V))
        by_cases c4 : d.tree.size - 1 = 0
        · rw [if_pos c4, if_pos c4]
          rfl
        · rw [if_neg c4, if_neg c4]

/-- On consistent links between nodes at different addresses `deleteNode(Key)`
does what it does in the embedding without parent fields. -/
theorem deleteNode_erase [DecidableEq V] (fuel : Nat) (d : Dictionary K V) (k : K)
    (hd : ParentOK none d.tree.root) (ha : (addrs d.tree.root).Nodup) :
    mapRes (fun p => (p.1, p.2.erase)) (d.deleteNode fuel k) = d.erase.deleteNode fuel k := by
  have hfind : mapRes eraseIterator (d.tree.find k) = d.erase.find k := by
    unfold AVL.Dictionary.find
    show mapRes _ (if d.tree.size = 0 then _ else _) = if d.tree.size = 0 then _ else _
    by_cases c1 : d.tree.size = 0
    · rw [if_pos c1, if_pos c1]
      rfl
    · rw [if_neg c1, if_neg c1]
      exact findLoop_erase d.tree.self k d.tree.root []
  have hres : ∀ it, d.tree.find k = .ok it →
      it = d.tree.end ∨ (it.curr.isNode = true ∧ rebuild it.curr it.up = d.tree.root) := by
    intro it h
    unfold AVL.Dictionary.find at h
    by_cases c1 : d.tree.size = 0
    · rw [if_pos c1] at h
      cases h
      exact Or.inl rfl
    · rw [if_neg c1] at h
      exact findLoop_result d.tree.self k d.tree.root [] it h
  unfold Dictionary.deleteNode AVL.Dictionary.deleteNode
  rw [← hfind]
  cases e : d.tree.find k with
  | fail f => rfl
  | ok it =>
    show _ = if (eraseIterator it).eq d.erase.end = true then _ else _
    rw [show d.erase.end = eraseIterator d.tree.end from rfl, eq_eraseIterator]
    simp only []
    by_cases c2 : it.eq d.tree.end = true
    · rw [if_pos c2, if_pos c2]
      rfl
    · rw [if_neg c2, if_neg c2]
      rcases hres it e with h1 | ⟨_, h2⟩
      · rw [h1] at c2
        exact absurd (Iterator.eq_self _) c2
      · exact deleteNodeAt_erase fuel d it hd ha h2

/-- On consistent links between nodes at different addresses a run of calls
does what it does in the embedding without parent fields, and leaves such
links. -/
theorem runOps_erase [DecidableEq V] (fuel : Nat) (ops : List (Op K V)) :
    ∀ d : Dictionary K V, ParentOK none d.tree.root → Allocated d.fresh d.tree.root →
      mapRes Dictionary.erase (runOps fuel ops d) = AVL.runOps fuel ops d.erase := by
  induction ops with
  | nil =>
    intro d _ _
    rfl
  | cons op ops ih =>
    intro d hd ha
    cases op with
    | add k i =>
      have h1 := addNode_kept fuel d k i hd
      have h2 := addNode_allocated fuel d k i
      have h3 := addNode_erase fuel d k i hd
      simp only [runOps, AVL.runOps]
      rw [← h3]
      revert h1 h2
      generalize d.addNode fuel k i = res
      intro h1 h2
      cases res with
      | fail f => rfl
      | ok p => exact ih p.2 h1 (h2 p rfl ha)
    | del k =>
      have h1 := deleteNode_kept fuel d k hd
      have h2 := deleteNode_allocated fuel d k
      have h3 := deleteNode_erase fuel d k hd ha.1
      simp only [runOps, AVL.runOps]
      rw [← h3]
      revert h1 h2
      generalize d.deleteNode fuel k = res
      intro h1 h2
      cases res with
      | fail f => rfl
      | ok p => exact ih p.2 h1 (h2 p rfl ha)

/-- Every run of calls that returns in the embedding without parent fields
returns in the one with them, with the same tree, consistent links and the
nodes at different addresses. -/
theorem runOps_linked [DecidableEq V] (fuel : Nat) (ops : List (Op K V)) (self : Nat)
    (d : AVL.Dictionary K V) (h : AVL.runOps fuel ops (AVL.Dictionary.empty self) = .ok d) :
    ∃ ld : Dictionary K V, runOps fuel ops (Dictionary.empty self) = .ok ld ∧ ld.erase = d ∧
      ParentOK none ld.tree.root ∧ Allocated ld.fresh ld.tree.root := by
  have h1 := runOps_erase fuel ops (Dictionary.empty self : Dictionary K V) trivial
    (allocated_nil 0)
  have h2 := runOps_kept fuel ops (Dictionary.empty self : Dictionary K V) trivial
  have h3 := runOps_allocated fuel ops (Dictionary.empty self : Dictionary K V)
  rw [show (Dictionary.empty self : Dictionary K V).erase = AVL.Dictionary.empty self from rfl,
    h] at h1
  revert h1 h2 h3
  generalize runOps fuel ops (Dictionary.empty self : Dictionary K V) = res
  intro h1 h2 h3
  cases res with
  | fail f => cases h1
  | ok ld =>
    refine ⟨ld, rfl, ?_, h2, h3 ld rfl (allocated_nil 0)⟩
    exact Res.ok.inj h1

end Order

end Linked

end AVL

namespace AVL

variable {K V : Type}

namespace Linked

theorem ne_brokenLink_of_kept {α : Type} (P : α → Prop) (r : Res α) (h : Kept P r) :
    r ≠ .fail .brokenLink := by
  cases r with
  | ok a => exact fun e => by cases e
  | fail f =>
    intro e
    cases e
    exact h rfl

set_option maxRecDepth 100000 in
/-- The run of `buildOps`, `deleteNode(8)` and `deleteNode(3)` over the nodes
with their parent fields. -/
theorem runOps_afterDelete3 :
    runOps 16 (buildOps ++ [.del 8, .del 3]) (Dictionary.empty 0) = .ok afterDelete3 := by
  decide!

end Linked

/-- Every run of `addNode` and `deleteNode` calls on an initially empty
dictionary that returns, returns as well when the nodes carry their address and
their field `parent`, with the same tree, and the parent links are consistent
after it: the field `parent` of the root (when there is one) is null, the field
`parent` of every other node reachable from the root holds the address of the
node whose left or right child it is, and no two nodes are at the same address.
No later call reads a field `parent` that designates another node than the
one above.  (A run that ends in a null dereference or with a dangling root has
no state after it.) -/
theorem parent_links_consistent_of_returns [LinearOrder K] [DecidableEq V] (fuel : Nat)
    (ops : List (Op K V)) (self : Nat) (d : Dictionary K V)
    (h : runOps fuel ops (Dictionary.empty self) = .ok d) :
    ∃ ld : Linked.Dictionary K V,
      Linked.runOps fuel ops (Linked.Dictionary.empty self) = .ok ld ∧ ld.erase = d ∧
        Linked.ParentOK none ld.tree.root ∧ Linked.Allocated ld.fresh ld.tree.root ∧
        ∀ (fuel2 : Nat) (ops2 : List (Op K V)),
          Linked.runOps fuel2 ops2 ld ≠ .fail .brokenLink := by
  obtain ⟨ld, h1, h2, h3, h4⟩ := Linked.runOps_linked fuel ops self d h
  exact ⟨ld, h1, h2, h3, h4, fun fuel2 ops2 =>
    Linked.ne_brokenLink_of_kept _ _ (Linked.runOps_kept fuel2 ops2 ld h3)⟩

/-- The parent links after the run of ten calls that ends in `afterDelete3`. -/
theorem parent_links_consistent_on_afterDelete3 :
    runOps 16 (buildOps ++ [.del 8, .del 3]) (Dictionary.empty 0) = .ok afterDelete3 ∧
      ∃ ld : Linked.Dictionary Nat Nat,
        Linked.runOps 16 (buildOps ++ [.del 8, .del 3]) (Linked.Dictionary.empty 0) = .ok ld ∧
          ld.erase = afterDelete3 ∧
          Linked.ParentOK none ld.tree.root ∧ Linked.Allocated ld.fresh ld.tree.root ∧
          ∀ (fuel2 : Nat) (ops2 : List (Op Nat Nat)),
            Linked.runOps fuel2 ops2 ld ≠ .fail .brokenLink := by
  have h0 : runOps 16 (buildOps ++ [.del 8, .del 3]) (Dictionary.empty 0) = .ok afterDelete3 := by
    decide
  have h := parent_links_consistent_of_returns 16 (buildOps ++ [.del 8, .del 3]) 0 afterDelete3
    h0
  exact ⟨h0, h⟩

namespace Linked

/-- A run that fails in the embedding without parent fields fails the same way
in the one with them. -/
theorem runOps_fail_of_erase (fuel : Nat) (ops : List (Op Nat Nat)) (f : Fault)
    (h : AVL.runOps fuel ops (AVL.Dictionary.empty 0) = .fail f) :
    runOps fuel ops (Dictionary.empty 0 : Dictionary Nat Nat) = .fail f := by
  have h1 := runOps_erase fuel ops (Dictionary.empty 0 : Dictionary Nat Nat) trivial
    (allocated_nil 0)
  rw [show (Dictionary.empty 0 : Dictionary Nat Nat).erase = AVL.Dictionary.empty 0 from rfl,
    h] at h1
  revert h1
  generalize runOps fuel ops (Dictionary.empty 0 : Dictionary Nat Nat) = res
  intro h1
  cases res with
  | fail g =>
    have e : g = f := Res.fail.inj h1
    rw [e]
  | ok ld => cases h1

/-- A run that does not return in the embedding without parent fields does not
return in the one with them. -/
theorem runOps_not_ok_of_erase (fuel : Nat) (ops : List (Op Nat Nat))
    (h : ∀ d, AVL.runOps fuel ops (AVL.Dictionary.empty 0) ≠ .ok d) (ld : Dictionary Nat Nat) :
    runOps fuel ops (Dictionary.empty 0) ≠ .ok ld := by
  intro e
  have h1 := runOps_erase fuel ops (Dictionary.empty 0 : Dictionary Nat Nat) trivial
    (allocated_nil 0)
  rw [e] at h1
  exact h ld.erase h1.symm

end Linked

set_option maxRecDepth 100000 in
/-- C24 (the code departs from the claim): with the nodes carrying their
address and their field `parent`, the insertions 6, 3, 7, 2, 4, 8, 1, 5
followed by `deleteNode(8)` and `deleteNode(5)` return a tree with consistent
parent links, in which the node of key 3 has the balance factor -2 and no
right child; the call `deleteNode(6)` that follows dereferences `nullptr` in
`rotateLeft`, called by `rotateLeftRight` at the root: the run of these eleven
calls does not return, whatever the number of iterations granted, and leaves
no tree whose parent links could be consistent. -/
theorem C24_run_ends_in_null_dereference :
    (∃ ld : Linked.Dictionary Nat Nat,
      Linked.runOps 16 (buildOps ++ [.del 8, .del 5]) (Linked.Dictionary.empty 0) = .ok ld ∧
        ld.erase = afterDelete5 ∧ Linked.ParentOK none ld.tree.root ∧
        ∀ fuel, ld.deleteNode (fuel + 3) 6 = .fail .nullPointer) ∧
      (∀ fuel, Linked.runOps (fuel + 3) (buildOps ++ [.del 8, .del 5, .del 6])
        (Linked.Dictionary.empty 0) = .fail .nullPointer) ∧
      ∀ fuel ld, Linked.runOps fuel (buildOps ++ [.del 8, .del 5, .del 6])
        (Linked.Dictionary.empty 0) ≠ .ok ld := by
  refine ⟨?_, fun fuel => Linked.runOps_fail_of_erase _ _ _ (runOps_null_dereference fuel),
    fun fuel ld => Linked.runOps_not_ok_of_erase fuel _ (runOps_never_returns fuel) ld⟩
  obtain ⟨ld, h1, h2, h3, h4⟩ := Linked.runOps_linked 16 (buildOps ++ [.del 8, .del 5]) 0
    afterDelete5 (by decide)
  refine ⟨ld, h1, h2, h3, fun fuel => ?_⟩
  have h5 := Linked.deleteNode_erase (fuel + 3) ld 6 h3 h4.1
  rw [h2, show afterDelete5.deleteNode (fuel + 3) 6 = .fail .nullPointer from rfl] at h5
  revert h5
  generalize ld.deleteNode (fuel + 3) 6 = res
  intro h5
  cases res with
  | fail g =>
    have e : g = .nullPointer := Res.fail.inj h5
    rw [e]
  | ok p => cases h5

end AVL

namespace AVL

variable {K V : Type}

theorem fibonacci_le_succ (n : Nat) : fibonacci n ≤ fibonacci (n + 1) := by
  cases n with
  | zero => decide
  | succ n =>
    rw [show fibonacci (n + 1 + 1) = fibonacci n + fibonacci (n + 1) from rfl]
    omega

/-- A tree whose cached fields are right and whose balance factors are in
range holds at least `F(height + 2) - 1` nodes. -/
theorem fibonacci_le_count (t : Node K V) (hg : t.Good) :
    fibonacci (t.cachedHeight.toNat + 2) ≤ t.count + 1 := by
  induction t with
  | nil =>
    show fibonacci 2 ≤ 1
    decide
  | node l k i b h r ihl ihr =>
    obtain ⟨hl, hr, e1, e2, e3, e4⟩ := hg
    have h1 := ihl hl
    have h2 := ihr hr
    have hnl := hl.nonneg
    have hnr := hr.nonneg
    obtain ⟨a, ea⟩ := Int.eq_ofNat_of_zero_le hnl
    obtain ⟨c, ec⟩ := Int.eq_ofNat_of_zero_le hnr
    rw [ea, Int.toNat_ofNat] at h1
    rw [ec, Int.toNat_ofNat] at h2
    rw [cachedHeight_node, e1, ea, ec]
    simp only [Node.count]
    rw [ea, ec] at e2
    by_cases hac : c ≤ a
    · have hm : ((max (a : Int) (c : Int) + 1 : Int)).toNat = a + 1 := by
        rw [max_eq_left (by exact_mod_cast hac)]
        omega
      rw [hm, show fibonacci (a + 1 + 2) = fibonacci (a + 1) + fibonacci (a + 2) from rfl]
      have h3 : fibonacci (a + 1) ≤ fibonacci (c + 2) := by
        have hc : c = a ∨ c + 1 = a := by omega
        rcases hc with hc | hc
        · rw [hc]
          exact fibonacci_le_succ _
        · rw [← hc]
      omega
    · have hm : ((max (a : Int) (c : Int) + 1 : Int)).toNat = c + 1 := by
        rw [max_eq_right (by exact_mod_cast (Nat.le_of_not_le hac))]
        omega
      rw [hm, show fibonacci (c + 1 + 2) = fibonacci (c + 1) + fibonacci (c + 2) from rfl]
      have h3 : fibonacci (c + 1) ≤ fibonacci (a + 2) := by
        have hc : a + 1 = c := by omega
        rw [← hc]
      omega

section Order

variable [LinearOrder K]

/-- C35: every run of `addNode` calls on the empty dictionary returns (with two
iterations of the up-propagation granted per call) a dictionary on which
`getHeight()` is the height of the tree computed from its shape and
`getSize() >= F(getHeight() + 2) - 1`, `F` being the Fibonacci sequence with
`F(1) = F(2) = 1`. -/
theorem C35_size_against_height [DecidableEq V] (kvs : List (K × V)) (self fuel : Nat)
    (hf : 2 * kvs.length ≤ fuel) :
    ∃ d, runOps fuel (kvs.map (fun p => Op.add p.1 p.2)) (Dictionary.empty self) = .ok d ∧
      d.getHeight = d.root.trueHeight ∧ 0 ≤ d.getHeight ∧
      (fibonacci (d.getHeight.toNat + 2) : Int) - 1 ≤ d.getSize := by
  obtain ⟨d, h1, h2⟩ := runAdds_wf kvs (Dictionary.empty self) fuel (wellFormed_empty self)
    (by simp only [Dictionary.empty, Node.count]; omega)
  refine ⟨d, h1, h2.good.cachedHeight_eq_trueHeight, h2.good.nonneg, ?_⟩
  have h3 := fibonacci_le_count d.root h2.good
  have h4 := h2.size_eq
  unfold Dictionary.getHeight Dictionary.getSize
  omega

/-- C35, at the eight insertions of `buildOps`: height 4, size 8, `F(6) = 8`. -/
theorem C35_witness :
    2 * ([(6, 0), (3, 0), (7, 0), (2, 0), (4, 0), (8, 0), (1, 0), (5, 0)] :
        List (Nat × Nat)).length ≤ 16 ∧
    ∃ d : Dictionary Nat Nat,
      runOps 16 ([(6, 0), (3, 0), (7, 0), (2, 0), (4, 0), (8, 0), (1, 0), (5, 0)].map
        (fun p => Op.add p.1 p.2)) (Dictionary.empty 0) = .ok d ∧
      d.getHeight = d.root.trueHeight ∧ 0 ≤ d.getHeight ∧
      (fibonacci (d.getHeight.toNat + 2) : Int) - 1 ≤ d.getSize := by
  have h := C35_size_against_height
    ([(6, 0), (3, 0), (7, 0), (2, 0), (4, 0), (8, 0), (1, 0), (5, 0)] : List (Nat × Nat)) 0 16
    (by decide)
  exact ⟨by decide, h⟩

end Order

end AVL

namespace AVL

variable {K V : Type}

/-- The up-propagation from a parent that had a left child and got the new
leaf as right child: it ends with the tree in which only the balance factor of
the parent was set to 0. -/
theorem propagation_is_shortcut_right (fuel : Nat) (up : List (Frame K V)) (l : Node K V)
    (key : K) (info : V) (b h : Int) (k : K) (i : V) (hl : l.isNode = true)
    (hg : (rebuild (.node l key info b h .nil) up).Good) (hf : up.length + 1 ≤ fuel) :
    updateNodesAndRotate fuel (.node l key info b h (Node.leaf k i)) up =
      .ok (rebuild (.node l key info 0 h (Node.leaf k i)) up) := by
  obtain ⟨hc, hu⟩ := good_of_rebuild up _ hg
  have hsib := goodCtx_sibling up _ hu
  have hg2 := shortcut_good_right up l key info b h k i hl hg
  have e2 : (Node.node l key info b h (Node.leaf k i)).recache
      = (Node.node l key info 0 h (Node.leaf k i)).recache :=
    recache_node_congr _ _ _ _ _ _ _ _ _ _ rfl rfl
  have e3 : (rebuild (.node l key info b h (Node.leaf k i)) up).recache
      = rebuild (.node l key info 0 h (Node.leaf k i)) up := by
    rw [recache_rebuild up _ _ e2, recache_of_good _ hg2]
  have hbal : (rebuild (.node l key info b h (Node.leaf k i)) up).recache.Balanced := by
    rw [e3]
    exact ((good_iff _).mp hg2).2
  have h1 := norot_recache up fuel l key info b h (Node.leaf k i) hc.1 (good_leaf k i) hsib
    hbal hf
  have h2 := updateNodesAndRotateLog_fst fuel (.node l key info b h (Node.leaf k i)) up
  rw [h1] at h2
  rw [← h2, e3]

/-- The up-propagation from a parent that had a right child and got the new
leaf as left child. -/
theorem propagation_is_shortcut_left (fuel : Nat) (up : List (Frame K V)) (key : K) (info : V)
    (b h : Int) (r : Node K V) (k : K) (i : V) (hr : r.isNode = true)
    (hg : (rebuild (.node .nil key info b h r) up).Good) (hf : up.length + 1 ≤ fuel) :
    updateNodesAndRotate fuel (.node (Node.leaf k i) key info b h r) up =
      .ok (rebuild (.node (Node.leaf k i) key info 0 h r) up) := by
  obtain ⟨hc, hu⟩ := good_of_rebuild up _ hg
  have hsib := goodCtx_sibling up _ hu
  have hg2 := shortcut_good_left up key info b h r k i hr hg
  have e2 : (Node.node (Node.leaf k i) key info b h r).recache
      = (Node.node (Node.leaf k i) key info 0 h r).recache :=
    recache_node_congr _ _ _ _ _ _ _ _ _ _ rfl rfl
  have e3 : (rebuild (.node (Node.leaf k i) key info b h r) up).recache
      = rebuild (.node (Node.leaf k i) key info 0 h r) up := by
    rw [recache_rebuild up _ _ e2, recache_of_good _ hg2]
  have hbal : (rebuild (.node (Node.leaf k i) key info b h r) up).recache.Balanced := by
    rw [e3]
    exact ((good_iff _).mp hg2).2
  have h1 := norot_recache up fuel (Node.leaf k i) key info b h r (good_leaf k i) hc.2.1 hsib
    hbal hf
  have h2 := updateNodesAndRotateLog_fst fuel (.node (Node.leaf k i) key info b h r) up
  rw [h1] at h2
  rw [← h2, e3]

section Order

variable [LinearOrder K]

theorem addNodeLoopFull_node (fuel : Nat) (k : K) (i : V) (l : Node K V) (key : K) (info : V)
    (b h : Int) (r : Node K V) (up : List (Frame K V)) :
    addNodeLoopFull fuel k i (.node l key info b h r) up =
    if key < k then
      match r with
      | .node rl rk ri rb rh rr =>
        addNodeLoopFull fuel k i (.node rl rk ri rb rh rr) (.inRight l key info b h :: up)
      | .nil =>
        match updateNodesAndRotate fuel (.node l key info b h (Node.leaf k i)) up with
        | .fail f => .fail f
        | .ok t => .ok (some t)
    else if k < key then
      match l with
      | .node ll lk li lb lh lr =>
        addNodeLoopFull fuel k i (.node ll lk li lb lh lr) (.inLeft key info b h r :: up)
      | .nil =>
        match updateNodesAndRotate fuel (.node (Node.leaf k i) key info b h r) up with
        | .fail f => .fail f
        | .ok t => .ok (some t)
    else .ok none := by
  cases l <;> cases r <;> rfl

/-- On a tree whose cached fields are right and in range the loop of
`addNode` and the loop without the shortcut give the same result. -/
theorem addNodeLoop_eq_full (fuel : Nat) (k : K) (i : V) (c : Node K V) :
    ∀ up : List (Frame K V), (rebuild c up).Good → up.length + c.count ≤ fuel →
      addNodeLoop fuel k i c up = addNodeLoopFull fuel k i c up := by
  induction c with
  | nil =>
    intro up _ _
    rfl
  | node l key info b h r ihl ihr =>
    intro up hg hf
    simp only [Node.count] at hf
    rw [addNodeLoop_node, addNodeLoopFull_node]
    by_cases c1 : key < k
    · simp only [if_pos c1]
      cases r with
      | node rl rk ri rb rh rr =>
        exact ihr (.inRight l key info b h :: up) hg (by
          simp only [List.length_cons, Node.count] at hf ⊢
          omega)
      | nil =>
        simp only []
        by_cases c2 : l.isNode = true
        · rw [if_neg (by simp [c2]),
            propagation_is_shortcut_right fuel up l key info b h k i c2 hg (by omega)]
        · rw [if_pos (by simp [c2])]
    · simp only [if_neg c1]
      by_cases c3 : k < key
      · simp only [if_pos c3]
        cases l with
        | node ll lk li lb lh lr =>
          exact ihl (.inLeft key info b h r :: up) hg (by
            simp only [List.length_cons, Node.count] at hf ⊢
            omega)
        | nil =>
          simp only []
          by_cases c2 : r.isNode = true
          · rw [if_neg (by simp [c2]),
              propagation_is_shortcut_left fuel up key info b h r k i c2 hg (by omega)]
          · rw [if_pos (by simp [c2])]
      · simp only [if_neg c3]

/-- C33: on a well-formed dictionary `addNode`, which only sets the balance
factor of the parent to 0 when the new leaf is attached to a parent that has
the other child, returns what `addNode` without this shortcut returns, the
up-propagation `updateNodesAndRotate` being run from the parent in every case:
the same answer and the same tree, in shape and in every cached height and
balance factor.  At such a parent, in a tree whose cached fields are right and
in range, the up-propagation ends with the tree in which only the balance
factor of the parent was set to 0. -/
theorem C33_shortcut_is_full_propagation (d : Dictionary K V) (k : K) (i : V) (fuel : Nat)
    (hw : d.WellFormed) (hf : d.root.count ≤ fuel) :
    d.addNode fuel k i = d.addNodeFull fuel k i ∧
    (∀ (up : List (Frame K V)) (l : Node K V) (key : K) (info : V) (b h : Int),
      l.isNode = true → rebuild (.node l key info b h .nil) up = d.root →
        updateNodesAndRotate fuel (.node l key info b h (Node.leaf k i)) up =
          .ok (rebuild (.node l key info 0 h (Node.leaf k i)) up)) ∧
    (∀ (up : List (Frame K V)) (key : K) (info : V) (b h : Int) (r : Node K V),
      r.isNode = true → rebuild (.node .nil key info b h r) up = d.root →
        updateNodesAndRotate fuel (.node (Node.leaf k i) key info b h r) up =
          .ok (rebuild (.node (Node.leaf k i) key info 0 h r) up)) := by
  refine ⟨?_, ?_, ?_⟩
  · unfold Dictionary.addNode Dictionary.addNodeFull
    rw [addNodeLoop_eq_full fuel k i d.root [] hw.good (by simpa using hf)]
  · intro up l key info b h hl e
    have h1 := count_rebuild (.node l key info b h .nil) up
    rw [e] at h1
    simp only [Node.count] at h1
    exact propagation_is_shortcut_right fuel up l key info b h k i hl (e ▸ hw.good) (by omega)
  · intro up key info b h r hr e
    have h1 := count_rebuild (.node .nil key info b h r) up
    rw [e] at h1
    simp only [Node.count] at h1
    exact propagation_is_shortcut_left fuel up key info b h r k i hr (e ▸ hw.good) (by omega)

/-- C33, at the insertion of key 9 into the one-level tree of keys 7 and 5: the
new leaf goes to the right of the root, which has a left child. -/
theorem C33_witness :
    (⟨.node (.node .nil 5 0 0 1 .nil) 7 0 (-1) 2 .nil, 2, 0⟩ : Dictionary Nat Nat).WellFormed ∧
    (⟨.node (.node .nil 5 0 0 1 .nil) 7 0 (-1) 2 .nil, 2, 0⟩ : Dictionary Nat Nat).addNode 4 9 0
      = .ok (true, ⟨.node (.node .nil 5 0 0 1 .nil) 7 0 0 2 (.node .nil 9 0 0 1 .nil), 3, 0⟩) ∧
    updateNodesAndRotate 4 (.node (.node .nil 5 0 0 1 .nil) 7 0 (-1) 2 (Node.leaf 9 0)) []
      = .ok (.node (.node .nil 5 0 0 1 .nil) 7 0 0 2 (.node .nil 9 0 0 1 .nil) : Node Nat Nat) := by
  have h := C33_shortcut_is_full_propagation
    (⟨.node (.node .nil 5 0 0 1 .nil) 7 0 (-1) 2 .nil, 2, 0⟩ : Dictionary Nat Nat) 9 0 4
    (by decide) (by decide)
  exact ⟨by decide, by decide, h.2.1 [] (.node .nil 5 0 0 1 .nil) 7 0 (-1) 2 rfl rfl⟩

end Order

end AVL

namespace AVL

variable {K V : Type}

/-- A node whose recomputed balance factor and height are the cached ones is
left as it is by `updateNode`. -/
theorem updateNode_eq_self (t : Node K V) (h1 : (updateNode t).bf = t.bf)
    (h2 : (updateNode t).cachedHeight = t.cachedHeight) : updateNode t = t := by
  cases t with
  | nil => rfl
  | node l k i b h r =>
    rw [updateNode_node, bf_node, bf_node] at h1
    rw [updateNode_node, cachedHeight_node, cachedHeight_node] at h2
    rw [updateNode_node, h1, h2]

theorem cached_of_rebuild (up : List (Frame K V)) :
    ∀ c : Node K V, (rebuild c up).Cached → c.Cached := by
  induction up with
  | nil =>
    intro c h
    exact h
  | cons f up ih =>
    intro c h
    have h1 := ih (f.plug c) h
    cases f with
    | inLeft k i b hh r => exact h1.1
    | inRight l k i b hh => exact h1.2.1

theorem updateNode_cached (t : Node K V) (h : t.Cached) : updateNode t = t := by
  cases t with
  | nil => rfl
  | node l k i b hh r =>
    obtain ⟨hl, hr, h1, h2⟩ := h
    rw [updateNode_node, hl.cachedHeight_eq, hr.cachedHeight_eq, ← h1, ← h2]

/-- What the loop of `isAVL` leaves: the dictionary as it was, always so when
the answer is `true`, or the dictionary with the recomputed balance factor and
height in the one node at which the loop stopped with the answer `false`. -/
theorem isAVLLoop_frame (stack : List (Iterator K V)) :
    ∀ d : Dictionary K V, (∀ it ∈ stack, it.On d.root) →
      ((isAVLLoop d stack).1 = true → (isAVLLoop d stack).2 = d) ∧
      ((isAVLLoop d stack).2 = d ∨
        ((isAVLLoop d stack).1 = false ∧ ∃ it ∈ stack,
          (isAVLLoop d stack).2 = { d with root := rebuild (updateNode it.curr) it.up } ∧
          ((updateNode it.curr).bf ≠ it.curr.bf ∨
            (updateNode it.curr).cachedHeight ≠ it.curr.cachedHeight))) := by
  induction stack with
  | nil =>
    intro d _
    exact ⟨fun _ => rfl, Or.inl rfl⟩
  | cons it stack ih =>
    intro d hs
    obtain ⟨-, hreb⟩ := hs it (List.mem_cons_self _ _)
    rw [isAVLLoop]
    by_cases c1 : (updateNode it.curr).bf ≠ it.curr.bf ∨
        (updateNode it.curr).cachedHeight ≠ it.curr.cachedHeight
    · rw [if_pos c1]
      refine ⟨fun h => (by cases h), Or.inr ⟨rfl, it, List.mem_cons_self _ _, rfl, c1⟩⟩
    · rw [if_neg c1]
      have e : updateNode it.curr = it.curr := by
        refine updateNode_eq_self _ ?_ ?_
        · by_contra hne
          exact c1 (Or.inl hne)
        · by_contra hne
          exact c1 (Or.inr hne)
      have hd : ({ d with root := rebuild (updateNode it.curr) it.up } : Dictionary K V) = d := by
        rw [e, hreb]
      rw [hd]
      by_cases c2 : (updateNode it.curr).bf < -1 ∨ (updateNode it.curr).bf > 1
      · rw [if_pos c2]
        exact ⟨fun h => (by cases h), Or.inl rfl⟩
      · rw [if_neg c2]
        obtain ⟨h1, h2⟩ := ih d (fun x hx => hs x (List.mem_cons_of_mem _ hx))
        refine ⟨h1, ?_⟩
        rcases h2 with h2 | ⟨h2, x, hx, h3, h4⟩
        · exact Or.inl h2
        · exact Or.inr ⟨h2, x, List.mem_cons_of_mem _ hx, h3, h4⟩

/-- On a tree whose cached fields are right the loop of `isAVL` writes what is
there. -/
theorem isAVLLoop_cached (stack : List (Iterator K V)) :
    ∀ d : Dictionary K V, d.root.Cached → (∀ it ∈ stack, it.On d.root) →
      (isAVLLoop d stack).2 = d := by
  induction stack with
  | nil =>
    intro d _ _
    rfl
  | cons it stack ih =>
    intro d hc hs
    obtain ⟨-, hreb⟩ := hs it (List.mem_cons_self _ _)
    have e : updateNode it.curr = it.curr :=
      updateNode_cached _ (cached_of_rebuild it.up it.curr (hreb ▸ hc))
    have hd : ({ d with root := rebuild (updateNode it.curr) it.up } : Dictionary K V) = d := by
      rw [e, hreb]
    rw [isAVLLoop]
    rw [hd, e, if_neg (by simp)]
    by_cases c2 : it.curr.bf < -1 ∨ it.curr.bf > 1
    · rw [if_pos c2]
    · rw [if_neg c2]
      exact ih d hc (fun x hx => hs x (List.mem_cons_of_mem _ hx))

theorem createStack_on (d : Dictionary K V) (hn : d.root.isNode = true) :
    ∀ it ∈ d.createStack, it.On d.root := by
  unfold Dictionary.createStack
  by_cases c : d.size > 0
  · rw [if_pos c]
    apply createStackLoop_on
    · intro it hit
      rw [List.mem_singleton] at hit
      subst hit
      exact ⟨hn, rfl⟩
    · intro it hit
      cases hit
  · rw [if_neg c]
    intro it hit
    cases hit

theorem isAVL_of_node (d : Dictionary K V) (hn : d.root.isNode = true) :
    d.isAVL = isAVLLoop d d.createStack := by
  unfold Dictionary.isAVL
  rw [hn]
  rfl

theorem isAVL_of_nil (d : Dictionary K V) (hn : ¬ d.root.isNode = true) :
    d.isAVL = (true, d) := by
  unfold Dictionary.isAVL
  rw [Bool.not_eq_true] at hn
  rw [hn]
  rfl

/-- The run of `staleOps`, and `isAVL()` called twice after it: the first call
answers `false` and leaves the recomputed balance factor in the node of key
30, the second call answers `true`. -/
theorem C36_counterexample :
    runOps 16 staleOps (Dictionary.empty 0) = .ok staleDict ∧
      staleDict.isAVL = (false, repairedDict) ∧ repairedDict ≠ staleDict ∧
      repairedDict.isAVL = (true, repairedDict) := by
  refine ⟨by decide, by decide, by decide, by decide⟩

/-- C36 (amended): `isAVL()` does not modify a tree whose cached heights and
balance factors are those computed from its shape, nor any tree on which it
answers `true`: the dictionary after the call is the one before, and a second
call gives the same result.  On every tree, the dictionary after the call is
the one before or, the answer being `false`, the one before with the
recomputed height and balance factor in one node, the node at which the loop
found a cached field that differs from the recomputed one; keys, infos, links,
`size` and the cached fields of the other nodes are those before the call. -/
theorem C36_isAVL_writes_at_most_one_node (d : Dictionary K V) :
    ((d.root.Cached ∨ d.isAVL.1 = true) → d.isAVL.2 = d ∧ d.isAVL.2.isAVL = d.isAVL) ∧
    (d.isAVL.2 = d ∨
      (d.isAVL.1 = false ∧ ∃ it : Iterator K V, it.On d.root ∧
        d.isAVL.2 = { d with root := rebuild (updateNode it.curr) it.up } ∧
        ((updateNode it.curr).bf ≠ it.curr.bf ∨
          (updateNode it.curr).cachedHeight ≠ it.curr.cachedHeight))) := by
  by_cases hn : d.root.isNode = true
  · have hs := createStack_on d hn
    obtain ⟨h1, h2⟩ := isAVLLoop_frame d.createStack d hs
    rw [← isAVL_of_node d hn] at h1 h2
    refine ⟨?_, ?_⟩
    · intro h
      have e : d.isAVL.2 = d := by
        rcases h with h | h
        · rw [isAVL_of_node d hn]
          exact isAVLLoop_cached d.createStack d h hs
        · exact h1 h
      exact ⟨e, by rw [e]⟩
    · rcases h2 with h2 | ⟨h2, it, hit, h3, h4⟩
      · exact Or.inl h2
      · exact Or.inr ⟨h2, it, hs it hit, h3, h4⟩
  · have e := isAVL_of_nil d hn
    have e2 : d.isAVL.2 = d := by rw [e]
    refine ⟨fun _ => ⟨e2, by rw [e2]⟩, Or.inl e2⟩

/-- C36 (amended), on `builtDict`, whose cached fields are right. -/
theorem C36_witness :
    (builtDict.root.Cached ∨ builtDict.isAVL.1 = true) ∧
      builtDict.isAVL.2 = builtDict ∧ builtDict.isAVL.2.isAVL = builtDict.isAVL := by
  have h := (C36_isAVL_writes_at_most_one_node builtDict).1 (Or.inl (by decide))
  exact ⟨Or.inl (by decide), h⟩

end AVL

namespace AVL

variable {K V : Type}

/-! ## The iterations of the up-propagation after an insertion -/

theorem trace_norot_nil (fuel : Nat) (l : Node K V) (k : K) (i : V) (b h : Int) (r : Node K V)
    (h1 : r.cachedHeight - l.cachedHeight ≠ -2) (h2 : r.cachedHeight - l.cachedHeight ≠ 2) :
    updateNodesAndRotateTrace (fuel + 1) (.node l k i b h r) [] =
      .ok (.node l k i (r.cachedHeight - l.cachedHeight)
        (max l.cachedHeight r.cachedHeight + 1) r, [(r.cachedHeight - l.cachedHeight, none)]) := by
  unfold updateNodesAndRotateTrace
  simp only [updateNode_node, bf_node, h1, h2, if_false]

theorem trace_norot_cons (fuel : Nat) (l : Node K V) (k : K) (i : V) (b h : Int) (r : Node K V)
    (f : Frame K V) (rest : List (Frame K V))
    (h1 : r.cachedHeight - l.cachedHeight ≠ -2) (h2 : r.cachedHeight - l.cachedHeight ≠ 2) :
    updateNodesAndRotateTrace (fuel + 1) (.node l k i b h r) (f :: rest) =
      withEntry (r.cachedHeight - l.cachedHeight, none)
        (updateNodesAndRotateTrace fuel (f.plug (.node l k i (r.cachedHeight - l.cachedHeight)
          (max l.cachedHeight r.cachedHeight + 1) r)) rest) := by
  conv_lhs => unfold updateNodesAndRotateTrace
  simp only [updateNode_node, bf_node, h1, h2, if_false]

theorem trace_rotL (fuel : Nat) (ll : Node K V) (lk : K) (li : V) (lb lh : Int) (lr : Node K V)
    (k : K) (i : V) (b h : Int) (r : Node K V) (up : List (Frame K V)) (n2 : Node K V)
    (h1 : r.cachedHeight - lh = -2)
    (e : (if lb = -1 then rotateRight (updateNode (.node (.node ll lk li lb lh lr) k i b h r))
      else rotateLeftRight (updateNode (.node (.node ll lk li lb lh lr) k i b h r))) = .ok n2) :
    updateNodesAndRotateTrace (fuel + 1) (.node (.node ll lk li lb lh lr) k i b h r) up =
      withEntry (-2, some (if lb = -1 then Rotation.rotateRight else Rotation.rotateLeftRight))
        (updateNodesAndRotateTrace fuel n2 up) := by
  conv_lhs => unfold updateNodesAndRotateTrace
  simp only [e]
  simp only [updateNode_node, bf_node, cachedHeight_node, h1, if_true]

theorem trace_rotR (fuel : Nat) (l : Node K V) (k : K) (i : V) (b h : Int)
    (rl : Node K V) (rk : K) (ri : V) (rb rh : Int) (rr : Node K V) (up : List (Frame K V))
    (n2 : Node K V) (h1 : rh - l.cachedHeight = 2)
    (e : (if rb = 1 then rotateLeft (updateNode (.node l k i b h (.node rl rk ri rb rh rr)))
      else rotateRightLeft (updateNode (.node l k i b h (.node rl rk ri rb rh rr)))) = .ok n2) :
    updateNodesAndRotateTrace (fuel + 1) (.node l k i b h (.node rl rk ri rb rh rr)) up =
      withEntry (2, some (if rb = 1 then Rotation.rotateLeft else Rotation.rotateRightLeft))
        (updateNodesAndRotateTrace fuel n2 up) := by
  conv_lhs => unfold updateNodesAndRotateTrace
  simp only [e]
  simp only [updateNode_node, bf_node, cachedHeight_node, h1, if_true]
  rw [if_neg (by omega)]

theorem rotationCount_none (b : Int) (tr : List (Int × Option Rotation)) :
    rotationCount ((b, none) :: tr) = rotationCount tr := rfl

theorem rotationCount_some (b : Int) (x : Rotation) (tr : List (Int × Option Rotation)) :
    rotationCount ((b, some x) :: tr) = rotationCount tr + 1 := rfl

theorem rotationCount_quiet (tr : List (Int × Option Rotation))
    (h : ∀ e ∈ tr, e.2 = none ∧ -1 ≤ e.1 ∧ e.1 ≤ 1) : rotationCount tr = 0 := by
  induction tr with
  | nil => rfl
  | cons e tr ih =>
    obtain ⟨b, o⟩ := e
    have h1 := (h (b, o) (List.mem_cons_self _ _)).1
    simp only at h1
    subst h1
    rw [rotationCount_none]
    exact ih (fun x hx => h x (List.mem_cons_of_mem _ hx))

/-- On a tree whose cached fields are right and in range the up-propagation
rotates nowhere, and every balance factor it writes is in range. -/
theorem trace_good (up : List (Frame K V)) :
    ∀ (c : Node K V) (fuel : Nat), (rebuild c up).Good → c.isNode = true →
      up.length + 1 ≤ fuel →
      ∃ tr, updateNodesAndRotateTrace fuel c up = .ok (rebuild c up, tr) ∧
        ∀ e ∈ tr, e.2 = none ∧ -1 ≤ e.1 ∧ e.1 ≤ 1 := by
  induction up with
  | nil =>
    intro c fuel hg hn hf
    cases c with
    | nil => cases hn
    | node l k i b h r =>
      obtain ⟨fuel, rfl⟩ : ∃ m, fuel = m + 1 := ⟨fuel - 1, by omega⟩
      obtain ⟨-, -, e1, e2, e3, e4⟩ := hg
      rw [trace_norot_nil fuel l k i b h r (by omega) (by omega), ← e1, ← e2]
      refine ⟨_, rfl, ?_⟩
      intro e he
      rw [List.mem_singleton] at he
      subst he
      exact ⟨rfl, e3, e4⟩
  | cons f rest ih =>
    intro c fuel hg hn hf
    simp only [List.length_cons] at hf
    cases c with
    | nil => cases hn
    | node l k i b h r =>
      obtain ⟨fuel, rfl⟩ : ∃ m, fuel = m + 1 := ⟨fuel - 1, by omega⟩
      obtain ⟨⟨-, -, e1, e2, e3, e4⟩, -⟩ := good_of_rebuild (f :: rest) _ hg
      rw [trace_norot_cons fuel l k i b h r f rest (by omega) (by omega), ← e1, ← e2]
      obtain ⟨tr, h1, h2⟩ := ih (f.plug (.node l k i b h r)) fuel hg
        (by cases f <;> rfl) (by omega)
      rw [h1]
      refine ⟨(b, none) :: tr, rfl, ?_⟩
      intro e he
      rcases List.mem_cons.mp he with he | he
      · subst he
        exact ⟨rfl, e3, e4⟩
      · exact h2 e he

/-- The up-propagation after an insertion: a rotation member is called in at
most one iteration, and in every other iteration the balance factor written is
in range. -/
theorem ins_trace (up : List (Frame K V)) :
    ∀ (h0 : Int) (c : Node K V) (fuel : Nat), InsState h0 c → GoodCtx up h0 →
      2 * up.length + 2 ≤ fuel →
      ∃ t tr, updateNodesAndRotateTrace fuel c up = .ok (t, tr) ∧ rotationCount tr ≤ 1 ∧
        ∀ e ∈ tr, e.2 = none → -1 ≤ e.1 ∧ e.1 ≤ 1 := by
  induction up with
  | nil =>
    intro h0 c fuel hc hu hf
    cases c with
    | nil => exact absurd hc id
    | node l k i b h r =>
      obtain ⟨hl, hr, hcase⟩ := hc
      obtain ⟨fuel1, rfl⟩ : ∃ m, fuel = m + 1 := ⟨fuel - 1, by omega⟩
      obtain ⟨fuel2, rfl⟩ : ∃ m, fuel1 = m + 1 := ⟨fuel1 - 1, by omega⟩
      have hnl := hl.nonneg
      have hnr := hr.nonneg
      have quiet : ∀ (n2 : Node K V) (x : Int × Option Rotation), n2.Good →
          1 ≤ n2.cachedHeight → x.2.isSome = true →
          ∃ t tr, withEntry x (updateNodesAndRotateTrace (fuel2 + 1) n2 []) = .ok (t, tr) ∧
            rotationCount tr ≤ 1 ∧ ∀ e ∈ tr, e.2 = none → -1 ≤ e.1 ∧ e.1 ≤ 1 := by
        intro n2 x g hp hx
        obtain ⟨tr, h1, h2⟩ := trace_good [] n2 (fuel2 + 1) g (by
          cases n2 with
          | nil => simp [cachedHeight_nil] at hp
          | node _ _ _ _ _ _ => rfl) (by simp)
        rw [h1]
        obtain ⟨xb, xo⟩ := x
        cases xo with
        | none => cases hx
        | some rot =>
          refine ⟨_, _, rfl, ?_, ?_⟩
          · rw [rotationCount_some, rotationCount_quiet tr h2]
          · intro e he hnone
            rcases List.mem_cons.mp he with he | he
            · subst he
              cases hnone
            · exact (h2 e he).2
      rcases hcase with ⟨a1, a2, a3⟩ | ⟨a1, a2⟩ | ⟨a1, a2, a3⟩ | ⟨a1, a2, a3⟩
      · rw [trace_norot_nil _ l k i b h r (by omega) (by omega)]
        refine ⟨_, _, rfl, Nat.zero_le 1, ?_⟩
        intro e he _
        rw [List.mem_singleton] at he
        subst he
        exact ⟨a2, a3⟩
      · rw [trace_norot_nil _ l k i b h r (by omega) (by omega)]
        refine ⟨_, _, rfl, Nat.zero_le 1, ?_⟩
        intro e he _
        rw [List.mem_singleton] at he
        subst he
        simp only
        omega
      · cases l with
        | nil => simp [Node.bf] at a3
        | node ll lk li lb lh lr =>
          simp only [cachedHeight_node, bf_node] at a1 a2 a3
          rcases a3 with a3 | a3
          · obtain ⟨n2, e, g, hh⟩ := ins_rotateRight k i b h hl hr a2 a3
            rw [trace_rotL _ ll lk li lb lh lr k i b h r [] n2 a2 (by rw [if_pos a3]; exact e)]
            exact quiet n2 _ g (by rw [hh]; exact hl.pos) rfl
          · obtain ⟨n2, e, g, hh⟩ := ins_rotateLeftRight k i b h hl hr a2 a3
            rw [trace_rotL _ ll lk li lb lh lr k i b h r [] n2 a2
              (by rw [if_neg (by omega)]; exact e)]
            exact quiet n2 _ g (by rw [hh]; exact hl.pos) rfl
      · cases r with
        | nil => simp [Node.bf] at a3
        | node rl rk ri rb rh rr =>
          simp only [cachedHeight_node, bf_node] at a1 a2 a3
          rcases a3 with a3 | a3
          · obtain ⟨n2, e, g, hh⟩ := ins_rotateLeft k i b h hl hr a2 a3
            rw [trace_rotR _ l k i b h rl rk ri rb rh rr [] n2 a2 (by rw [if_pos a3]; exact e)]
            exact quiet n2 _ g (by rw [hh]; exact hr.pos) rfl
          · obtain ⟨n2, e, g, hh⟩ := ins_rotateRightLeft k i b h hl hr a2 a3
            rw [trace_rotR _ l k i b h rl rk ri rb rh rr [] n2 a2
              (by rw [if_neg (by omega)]; exact e)]
            exact quiet n2 _ g (by rw [hh]; exact hr.pos) rfl
  | cons f rest ih =>
    intro h0 c fuel hc hu hf
    simp only [List.length_cons] at hf
    cases c with
    | nil => exact absurd hc id
    | node l k i b h r =>
      obtain ⟨hl, hr, hcase⟩ := hc
      obtain ⟨fuel1, rfl⟩ : ∃ m, fuel = m + 1 := ⟨fuel - 1, by omega⟩
      obtain ⟨fuel2, rfl⟩ : ∃ m, fuel1 = m + 1 := ⟨fuel1 - 1, by omega⟩
      have hnl := hl.nonneg
      have hnr := hr.nonneg
      have quiet : ∀ (n2 : Node K V) (x : Int × Option Rotation), n2.Good →
          n2.cachedHeight = h0 → 1 ≤ n2.cachedHeight → x.2.isSome = true →
          ∃ t tr, withEntry x (updateNodesAndRotateTrace (fuel2 + 1) n2 (f :: rest))
              = .ok (t, tr) ∧
            rotationCount tr ≤ 1 ∧ ∀ e ∈ tr, e.2 = none → -1 ≤ e.1 ∧ e.1 ≤ 1 := by
        intro n2 x g hh hp hx
        obtain ⟨tr, h1, h2⟩ := trace_good (f :: rest) n2 (fuel2 + 1)
          (good_rebuild (f :: rest) n2 g (hh ▸ hu)) (by
          cases n2 with
          | nil => simp [cachedHeight_nil] at hp
          | node _ _ _ _ _ _ => rfl) (by simp only [List.length_cons]; omega)
        rw [h1]
        obtain ⟨xb, xo⟩ := x
        cases xo with
        | none => cases hx
        | some rot =>
          refine ⟨_, _, rfl, ?_, ?_⟩
          · rw [rotationCount_some, rotationCount_quiet tr h2]
          · intro e he hnone
            rcases List.mem_cons.mp he with he | he
            · subst he
              cases hnone
            · exact (h2 e he).2
      have next : ∀ (c2 : Node K V) (bb : Int), c2.Good →
          (c2.cachedHeight = h0 ∨ (c2.cachedHeight = h0 + 1 ∧ c2.bf ≠ 0)) →
          -1 ≤ bb → bb ≤ 1 →
          ∃ t tr, withEntry (bb, none)
              (updateNodesAndRotateTrace (fuel2 + 1) (f.plug c2) rest) = .ok (t, tr) ∧
            rotationCount tr ≤ 1 ∧ ∀ e ∈ tr, e.2 = none → -1 ≤ e.1 ∧ e.1 ≤ 1 := by
        intro c2 bb g hh hb1 hb2
        obtain ⟨h1, hs, hu2⟩ := ins_state_plug f rest h0 c2 g hh hu
        obtain ⟨t, tr, e1, e2, e3⟩ := ih h1 (f.plug c2) (fuel2 + 1) hs hu2 (by omega)
        rw [e1]
        refine ⟨_, _, rfl, ?_, ?_⟩
        · rw [rotationCount_none]
          exact e2
        · intro e he hnone
          rcases List.mem_cons.mp he with he | he
          · subst he
            exact ⟨hb1, hb2⟩
          · exact e3 e he hnone
      rcases hcase with ⟨a1, a2, a3⟩ | ⟨a1, a2⟩ | ⟨a1, a2, a3⟩ | ⟨a1, a2, a3⟩
      · rw [trace_norot_cons _ l k i b h r f rest (by omega) (by omega)]
        exact next _ _ ⟨hl, hr, rfl, rfl, a2, a3⟩ (Or.inl a1) a2 a3
      · rw [trace_norot_cons _ l k i b h r f rest (by omega) (by omega)]
        refine next _ _ ⟨hl, hr, rfl, rfl, by omega, by omega⟩ (Or.inr ⟨a1, ?_⟩)
          (by omega) (by omega)
        rw [bf_node]
        omega
      · cases l with
        | nil => simp [Node.bf] at a3
        | node ll lk li lb lh lr =>
          simp only [cachedHeight_node, bf_node] at a1 a2 a3
          rcases a3 with a3 | a3
          · obtain ⟨n2, e, g, hh⟩ := ins_rotateRight k i b h hl hr a2 a3
            rw [trace_rotL _ ll lk li lb lh lr k i b h r _ n2 a2 (by rw [if_pos a3]; exact e)]
            exact quiet n2 _ g (by omega) (by rw [hh]; exact hl.pos) rfl
          · obtain ⟨n2, e, g, hh⟩ := ins_rotateLeftRight k i b h hl hr a2 a3
            rw [trace_rotL _ ll lk li lb lh lr k i b h r _ n2 a2
              (by rw [if_neg (by omega)]; exact e)]
            exact quiet n2 _ g (by omega) (by rw [hh]; exact hl.pos) rfl
      · cases r with
        | nil => simp [Node.bf] at a3
        | node rl rk ri rb rh rr =>
          simp only [cachedHeight_node, bf_node] at a1 a2 a3
          rcases a3 with a3 | a3
          · obtain ⟨n2, e, g, hh⟩ := ins_rotateLeft k i b h hl hr a2 a3
            rw [trace_rotR _ l k i b h rl rk ri rb rh rr _ n2 a2 (by rw [if_pos a3]; exact e)]
            exact quiet n2 _ g (by omega) (by rw [hh]; exact hr.pos) rfl
          · obtain ⟨n2, e, g, hh⟩ := ins_rotateRightLeft k i b h hl hr a2 a3
            rw [trace_rotR _ l k i b h rl rk ri rb rh rr _ n2 a2
              (by rw [if_neg (by omega)]; exact e)]
            exact quiet n2 _ g (by omega) (by rw [hh]; exact hr.pos) rfl

end AVL

namespace AVL

variable {K V : Type}

theorem withEntry_fst (e : Int × Option Rotation)
    (r : Res (Node K V × List (Int × Option Rotation))) :
    (match withEntry e r with
      | .ok p => Res.ok p.1
      | .fail f => Res.fail f) =
    (match r with
      | .ok p => Res.ok p.1
      | .fail f => Res.fail f) := by
  cases r <;> rfl

/-- Without the entries of the iterations, `updateNodesAndRotateTrace` is
`updateNodesAndRotate`. -/
theorem updateNodesAndRotateTrace_fst (fuel : Nat) :
    ∀ (c : Node K V) (up : List (Frame K V)),
      (match updateNodesAndRotateTrace fuel c up with
        | .ok p => Res.ok p.1
        | .fail f => Res.fail f) = updateNodesAndRotate fuel c up := by
  induction fuel with
  | zero => intro c up; rfl
  | succ fuel ih =>
    intro c up
    cases c with
    | nil => rfl
    | node l k i b h r =>
      unfold updateNodesAndRotateTrace updateNodesAndRotate
      simp only
      by_cases c1 : (updateNode (Node.node l k i b h r)).bf = -2
      · simp only [if_pos c1]
        cases l with
        | nil => rfl
        | node ll lk li lb lh lr =>
          simp only
          cases (if lb = -1 then rotateRight (updateNode (.node (.node ll lk li lb lh lr) k i b h r))
            else rotateLeftRight (updateNode (.node (.node ll lk li lb lh lr) k i b h r))) with
          | fail f => rfl
          | ok n2 =>
            simp only
            rw [withEntry_fst]
            exact ih n2 up
      · simp only [if_neg c1]
        by_cases c2 : (updateNode (Node.node l k i b h r)).bf = 2
        · simp only [if_pos c2]
          cases r with
          | nil => rfl
          | node rl rk ri rb rh rr =>
            simp only
            cases (if rb = 1 then rotateLeft (updateNode (.node l k i b h (.node rl rk ri rb rh rr)))
              else rotateRightLeft (updateNode (.node l k i b h (.node rl rk ri rb rh rr)))) with
            | fail f => rfl
            | ok n2 =>
              simp only
              rw [withEntry_fst]
              exact ih n2 up
        · simp only [if_neg c2]
          cases up with
          | nil => rfl
          | cons f rest =>
            simp only
            rw [withEntry_fst]
            exact ih _ _

section Order

variable [LinearOrder K]

theorem addNodeLoopTrace_node (fuel : Nat) (k : K) (i : V) (l : Node K V) (key : K) (info : V)
    (b h : Int) (r : Node K V) (up : List (Frame K V)) :
    addNodeLoopTrace fuel k i (.node l key info b h r) up =
    if key < k then
      match r with
      | .node rl rk ri rb rh rr =>
        addNodeLoopTrace fuel k i (.node rl rk ri rb rh rr) (.inRight l key info b h :: up)
      | .nil =>
        if !l.isNode then
          match updateNodesAndRotateTrace fuel (.node l key info b h (Node.leaf k i)) up with
          | .fail f => .fail f
          | .ok t => .ok (some t)
        else .ok (some (rebuild (.node l key info 0 h (Node.leaf k i)) up, []))
    else if k < key then
      match l with
      | .node ll lk li lb lh lr =>
        addNodeLoopTrace fuel k i (.node ll lk li lb lh lr) (.inLeft key info b h r :: up)
      | .nil =>
        if !r.isNode then
          match updateNodesAndRotateTrace fuel (.node (Node.leaf k i) key info b h r) up with
          | .fail f => .fail f
          | .ok t => .ok (some t)
        else .ok (some (rebuild (.node (Node.leaf k i) key info 0 h r) up, []))
    else .ok none := by
  cases l <;> cases r <;> rfl

/-- Without the entries of the iterations, `addNodeLoopTrace` is
`addNodeLoop`. -/
theorem addNodeLoopTrace_fst (fuel : Nat) (k : K) (i : V) :
    ∀ (c : Node K V) (up : List (Frame K V)),
      (match addNodeLoopTrace fuel k i c up with
        | .ok (some p) => Res.ok (some p.1)
        | .ok none => Res.ok none
        | .fail f => Res.fail f) = addNodeLoop fuel k i c up := by
  intro c
  induction c with
  | nil => intro up; rfl
  | node l key info b h r ihl ihr =>
    intro up
    rw [addNodeLoopTrace_node, addNodeLoop_node]
    by_cases c1 : key < k
    · simp only [if_pos c1]
      cases r with
      | node rl rk ri rb rh rr => exact ihr _
      | nil =>
        simp only
        by_cases c3 : (!l.isNode) = true
        · simp only [if_pos c3]
          rw [← updateNodesAndRotateTrace_fst]
          cases updateNodesAndRotateTrace fuel (.node l key info b h (Node.leaf k i)) up <;> rfl
        · simp only [if_neg c3]
    · simp only [if_neg c1]
      by_cases c2 : k < key
      · simp only [if_pos c2]
        cases l with
        | node ll lk li lb lh lr => exact ihl _
        | nil =>
          simp only
          by_cases c3 : (!r.isNode) = true
          · simp only [if_pos c3]
            rw [← updateNodesAndRotateTrace_fst]
            cases updateNodesAndRotateTrace fuel (.node (Node.leaf k i) key info b h r) up <;> rfl
          · simp only [if_neg c3]
      · simp only [if_neg c2]

/-- Without the entries of the iterations, `Dictionary.addNodeTrace` is
`Dictionary.addNode`. -/
theorem Dictionary.addNodeTrace_fst (fuel : Nat) (d : Dictionary K V) (k : K) (i : V) :
    (match d.addNodeTrace fuel k i with
      | .ok p => Res.ok (p.1, p.2.1)
      | .fail f => Res.fail f) = d.addNode fuel k i := by
  unfold Dictionary.addNodeTrace Dictionary.addNode
  by_cases c : d.size = 0
  · simp only [if_pos c]
  · simp only [if_neg c]
    rw [← addNodeLoopTrace_fst]
    cases addNodeLoopTrace fuel k i d.root [] with
    | fail f => rfl
    | ok o => cases o <;> rfl

/-- The loop of `addNode` on a tree whose cached fields are right and in
range: a rotation member is called in at most one iteration of the
up-propagation, and in every other iteration the balance factor written is in
range. -/
theorem addNodeLoop_trace (fuel : Nat) (k : K) (i : V) (c : Node K V)
    (up : List (Frame K V)) (hc : c.Good) (hn : c.isNode = true)
    (hu : GoodCtx up c.cachedHeight) (hf : 2 * (up.length + c.count) ≤ fuel) :
    ∃ o, addNodeLoopTrace fuel k i c up = .ok o ∧ ∀ p, o = some p →
      rotationCount p.2 ≤ 1 ∧ ∀ e ∈ p.2, e.2 = none → -1 ≤ e.1 ∧ e.1 ≤ 1 := by
  induction c generalizing up with
  | nil => simp [Node.isNode] at hn
  | node l key info b h r ihl ihr =>
    obtain ⟨hl, hr, e1, e2, e3, e4⟩ := hc
    have hnl := hl.nonneg
    have hnr := hr.nonneg
    simp only [cachedHeight_node] at hu
    simp only [Node.count] at hf
    rw [addNodeLoopTrace_node]
    by_cases h1 : key < k
    · simp only [h1, if_true]
      cases r with
      | node rl rk ri rb rh rr =>
        exact ihr (Frame.inRight l key info b h :: up) hr rfl
          ⟨hl, e1, e2, e3, e4, hu⟩ (by simp only [List.length_cons]; omega)
      | nil =>
        simp only
        simp only [cachedHeight_nil] at e1 e2
        cases l with
        | nil =>
          simp only [Node.isNode, Bool.not_false, if_true]
          simp only [cachedHeight_nil] at e1 e2
          obtain ⟨t, tr, ht, hg1, hg2⟩ := ins_trace up h
            (.node .nil key info b h (Node.leaf k i)) fuel
            ⟨trivial, good_leaf k i, Or.inr (Or.inl ⟨by
              simp only [cachedHeight_nil, cachedHeight_leaf]; omega, by
              simp only [cachedHeight_nil, cachedHeight_leaf]; omega⟩)⟩ hu (by omega)
          rw [ht]
          exact ⟨some (t, tr), rfl, fun p hp => by cases hp; exact ⟨hg1, hg2⟩⟩
        | node ll lk li lb lh lr =>
          simp only [Node.isNode, Bool.not_true, Bool.false_eq_true, if_false]
          refine ⟨_, rfl, fun p hp => ?_⟩
          cases hp
          exact ⟨Nat.zero_le 1, fun e he => absurd he (List.not_mem_nil e)⟩
    · simp only [h1, if_false]
      by_cases h2 : k < key
      · simp only [h2, if_true]
        cases l with
        | node ll lk li lb lh lr =>
          exact ihl (Frame.inLeft key info b h r :: up) hl rfl
            ⟨hr, e1, e2, e3, e4, hu⟩ (by simp only [List.length_cons]; omega)
        | nil =>
          simp only
          simp only [cachedHeight_nil] at e1 e2
          cases r with
          | nil =>
            simp only [Node.isNode, Bool.not_false, if_true]
            simp only [cachedHeight_nil] at e1 e2
            obtain ⟨t, tr, ht, hg1, hg2⟩ := ins_trace up h
              (.node (Node.leaf k i) key info b h .nil) fuel
              ⟨good_leaf k i, trivial, Or.inr (Or.inl ⟨by
                simp only [cachedHeight_nil, cachedHeight_leaf]; omega, by
                simp only [cachedHeight_nil, cachedHeight_leaf]; omega⟩)⟩ hu (by omega)
            rw [ht]
            exact ⟨some (t, tr), rfl, fun p hp => by cases hp; exact ⟨hg1, hg2⟩⟩
          | node rl rk ri rb rh rr =>
            simp only [Node.isNode, Bool.not_true, Bool.false_eq_true, if_false]
            refine ⟨_, rfl, fun p hp => ?_⟩
            cases hp
            exact ⟨Nat.zero_le 1, fun e he => absurd he (List.not_mem_nil e)⟩
      · simp only [h2, if_false]
        exact ⟨none, rfl, fun p hp => by cases hp⟩

end Order

end AVL

namespace AVL

variable {K V : Type}

section Order

variable [LinearOrder K]

/-- What `addNode` with the entries of its up-propagation returns on a
well-formed dictionary. -/
theorem Dictionary.addNodeTrace_spec (d : Dictionary K V) (k : K) (i : V) (fuel : Nat)
    (hw : d.WellFormed) (hf : 2 * d.root.count ≤ fuel) :
    ∃ b d2 trace, d.addNodeTrace fuel k i = .ok (b, d2, trace) ∧
      d.addNode fuel k i = .ok (b, d2) ∧ rotationCount trace ≤ 1 ∧
      ∀ e ∈ trace, e.2 = none → -1 ≤ e.1 ∧ e.1 ≤ 1 := by
  have hfst := d.addNodeTrace_fst fuel k i
  have key : ∃ b d2 trace, d.addNodeTrace fuel k i = .ok (b, d2, trace) ∧
      rotationCount trace ≤ 1 ∧ ∀ e ∈ trace, e.2 = none → -1 ≤ e.1 ∧ e.1 ≤ 1 := by
    unfold Dictionary.addNodeTrace
    by_cases c : d.size = 0
    · rw [if_pos c]
      exact ⟨_, _, _, rfl, Nat.zero_le 1, fun e he => absurd he (List.not_mem_nil e)⟩
    · rw [if_neg c]
      have hn : d.root.isNode = true := by
        cases hr : d.root with
        | nil =>
          have := hw.size_eq
          rw [hr] at this
          exact absurd this c
        | node _ _ _ _ _ _ => rfl
      obtain ⟨o, h1, h2⟩ := addNodeLoop_trace fuel k i d.root [] hw.good hn trivial
        (by simpa using hf)
      rw [h1]
      cases o with
      | none => exact ⟨_, _, _, rfl, Nat.zero_le 1, fun e he => absurd he (List.not_mem_nil e)⟩
      | some p => exact ⟨_, _, _, rfl, (h2 p rfl).1, (h2 p rfl).2⟩
  obtain ⟨b, d2, trace, h1, h2, h3⟩ := key
  rw [h1] at hfst
  exact ⟨b, d2, trace, h1, hfst.symm, h2, h3⟩

/-- C34: on a well-formed dictionary `addNode` returns (with two iterations of
the up-propagation granted per node), and among the iterations of its
up-propagation, one per node on the way from the parent of the new leaf to the
root and one more on the promoted node after a rotation, at most one calls a
rotation member (a single or a double rotation); in every other iteration the
balance factor `updateNode` writes is -1, 0 or 1. -/
theorem C34_at_most_one_rotation (d : Dictionary K V) (k : K) (i : V) (fuel : Nat)
    (hw : d.WellFormed) (hf : 2 * d.root.count ≤ fuel) :
    ∃ b d2 trace, d.addNodeTrace fuel k i = .ok (b, d2, trace) ∧
      d.addNode fuel k i = .ok (b, d2) ∧ rotationCount trace ≤ 1 ∧
      ∀ e ∈ trace, e.2 = none → -1 ≤ e.1 ∧ e.1 ≤ 1 :=
  d.addNodeTrace_spec k i fuel hw hf

end Order

/-- The insertion of key 9 into `builtDict`: the up-propagation goes through
the nodes of keys 8 and 7, calls `rotateLeft` at the node of key 7, and goes on
through the promoted node of key 8 and the root. -/
theorem addNodeTrace_builtDict :
    builtDict.addNodeTrace 16 9 0 = .ok (true, builtDictWith9,
      [(1, none), (2, some Rotation.rotateLeft), (0, none), (-1, none)]) := by
  decide

/-- C34, at the insertion of key 9 into `builtDict`. -/
theorem C34_witness :
    builtDict.WellFormed ∧ 2 * builtDict.root.count ≤ 16 ∧
    ∃ b d2 trace, builtDict.addNodeTrace 16 9 0 = .ok (b, d2, trace) ∧
      builtDict.addNode 16 9 0 = .ok (b, d2) ∧ rotationCount trace ≤ 1 ∧
      ∀ e ∈ trace, e.2 = none → -1 ≤ e.1 ∧ e.1 ≤ 1 := by
  have h := C34_at_most_one_rotation builtDict 9 0 16 (by decide) (by decide)
  exact ⟨by decide, by decide, h⟩

end AVL

namespace AVL

variable {K V : Type}

namespace Linked

theorem rotateRight_returns (o : Option Nat) (n : Node K (Cell V)) (hp : ParentOK o n)
    (hl : n.getLeft.isNode = true) : ∃ n2, rotateRight o n = .ok n2 ∧ n2.isNode = true := by
  match n, hp, hl with
  | .node (.node n3 k2 c2 b2 h2 temp) k1 c1 b1 h1 r, ⟨e1, _, _⟩, _ =>
    rw [rotateRight, if_neg (not_not.mpr e1)]
    exact ⟨_, rfl, rfl⟩

theorem rotateLeft_returns (o : Option Nat) (n : Node K (Cell V)) (hp : ParentOK o n)
    (hr : n.getRight.isNode = true) : ∃ n2, rotateLeft o n = .ok n2 ∧ n2.isNode = true := by
  match n, hp, hr with
  | .node l k1 c1 b1 h1 (.node temp k2 c2 b2 h2 n3), ⟨e1, _, _⟩, _ =>
    rw [rotateLeft, if_neg (not_not.mpr e1)]
    exact ⟨_, rfl, rfl⟩

theorem rotateLeftRight_returns (o : Option Nat) (n : Node K (Cell V)) (hp : ParentOK o n)
    (hl : n.getLeft.isNode = true) (hlr : n.getLeft.getRight.isNode = true) :
    ∃ n2, rotateLeftRight o n = .ok n2 := by
  match n, hp, hl with
  | .node (.node ll lk lc lb lh lr) k c b h r, ⟨e1, a1, a2⟩, _ =>
    obtain ⟨l2, e, hn⟩ := rotateLeft_returns (some c.addr) (.node ll lk lc lb lh lr) a1 hlr
    have hk := rotateLeft_kept (some c.addr) (.node ll lk lc lb lh lr) a1
    rw [e] at hk
    obtain ⟨n2, e2, -⟩ := rotateRight_returns o (.node l2 k c b h r) ⟨e1, hk, a2⟩ hn
    refine ⟨n2, ?_⟩
    simp only [rotateLeftRight, e]
    exact e2

theorem rotateRightLeft_returns (o : Option Nat) (n : Node K (Cell V)) (hp : ParentOK o n)
    (hr : n.getRight.isNode = true) (hrl : n.getRight.getLeft.isNode = true) :
    ∃ n2, rotateRightLeft o n = .ok n2 := by
  match n, hp, hr with
  | .node l k c b h (.node rl rk rc rb rh rr), ⟨e1, a1, a2⟩, _ =>
    obtain ⟨r2, e, hn⟩ := rotateRight_returns (some c.addr) (.node rl rk rc rb rh rr) a2 hrl
    have hk := rotateRight_kept (some c.addr) (.node rl rk rc rb rh rr) a2
    rw [e] at hk
    obtain ⟨n2, e2, -⟩ := rotateLeft_returns o (.node l k c b h r2) ⟨e1, a1, hk⟩ hn
    refine ⟨n2, ?_⟩
    simp only [rotateRightLeft, e]
    exact e2

theorem toList_of_erase {rot : Option Nat → Node K (Cell V) → Res (Node K (Cell V))}
    {base : Node K V → Res (Node K V)} {o : Option Nat} {n n2 : Node K (Cell V)}
    (he : mapRes erase (rot o n) = base (erase n)) (e : rot o n = .ok n2)
    (hb : ∀ t t2 : Node K V, base t = .ok t2 → t2.toList = t.toList) :
    (erase n2).toList = (erase n).toList := by
  rw [e] at he
  exact hb _ _ he.symm

section Order

variable [LinearOrder K]

/-- A rotation that returns, commutes with erasure into a rotation that keeps
the in-order sequence, and keeps the links below it consistent, is a rotation
member that keeps the sequence and the links of the whole tree. -/
theorem keepsSequence_of (rot : Option Nat → Node K (Cell V) → Res (Node K (Cell V)))
    (d : Dictionary K V) (it : Iterator K (Cell V))
    (hon : rebuild it.curr it.up = d.tree.root) (hp : ParentOK none d.tree.root)
    (n2 : Node K (Cell V)) (e : rot (above it.up) it.curr = .ok n2)
    (hl : (erase n2).toList = (erase it.curr).toList) (hk : ParentOK (above it.up) n2) :
    KeepsSequence d (d.rotateAt rot it) := by
  have h0 := (parentOK_rebuild it.up it.curr).mp (hon ▸ hp)
  have hlist : (erase (rebuild n2 it.up)).toList = (erase d.tree.root).toList := by
    rw [← hon, erase_rebuild, erase_rebuild, toList_rebuild, toList_rebuild, hl]
  refine ⟨⟨{ d.tree with root := rebuild n2 it.up }, d.fresh⟩, ?_, hlist, ?_, ?_, ?_⟩
  · unfold Dictionary.rotateAt
    rw [e]
  · show (erase (rebuild n2 it.up)).keys = (erase d.tree.root).keys
    unfold Node.keys
    rw [hlist]
  · intro hb
    show (erase (rebuild n2 it.up)).BST
    rw [bst_iff_sorted] at hb ⊢
    unfold Node.keys at hb ⊢
    rw [hlist]
    exact hb
  · exact (parentOK_rebuild it.up n2).mpr ⟨hk, h0.2⟩

/-- The four rotation members keep the in-order sequence of the whole tree and
the consistency of its parent links. -/
theorem rotations_keep_sequence (d : Dictionary K V) (it : Iterator K (Cell V))
    (hon : rebuild it.curr it.up = d.tree.root) (hp : ParentOK none d.tree.root) :
    (it.curr.getLeft.isNode = true → KeepsSequence d (d.rotateRight it)) ∧
    (it.curr.getRight.isNode = true → KeepsSequence d (d.rotateLeft it)) ∧
    (it.curr.getLeft.isNode = true → it.curr.getLeft.getRight.isNode = true →
      KeepsSequence d (d.rotateLeftRight it)) ∧
    (it.curr.getRight.isNode = true → it.curr.getRight.getLeft.isNode = true →
      KeepsSequence d (d.rotateRightLeft it)) := by
  have h0 := (parentOK_rebuild it.up it.curr).mp (hon ▸ hp)
  refine ⟨?_, ?_, ?_, ?_⟩
  · intro hl
    obtain ⟨n2, e, -⟩ := rotateRight_returns (above it.up) it.curr h0.1 hl
    have hk := rotateRight_kept (above it.up) it.curr h0.1
    rw [e] at hk
    exact keepsSequence_of Linked.rotateRight d it hon hp n2 e
      (toList_of_erase (rotateRight_erase _ _ h0.1) e (fun _ _ h => toList_rotateRight h)) hk
  · intro hr
    obtain ⟨n2, e, -⟩ := rotateLeft_returns (above it.up) it.curr h0.1 hr
    have hk := rotateLeft_kept (above it.up) it.curr h0.1
    rw [e] at hk
    exact keepsSequence_of Linked.rotateLeft d it hon hp n2 e
      (toList_of_erase (rotateLeft_erase _ _ h0.1) e (fun _ _ h => toList_rotateLeft h)) hk
  · intro hl hlr
    obtain ⟨n2, e⟩ := rotateLeftRight_returns (above it.up) it.curr h0.1 hl hlr
    have hk := rotateLeftRight_kept (above it.up) it.curr h0.1
    rw [e] at hk
    exact keepsSequence_of Linked.rotateLeftRight d it hon hp n2 e
      (toList_of_erase (rotateLeftRight_erase _ _ h0.1) e
        (fun _ _ h => toList_rotateLeftRight h)) hk
  · intro hr hrl
    obtain ⟨n2, e⟩ := rotateRightLeft_returns (above it.up) it.curr h0.1 hr hrl
    have hk := rotateRightLeft_kept (above it.up) it.curr h0.1
    rw [e] at hk
    exact keepsSequence_of Linked.rotateRightLeft d it hon hp n2 e
      (toList_of_erase (rotateRightLeft_erase _ _ h0.1) e
        (fun _ _ h => toList_rotateRightLeft h)) hk

end Order

end Linked

/-- C31: in a tree with consistent parent links, at every node that has a left
child `rotateRight` returns, the in-order sequence of key/info pairs of the
whole tree after the call is the one before, hence the keys are the same and
the search-tree order is kept, and the parent links are consistent after it;
the same holds for `rotateLeft` at every node that has a right child, for
`rotateLeftRight` at every node whose left child has a right child, and for
`rotateRightLeft` at every node whose right child has a left child. -/
theorem C31_rotations_keep_sequence_and_links [LinearOrder K] (d : Linked.Dictionary K V)
    (it : Iterator K (Cell V)) (hon : rebuild it.curr it.up = d.tree.root)
    (hp : Linked.ParentOK none d.tree.root) :
    (it.curr.getLeft.isNode = true → Linked.KeepsSequence d (d.rotateRight it)) ∧
    (it.curr.getRight.isNode = true → Linked.KeepsSequence d (d.rotateLeft it)) ∧
    (it.curr.getLeft.isNode = true → it.curr.getLeft.getRight.isNode = true →
      Linked.KeepsSequence d (d.rotateLeftRight it)) ∧
    (it.curr.getRight.isNode = true → it.curr.getRight.getLeft.isNode = true →
      Linked.KeepsSequence d (d.rotateRightLeft it)) :=
  Linked.rotations_keep_sequence d it hon hp

/-- C31, at the root of `Linked.afterDelete3`, which has both children and
whose right child has a left child. -/
theorem C31_witness :
    Linked.ParentOK none Linked.afterDelete3.tree.root ∧
    Linked.KeepsSequence Linked.afterDelete3
      (Linked.afterDelete3.rotateRight ⟨Linked.afterDelete3.tree.root, [], some 0⟩) ∧
    Linked.KeepsSequence Linked.afterDelete3
      (Linked.afterDelete3.rotateLeft ⟨Linked.afterDelete3.tree.root, [], some 0⟩) ∧
    Linked.KeepsSequence Linked.afterDelete3
      (Linked.afterDelete3.rotateRightLeft ⟨Linked.afterDelete3.tree.root, [], some 0⟩) := by
  have h := C31_rotations_keep_sequence_and_links Linked.afterDelete3
    ⟨Linked.afterDelete3.tree.root, [], some 0⟩ rfl (by decide)
  exact ⟨by decide, h.1 rfl, h.2.1 rfl, h.2.2.2 rfl rfl⟩

end AVL

namespace AVL

variable {K V : Type}

namespace Linked

/-! ## The memory of a tree, node by node -/

theorem fieldsAt_node (a : Nat) (l : Node K (Cell V)) (k : K) (c : Cell V) (b h : Int)
    (r : Node K (Cell V)) :
    fieldsAt a (.node l k c b h r) =
      if c.addr = a then some ⟨k, c.info, c.parent, addrOf l, addrOf r, b, h⟩
      else
        match fieldsAt a l with
        | some f => some f
        | none => fieldsAt a r := rfl

theorem addrOf_mem (t : Node K (Cell V)) (b : Nat) (h : addrOf t = some b) : b ∈ addrs t := by
  cases t with
  | nil => cases h
  | node l k c bb hh r =>
    cases h
    simp [addrs]

theorem fieldsAt_of_not_mem (a : Nat) (t : Node K (Cell V)) (h : a ∉ addrs t) :
    fieldsAt a t = none := by
  induction t with
  | nil => rfl
  | node l k c b hh r ihl ihr =>
    simp only [addrs, List.mem_append, List.mem_cons, not_or] at h
    rw [fieldsAt_node, if_neg (fun e => h.2.1 e.symm), ihl h.1, ihr h.2.2]

theorem mem_of_fieldsAt (a : Nat) (t : Node K (Cell V)) (f : Fields K V)
    (h : fieldsAt a t = some f) : a ∈ addrs t := by
  by_contra hn
  rw [fieldsAt_of_not_mem a t hn] at h
  cases h

/-- The child links of a node of a tree designate nodes of the tree. -/
theorem links_mem (a : Nat) (t : Node K (Cell V)) :
    ∀ f, fieldsAt a t = some f →
      (∀ b, f.left = some b → b ∈ addrs t) ∧ (∀ b, f.right = some b → b ∈ addrs t) := by
  induction t with
  | nil =>
    intro f h
    cases h
  | node l k c b hh r ihl ihr =>
    intro f h
    rw [fieldsAt_node] at h
    by_cases c1 : c.addr = a
    · rw [if_pos c1] at h
      cases h
      constructor
      · intro x hx
        have := addrOf_mem l x hx
        simp [addrs, this]
      · intro x hx
        have := addrOf_mem r x hx
        simp [addrs, this]
    · rw [if_neg c1] at h
      cases hl : fieldsAt a l with
      | some g =>
        rw [hl] at h
        have e : g = f := Option.some.inj h
        rw [← e]
        obtain ⟨h1, h2⟩ := ihl g hl
        constructor
        · intro x hx
          have := h1 x hx
          simp [addrs, this]
        · intro x hx
          have := h2 x hx
          simp [addrs, this]
      | none =>
        rw [hl] at h
        obtain ⟨h1, h2⟩ := ihr f h
        constructor
        · intro x hx
          have := h1 x hx
          simp [addrs, this]
        · intro x hx
          have := h2 x hx
          simp [addrs, this]

/-- A node that a rotation does not touch satisfies what `RotationFrame` asks,
as soon as its child links do not designate `n1`. -/
theorem frame_same (n1 n2 : Nat) (t : Option Nat) (a : Nat) (f : Fields K V)
    (hl : f.left ≠ some n1) (hr : f.right ≠ some n1) :
    f.key = f.key ∧ f.info = f.info ∧
      (a ≠ n1 → a ≠ n2 →
        f.bfactor = f.bfactor ∧ f.height = f.height ∧
        f.left = (if f.left = some n1 then some n2 else f.left) ∧
        f.right = (if f.right = some n1 then some n2 else f.right) ∧
        (some a ≠ t → f.parent = f.parent)) :=
  ⟨rfl, rfl, fun _ _ => ⟨rfl, rfl, by rw [if_neg hl], by rw [if_neg hr], fun _ => rfl⟩⟩

/-- A node found in a subtree that does not hold `n1` is a node a rotation at
`n1` does not touch. -/
theorem frame_in (n1 n2 : Nat) (t : Option Nat) (a : Nat) (s : Node K (Cell V))
    (hs : n1 ∉ addrs s) (f : Fields K V) (h : fieldsAt a s = some f) :
    f.key = f.key ∧ f.info = f.info ∧
      (a ≠ n1 → a ≠ n2 →
        f.bfactor = f.bfactor ∧ f.height = f.height ∧
        f.left = (if f.left = some n1 then some n2 else f.left) ∧
        f.right = (if f.right = some n1 then some n2 else f.right) ∧
        (some a ≠ t → f.parent = f.parent)) := by
  obtain ⟨h1, h2⟩ := links_mem a s f h
  exact frame_same n1 n2 t a f (fun e => hs (h1 n1 e)) (fun e => hs (h2 n1 e))

theorem fieldsAt_setParent (a : Nat) (q : Option Nat) (t : Node K (Cell V)) :
    (fieldsAt a t = none → fieldsAt a (setParent q t) = none) ∧
    ∀ f, fieldsAt a t = some f →
      ∃ f2, fieldsAt a (setParent q t) = some f2 ∧ f2.key = f.key ∧ f2.info = f.info ∧
        f2.left = f.left ∧ f2.right = f.right ∧ f2.bfactor = f.bfactor ∧
        f2.height = f.height ∧ (some a ≠ addrOf t → f2.parent = f.parent) := by
  cases t with
  | nil => exact ⟨fun _ => rfl, fun f h => by cases h⟩
  | node l k c b hh r =>
    rw [setParent, fieldsAt_node, fieldsAt_node]
    by_cases c1 : c.addr = a
    · rw [if_pos c1, if_pos c1]
      refine ⟨fun h => (by cases h), fun f h => ?_⟩
      cases h
      exact ⟨_, rfl, rfl, rfl, rfl, rfl, rfl, rfl, fun hne => absurd (by rw [addrOf, c1]) hne⟩
    · rw [if_neg c1, if_neg c1]
      exact ⟨fun h => h, fun f h => ⟨f, h, rfl, rfl, rfl, rfl, rfl, rfl, fun _ => rfl⟩⟩

end Linked

end AVL

namespace AVL

variable {K V : Type}

namespace Linked

theorem nodup_node (l : Node K (Cell V)) (k : K) (c : Cell V) (b h : Int) (r : Node K (Cell V))
    (hd : (addrs (.node l k c b h r)).Nodup) :
    (addrs l).Nodup ∧ (addrs r).Nodup ∧ c.addr ∉ addrs l ∧ c.addr ∉ addrs r ∧
      ∀ x ∈ addrs l, x ∉ addrs r := by
  simp only [addrs, List.nodup_append, List.nodup_cons, List.disjoint_cons_right] at hd
  obtain ⟨h1, ⟨h2, h3⟩, h4, h5⟩ := hd
  exact ⟨h1, h3, h4, h2, fun x hx hx2 => h5 hx hx2⟩

/-- The memory after `rotateRight` against the memory before, in the subtree
of the pivot. -/
theorem rotateRight_frame (o : Option Nat) (n3 : Node K (Cell V)) (k2 : K) (c2 : Cell V)
    (b2 h2 : Int) (t : Node K (Cell V)) (k1 : K) (c1 : Cell V) (b1 h1 : Int)
    (r : Node K (Cell V)) (e1 : c1.parent = o)
    (hd : (addrs (.node (.node n3 k2 c2 b2 h2 t) k1 c1 b1 h1 r)).Nodup) :
    ∃ n2, rotateRight o (.node (.node n3 k2 c2 b2 h2 t) k1 c1 b1 h1 r) = .ok n2 ∧
      addrOf n2 = some c2.addr ∧
      RotationFrame c1.addr c2.addr (addrOf t) (.node (.node n3 k2 c2 b2 h2 t) k1 c1 b1 h1 r)
        n2 := by
  obtain ⟨hdl, hdr, m1, m2, m3⟩ := nodup_node _ _ _ _ _ _ hd
  obtain ⟨hd3, hdt, m4, m5, m6⟩ := nodup_node _ _ _ _ _ _ hdl
  have m7 : c1.addr ≠ c2.addr := fun e => m1 (by simp [addrs, e])
  have m8 : c1.addr ∉ addrs n3 := fun e => m1 (by simp [addrs, e])
  have m9 : c1.addr ∉ addrs t := fun e => m1 (by simp [addrs, e])
  rw [rotateRight, if_neg (not_not.mpr e1)]
  refine ⟨_, rfl, rfl, ?_⟩
  intro a
  rw [updateNode_node, updateNode_node, fieldsAt_node, fieldsAt_node, fieldsAt_node,
    fieldsAt_node]
  by_cases ha1 : c1.addr = a
  · subst ha1
    rw [if_pos rfl, if_neg (Ne.symm m7), fieldsAt_of_not_mem _ n3 m8]
    simp only [if_true]
    refine ⟨fun h => (by cases h), fun f h => ?_⟩
    cases h
    exact ⟨_, rfl, rfl, rfl, fun hne => absurd rfl hne⟩
  · rw [if_neg ha1]
    simp only [if_neg ha1]
    by_cases ha2 : c2.addr = a
    · subst ha2
      simp only [if_true]
      refine ⟨fun h => (by cases h), fun f h => ?_⟩
      cases h
      exact ⟨_, rfl, rfl, rfl, fun _ hne => absurd rfl hne⟩
    · simp only [if_neg ha2]
      cases h3 : fieldsAt a n3 with
      | some g =>
        simp only []
        refine ⟨fun h => (by cases h), fun f h => ?_⟩
        cases h
        exact ⟨g, rfl, frame_in _ _ _ a n3 m8 g h3⟩
      | none =>
        simp only []
        obtain ⟨s1, s2⟩ := fieldsAt_setParent a (some c1.addr) t
        cases h4 : fieldsAt a t with
        | some g =>
          obtain ⟨g2, q1, q2, q3, q4, q5, q6, q7, q8⟩ := s2 g h4
          rw [q1]
          simp only []
          refine ⟨fun h => (by cases h), fun f h => ?_⟩
          cases h
          obtain ⟨l1, l2⟩ := links_mem a t g h4
          refine ⟨g2, rfl, q2, q3, fun _ _ => ⟨q6, q7, ?_, ?_, q8⟩⟩
          · rw [q4, if_neg (fun e => m9 (l1 _ e))]
          · rw [q5, if_neg (fun e => m9 (l2 _ e))]
        | none =>
          rw [s1 h4]
          simp only []
          refine ⟨fun h => h, fun f h => ⟨f, h, frame_in _ _ _ a r m2 f h⟩⟩

end Linked

end AVL

namespace AVL

variable {K V : Type}

namespace Linked

/-- The memory after `rotateLeft` against the memory before, in the subtree of
the pivot. -/
theorem rotateLeft_frame (o : Option Nat) (l : Node K (Cell V)) (k1 : K) (c1 : Cell V)
    (b1 h1 : Int) (t : Node K (Cell V)) (k2 : K) (c2 : Cell V) (b2 h2 : Int)
    (n3 : Node K (Cell V)) (e1 : c1.parent = o)
    (hd : (addrs (.node l k1 c1 b1 h1 (.node t k2 c2 b2 h2 n3))).Nodup) :
    ∃ n2, rotateLeft o (.node l k1 c1 b1 h1 (.node t k2 c2 b2 h2 n3)) = .ok n2 ∧
      addrOf n2 = some c2.addr ∧
      RotationFrame c1.addr c2.addr (addrOf t) (.node l k1 c1 b1 h1 (.node t k2 c2 b2 h2 n3))
        n2 := by
  obtain ⟨hdl, hdr, m1, m2, m3⟩ := nodup_node _ _ _ _ _ _ hd
  obtain ⟨hdt, hd3, m4, m5, m6⟩ := nodup_node _ _ _ _ _ _ hdr
  have m7 : c1.addr ≠ c2.addr := fun e => m2 (by simp [addrs, e])
  have m8 : c1.addr ∉ addrs n3 := fun e => m2 (by simp [addrs, e])
  have m9 : c1.addr ∉ addrs t := fun e => m2 (by simp [addrs, e])
  have m10 : c2.addr ∉ addrs l := fun e => m3 _ e (by simp [addrs])
  rw [rotateLeft, if_neg (not_not.mpr e1)]
  refine ⟨_, rfl, rfl, ?_⟩
  intro a
  rw [updateNode_node, updateNode_node, fieldsAt_node, fieldsAt_node, fieldsAt_node,
    fieldsAt_node]
  by_cases ha1 : c1.addr = a
  · subst ha1
    rw [if_pos rfl, if_neg (Ne.symm m7)]
    simp only [if_true]
    refine ⟨fun h => (by cases h), fun f h => ?_⟩
    cases h
    exact ⟨_, rfl, rfl, rfl, fun hne => absurd rfl hne⟩
  · rw [if_neg ha1]
    simp only [if_neg ha1]
    by_cases ha2 : c2.addr = a
    · subst ha2
      rw [fieldsAt_of_not_mem _ l m10]
      simp only [if_true]
      refine ⟨fun h => (by cases h), fun f h => ?_⟩
      cases h
      exact ⟨_, rfl, rfl, rfl, fun _ hne => absurd rfl hne⟩
    · simp only [if_neg ha2]
      cases h3 : fieldsAt a l with
      | some g =>
        simp only []
        refine ⟨fun h => (by cases h), fun f h => ?_⟩
        cases h
        exact ⟨g, rfl, frame_in _ _ _ a l m1 g h3⟩
      | none =>
        simp only []
        obtain ⟨s1, s2⟩ := fieldsAt_setParent a (some c1.addr) t
        cases h4 : fieldsAt a t with
        | some g =>
          obtain ⟨g2, q1, q2, q3, q4, q5, q6, q7, q8⟩ := s2 g h4
          rw [q1]
          simp only []
          refine ⟨fun h => (by cases h), fun f h => ?_⟩
          cases h
          obtain ⟨l1, l2⟩ := links_mem a t g h4
          refine ⟨g2, rfl, q2, q3, fun _ _ => ⟨q6, q7, ?_, ?_, q8⟩⟩
          · rw [q4, if_neg (fun e => m9 (l1 _ e))]
          · rw [q5, if_neg (fun e => m9 (l2 _ e))]
        | none =>
          rw [s1 h4]
          simp only []
          refine ⟨fun h => h, fun f h => ⟨f, h, frame_in _ _ _ a n3 m8 f h⟩⟩

/-- What `RotationFrame` allows below a node, it allows at the node, the other
subtree and the node itself being what they were and the child link following
the place of the pivot. -/
theorem frame_plug (n1 n2 : Nat) (t : Option Nat) (f : Frame K (Cell V))
    (x y : Node K (Cell V)) (hrel : RotationFrame n1 n2 t x y)
    (haddr : addrOf y = (if addrOf x = some n1 then some n2 else addrOf x))
    (hf : n1 ∉ ctxAddrs [f]) :
    RotationFrame n1 n2 t (f.plug x) (f.plug y) ∧
      addrOf (f.plug y) = (if addrOf (f.plug x) = some n1 then some n2 else addrOf (f.plug x)) := by
  cases f with
  | inLeft k c b h r =>
    simp only [ctxAddrs, List.append_nil, List.mem_cons, not_or] at hf
    have hr : addrOf r ≠ some n1 := fun e => hf.2 (addrOf_mem r n1 e)
    refine ⟨?_, ?_⟩
    · intro a
      simp only [Frame.plug]
      rw [fieldsAt_node, fieldsAt_node]
      by_cases c1 : c.addr = a
      · rw [if_pos c1, if_pos c1]
        refine ⟨fun h => (by cases h), fun g h => ?_⟩
        cases h
        exact ⟨_, rfl, rfl, rfl, fun _ _ => ⟨rfl, rfl, haddr, by rw [if_neg hr], fun _ => rfl⟩⟩
      · rw [if_neg c1, if_neg c1]
        obtain ⟨r1, r2⟩ := hrel a
        cases hx : fieldsAt a x with
        | some g =>
          obtain ⟨g2, q1, q2⟩ := r2 g hx
          rw [q1]
          simp only []
          refine ⟨fun h => (by cases h), fun g3 h => ?_⟩
          cases h
          exact ⟨g2, rfl, q2⟩
        | none =>
          rw [r1 hx]
          simp only []
          exact ⟨fun h => h, fun g h => ⟨g, h, frame_in _ _ _ a r hf.2 g h⟩⟩
    · show some c.addr = if some c.addr = some n1 then some n2 else some c.addr
      rw [if_neg (fun e => hf.1 (Option.some.inj e).symm)]
  | inRight l k c b h =>
    simp only [ctxAddrs, List.append_nil, List.mem_cons, not_or] at hf
    have hl : addrOf l ≠ some n1 := fun e => hf.2 (addrOf_mem l n1 e)
    refine ⟨?_, ?_⟩
    · intro a
      simp only [Frame.plug]
      rw [fieldsAt_node, fieldsAt_node]
      by_cases c1 : c.addr = a
      · rw [if_pos c1, if_pos c1]
        refine ⟨fun h => (by cases h), fun g h => ?_⟩
        cases h
        exact ⟨_, rfl, rfl, rfl, fun _ _ => ⟨rfl, rfl, by rw [if_neg hl], haddr, fun _ => rfl⟩⟩
      · rw [if_neg c1, if_neg c1]
        cases hx : fieldsAt a l with
        | some g =>
          simp only []
          refine ⟨fun h => (by cases h), fun g3 h => ?_⟩
          cases h
          exact ⟨g, rfl, frame_in _ _ _ a l hf.2 g hx⟩
        | none =>
          simp only []
          exact hrel a
    · show some c.addr = if some c.addr = some n1 then some n2 else some c.addr
      rw [if_neg (fun e => hf.1 (Option.some.inj e).symm)]

/-- What `RotationFrame` allows in the subtree of the pivot, it allows in the
whole tree. -/
theorem frame_rebuild (n1 n2 : Nat) (t : Option Nat) (up : List (Frame K (Cell V))) :
    ∀ x y : Node K (Cell V), RotationFrame n1 n2 t x y →
      addrOf y = (if addrOf x = some n1 then some n2 else addrOf x) → n1 ∉ ctxAddrs up →
      RotationFrame n1 n2 t (rebuild x up) (rebuild y up) ∧
        addrOf (rebuild y up)
          = (if addrOf (rebuild x up) = some n1 then some n2 else addrOf (rebuild x up)) := by
  induction up with
  | nil =>
    intro x y hrel haddr _
    exact ⟨hrel, haddr⟩
  | cons f rest ih =>
    intro x y hrel haddr hf
    have h1 : n1 ∉ ctxAddrs [f] ∧ n1 ∉ ctxAddrs rest := by
      rw [show f :: rest = [f] ++ rest from rfl, ctxAddrs_append, List.mem_append, not_or] at hf
      exact hf
    obtain ⟨h2, h3⟩ := frame_plug n1 n2 t f x y hrel haddr h1.1
    exact ih (f.plug x) (f.plug y) h2 h3 h1.2

end Linked

end AVL

namespace AVL

variable {K V : Type}

namespace Linked

theorem fieldsAt_root (l : Node K (Cell V)) (k : K) (c : Cell V) (b h : Int)
    (r : Node K (Cell V)) :
    fieldsAt c.addr (.node l k c b h r) = some ⟨k, c.info, c.parent, addrOf l, addrOf r, b, h⟩ := by
  rw [fieldsAt_node, if_pos rfl]

/-- The parent field of a child designates its parent. -/
theorem child_parent (s : Node K (Cell V)) (o : Option Nat) (m : Nat) (hp : ParentOK o s)
    (hm : addrOf s = some m) : ∃ g, fieldsAt m s = some g ∧ g.parent = o := by
  cases s with
  | nil => cases hm
  | node l k c b h r =>
    cases hm
    exact ⟨_, fieldsAt_root l k c b h r, hp.1⟩

/-- In a tree with consistent parent links and no address twice, a child link
that designates `m` is a field of the node that the parent field of `m`
designates. -/
theorem holder_is_parent (x : Node K (Cell V)) :
    ∀ o, ParentOK o x → (addrs x).Nodup → ∀ a f m, fieldsAt a x = some f →
      (f.left = some m ∨ f.right = some m) →
      ∃ g, fieldsAt m x = some g ∧ g.parent = some a := by
  induction x with
  | nil =>
    intro o _ _ a f m h
    cases h
  | node l k c b hh r ihl ihr =>
    intro o hp hd a f m h hlink
    obtain ⟨hdl, hdr, m1, m2, m3⟩ := nodup_node _ _ _ _ _ _ hd
    obtain ⟨-, pl, pr⟩ := hp
    have inl : ∀ g, fieldsAt m l = some g → fieldsAt m (.node l k c b hh r) = some g := by
      intro g hg
      have hne : c.addr ≠ m := fun e => m1 (e ▸ mem_of_fieldsAt m l g hg)
      rw [fieldsAt_node, if_neg hne, hg]
    have inr : ∀ g, fieldsAt m r = some g → fieldsAt m (.node l k c b hh r) = some g := by
      intro g hg
      have hmr := mem_of_fieldsAt m r g hg
      have hne : c.addr ≠ m := fun e => m2 (e ▸ hmr)
      have hnl : m ∉ addrs l := fun e => m3 m e hmr
      rw [fieldsAt_node, if_neg hne, fieldsAt_of_not_mem m l hnl]
      exact hg
    rw [fieldsAt_node] at h
    by_cases c1 : c.addr = a
    · rw [if_pos c1] at h
      have e : (⟨k, c.info, c.parent, addrOf l, addrOf r, b, hh⟩ : Fields K V) = f :=
        Option.some.inj h
      subst e
      subst c1
      cases hlink with
      | inl h1 =>
        obtain ⟨g, q1, q2⟩ := child_parent l (some c.addr) m pl h1
        exact ⟨g, inl g q1, q2⟩
      | inr h1 =>
        obtain ⟨g, q1, q2⟩ := child_parent r (some c.addr) m pr h1
        exact ⟨g, inr g q1, q2⟩
    · rw [if_neg c1] at h
      cases hl : fieldsAt a l with
      | some f2 =>
        rw [hl] at h
        have e : f2 = f := Option.some.inj h
        subst e
        obtain ⟨g, q1, q2⟩ := ihl _ pl hdl a f2 m hl hlink
        exact ⟨g, inl g q1, q2⟩
      | none =>
        rw [hl] at h
        obtain ⟨g, q1, q2⟩ := ihr _ pr hdr a f m h hlink
        exact ⟨g, inr g q1, q2⟩

/-- The frame of a rotation in the subtree of the pivot is the frame of the
rotation member on the whole dictionary. -/
theorem frameOfRotation_of (rot : Option Nat → Node K (Cell V) → Res (Node K (Cell V)))
    (d : Dictionary K V) (it : Iterator K (Cell V)) (n1 n2 : Nat) (t : Option Nat)
    (hon : rebuild it.curr it.up = d.tree.root) (hd : (addrs d.tree.root).Nodup)
    (h1 : addrOf it.curr = some n1)
    (h : ∃ m, rot (above it.up) it.curr = .ok m ∧ addrOf m = some n2 ∧
      RotationFrame n1 n2 t it.curr m) :
    FrameOfRotation n1 n2 t d (d.rotateAt rot it) := by
  obtain ⟨m, e, h2, hrel⟩ := h
  have hctx : n1 ∉ ctxAddrs it.up := by
    intro hmem
    have hc := (List.nodup_iff_count_le_one.mp hd) n1
    rw [← hon, rebuild_count] at hc
    have p1 := List.count_pos_iff.mpr (addrOf_mem it.curr n1 h1)
    have p2 := List.count_pos_iff.mpr hmem
    omega
  have haddr : addrOf m = (if addrOf it.curr = some n1 then some n2 else addrOf it.curr) := by
    rw [if_pos h1, h2]
  obtain ⟨r1, r2⟩ := frame_rebuild n1 n2 t it.up it.curr m hrel haddr hctx
  refine ⟨⟨{ d.tree with root := rebuild m it.up }, d.fresh⟩, ?_, rfl, rfl, ?_, ?_⟩
  · unfold Dictionary.rotateAt
    rw [e]
  · rw [← hon]
    exact r2
  · rw [← hon]
    exact r1

/-- The frame of `rotateRight` and of `rotateLeft` on the whole dictionary. -/
theorem rotation_frame (d : Dictionary K V) (up : List (Frame K (Cell V)))
    (hp : ParentOK none d.tree.root) (hd : (addrs d.tree.root).Nodup) :
    (∀ n3 k2 c2 b2 h2 t k1 c1 b1 h1 r,
      rebuild (.node (.node n3 k2 c2 b2 h2 t) k1 c1 b1 h1 r) up = d.tree.root →
      FrameOfRotation c1.addr c2.addr (addrOf t) d
        (d.rotateRight ⟨.node (.node n3 k2 c2 b2 h2 t) k1 c1 b1 h1 r, up, some d.tree.self⟩)) ∧
    (∀ l k1 c1 b1 h1 t k2 c2 b2 h2 n3,
      rebuild (.node l k1 c1 b1 h1 (.node t k2 c2 b2 h2 n3)) up = d.tree.root →
      FrameOfRotation c1.addr c2.addr (addrOf t) d
        (d.rotateLeft ⟨.node l k1 c1 b1 h1 (.node t k2 c2 b2 h2 n3), up, some d.tree.self⟩)) ∧
    (∀ a f n1, fieldsAt a d.tree.root = some f → (f.left = some n1 ∨ f.right = some n1) →
      ∃ g, fieldsAt n1 d.tree.root = some g ∧ g.parent = some a) := by
  refine ⟨?_, ?_, ?_⟩
  · intro n3 k2 c2 b2 h2 t k1 c1 b1 h1 r hon
    have h0 := (parentOK_rebuild up _).mp (hon ▸ hp)
    have hn := nodup_of_rebuild _ up (hon ▸ hd)
    exact frameOfRotation_of Linked.rotateRight d
      ⟨.node (.node n3 k2 c2 b2 h2 t) k1 c1 b1 h1 r, up, some d.tree.self⟩ _ _ _ hon hd rfl
      (rotateRight_frame (above up) n3 k2 c2 b2 h2 t k1 c1 b1 h1 r h0.1.1 hn)
  · intro l k1 c1 b1 h1 t k2 c2 b2 h2 n3 hon
    have h0 := (parentOK_rebuild up _).mp (hon ▸ hp)
    have hn := nodup_of_rebuild _ up (hon ▸ hd)
    exact frameOfRotation_of Linked.rotateLeft d
      ⟨.node l k1 c1 b1 h1 (.node t k2 c2 b2 h2 n3), up, some d.tree.self⟩ _ _ _ hon hd rfl
      (rotateLeft_frame (above up) l k1 c1 b1 h1 t k2 c2 b2 h2 n3 h0.1.1 hn)
  · intro a f n1 h hl
    exact holder_is_parent d.tree.root none hp hd a f n1 h hl

end Linked

/-- C32: in a tree with consistent parent links and no address twice, a single
rotation at the pivot at address `n1` with promoted child at `n2` and
transferred subtree root `t` (the inner child of `n2`, `none` when absent)
returns, and between the memory before and after the call: no node appears or
disappears; every node keeps its key and its info; `size` is the one before;
the root pointer designates `n2` when it designated `n1` and what it did
otherwise; every node other than `n1` and `n2` keeps its cached height and
balance factor, keeps each child link except that one designating `n1` now
designates `n2`, and, unless it is `t`, keeps its parent link.  Such a child
link designating `n1` is a field of the node that the parent field of `n1`
designates, so it is the one link of the former parent of `n1`. -/
theorem C32_single_rotation_frame (d : Linked.Dictionary K V) (up : List (Frame K (Cell V)))
    (hp : Linked.ParentOK none d.tree.root) (hd : (Linked.addrs d.tree.root).Nodup) :
    (∀ n3 k2 c2 b2 h2 t k1 c1 b1 h1 r,
      rebuild (.node (.node n3 k2 c2 b2 h2 t) k1 c1 b1 h1 r) up = d.tree.root →
      Linked.FrameOfRotation c1.addr c2.addr (Linked.addrOf t) d
        (d.rotateRight ⟨.node (.node n3 k2 c2 b2 h2 t) k1 c1 b1 h1 r, up, some d.tree.self⟩)) ∧
    (∀ l k1 c1 b1 h1 t k2 c2 b2 h2 n3,
      rebuild (.node l k1 c1 b1 h1 (.node t k2 c2 b2 h2 n3)) up = d.tree.root →
      Linked.FrameOfRotation c1.addr c2.addr (Linked.addrOf t) d
        (d.rotateLeft ⟨.node l k1 c1 b1 h1 (.node t k2 c2 b2 h2 n3), up, some d.tree.self⟩)) ∧
    (∀ a f n1, Linked.fieldsAt a d.tree.root = some f →
      (f.left = some n1 ∨ f.right = some n1) →
      ∃ g, Linked.fieldsAt n1 d.tree.root = some g ∧ g.parent = some a) :=
  Linked.rotation_frame d up hp hd

/-- C32, on `Linked.afterDelete3`: `rotateLeft` at the root (address 4), which
promotes the node at 0 and transfers the node at 7 and moves the root pointer,
and `rotateRight` at the right child of the root (address 0), which promotes
the node at 7, transfers nothing and changes the right link of the root. -/
theorem C32_witness :
    Linked.ParentOK none Linked.afterDelete3.tree.root ∧
    (Linked.addrs Linked.afterDelete3.tree.root).Nodup ∧
    Linked.FrameOfRotation 4 0 (some 7) Linked.afterDelete3
      (Linked.afterDelete3.rotateLeft ⟨Linked.afterDelete3.tree.root, [], some 0⟩) ∧
    Linked.FrameOfRotation 0 7 none Linked.afterDelete3
      (Linked.afterDelete3.rotateRight
        ⟨.node (.node .nil 5 ⟨0, 7, some 0⟩ 0 1 .nil) 6 ⟨0, 0, some 4⟩ 0 2
            (.node .nil 7 ⟨0, 2, some 0⟩ 0 1 .nil),
          [.inRight (.node .nil 2 ⟨0, 1, some 4⟩ 0 1 .nil) 4 ⟨0, 4, none⟩ 1 3], some 0⟩) := by
  have h0 : Linked.ParentOK none Linked.afterDelete3.tree.root := by decide
  have h1 : (Linked.addrs Linked.afterDelete3.tree.root).Nodup := by decide
  have ha := C32_single_rotation_frame Linked.afterDelete3 [] h0 h1
  have hb := C32_single_rotation_frame Linked.afterDelete3
    [.inRight (.node .nil 2 ⟨0, 1, some 4⟩ 0 1 .nil) 4 ⟨0, 4, none⟩ 1 3] h0 h1
  exact ⟨h0, h1,
    ha.2.1 (.node .nil 2 ⟨0, 1, some 4⟩ 0 1 .nil) 4 ⟨0, 4, none⟩ 1 3
      (.node .nil 5 ⟨0, 7, some 0⟩ 0 1 .nil) 6 ⟨0, 0, some 4⟩ 0 2
      (.node .nil 7 ⟨0, 2, some 0⟩ 0 1 .nil) rfl,
    hb.1 .nil 5 ⟨0, 7, some 0⟩ 0 1 .nil 6 ⟨0, 0, some 4⟩ 0 2
      (.node .nil 7 ⟨0, 2, some 0⟩ 0 1 .nil) rfl⟩

end AVL

/-! ## `shuffle` -/

namespace SinglyLinked

variable {K I : Type}

theorem Sequence.pushLast_wf (s : Sequence K I) (k : K) (i : I) (h : s.WellFormed) :
    (s.pushLast k i).nodes = s.nodes ++ [(k, i)] ∧ (s.pushLast k i).WellFormed := by
  unfold Sequence.WellFormed at h ⊢
  unfold Sequence.pushLast
  by_cases h0 : s.size = 0
  · have hn : s.nodes = [] := by
      rw [h0] at h
      exact List.length_eq_zero.mp (by exact_mod_cast h.symm)
    simp [h0, hn]
  · rw [if_neg h0]
    simp [h]

theorem Sequence.get_wf (s : Sequence K I) (p : Nat) (h : s.WellFormed)
    (hp : p < s.nodes.length) : s.get (p : Int) = .ok s.nodes[p] := by
  unfold Sequence.WellFormed at h
  unfold Sequence.get
  have h1 : ¬ (s.size = 0 ∨ (p : Int) < 0 ∨ (p : Int) ≥ s.size) := by
    rw [h]
    omega
  rw [if_neg h1]
  simp [List.getElem?_eq_getElem hp]

/-- What `copyFromSequence` does on sequences whose `size` counts the nodes,
from a start index that is not negative and below a limit not yet exceeded: it
appends the elements of the source from the start index on, as many as asked
for, as the source has and as the limit leaves room for, and returns true
exactly when it appended as many as asked for. -/
theorem copyFromSequenceLoop_spec (source : Sequence K I) (L : Nat) (hs : source.WellFormed) :
    ∀ (n : Nat) (dst : Sequence K I) (p : Nat), dst.WellFormed → dst.nodes.length ≤ L →
      ∃ r, copyFromSequenceLoop source (L : Int) n dst (p : Int) =
          .ok (decide (n ≤ (source.nodes.drop p).length ∧ n ≤ L - dst.nodes.length), r) ∧
        r.WellFormed ∧
        r.nodes = dst.nodes ++ (source.nodes.drop p).take (min n (L - dst.nodes.length)) := by
  intro n
  induction n with
  | zero =>
    intro dst p hw _
    exact ⟨dst, by simp [copyFromSequenceLoop], hw, by simp⟩
  | succ n ih =>
    intro dst p hw hl
    have hw2 := hw
    unfold Sequence.WellFormed at hw2
    unfold copyFromSequenceLoop
    by_cases h1 : (L : Int) = dst.size
    · have hL : L = dst.nodes.length := by rw [hw2] at h1; exact_mod_cast h1
      exact ⟨dst, by rw [if_pos h1]; simp [hL], hw, by simp [hL]⟩
    · have hlt : dst.nodes.length < L := by
        rw [hw2] at h1
        have : (L : Int) ≠ dst.nodes.length := h1
        omega
      rw [if_neg h1]
      by_cases h2 : source.size > (p : Int)
      · have hp : p < source.nodes.length := by
          unfold Sequence.WellFormed at hs
          rw [hs] at h2
          exact_mod_cast h2
        rw [if_pos h2, Sequence.get_wf source p hs hp]
        simp only
        obtain ⟨q1, q2⟩ := Sequence.pushLast_wf dst source.nodes[p].1 source.nodes[p].2 hw
        have hcast : (p : Int) + 1 = ((p + 1 : Nat) : Int) := by push_cast; rfl
        obtain ⟨r, r1, r2, r3⟩ := ih (dst.pushLast source.nodes[p].1 source.nodes[p].2) (p + 1)
          q2 (by rw [q1]; simp; omega)
        rw [hcast, r1]
        have hdrop : source.nodes.drop p = source.nodes[p] :: source.nodes.drop (p + 1) :=
          List.drop_eq_getElem_cons hp
        have hlen1 : (dst.pushLast source.nodes[p].1 source.nodes[p].2).nodes.length =
            dst.nodes.length + 1 := by rw [q1]; simp
        have hlen : (source.nodes.drop p).length = (source.nodes.drop (p + 1)).length + 1 := by
          simp only [List.length_drop]; omega
        have hmin : min (n + 1) (L - dst.nodes.length) =
            min n (L - (dst.nodes.length + 1)) + 1 := by omega
        refine ⟨r, ?_, r2, ?_⟩
        · rw [hlen1, hlen]
          simp only [Res.ok.injEq, Prod.mk.injEq, and_true, decide_eq_decide]
          omega
        · rw [r3, hlen1, q1, hmin, hdrop]
          simp only [List.append_assoc, List.singleton_append, List.take_succ_cons, Prod.mk.eta]
      · have hp : source.nodes.length ≤ p := by
          unfold Sequence.WellFormed at hs
          rw [hs] at h2
          have : ¬ ((source.nodes.length : Int) > (p : Int)) := h2
          omega
        rw [if_neg h2]
        exact ⟨dst, by simp [List.drop_of_length_le hp], hw, by simp [List.drop_of_length_le hp]⟩

theorem Sequence.copyFromSequence_spec (self source : Sequence K I) (p n L : Nat)
    (hs : source.WellFormed) (hw : self.WellFormed) (hl : self.nodes.length ≤ L) :
    ∃ r, self.copyFromSequence source (p : Int) (n : Int) (L : Int) =
        .ok (decide (n ≤ (source.nodes.drop p).length ∧ n ≤ L - self.nodes.length), r) ∧
      r.WellFormed ∧
      r.nodes = self.nodes ++ ((source.nodes.drop p).take n).take (L - self.nodes.length) := by
  obtain ⟨r, r1, r2, r3⟩ := copyFromSequenceLoop_spec source L hs n self p hw hl
  refine ⟨r, ?_, r2, ?_⟩
  · unfold Sequence.copyFromSequence
    rw [Int.toNat_ofNat]
    exact r1
  · rw [r3, List.take_take, Nat.min_comm]

/-- The copy `shuffle` makes once a block failed: from the other source, as
many elements as the limit leaves room for. -/
theorem Sequence.copyFromSequence_rest (self source : Sequence K I) (p L : Nat)
    (hs : source.WellFormed) (hw : self.WellFormed) (hl : self.nodes.length ≤ L) :
    ∃ b r, self.copyFromSequence source (p : Int) (leftToCopy (L : Int) self.size) (L : Int) =
        .ok (b, r) ∧ r.WellFormed ∧
      r.nodes = self.nodes ++ (source.nodes.drop p).take (L - self.nodes.length) := by
  obtain ⟨r, r1, r2, r3⟩ :=
    copyFromSequenceLoop_spec source L hs (L - self.nodes.length) self p hw hl
  refine ⟨decide (L - self.nodes.length ≤ (source.nodes.drop p).length ∧
    L - self.nodes.length ≤ L - self.nodes.length), r, ?_, r2, ?_⟩
  · unfold Sequence.copyFromSequence
    have hw2 := hw
    unfold Sequence.WellFormed at hw2
    rw [leftToCopy, if_pos (by rw [hw2]; exact_mod_cast hl), hw2, Int.toNat_sub]
    exact r1
  · rw [r3, Nat.min_self]

theorem take_append_take_rest {α : Type} (X B : List α) (room : Nat) :
    X.take room ++ B.take (room - (X.take room).length) = (X ++ B).take room := by
  rw [List.take_append_eq_append_take, List.length_take]
  congr 2
  omega

theorem take_append_of_le {α : Type} (X Y : List α) (room : Nat) (h : room ≤ X.length) :
    (X ++ Y).take room = X.take room := by
  rw [List.take_append_eq_append_take]
  simp [Nat.sub_eq_zero_of_le h]

theorem take_block_append {α : Type} (A Y : List α) (n room : Nat) (h1 : n ≤ A.length)
    (h2 : n ≤ room) : (A.take n ++ Y).take room = A.take n ++ Y.take (room - n) := by
  rw [List.take_append_eq_append_take, List.length_take, Nat.min_eq_left h1,
    List.take_of_length_le (by rw [List.length_take]; omega)]

/-- A block that fails and the copy of the rest of the other source after it:
what is appended is the start of the block followed by the rest of the other
source, cut where the limit is reached; and the specification's sequence
starts the same way. -/
theorem failed_block (source other : Sequence K I) (acc : Sequence K I) (p q n L : Nat)
    (hs : source.WellFormed) (ho : other.WellFormed) (hw : acc.WellFormed)
    (hl : acc.nodes.length ≤ L)
    (hfail : ¬ (n ≤ (source.nodes.drop p).length ∧ n ≤ L - acc.nodes.length)) :
    ∃ r1, acc.copyFromSequence source (p : Int) (n : Int) (L : Int) = .ok (false, r1) ∧
      ∃ b r, r1.copyFromSequence other (q : Int) (leftToCopy (L : Int) r1.size) (L : Int)
          = .ok (b, r) ∧
        r.WellFormed ∧
        r.nodes = acc.nodes ++
          ((source.nodes.drop p).take n ++ other.nodes.drop q).take (L - acc.nodes.length) ∧
        ∀ Y : List (K × I), n ≤ (source.nodes.drop p).length →
          ((source.nodes.drop p).take n ++ other.nodes.drop q).take (L - acc.nodes.length) =
            ((source.nodes.drop p).take n ++ Y).take (L - acc.nodes.length) := by
  obtain ⟨r1, e1, e2, e3⟩ := acc.copyFromSequence_spec source p n L hs hw hl
  rw [decide_eq_false hfail] at e1
  have hlen : r1.nodes.length ≤ L := by
    rw [e3, List.length_append, List.length_take]
    omega
  obtain ⟨b, r, f1, f2, f3⟩ := r1.copyFromSequence_rest other q L ho e2 hlen
  refine ⟨r1, e1, b, r, f1, f2, ?_, ?_⟩
  · rw [f3, e3, List.append_assoc, ← take_append_take_rest]
    congr 2
    rw [List.length_append]
    congr 1
    omega
  · intro Y hn
    have hroom : L - acc.nodes.length ≤ ((source.nodes.drop p).take n).length := by
      rw [List.length_take]
      omega
    rw [take_append_of_le _ _ _ hroom, take_append_of_le _ _ _ hroom]

/-- The loop of `shuffle` on sources whose `size` counts the nodes, with block
lengths that are not both 0: it returns within as many iterations as the limit
leaves room for, plus one, and what it appends is the specification's
sequence cut where the limit is reached. -/
theorem shuffleLoop_spec (source1 source2 : Sequence K I) (n1 n2 L : Nat)
    (h1 : source1.WellFormed) (h2 : source2.WellFormed) (hpos : 0 < n1 + n2) :
    ∀ (fuel : Nat) (acc : Sequence K I) (p1 p2 rounds : Nat), acc.WellFormed →
      acc.nodes.length ≤ L → L - acc.nodes.length < fuel →
      (source1.nodes.drop p1).length + (source2.nodes.drop p2).length < rounds →
      ∃ r, shuffleLoop source1 (n1 : Int) source2 (n2 : Int) (L : Int) fuel acc (p1 : Int)
          (p2 : Int) = .ok r ∧ r.WellFormed ∧
        r.nodes = acc.nodes ++ (alternateBlocks n1 n2 rounds (source1.nodes.drop p1)
          (source2.nodes.drop p2)).take (L - acc.nodes.length) := by
  intro fuel
  induction fuel with
  | zero => intro acc p1 p2 rounds _ _ hf; omega
  | succ fuel ih =>
    intro acc p1 p2 rounds hw hl hf hr
    obtain ⟨rounds, rfl⟩ : ∃ m, rounds = m + 1 := ⟨rounds - 1, by omega⟩
    unfold shuffleLoop
    unfold alternateBlocks
    by_cases c1 : n1 ≤ (source1.nodes.drop p1).length ∧ n1 ≤ L - acc.nodes.length
    · -- the first block is complete
      obtain ⟨r1, e1, e2, e3⟩ := acc.copyFromSequence_spec source1 p1 n1 L h1 hw hl
      rw [decide_eq_true c1] at e1
      rw [List.take_of_length_le (by rw [List.length_take]; omega)] at e3
      have hlen1 : r1.nodes.length = acc.nodes.length + n1 := by
        rw [e3, List.length_append, List.length_take]
        omega
      rw [e1]
      simp only
      rw [if_neg (by omega)]
      have hcast1 : advance (p1 : Int) (n1 : Int) = ((p1 + n1 : Nat) : Int) := by
        rw [advance, if_pos (Int.natCast_nonneg n1)]
        push_cast
        rfl
      have hdrop1 : source1.nodes.drop (p1 + n1) = (source1.nodes.drop p1).drop n1 := by
        rw [List.drop_drop]
      by_cases c2 : n2 ≤ (source2.nodes.drop p2).length ∧ n2 ≤ L - r1.nodes.length
      · -- the second block is complete
        obtain ⟨r2, f1, f2, f3⟩ := r1.copyFromSequence_spec source2 p2 n2 L h2 e2 (by omega)
        rw [decide_eq_true c2] at f1
        rw [List.take_of_length_le (by rw [List.length_take]; omega)] at f3
        have hlen2 : r2.nodes.length = acc.nodes.length + n1 + n2 := by
          rw [f3, List.length_append, List.length_take]
          omega
        rw [f1]
        simp only
        rw [if_neg (by omega)]
        have hcast2 : advance (p2 : Int) (n2 : Int) = ((p2 + n2 : Nat) : Int) := by
          rw [advance, if_pos (Int.natCast_nonneg n2)]
          push_cast
          rfl
        have hdrop2 : source2.nodes.drop (p2 + n2) = (source2.nodes.drop p2).drop n2 := by
          rw [List.drop_drop]
        have hA : (source1.nodes.drop (p1 + n1)).length
            = (source1.nodes.drop p1).length - n1 := by
          simp only [List.length_drop]; omega
        have hB : (source2.nodes.drop (p2 + n2)).length
            = (source2.nodes.drop p2).length - n2 := by
          simp only [List.length_drop]; omega
        obtain ⟨r, g1, g2, g3⟩ := ih r2 (p1 + n1) (p2 + n2) rounds f2 (by omega) (by omega)
          (by rw [hA, hB]; omega)
        rw [hcast1, hcast2, g1]
        refine ⟨r, rfl, g2, ?_⟩
        rw [g3, hlen2, f3, e3, hdrop1, hdrop2, take_block_append _ _ _ _ c1.1 c1.2,
          take_block_append _ _ _ _ c2.1 (by omega)]
        simp only [List.append_assoc]
        congr 4
        omega
      · -- the second block fails
        obtain ⟨r2, f1, b, r, f2, f3, f4, f5⟩ :=
          failed_block source2 source1 r1 p2 (p1 + n1) n2 L h2 h1 e2 (by omega) c2
        rw [f1]
        simp only
        rw [hcast1, f2]
        refine ⟨r, rfl, f3, ?_⟩
        have hroom : L - r1.nodes.length = L - acc.nodes.length - n1 := by omega
        rw [hroom, hdrop1] at f5
        rw [f4, hroom, e3, hdrop1, List.append_assoc]
        congr 1
        by_cases c3 : (source2.nodes.drop p2).length < n2
        · rw [if_pos c3, take_block_append _ _ _ _ c1.1 c1.2,
            List.take_of_length_le (Nat.le_of_lt c3)]
        · rw [if_neg c3, take_block_append _ _ _ _ c1.1 c1.2]
          congr 1
          exact f5 _ (by omega)
    · -- the first block fails
      obtain ⟨r1, e1, b, r, e2, e3, e4, e5⟩ :=
        failed_block source1 source2 acc p1 p2 n1 L h1 h2 hw hl c1
      rw [e1]
      simp only
      rw [e2]
      refine ⟨r, rfl, e3, ?_⟩
      rw [e4]
      congr 1
      by_cases c3 : (source1.nodes.drop p1).length < n1
      · rw [if_pos c3, List.take_of_length_le (Nat.le_of_lt c3)]
      · rw [if_neg c3]
        by_cases c4 : (source2.nodes.drop p2).length < n2
        · rw [if_pos c4]
          exact e5 _ (by omega)
        · rw [if_neg c4]
          exact e5 _ (by omega)

/-- Whatever `copyFromSequence` is asked to copy, a sequence within the limit
stays within the limit, and `size` keeps counting the nodes. -/
theorem copyFromSequenceLoop_bound (source : Sequence K I) (L : Int) :
    ∀ (n : Nat) (dst : Sequence K I) (p : Int) (b : Bool) (r : Sequence K I),
      dst.WellFormed → dst.size ≤ L →
      copyFromSequenceLoop source L n dst p = .ok (b, r) → r.WellFormed ∧ r.size ≤ L := by
  intro n
  induction n with
  | zero =>
    intro dst p b r hw hl e
    simp only [copyFromSequenceLoop, Res.ok.injEq, Prod.mk.injEq] at e
    rw [← e.2]
    exact ⟨hw, hl⟩
  | succ n ih =>
    intro dst p b r hw hl e
    unfold copyFromSequenceLoop at e
    by_cases c1 : L = dst.size
    · rw [if_pos c1] at e
      simp only [Res.ok.injEq, Prod.mk.injEq] at e
      rw [← e.2]
      exact ⟨hw, hl⟩
    · rw [if_neg c1] at e
      by_cases c2 : source.size > p
      · rw [if_pos c2] at e
        cases hg : source.get p with
        | fail f => rw [hg] at e; cases e
        | ok x =>
          rw [hg] at e
          have hp := dst.pushLast_wf x.1 x.2 hw
          refine ih _ _ _ _ hp.2 ?_ e
          have hsz : (dst.pushLast x.1 x.2).size = dst.size + 1 := by
            unfold Sequence.pushLast
            split <;> rfl
          rw [hsz]
          omega
      · rw [if_neg c2] at e
        simp only [Res.ok.injEq, Prod.mk.injEq] at e
        rw [← e.2]
        exact ⟨hw, hl⟩

/-- Whenever the loop of `shuffle` returns, what it returns is within the
limit. -/
theorem shuffleLoop_bound (source1 source2 : Sequence K I) (length1 length2 L : Int) :
    ∀ (fuel : Nat) (acc : Sequence K I) (p1 p2 : Int) (r : Sequence K I),
      acc.WellFormed → acc.size ≤ L →
      shuffleLoop source1 length1 source2 length2 L fuel acc p1 p2 = .ok r →
      r.WellFormed ∧ r.size ≤ L := by
  intro fuel
  induction fuel with
  | zero => intro acc p1 p2 r _ _ e; simp [shuffleLoop] at e
  | succ fuel ih =>
    intro acc p1 p2 r hw hl e
    unfold shuffleLoop at e
    cases h1 : acc.copyFromSequence source1 p1 length1 L with
    | fail f => rw [h1] at e; cases e
    | ok x1 =>
      obtain ⟨b1, r1⟩ := x1
      have k1 := copyFromSequenceLoop_bound source1 L _ _ _ _ _ hw hl h1
      rw [h1] at e
      cases b1 with
      | false =>
        simp only at e
        cases h2 : r1.copyFromSequence source2 p2 (leftToCopy L r1.size) L with
        | fail f => rw [h2] at e; cases e
        | ok x2 =>
          obtain ⟨b2, r2⟩ := x2
          rw [h2] at e
          simp only [Res.ok.injEq] at e
          rw [← e]
          exact copyFromSequenceLoop_bound source2 L _ _ _ _ _ k1.1 k1.2 h2
      | true =>
        simp only at e
        cases h2 : r1.copyFromSequence source2 p2 length2 L with
        | fail f => rw [h2] at e; cases e
        | ok x2 =>
          obtain ⟨b2, r2⟩ := x2
          have k2 := copyFromSequenceLoop_bound source2 L _ _ _ _ _ k1.1 k1.2 h2
          rw [h2] at e
          cases b2 with
          | false =>
            simp only at e
            cases h3 : r2.copyFromSequence source1 (advance p1 length1) (leftToCopy L r2.size)
                L with
            | fail f => rw [h3] at e; cases e
            | ok x3 =>
              obtain ⟨b3, r3⟩ := x3
              rw [h3] at e
              simp only [Res.ok.injEq] at e
              rw [← e]
              exact copyFromSequenceLoop_bound source1 L _ _ _ _ _ k2.1 k2.2 h3
          | true =>
            simp only at e
            exact ih _ _ _ _ k2.1 k2.2 e

theorem Sequence.pushLast_size (s : Sequence K I) (k : K) (i : I) :
    (s.pushLast k i).size = s.size + 1 := by
  unfold Sequence.pushLast
  split <;> rfl

/-- The loop of `copyFromSequence` for any start index and any limit: from a
start index that is not negative it returns, and whenever it returns it has
appended the next `k` elements of the source, none of them at a moment when
the limit was reached or the source had run out; the value is `true` exactly
when `k` is the number asked for, and `false` exactly when `k` is less and
either the limit is reached or the source has no element left. -/
theorem copyFromSequenceLoop_char (source : Sequence K I) (L : Int) (hs : source.WellFormed) :
    ∀ (n : Nat) (dst : Sequence K I) (p : Int), dst.WellFormed →
      (0 ≤ p → ∃ b r, copyFromSequenceLoop source L n dst p = .ok (b, r)) ∧
      ∀ b r, copyFromSequenceLoop source L n dst p = .ok (b, r) →
        r.WellFormed ∧ ∃ k : Nat, k ≤ n ∧
          r.nodes = dst.nodes ++ (source.nodes.drop p.toNat).take k ∧
          r.size = dst.size + k ∧
          (∀ j : Nat, j < k → L ≠ dst.size + j ∧ p + j < source.size) ∧
          (b = true ↔ k = n) ∧
          (b = false ↔ k < n ∧ (L = r.size ∨ source.size ≤ p + k)) := by
  intro n
  induction n with
  | zero =>
    intro dst p hw
    refine ⟨fun _ => ⟨true, dst, rfl⟩, ?_⟩
    intro b r e
    simp only [copyFromSequenceLoop, Res.ok.injEq, Prod.mk.injEq] at e
    rw [← e.1, ← e.2]
    exact ⟨hw, 0, le_refl _, by simp, by simp, fun j hj => absurd hj (Nat.not_lt_zero j),
      by simp, by simp⟩
  | succ n ih =>
    intro dst p hw
    unfold copyFromSequenceLoop
    by_cases c1 : L = dst.size
    · rw [if_pos c1]
      refine ⟨fun _ => ⟨false, dst, rfl⟩, ?_⟩
      intro b r e
      simp only [Res.ok.injEq, Prod.mk.injEq] at e
      rw [← e.1, ← e.2]
      exact ⟨hw, 0, Nat.zero_le _, by simp, by simp,
        fun j hj => absurd hj (Nat.not_lt_zero j), by simp, by simp [c1]⟩
    · rw [if_neg c1]
      by_cases c2 : source.size > p
      · rw [if_pos c2]
        by_cases c3 : 0 ≤ p
        · obtain ⟨q, rfl⟩ := Int.eq_ofNat_of_zero_le c3
          have hq : q < source.nodes.length := by
            have := hs
            unfold Sequence.WellFormed at this
            omega
          rw [source.get_wf q hs hq]
          simp only
          have hp := dst.pushLast_wf source.nodes[q].1 source.nodes[q].2 hw
          have hsz := dst.pushLast_size source.nodes[q].1 source.nodes[q].2
          obtain ⟨i1, i2⟩ := ih (dst.pushLast source.nodes[q].1 source.nodes[q].2)
            ((q : Int) + 1) hp.2
          refine ⟨fun _ => i1 (by omega), ?_⟩
          intro b r e
          obtain ⟨j1, k, j2, j3, j4, j5, j6, j7⟩ := i2 b r e
          refine ⟨j1, k + 1, by omega, ?_, ?_, ?_, ?_, ?_⟩
          · have hq1 : ((q : Int) + 1).toNat = q + 1 := by omega
            rw [j3, hp.1, hq1, Int.toNat_ofNat, List.drop_eq_getElem_cons hq]
            simp only [List.append_assoc, List.singleton_append, List.take_succ_cons,
              Prod.mk.eta]
          · rw [j4, hsz]
            push_cast
            omega
          · intro j hj
            cases j with
            | zero =>
              simp only [Nat.cast_zero, add_zero]
              exact ⟨c1, c2⟩
            | succ j =>
              obtain ⟨a1, a2⟩ := j5 j (by omega)
              rw [hsz] at a1
              push_cast
              exact ⟨by omega, by omega⟩
          · rw [j6]
            omega
          · rw [j7]
            push_cast
            constructor
            · rintro ⟨a1, a2⟩
              exact ⟨by omega, by omega⟩
            · rintro ⟨a1, a2⟩
              exact ⟨by omega, by omega⟩
        · have hg : source.get p = .fail .outOfRange := by
            unfold Sequence.get
            rw [if_pos (Or.inr (Or.inl (by omega)))]
          rw [hg]
          refine ⟨fun h => absurd h c3, ?_⟩
          intro b r e
          cases e
      · rw [if_neg c2]
        refine ⟨fun _ => ⟨false, dst, rfl⟩, ?_⟩
        intro b r e
        simp only [Res.ok.injEq, Prod.mk.injEq] at e
        rw [← e.1, ← e.2]
        refine ⟨hw, 0, Nat.zero_le _, by simp, by simp,
          fun j hj => absurd hj (Nat.not_lt_zero j), by simp, ?_⟩
        simp only [Nat.cast_zero, add_zero, true_iff]
        exact ⟨Nat.succ_pos _, Or.inr (by omega)⟩

theorem wrapInt_of_range (x : Int) (h1 : -2147483648 ≤ x) (h2 : x < 2147483648) :
    wrapInt x = x := by
  unfold wrapInt
  omega

/-- Where `shuffle` executes `startIndex += length`, `advance` is the sum as the
machine computes it in `int`: the block before it was copied with success from
a source whose `size` is an `int` that counts its nodes, and `startIndex` is
an `int`. -/
theorem advance_is_int_sum (self source r : Sequence K I) (startIndex length limit : Int)
    (hw : self.WellFormed) (hs : source.WellFormed) (hsize : source.size < 2147483648)
    (h1 : -2147483648 ≤ startIndex) (h2 : startIndex < 2147483648)
    (e : self.copyFromSequence source startIndex length limit = .ok (true, r)) :
    advance startIndex length = wrapInt (startIndex + length) := by
  unfold advance
  by_cases c : 0 ≤ length
  · rw [if_pos c]
    obtain ⟨-, c2⟩ := copyFromSequenceLoop_char source limit hs length.toNat self startIndex hw
    obtain ⟨-, k, -, -, -, d5, d6, -⟩ := c2 true r e
    have hk : k = length.toNat := d6.mp rfl
    by_cases c0 : length = 0
    · rw [c0, add_zero, wrapInt_of_range _ h1 h2]
    · have hj := (d5 (k - 1) (by omega)).2
      rw [wrapInt_of_range _ (by omega) (by omega)]
  · rw [if_neg c]

/-- Where `shuffle` computes `limit - result.size`, `leftToCopy` is the
difference as the machine computes it in `int`: `limit` is an `int` and `size`
is not negative. -/
theorem leftToCopy_is_int_difference (limit size : Int) (h1 : limit < 2147483648)
    (h2 : 0 ≤ size) : leftToCopy limit size = wrapInt (limit - size) := by
  unfold leftToCopy
  by_cases c : size ≤ limit
  · rw [if_pos c, wrapInt_of_range _ (by omega) (by omega)]
  · rw [if_neg c]

/-- With a negative block length `copyFromSequence` copies nothing and reports
success, and `shuffle` moves the start index backwards: here it ends in the
`std::out_of_range` of `operator[]` at index -1. -/
theorem shuffle_negative_length (fuel : Nat) :
    shuffle (fuel + 2) testSource1 1 (-1) testSource2 4 1 7 = .fail .outOfRange := rfl

/-- C26, the claim as stated fails: for a negative block length `shuffle` need
not build a result at all.  With `length1 = -1` from index 1 of the first test
source and blocks of one element from index 4 of the second, no number of
iterations makes it return. -/
theorem C26_counterexample :
    ¬ ∃ (fuel : Nat) (r : Sequence Int Int),
      shuffle fuel testSource1 1 (-1) testSource2 4 1 7 = .ok r := by
  rintro ⟨fuel, r, e⟩
  match fuel, e with
  | 0, e => cases e
  | 1, e => cases e
  | fuel + 2, e =>
    rw [shuffle_negative_length] at e
    cases e

/-- C26 (amended): for sources whose `size` counts their nodes, start indices
that are not negative, block lengths that are not negative and not both 0, and
a limit that is not negative, `shuffle` returns within `limit + 1` iterations
of its loop, and the nodes of its result are the sequence of the
specification: blocks of `length1` elements of `source1` and of `length2`
elements of `source2` in turn, each from where the previous block of that
source ended; at the first block its source cannot complete, what that source
has left, then what the other source has left; all of it cut after `limit`
elements. -/
theorem C26_shuffle_alternates_blocks (source1 source2 : Sequence K I)
    (startIndex1 length1 startIndex2 length2 limit fuel : Nat)
    (h1 : source1.WellFormed) (h2 : source2.WellFormed) (hpos : 0 < length1 + length2)
    (hfuel : limit < fuel) :
    ∃ r, shuffle fuel source1 (startIndex1 : Int) (length1 : Int) source2 (startIndex2 : Int)
        (length2 : Int) (limit : Int) = .ok r ∧ r.WellFormed ∧
      r.nodes = shuffleSpec source1.nodes startIndex1 length1 source2.nodes startIndex2 length2
        limit := by
  obtain ⟨r, e1, e2, e3⟩ := shuffleLoop_spec source1 source2 length1 length2 limit h1 h2 hpos
    fuel Sequence.empty startIndex1 startIndex2 (source1.nodes.length + source2.nodes.length + 1)
    rfl (Nat.zero_le _) (by simpa [Sequence.empty] using hfuel)
    (by simp only [List.length_drop]; omega)
  refine ⟨r, e1, e2, ?_⟩
  rw [e3]
  simp [Sequence.empty, shuffleSpec]

/-- C26 at the first call of the tests: `shuffle(seq1, 2, 2, seq2, 1, 1, 7)`
gives the keys 3 4 20 5 30 40 50. -/
theorem C26_witness :
    ∃ r, shuffle 8 testSource1 ((2 : Nat) : Int) ((2 : Nat) : Int) testSource2 ((1 : Nat) : Int)
        ((1 : Nat) : Int) ((7 : Nat) : Int) = .ok r ∧ r.WellFormed ∧
      r.nodes = shuffleSpec testSource1.nodes 2 2 testSource2.nodes 1 1 7 :=
  C26_shuffle_alternates_blocks testSource1 testSource2 2 2 1 1 7 8 (by decide) (by decide)
    (by decide) (by decide)

/-- C27: for a limit that is not negative, whatever the sources, the start
indices and the block lengths, a sequence that `shuffle` returns has at most
`limit` nodes (and its `size` counts them).  And `copyFromSequence`, on
sequences whose `size` counts their nodes, returns whenever the start index is
not negative; whenever it returns, it has appended exactly the next `k`
elements of the source, each at a moment when the limit was not reached and
the source had an element left; its value is `true` exactly when `k` is the
number of elements asked for (none for a `length` that is not positive), and
`false` exactly when `k` is less than `length` and either the limit is reached
or the source has run out. -/
theorem C27_shuffle_within_limit (source1 source2 : Sequence K I)
    (startIndex1 length1 startIndex2 length2 limit : Int) (hlimit : 0 ≤ limit) :
    (∀ (fuel : Nat) (r : Sequence K I),
      shuffle fuel source1 startIndex1 length1 source2 startIndex2 length2 limit = .ok r →
      r.WellFormed ∧ (r.nodes.length : Int) ≤ limit) ∧
    ∀ (self source : Sequence K I) (startIndex length : Int),
      self.WellFormed → source.WellFormed →
      (0 ≤ startIndex → ∃ b r, self.copyFromSequence source startIndex length limit = .ok (b, r)) ∧
      ∀ b r, self.copyFromSequence source startIndex length limit = .ok (b, r) →
        r.WellFormed ∧ ∃ k : Nat,
          r.nodes = self.nodes ++ (source.nodes.drop startIndex.toNat).take k ∧
          r.nodes.length = self.nodes.length + k ∧
          (∀ j : Nat, j < k → limit ≠ self.size + j ∧ startIndex + j < source.size) ∧
          (b = true ↔ k = length.toNat) ∧
          (b = false ↔
            (k : Int) < length ∧ (limit = r.size ∨ source.size ≤ startIndex + k)) := by
  constructor
  · intro fuel r e
    have h := shuffleLoop_bound source1 source2 length1 length2 limit fuel Sequence.empty
      startIndex1 startIndex2 r rfl hlimit e
    have hw := h.1
    unfold Sequence.WellFormed at hw
    exact ⟨h.1, by rw [← hw]; exact h.2⟩
  · intro self source startIndex length hw hs
    obtain ⟨c1, c2⟩ := copyFromSequenceLoop_char source limit hs length.toNat self startIndex hw
    refine ⟨c1, ?_⟩
    intro b r e
    obtain ⟨d1, k, d2, d3, d4, d5, d6, d7⟩ := c2 b r e
    have hw1 := hw
    have hw2 := d1
    unfold Sequence.WellFormed at hw1 hw2
    refine ⟨d1, k, d3, by omega, d5, d6, ?_⟩
    rw [d7]
    constructor
    · rintro ⟨a1, a2⟩
      exact ⟨by omega, a2⟩
    · rintro ⟨a1, a2⟩
      exact ⟨by omega, a2⟩

/-- C27 at the call of the tests with a limit that cuts the result:
`shuffle(seq1, 0, 2, seq2, 1, 2, 7)` returns seven nodes; and at a call of
`copyFromSequence` on an empty sequence that asks for five elements of the
first test source from index 3 on: the two elements the source has left are
appended and the value is `false`. -/
theorem C27_witness :
    (∃ r, shuffle 8 testSource1 0 2 testSource2 1 2 7 = .ok r ∧ (r.nodes.length : Int) ≤ 7) ∧
    (Sequence.empty : Sequence Int Int).copyFromSequence testSource1 3 5 7
      = .ok (false, ⟨[(4, 1), (5, 1)], 2⟩) ∧
    ∃ k : Nat,
      [((4 : Int), (1 : Int)), (5, 1)] = [] ++ (testSource1.nodes.drop 3).take k ∧
      2 = 0 + k ∧
      (∀ j : Nat, j < k → (7 : Int) ≠ 0 + j ∧ (3 : Int) + j < 5) ∧
      (false = true ↔ k = 5) ∧
      (false = false ↔ (k : Int) < 5 ∧ ((7 : Int) = 2 ∨ (5 : Int) ≤ 3 + k)) := by
  have h := C27_shuffle_within_limit testSource1 testSource2 0 2 1 2 7 (by decide)
  have h2 := (h.2 Sequence.empty testSource1 3 5 rfl rfl).2 false ⟨[(4, 1), (5, 1)], 2⟩ rfl
  exact ⟨⟨_, rfl, (h.1 8 _ rfl).2⟩, rfl, h2.2⟩

end SinglyLinked

namespace SinglyLinked

variable {K I : Type}

/-- With both block lengths 0 every iteration of the loop of `shuffle` leaves
`result` as it was and goes on: the loop does not end, whatever the number of
iterations granted. -/
theorem shuffleLoop_empty_blocks (source1 source2 : Sequence K I) (limit : Int) (fuel : Nat) :
    ∀ (result : Sequence K I) (startIndex1 startIndex2 : Int),
      shuffleLoop source1 0 source2 0 limit fuel result startIndex1 startIndex2
        = .fail .noFuel := by
  induction fuel with
  | zero =>
    intro result startIndex1 startIndex2
    rfl
  | succ fuel ih =>
    intro result startIndex1 startIndex2
    have e : ∀ (s source : Sequence K I) (start : Int),
        s.copyFromSequence source start 0 limit = .ok (true, s) := fun _ _ _ => rfl
    rw [shuffleLoop, e]
    simp only [e]
    exact ih result _ _

/-- C37 (the code departs from the claim): with both block lengths 0, for every
pair of sources, of start indices and every limit, the loop of `shuffle` is
still running after any number of iterations: `shuffle` neither returns nor
raises. -/
theorem C37_shuffle_hangs_on_empty_blocks (fuel : Nat) (source1 source2 : Sequence K I)
    (startIndex1 startIndex2 limit : Int) :
    shuffle fuel source1 startIndex1 0 source2 startIndex2 0 limit = .fail .noFuel :=
  shuffleLoop_empty_blocks source1 source2 limit fuel Sequence.empty startIndex1 startIndex2

end SinglyLinked

/-! ## The ring: iterators, `insert` and `split` -/

namespace DoublyLinked

variable {α : Type}

/-- The field `any` of a ring with a node. -/
theorem Ring.any_of_ne_nil (r : Ring α) (h : r.elems ≠ []) : r.any = some 0 := by
  unfold Ring.any
  cases he : r.elems with
  | nil => exact absurd he h
  | cons a t => rfl

/-- The field `any` of a ring without a node. -/
theorem Ring.any_of_nil (r : Ring α) (h : r.elems = []) : r.any = none := by
  unfold Ring.any
  rw [h]

/-- Prefix `++` from an element that is not the last one goes to the next
index. -/
theorem Iterator.preIncrement_index (r : Ring α) (a : Option Nat) (c : Nat)
    (h : c + 1 < r.elems.length) :
    Iterator.preIncrement ⟨a, some c, some 0⟩ r = .ok ⟨a, some (c + 1), some 0⟩ := by
  have h1 : r.next c = some (c + 1) := by
    unfold Ring.next
    rw [if_pos (by omega), Nat.mod_eq_of_lt h]
  simp [Iterator.preIncrement, Iterator.isEmpty, Iterator.isEnd, h1]

/-- The loop of `operator+` from index `c`, as long as it stays before the
last element. -/
theorem Iterator.plusLoop_index (r : Ring α) (a : Option Nat) :
    ∀ (m c : Nat), c + m < r.elems.length →
      Iterator.plusLoop r m ⟨a, some c, some 0⟩ = .ok ⟨a, some (c + m), some 0⟩ := by
  intro m
  induction m with
  | zero => intro c _; rfl
  | succ m ih =>
    intro c h
    unfold Iterator.plusLoop
    rw [Iterator.preIncrement_index r a c (by omega)]
    simp only
    rw [ih (c + 1) (by omega)]
    congr 3
    omega

/-- The iterator `begin() + i` designates the element at index `i`. -/
theorem Ring.begin_plus (r : Ring α) (i : Nat) (h : i < r.elems.length) :
    r.begin.plus r (i : Int) = .ok ⟨some r.addr, some i, some 0⟩ ∧
      Iterator.deref ⟨some r.addr, some i, some 0⟩ r = .ok r.elems[i] := by
  have hne : r.elems ≠ [] := by
    intro e
    rw [e] at h
    exact absurd h (Nat.not_lt_zero _)
  constructor
  · unfold Iterator.plus Ring.begin
    rw [r.any_of_ne_nil hne, Int.toNat_ofNat, Iterator.plusLoop_index r _ i 0 (by omega)]
    simp
  · simp [Iterator.deref, Iterator.isEmpty, Iterator.isEnd, List.getElem?_eq_getElem h]

/-- The call `insert(place, data)` for an iterator of another ring raises. -/
theorem Ring.insert_other (r : Ring α) (fuel : Nat) (place : Iterator) (x : α)
    (h : place.ring ≠ some r.addr) : r.insert (fuel + 1) place x = .fail .invalidArgument := by
  unfold Ring.insert
  rw [if_pos h]

/-- The call `insert(place, data)` at an element: the new node is linked
before it in the cycle. -/
theorem Ring.insert_index (r : Ring α) (fuel c : Nat) (x : α) (hw : r.WellFormed)
    (h : c < r.elems.length) :
    r.insert (fuel + 1) ⟨some r.addr, some c, some 0⟩ x
      = .ok ⟨r.addr, linkBefore r.elems c x, r.size + 1⟩ := by
  unfold Ring.insert
  have hs : r.size ≠ 0 := by
    unfold Ring.WellFormed at hw
    omega
  rw [if_neg (by simp), if_neg hs, if_neg (by simp [Ring.end])]
  simp only
  rw [if_pos h]

/-- The call `insert(begin(), data)`: on a ring with a node the new node is
linked before `any`, which stays the first element, so the new element is the
last one. -/
theorem Ring.insert_begin (r : Ring α) (fuel : Nat) (x : α) (hw : r.WellFormed) :
    r.insert (fuel + 1) r.begin x = .ok ⟨r.addr, r.elems ++ [x], r.size + 1⟩ := by
  by_cases hne : r.elems = []
  · have hs : r.size = 0 := by
      unfold Ring.WellFormed at hw
      rw [hw, hne]
      rfl
    unfold Ring.insert
    rw [if_neg (by simp [Ring.begin]), if_pos hs, hne]
    rfl
  · have hlen : 0 < r.elems.length := List.length_pos.mpr hne
    have hb : r.begin = ⟨some r.addr, some 0, some 0⟩ := by
      unfold Ring.begin
      rw [r.any_of_ne_nil hne]
    rw [hb, r.insert_index fuel 0 x hw hlen]
    rfl

/-- The call `insert(end(), data)` appends. -/
theorem Ring.insert_end (r : Ring α) (fuel : Nat) (x : α) (hw : r.WellFormed) :
    r.insert (fuel + 2) r.end x = .ok ⟨r.addr, r.elems ++ [x], r.size + 1⟩ := by
  by_cases hs : r.size = 0
  · have hne : r.elems = [] := by
      unfold Ring.WellFormed at hw
      rw [hs] at hw
      exact List.length_eq_zero.mp (by omega)
    unfold Ring.insert
    rw [if_neg (by simp [Ring.end]), if_pos hs, hne]
    rfl
  · unfold Ring.insert
    rw [if_neg (by simp [Ring.end]), if_neg hs, if_pos rfl]
    exact r.insert_begin fuel x hw

/-- C29, the claim as stated fails at index 0: on the ring `{1, 2}` the
iterator `begin()` designates the element at index 0, and `insert(begin(), 9)`
gives `{1, 2, 9}`, not `{9, 1, 2}`: the new node is linked before `any` in the
cycle and `any` stays the first element. -/
theorem C29_counterexample :
    ringOfTwo.begin.plus ringOfTwo 0 = .ok ringOfTwo.begin ∧
    ringOfTwo.begin.deref ringOfTwo = .ok 1 ∧
    ringOfTwo.insert 2 ringOfTwo.begin 9 = .ok ⟨0, [1, 2, 9], 3⟩ ∧
    ¬ ∃ r, ringOfTwo.insert 2 ringOfTwo.begin 9 = .ok r ∧
        r.elems = ringOfTwo.elems.take 0 ++ 9 :: ringOfTwo.elems.drop 0 := by
  refine ⟨by decide, by decide, by decide, ?_⟩
  rintro ⟨r, e1, e2⟩
  have e3 : ringOfTwo.insert 2 ringOfTwo.begin 9 = .ok ⟨0, [1, 2, 9], 3⟩ := by decide
  rw [e3] at e1
  cases e1
  revert e2
  decide

/-- C29 (amended): on a ring whose `size` counts its nodes, for the iterator
`begin() + i` with `1 ≤ i < size`, which designates the element at index `i`,
`insert(it, x)` makes the order the old one with `x` inserted at index `i`;
`insert(begin(), x)` and `insert(end(), x)` make `x` the last element; in all
three cases `size` grows by one; and `insert` raises `std::invalid_argument`
for an iterator whose ring is another one. -/
theorem C29_insert_before_iterator (r : Ring α) (fuel : Nat) (x : α) (hw : r.WellFormed)
    (hfuel : 2 ≤ fuel) :
    (∀ i : Nat, 1 ≤ i → ∀ h : i < r.elems.length, ∃ it,
      r.begin.plus r (i : Int) = .ok it ∧ it.deref r = .ok (r.elems.get ⟨i, h⟩) ∧
      r.insert fuel it x = .ok ⟨r.addr, r.elems.take i ++ x :: r.elems.drop i, r.size + 1⟩) ∧
    r.insert fuel r.begin x = .ok ⟨r.addr, r.elems ++ [x], r.size + 1⟩ ∧
    r.insert fuel r.end x = .ok ⟨r.addr, r.elems ++ [x], r.size + 1⟩ ∧
    ∀ place : Iterator, place.ring ≠ some r.addr →
      r.insert fuel place x = .fail .invalidArgument := by
  obtain ⟨fuel, rfl⟩ : ∃ m, fuel = m + 2 := ⟨fuel - 2, by omega⟩
  refine ⟨?_, r.insert_begin (fuel + 1) x hw, r.insert_end fuel x hw,
    fun place h => r.insert_other (fuel + 1) place x h⟩
  intro i hi h
  obtain ⟨e1, e2⟩ := r.begin_plus i h
  refine ⟨_, e1, e2, ?_⟩
  rw [r.insert_index (fuel + 1) i x hw h]
  unfold linkBefore
  rw [if_neg (by omega)]

/-- C29 on the ring `{1, 2}`: `insert(begin() + 1, 9)` gives `{1, 9, 2}`. -/
theorem C29_witness :
    ringOfTwo.WellFormed ∧ 2 ≤ 2 ∧ ∃ it, ringOfTwo.begin.plus ringOfTwo ((1 : Nat) : Int) = .ok it ∧
      it.deref ringOfTwo = .ok 2 ∧ ringOfTwo.insert 2 it 9 = .ok ⟨0, [1, 9, 2], 3⟩ :=
  ⟨by decide, by decide,
    (C29_insert_before_iterator ringOfTwo 2 9 (by decide) (by decide)).1 1 (by decide)
      (by decide)⟩

end DoublyLinked

namespace DoublyLinked

variable {α : Type}

/-- A cyclic index is an index of the ring. -/
theorem cyclicIndex_lt (n p : Nat) (d : Bool) (j : Nat) (hn : 0 < n) :
    cyclicIndex n p d j < n := by
  unfold cyclicIndex
  have hn0 : (n : Int) ≠ 0 := by omega
  have hn1 : (0 : Int) < n := by omega
  cases d
  · have h1 := Int.emod_nonneg ((p : Int) - j) hn0
    have h2 := Int.emod_lt_of_pos ((p : Int) - j) hn1
    simp only [Bool.false_eq_true, if_false]
    omega
  · have h1 := Int.emod_nonneg ((p : Int) + j) hn0
    have h2 := Int.emod_lt_of_pos ((p : Int) + j) hn1
    simp only [if_true]
    omega

/-- The cyclic index at step 0. -/
theorem cyclicIndex_zero (n p : Nat) (d : Bool) : cyclicIndex n p d 0 = p % n := by
  unfold cyclicIndex
  cases d <;> simp <;> norm_cast

/-- The cyclic index one step further in direction true. -/
theorem cyclicIndex_succ_true (n p j : Nat) (hn : 0 < n) :
    cyclicIndex n p true (j + 1) = (cyclicIndex n p true j + 1) % n := by
  have hn0 : (n : Int) ≠ 0 := by omega
  have h1 := Int.emod_nonneg ((p : Int) + j) hn0
  have h3 : ((cyclicIndex n p true (j + 1) : Nat) : Int)
      = (((cyclicIndex n p true j + 1) % n : Nat) : Int) := by
    unfold cyclicIndex
    simp only [if_true]
    push_cast
    rw [Int.toNat_of_nonneg h1, Int.toNat_of_nonneg (Int.emod_nonneg _ hn0),
      Int.emod_add_emod, add_assoc]
  exact_mod_cast h3

/-- The cyclic index one step further in direction false. -/
theorem cyclicIndex_succ_false (n p j : Nat) (hn : 0 < n) :
    cyclicIndex n p false (j + 1) = (cyclicIndex n p false j + n - 1) % n := by
  have hn0 : (n : Int) ≠ 0 := by omega
  have h1 := Int.emod_nonneg ((p : Int) - j) hn0
  have h3 : ((cyclicIndex n p false (j + 1) : Nat) : Int)
      = (((cyclicIndex n p false j + n - 1) % n : Nat) : Int) := by
    unfold cyclicIndex
    simp only [Bool.false_eq_true, if_false]
    have h4 : ((((((p : Int) - j) % n).toNat + n - 1 : Nat)) : Int)
        = ((p : Int) - j) % n + n - 1 := by omega
    rw [Int.toNat_of_nonneg (Int.emod_nonneg _ hn0), Int.natCast_mod, h4]
    have h5 : ((p : Int) - j) % n + n - 1 = ((p : Int) - j) % n + (n - 1) := by ring
    rw [h5, Int.emod_add_emod]
    have h6 : (p : Int) - j + (n - 1) = ((p : Int) - ((j + 1 : Nat) : Int)) + n := by
      push_cast; ring
    rw [h6, Int.add_emod_self]
  exact_mod_cast h3

/-- The iterator `end() - 1` of a ring with a node designates the last
element. -/
theorem Ring.end_minus_one (r : Ring α) (hne : r.elems ≠ []) :
    r.end.minus r 1 = .ok ⟨some r.addr, some (r.elems.length - 1), some 0⟩ := by
  have hlen : 0 < r.elems.length := List.length_pos.mpr hne
  have h1 : r.previous 0 = some (r.elems.length - 1) := by
    unfold Ring.previous
    rw [if_pos hlen, Nat.zero_add, Nat.mod_eq_of_lt (by omega)]
  have h2 : Iterator.preDecrement r.end r
      = .ok ⟨some r.addr, some (r.elems.length - 1), some 0⟩ := by
    simp [Iterator.preDecrement, Ring.end, r.any_of_ne_nil hne, Iterator.isEmpty,
      Iterator.isBegin, Iterator.isEnd, h1]
  show Iterator.minusLoop r 1 r.end = _
  unfold Iterator.minusLoop
  rw [h2]
  rfl

/-- The function `moveRingIterator` on an iterator made by `begin()` that
designates the element at index `c`: it goes to the next index of the cycle in
direction true, to the previous one in direction false. -/
theorem moveRingIterator_index (r : Ring α) (c : Nat) (d : Bool) (h : c < r.elems.length) :
    moveRingIterator ⟨some r.addr, some c, some 0⟩ r d
      = .ok ⟨some r.addr,
          some (if d then (c + 1) % r.elems.length
            else (c + r.elems.length - 1) % r.elems.length), some 0⟩ := by
  have hne : r.elems ≠ [] := by
    intro e
    rw [e] at h
    exact absurd h (Nat.not_lt_zero _)
  have hb : r.begin = ⟨some r.addr, some 0, some 0⟩ := by
    unfold Ring.begin
    rw [r.any_of_ne_nil hne]
  unfold moveRingIterator
  cases d
  · simp only [Bool.false_eq_true, if_false]
    by_cases c0 : c = 0
    · subst c0
      rw [if_pos hb.symm, r.end_minus_one hne, Nat.zero_add, Nat.mod_eq_of_lt (by omega)]
    · rw [if_neg (by rw [hb]; simp [c0])]
      have h1 : r.previous c = some ((c + r.elems.length - 1) % r.elems.length) := by
        unfold Ring.previous
        rw [if_pos h]
      simp [Iterator.preDecrement, Iterator.isEmpty, Iterator.isBegin, Iterator.isEnd, h1, c0]
  · simp only [if_true]
    rw [if_neg (by simp [Ring.end]), r.end_minus_one hne]
    simp only
    by_cases c1 : c = r.elems.length - 1
    · subst c1
      rw [if_pos rfl, hb]
      have h2 : r.elems.length - 1 + 1 = r.elems.length := by omega
      rw [h2, Nat.mod_self]
    · rw [if_neg (by simp [c1]), Iterator.preIncrement_index r _ c (by omega),
        Nat.mod_eq_of_lt (by omega)]

/-- The order of the specification after one more arrival: at the end when the
flag is true, right after the first arrival when it is false. -/
theorem listed_snoc (d : Bool) (l : List α) (x : α) :
    listed d (l ++ [x]) = if d then listed d l ++ [x] else
      match listed d l with
      | [] => [x]
      | a :: t => a :: x :: t := by
  cases l with
  | nil => cases d <;> rfl
  | cons a t =>
    cases d
    · simp [listed]
    · simp [listed]

/-- The function `insertInDirection` on a ring that lists its arrivals in the
order of the specification: the ring then lists the arrivals and the new
element in that order. -/
theorem insertInDirection_listed (fuel : Nat) (ring : Ring α) (x : α) (d : Bool) (l : List α)
    (hw : ring.WellFormed) (hl : ring.elems = listed d l) :
    ∃ r, insertInDirection (fuel + 2) ring x d = .ok r ∧ r.WellFormed ∧
      r.elems = listed d (l ++ [x]) ∧ r.addr = ring.addr ∧ r.size = ring.size + 1 := by
  have hwf : ∀ e : List α, e.length = ring.elems.length + 1 →
      Ring.WellFormed ⟨ring.addr, e, ring.size + 1⟩ := by
    intro e he
    unfold Ring.WellFormed at hw ⊢
    simp only [he, hw]
    push_cast
    rfl
  rw [listed_snoc]
  unfold insertInDirection
  cases d
  · simp only [Bool.false_eq_true, if_false]
    by_cases hs : ring.size = 0
    · have hne : ring.elems = [] := by
        unfold Ring.WellFormed at hw
        rw [hs] at hw
        exact List.length_eq_zero.mp (by omega)
      have hie : ring.isEmpty = true := by simp [Ring.isEmpty, hs]
      rw [hie, if_pos rfl, ring.insert_begin (fuel + 1) x hw, ← hl, hne]
      exact ⟨_, rfl, hwf _ (by simp [hne]), rfl, rfl, rfl⟩
    · have hie : ring.isEmpty = false := by simp [Ring.isEmpty, hs]
      rw [hie]
      simp only [Bool.false_eq_true, if_false]
      cases he : ring.elems with
      | nil =>
        unfold Ring.WellFormed at hw
        rw [he] at hw
        exact absurd hw hs
      | cons a t =>
        rw [← hl, he]
        simp only
        cases t with
        | nil =>
          have hb : ring.begin.plus ring 1 = .ok ring.end := by
            have h1 : ring.next 0 = some 0 := by
              unfold Ring.next
              rw [he]
              simp
            show Iterator.plusLoop ring 1 ring.begin = _
            unfold Iterator.plusLoop
            have h2 : Iterator.preIncrement ring.begin ring = .ok ring.end := by
              simp [Iterator.preIncrement, Ring.begin, Ring.end, ring.any_of_ne_nil
                (by rw [he]; simp), Iterator.isEmpty, Iterator.isEnd, h1]
            rw [h2]
            rfl
          rw [hb]
          simp only
          rw [ring.insert_end fuel x hw, he]
          exact ⟨_, rfl, hwf _ (by simp [he]), rfl, rfl, rfl⟩
        | cons b u =>
          have hb := (ring.begin_plus 1 (by rw [he]; simp)).1
          rw [Nat.cast_one] at hb
          rw [hb]
          simp only
          rw [ring.insert_index (fuel + 1) 1 x hw (by rw [he]; simp), he]
          exact ⟨_, rfl, hwf _ (by simp [linkBefore, he]), by simp [linkBefore], rfl, rfl⟩
  · simp only [if_true]
    rw [ring.insert_end fuel x hw, hl]
    exact ⟨_, rfl, hwf _ (by simp [hl]), rfl, rfl, rfl⟩

/-- The arrivals among the first `j + 1` visited elements: those among the
first `j`, and the element visited at step `j` when it goes to this ring. -/
theorem arrivals_succ (source : List α) (p j : Nat) (d : Bool) (s1 s2 : Nat) (b : Bool)
    (hn : 0 < source.length) :
    arrivals source p (j + 1) d s1 s2 b = arrivals source p j d s1 s2 b ++
      (if decide (j % (s1 + s2) < s1) = b
        then [source.get ⟨cyclicIndex source.length p d j, cyclicIndex_lt _ p d j hn⟩]
        else []) := by
  unfold arrivals
  rw [List.range_succ, List.filter_append, List.filterMap_append]
  congr 1
  by_cases c : decide (j % (s1 + s2) < s1) = b
  · rw [if_pos c]
    have hv : visited source p d j
        = some (source.get ⟨cyclicIndex source.length p d j, cyclicIndex_lt _ p d j hn⟩) := by
      unfold visited
      rw [List.getElem?_eq_getElem (cyclicIndex_lt _ p d j hn)]
      rfl
    have cb : (decide (j % (s1 + s2) < s1) == b) = true := by simp [c]
    simp [List.filter, cb, hv]
  · rw [if_neg c]
    have cb : (decide (j % (s1 + s2) < s1) == b) = false := by simp [c]
    simp [List.filter, cb]

/-- The `for` loop of `split` from the state after `j` visited elements, with
`length = len`: it visits the next `min todo len` elements. -/
theorem splitFor_spec (source : Ring α) (hne : source.elems ≠ []) (p s1 s2 : Nat)
    (d d1 d2 : Bool) (fuel : Nat) :
    ∀ (todo x j len : Nat) (st : SplitState α),
      (∀ k, k < todo → (j + k) % (s1 + s2) = x + k) →
      st.After source p d s1 s2 d1 d2 j → st.length = len →
      ∃ next, splitFor (fuel + 2) source d (s1 : Int) d1 d2 todo (x : Int) st = .ok next ∧
        next.After source p d s1 s2 d1 d2 (j + min todo len) ∧
        next.length = ((len - min todo len : Nat) : Int) := by
  have hn : 0 < source.elems.length := List.length_pos.mpr hne
  intro todo
  induction todo with
  | zero =>
    intro x j len st _ ha hl
    exact ⟨st, rfl, by simpa using ha, by simpa using hl⟩
  | succ todo ih =>
    intro x j len st hx ha hl
    unfold splitFor
    cases len with
    | zero =>
      rw [if_neg (by rw [hl]; simp)]
      exact ⟨st, rfl, by simpa using ha, by simpa using hl⟩
    | succ len =>
      rw [if_pos (by rw [hl]; push_cast; omega)]
      obtain ⟨a1, a2, a3, a4, a5, a6⟩ := ha
      have hc := cyclicIndex_lt source.elems.length p d j hn
      have hx0 : j % (s1 + s2) = x := by simpa using hx 0 (Nat.succ_pos _)
      rw [a5, (source.begin_plus _ hc).2]
      simp only
      rw [moveRingIterator_index source _ d hc]
      have hnext : (if d then (cyclicIndex source.elems.length p d j + 1) % source.elems.length
          else (cyclicIndex source.elems.length p d j + source.elems.length - 1)
            % source.elems.length) = cyclicIndex source.elems.length p d (j + 1) := by
        cases d
        · rw [cyclicIndex_succ_false _ _ _ hn]
          rfl
        · rw [cyclicIndex_succ_true _ _ _ hn]
          rfl
      rw [hnext]
      have hmin : j + min (todo + 1) (len + 1) = j + 1 + min todo len := by
        rw [Nat.succ_min_succ]
        omega
      have hlen : len + 1 - min (todo + 1) (len + 1) = len - min todo len := by
        rw [Nat.succ_min_succ]
        omega
      rw [hmin, hlen]
      have hx1 : ∀ k, k < todo → (j + 1 + k) % (s1 + s2) = x + 1 + k := by
        intro k hk
        have hk1 := hx (k + 1) (by omega)
        have e : j + 1 + k = j + (k + 1) := by omega
        rw [e, hk1]
        omega
      have hxc : ((x : Int) + 1) = ((x + 1 : Nat) : Int) := by push_cast; rfl
      by_cases c : x < s1
      · have c' : (x : Int) < (s1 : Int) := by exact_mod_cast c
        simp only [c', if_true]
        obtain ⟨r, e1, e2, e3, e4, e5⟩ := insertInDirection_listed fuel st.first
          (source.elems.get ⟨_, hc⟩) d1 _ a1 a2
        have e1b : insertInDirection (fuel + 2) st.first
            source.elems[cyclicIndex source.elems.length p d j] d1 = .ok r := e1
        rw [e1b]
        simp only
        rw [hxc]
        refine ih (x + 1) (j + 1) len _ hx1 ⟨e2, ?_, a3, ?_, rfl, ?_⟩ (by simp [hl])
        · rw [e3, arrivals_succ _ _ _ _ _ _ _ hn, if_pos (by simp [hx0, c])]
        · rw [a4, arrivals_succ _ _ _ _ _ _ _ hn, if_neg (by simp [hx0, c]), List.append_nil]
        · show r.size + st.second.size = _
          rw [e5]
          push_cast
          omega
      · have c' : ¬ ((x : Int) < (s1 : Int)) := by exact_mod_cast c
        simp only [c', if_false]
        obtain ⟨r, e1, e2, e3, e4, e5⟩ := insertInDirection_listed fuel st.second
          (source.elems.get ⟨_, hc⟩) d2 _ a3 a4
        have e1b : insertInDirection (fuel + 2) st.second
            source.elems[cyclicIndex source.elems.length p d j] d2 = .ok r := e1
        rw [e1b]
        simp only
        rw [hxc]
        refine ih (x + 1) (j + 1) len _ hx1 ⟨a1, ?_, e2, ?_, rfl, ?_⟩ (by simp [hl])
        · rw [a2, arrivals_succ _ _ _ _ _ _ _ hn, if_neg (by simp [hx0, c]), List.append_nil]
        · rw [e3, arrivals_succ _ _ _ _ _ _ _ hn, if_pos (by simp [hx0, c])]
        · show st.first.size + r.size = _
          rw [e5]
          push_cast
          omega

/-- The `while` loop of `split` from the state after `j` visited elements, at
the start of a round of `step1 + step2` elements, with `length = len`: given
more iterations than `len`, it visits the next `len` elements and stops. -/
theorem splitWhile_spec (source : Ring α) (hne : source.elems ≠ []) (p s1 s2 : Nat)
    (d d1 d2 : Bool) (fuel : Nat) (hs : 0 < s1 + s2) :
    ∀ (rounds j len : Nat) (st : SplitState α),
      (j % (s1 + s2) = 0 ∨ len = 0) → (s1 + s2 < 2147483648 ∨ len = 0) →
      st.After source p d s1 s2 d1 d2 j → st.length = len → len < rounds →
      ∃ next, splitWhile (fuel + 2) source d (s1 : Int) d1 (s2 : Int) d2 rounds st = .ok next ∧
        next.After source p d s1 s2 d1 d2 (j + len) := by
  intro rounds
  induction rounds with
  | zero => intro j len st _ _ _ _ h; omega
  | succ rounds ih =>
    intro j len st hj hsum ha hl hr
    rw [splitWhile]
    by_cases c : len = 0
    · subst c
      rw [if_neg (by rw [hl]; simp)]
      exact ⟨st, rfl, ha⟩
    · rw [if_pos (by rw [hl]; omega)]
      have hj0 : j % (s1 + s2) = 0 := hj.resolve_right c
      have hsum2 : s1 + s2 < 2147483648 := hsum.resolve_right c
      have hcast : (wrapInt ((s1 : Int) + (s2 : Int))).toNat = s1 + s2 := by
        unfold wrapInt
        omega
      rw [hcast]
      have hx : ∀ k, k < s1 + s2 → (j + k) % (s1 + s2) = 0 + k := by
        intro k hk
        rw [Nat.add_mod, hj0, Nat.zero_add, Nat.mod_mod, Nat.mod_eq_of_lt hk, Nat.zero_add]
      obtain ⟨mid, e1, e2, e3⟩ := splitFor_spec source hne p s1 s2 d d1 d2 fuel (s1 + s2) 0 j len
        st hx ha hl
      have e1b : splitFor (fuel + 2) source d (s1 : Int) d1 d2 (s1 + s2) 0 st = .ok mid := e1
      rw [e1b]
      simp only
      obtain ⟨next, f1, f2⟩ := ih (j + min (s1 + s2) len) (len - min (s1 + s2) len) mid
        (by
          by_cases c2 : s1 + s2 ≤ len
          · left
            rw [Nat.min_eq_left c2, Nat.add_mod, hj0, Nat.mod_self]
            rfl
          · right
            rw [Nat.min_eq_right (by omega)]
            omega)
        (Or.inl hsum2) e2 e3 (by
          have : 1 ≤ min (s1 + s2) len := by
            rw [Nat.le_min]
            exact ⟨hs, by omega⟩
          omega)
      refine ⟨next, f1, ?_⟩
      have hsum : j + min (s1 + s2) len + (len - min (s1 + s2) len) = j + len := by
        have : min (s1 + s2) len ≤ len := Nat.min_le_right _ _
        omega
      rw [hsum] at f2
      exact f2

/-- The arrivals of the two rings among the first `j` visited elements are `j`
elements. -/
theorem arrivals_length (source : List α) (p : Nat) (d : Bool) (s1 s2 : Nat)
    (hn : 0 < source.length) : ∀ j : Nat,
      (arrivals source p j d s1 s2 true).length + (arrivals source p j d s1 s2 false).length
        = j := by
  intro j
  induction j with
  | zero => rfl
  | succ j ih =>
    rw [arrivals_succ _ _ _ _ _ _ _ hn, arrivals_succ _ _ _ _ _ _ _ hn]
    by_cases c : j % (s1 + s2) < s1
    · simp [c]
      omega
    · simp [c]
      omega

/-- When the bound of the `for` loop of `split`, computed in `int`, is not
positive, the `for` loop does not run, so an iteration of the `while` loop
leaves `length` as it was: with `length > 0` the loop does not end, whatever
the number of iterations granted. -/
theorem splitWhile_no_progress (fuel : Nat) (source : Ring α) (direction : Bool) (step1 : Int)
    (direction1 : Bool) (step2 : Int) (direction2 : Bool)
    (hsum : (wrapInt (step1 + step2)).toNat = 0) (rounds : Nat) (st : SplitState α)
    (h : st.length > 0) :
    splitWhile fuel source direction step1 direction1 step2 direction2 rounds st
      = .fail .noFuel := by
  induction rounds with
  | zero => rfl
  | succ rounds ih =>
    rw [splitWhile, if_pos h, hsum]
    exact ih

/-- The call `split(ring1, 0, 1, true, INT_MAX, true, 1, true)` on the ring of
the tests: the steps pass the validation, their sum wraps to `INT_MIN`, and the
`while` loop is still running after any number of iterations. -/
theorem split_overflowing_steps (fuel : Nat) :
    split fuel testRing 0 1 true 2147483647 true 1 true = .fail .noFuel := by
  have hit : testRing.begin.plus testRing (Int.tmod 0 testRing.getSize)
      = .ok ⟨some 0, some 0, some 0⟩ := by decide
  have hw : (wrapInt (2147483647 + 1)).toNat = 0 := by decide
  unfold split
  rw [if_neg (by decide), if_neg (by decide), if_neg (by decide), hit]
  simp only []
  rw [splitWhile_no_progress fuel testRing true 2147483647 true 1 true hw fuel _ (by decide)]

/-- C28, the claim as stated fails: the steps `INT_MAX` and 1 are not negative
and not both 0, and `split` does not return for them, whatever the number of
iterations granted: their sum, computed in `int`, is `INT_MIN`, the `for` loop
does not run and `length` stays 1. -/
theorem C28_counterexample :
    ¬ ∃ (fuel : Nat) (r : Ring Int × Ring Int),
      split fuel testRing 0 1 true 2147483647 true 1 true = .ok r := by
  rintro ⟨fuel, r, e⟩
  rw [split_overflowing_steps] at e
  cases e

/-- C28 (amended): for a source ring with a node (its `size` counting the
nodes), a start index, a length and steps that are not negative, the steps not
both 0 and, unless `length` is 0, their sum at most `INT_MAX`, `split` returns
(with more iterations granted than `length`), and of the first `length`
visited elements, the `j`-th being the source element at cyclic index
`startIndex + j` (direction true) or `startIndex - j` (direction false) modulo
the size, the first result ring holds those with `j mod (step1 + step2) <
step1` and the second the others, each ring in arrival order when its flag is
true and as the first arrival followed by the others in reverse order when it
is false; the two sizes sum to `length`.  `split` raises for a negative start
index or step, and returns two empty rings for an empty source. -/
theorem C28_split_distributes (source : Ring α) (startIndex length step1 step2 fuel : Nat)
    (direction direction1 direction2 : Bool) (hw : source.WellFormed)
    (hne : source.elems ≠ []) (hstep : 0 < step1 + step2)
    (hsum : step1 + step2 < 2147483648 ∨ length = 0) (hfuel : length + 2 ≤ fuel) :
    (∃ r1 r2, split fuel source (startIndex : Int) (length : Int) direction (step1 : Int)
        direction1 (step2 : Int) direction2 = .ok (r1, r2) ∧
      r1.elems = listed direction1
        (arrivals source.elems startIndex length direction step1 step2 true) ∧
      r2.elems = listed direction2
        (arrivals source.elems startIndex length direction step1 step2 false) ∧
      (arrivals source.elems startIndex length direction step1 step2 true).length +
        (arrivals source.elems startIndex length direction step1 step2 false).length = length ∧
      r1.WellFormed ∧ r2.WellFormed ∧ r1.getSize + r2.getSize = length) ∧
    (∀ (ring : Ring α) (i len s1 s2 : Int) (d d1 d2 : Bool), i < 0 ∨ s1 < 0 ∨ s2 < 0 →
      split fuel ring i len d s1 d1 s2 d2 = .fail .invalidArgument) ∧
    ∀ (ring : Ring α) (i len s1 s2 : Int) (d d1 d2 : Bool), ring.isEmpty = true →
      0 ≤ i → 0 ≤ s1 → 0 ≤ s2 →
      split fuel ring i len d s1 d1 s2 d2
        = .ok (Ring.empty (ring.addr + 1), Ring.empty (ring.addr + 2)) := by
  have hn : 0 < source.elems.length := List.length_pos.mpr hne
  refine ⟨?_, ?_, ?_⟩
  · obtain ⟨fuel, rfl⟩ : ∃ m, fuel = m + 2 := ⟨fuel - 2, by omega⟩
    have hsz : source.size = source.elems.length := hw
    have hs0 : source.size ≠ 0 := by
      rw [hsz]
      omega
    have hie : source.isEmpty = false := by simp [Ring.isEmpty, hs0]
    have hmod : Int.tmod (startIndex : Int) source.getSize
        = ((startIndex % source.elems.length : Nat) : Int) := by
      unfold Ring.getSize
      rw [hsz, Int.ofNat_tmod]
    have hit := (source.begin_plus (startIndex % source.elems.length) (Nat.mod_lt _ hn)).1
    obtain ⟨next, e1, e2, e3, e4, e5, e6, e7⟩ := splitWhile_spec source hne startIndex step1
      step2 direction direction1 direction2 fuel hstep (fuel + 2) 0 length
      ⟨Ring.empty (source.addr + 1), Ring.empty (source.addr + 2),
        ⟨some source.addr, some (startIndex % source.elems.length), some 0⟩, length⟩
      (Or.inl (Nat.zero_mod _)) hsum
      ⟨rfl, rfl, rfl, rfl, by rw [cyclicIndex_zero], rfl⟩ rfl (by omega)
    rw [Nat.zero_add] at e3 e5 e7
    refine ⟨next.first, next.second, ?_, e3, e5, arrivals_length _ _ _ _ _ hn _, e2, e4, e7⟩
    unfold split
    rw [if_neg (by omega), if_neg (by omega), hie, hmod, hit]
    simp only [Bool.false_eq_true, if_false]
    rw [e1]
  · intro ring i len s1 s2 d d1 d2 h
    unfold split
    by_cases c : i < 0
    · rw [if_pos c]
    · rw [if_neg c, if_pos (h.resolve_left c)]
  · intro ring i len s1 s2 d d1 d2 h hi h1 h2
    unfold split
    rw [if_neg (by omega), if_neg (by omega), if_pos h]

/-- C28 at the call of the tests `split(ring1, 2, 16, true, 3, true, 2, false)`
on the ring `{1, ..., 10}`: the rings `{3, 4, 5, 8, 9, 10, 3, 4, 5, 8}` and
`{6, 7, 6, 2, 1, 7}`. -/
theorem C28_witness :
    ∃ r1 r2, split 18 testRing ((2 : Nat) : Int) ((16 : Nat) : Int) true ((3 : Nat) : Int) true
        ((2 : Nat) : Int) false = .ok (r1, r2) ∧
      r1.elems = [3, 4, 5, 8, 9, 10, 3, 4, 5, 8] ∧ r2.elems = [6, 7, 6, 2, 1, 7] := by
  obtain ⟨r1, r2, e1, e2, e3, _⟩ := (C28_split_distributes testRing 2 16 3 2 18 true true false
    (by decide) (by decide) (by decide) (Or.inl (by decide)) (by decide)).1
  refine ⟨r1, r2, e1, ?_, ?_⟩
  · rw [e2]
    decide
  · rw [e3]
    decide

end DoublyLinked

namespace DoublyLinked

variable {α : Type}

/-- With both steps 0 the `for` loop of `split` does not run, so an iteration
of the `while` loop leaves `length` as it was: with `length > 0` the loop does
not end, whatever the number of iterations granted. -/
theorem splitWhile_zero_steps (fuel : Nat) (source : Ring α) (direction direction1
    direction2 : Bool) (rounds : Nat) (st : SplitState α) (h : st.length > 0) :
    splitWhile fuel source direction 0 direction1 0 direction2 rounds st = .fail .noFuel := by
  induction rounds with
  | zero => rfl
  | succ rounds ih =>
    rw [splitWhile, if_pos h, show (wrapInt (0 + 0)).toNat = 0 from rfl]
    exact ih

/-- C38 (the code departs from the claim): on a ring with a node (`size`
counting the nodes), with a start index that is not negative, both steps 0 and
a positive length, the arguments pass the validation of `split` and its
`while` loop is still running after any number of iterations: `split` neither
returns nor raises. -/
theorem C38_split_hangs_on_zero_steps (fuel addr : Nat) (a : α) (rest : List α)
    (startIndex length : Nat) (direction direction1 direction2 : Bool) :
    split fuel ⟨addr, a :: rest, ((a :: rest).length : Int)⟩ (startIndex : Int)
      ((length : Int) + 1) direction 0 direction1 0 direction2 = .fail .noFuel := by
  have hn : 0 < (a :: rest).length := Nat.succ_pos _
  have hit := ((⟨addr, a :: rest, ((a :: rest).length : Int)⟩ : Ring α).begin_plus
    (startIndex % (a :: rest).length) (Nat.mod_lt _ hn)).1
  have hmod : Int.tmod (startIndex : Int)
      (⟨addr, a :: rest, ((a :: rest).length : Int)⟩ : Ring α).getSize
        = ((startIndex % (a :: rest).length : Nat) : Int) := by
    unfold Ring.getSize
    rw [Int.ofNat_tmod]
  have hie : (⟨addr, a :: rest, ((a :: rest).length : Int)⟩ : Ring α).isEmpty = false := by
    simp [Ring.isEmpty]
    omega
  unfold split
  rw [if_neg (by omega), if_neg (by omega), hie, hmod, hit]
  simp only [Bool.false_eq_true, if_false]
  rw [splitWhile_zero_steps fuel _ direction direction1 direction2 fuel _ (by
    show (length : Int) + 1 > 0
    omega)]

end DoublyLinked
